import Mathlib

/-! # Fluid simulator: fixed-point numbers and the grid engine

A shallow embedding of `fixed.h` and `FluidSimulator.h`.

* Machine integers are mathematical integers reduced explicitly to the
  two's-complement range of their width (`wrap`).  The widths of the
  `int_fastN_t` types and of `int` are implementation-defined in C++, so they
  are fields of a `Platform` record.
* The simulator is instantiated with one `FixedPoint<N, K, Tag>` for its three
  numeric types, so that every operation between them is the integer
  arithmetic of `fixed.h`.  The few operations that pass through `double`
  (division by the open-neighbour count, the factor 0.8, the random draws)
  are modelled with exact arithmetic.
* Arrays are total functions of their indices.  Recursion and unbounded loops
  take a fuel argument and return `Except Fault`; an `assert` that fails is a
  `Fault` as well.  File input, snapshots and console output are left out.
-/

namespace Fluid

/-! ## Machine integers -/

/-- Reduction of an integer to the signed two's-complement range of width `w`
(the value conversion to a signed integer type of `w` bits performs). -/
def wrap (w : Nat) (x : Int) : Int :=
  (x + 2 ^ (w - 1)) % 2 ^ w - 2 ^ (w - 1)

/-- The values a signed integer type of `w` bits can hold. -/
def InRange (w : Nat) (x : Int) : Prop :=
  -(2 ^ (w - 1)) ≤ x ∧ x < 2 ^ (w - 1)

instance (w : Nat) (x : Int) : Decidable (InRange w x) := by
  unfold InRange; infer_instance

/-- Widths of the implementation-defined integer types used by `fixed.h`,
with the minimum widths the C++ standard guarantees. -/
structure Platform where
  int_bits : Nat
  fast8 : Nat
  fast16 : Nat
  fast32 : Nat
  fast64 : Nat
  int_ge : 16 ≤ int_bits
  fast8_ge : 8 ≤ fast8
  fast16_ge : 16 ≤ fast16
  fast32_ge : 32 ≤ fast32
  fast64_ge : 64 ≤ fast64

/-- The LP64 glibc platform: `int` has 32 bits, `int_fast8_t` 8 bits, the
other fast types 64 bits. -/
def lp64 : Platform :=
  ⟨32, 8, 64, 64, 64, by decide, by decide, by decide, by decide, by decide⟩

/-- The tag types `FixedTag` and `FastTag` selecting the storage variant. -/
inductive Tag where
  | FixedTag
  | FastTag
  deriving DecidableEq, Repr

/-- Width of `FixedPoint<N, K, Tag>::StorageType`. -/
def storageBits (pf : Platform) (tag : Tag) (N : Nat) : Nat :=
  match tag with
  | Tag.FixedTag =>
    if N ≤ 8 then 8 else if N ≤ 16 then 16 else if N ≤ 32 then 32 else 64
  | Tag.FastTag =>
    if N ≤ 8 then pf.fast8 else if N ≤ 16 then pf.fast16
    else if N ≤ 32 then pf.fast32 else pf.fast64

/-- Width of the `IntermediateType` of `operator*` and `operator/`:
`int_fast32_t` when `N ≤ 16`, `int_fast64_t` otherwise. -/
def intermediateBits (pf : Platform) (N : Nat) : Nat :=
  if N ≤ 16 then pf.fast32 else pf.fast64

/-- The three `static_assert`s of `FixedPoint<N, K, Tag>`. -/
def WellFormed (N K : Nat) : Prop := N ≤ 64 ∧ 0 < N ∧ K < N

instance (N K : Nat) : Decidable (WellFormed N K) := by
  unfold WellFormed; infer_instance

/-! ## FixedPoint -/

/-- A value of `FixedPoint<N, K, Tag>`: the raw scaled integer `v`, denoting
`v / 2^K`. -/
structure FixedPoint (N K : Nat) (tag : Tag) where
  v : Int
  deriving DecidableEq, Repr

namespace FixedPoint

variable {N K : Nat} {tag : Tag}

/-- The raw integer is a value of the storage type. -/
def Valid (pf : Platform) (a : FixedPoint N K tag) : Prop :=
  InRange (storageBits pf tag N) a.v

instance (pf : Platform) (a : FixedPoint N K tag) : Decidable (a.Valid pf) := by
  unfold Valid; infer_instance

/-- The function `FixedPoint::from_raw`. -/
def from_raw (raw : Int) : FixedPoint N K tag := ⟨raw⟩

/-- The constructor `FixedPoint(int32_t value)`:
`static_cast<StorageType>(value) << K`; `value` is an `int32_t` value. -/
def ofInt (pf : Platform) (value : Int) : FixedPoint N K tag :=
  ⟨wrap (storageBits pf tag N) (wrap (storageBits pf tag N) value * 2 ^ K)⟩

/-- The member `operator+` on one parameterisation. -/
def add (pf : Platform) (a b : FixedPoint N K tag) : FixedPoint N K tag :=
  ⟨wrap (storageBits pf tag N) (a.v + b.v)⟩

/-- The member `operator-` on one parameterisation. -/
def sub (pf : Platform) (a b : FixedPoint N K tag) : FixedPoint N K tag :=
  ⟨wrap (storageBits pf tag N) (a.v - b.v)⟩

/-- The member `operator*` on one parameterisation: the product is formed in the
intermediate type, shifted right by `K`, and converted to the storage type. -/
def mul (pf : Platform) (a b : FixedPoint N K tag) : FixedPoint N K tag :=
  let ib := intermediateBits pf N
  let temp := wrap ib (wrap ib a.v * wrap ib b.v)
  ⟨wrap (storageBits pf tag N) (temp >>> K)⟩

/-- The member `operator/` on one parameterisation: `v` is converted to the
intermediate type and shifted left by `K`, divided by `other.v` with C++
truncating division, stored in the intermediate type and converted to the
storage type.  (Division by a zero raw value is undefined in the source; the
model yields 0 there.) -/
def div (pf : Platform) (a b : FixedPoint N K tag) : FixedPoint N K tag :=
  let ib := intermediateBits pf N
  let temp := wrap ib (Int.tdiv (wrap ib (wrap ib a.v * 2 ^ K)) b.v)
  ⟨wrap (storageBits pf tag N) temp⟩

end FixedPoint

/-- A C++ integral type: its width and signedness. -/
structure Integral where
  bits : Nat
  signed : Bool
  deriving DecidableEq, Repr

/-- The conversion `static_cast<Integral>(x)` of an integer value. -/
def Integral.cast (t : Integral) (x : Int) : Int :=
  if t.signed then wrap t.bits x else x % 2 ^ t.bits

/-- The values an integral type can hold. -/
def Integral.Holds (t : Integral) (x : Int) : Prop :=
  if t.signed then InRange t.bits x else 0 ≤ x ∧ x < 2 ^ t.bits

instance (t : Integral) (x : Int) : Decidable (t.Holds x) := by
  unfold Integral.Holds; infer_instance

/-- The conversion `FixedPoint::operator Integral`: `static_cast<Integral>(v >> K)`. -/
def FixedPoint.toIntegral {N K : Nat} {tag : Tag} (t : Integral)
    (a : FixedPoint N K tag) : Int :=
  t.cast (a.v >>> K)

/-- Width of the type in which a shift of a storage value is evaluated: the
storage type after integral promotion. -/
def promotedBits (pf : Platform) (tag : Tag) (N : Nat) : Nat :=
  max pf.int_bits (storageBits pf tag N)

/-- The free `operator==` on two `FixedPoint` parameterisations: the operand
with fewer fractional bits is shifted left by the difference (a left shift
is reduced modulo the width of the promoted type), then raw integers are
compared. -/
def eqMixed (pf : Platform) {N1 K1 N2 K2 : Nat} {t1 t2 : Tag}
    (lhs : FixedPoint N1 K1 t1) (rhs : FixedPoint N2 K2 t2) : Bool :=
  if K1 > K2 then
    lhs.v == wrap (promotedBits pf t2 N2) (rhs.v * 2 ^ (K1 - K2))
  else if K2 > K1 then
    wrap (promotedBits pf t1 N1) (lhs.v * 2 ^ (K2 - K1)) == rhs.v
  else
    lhs.v == rhs.v

/-- The free `operator!=`: `!(lhs == rhs)`. -/
def neMixed (pf : Platform) {N1 K1 N2 K2 : Nat} {t1 t2 : Tag}
    (lhs : FixedPoint N1 K1 t1) (rhs : FixedPoint N2 K2 t2) : Bool :=
  !(eqMixed pf lhs rhs)


/-! ## Operations through `double`

`double` arithmetic is modelled exactly (as rational arithmetic); the
conversion of a `double` to the storage type truncates toward zero.  The
rounding of an intermediate `double` result to 53 significant bits is not
modelled: model and source agree wherever that result is a `double`, for
instance for raw values below `2^53` divided by 1 or multiplied by 1/2. -/

/-- A value drawn by `random01()`: the number `num / den`. -/
structure Draw where
  num : Nat
  den : Nat
  deriving DecidableEq, Repr

/-- The draw lies in `[0, 1)`. -/
def Draw.Valid (r : Draw) : Prop := r.num < r.den

instance (r : Draw) : Decidable r.Valid := by
  unfold Draw.Valid; infer_instance

namespace FixedPoint

variable {N K : Nat} {tag : Tag}

/-- The call `std::min(a, b)`: `b` when `b < a`, otherwise `a`. -/
def min (a b : FixedPoint N K tag) : FixedPoint N K tag :=
  if b.v < a.v then b else a

/-- The overload `operator/(FixedPoint, int)`: `FixedPoint(static_cast<double>(lhs) / rhs)`. -/
def divInt (pf : Platform) (a : FixedPoint N K tag) (n : Int) : FixedPoint N K tag :=
  ⟨wrap (storageBits pf tag N) (Int.tdiv a.v n)⟩

/-- The value `FixedPoint(0.8)`: the `double` nearest to 0.8 is
`3602879701896397 / 2^52`; it is scaled by `2^K` and truncated. -/
def damping (pf : Platform) : FixedPoint N K tag :=
  ⟨wrap (storageBits pf tag N) (3602879701896397 * 2 ^ K / 2 ^ 52)⟩

/-- The overload `operator*(FixedPoint, double)` with a drawn value:
`FixedPoint(static_cast<double>(lhs) * rhs)`. -/
def mulDraw (pf : Platform) (a : FixedPoint N K tag) (r : Draw) : FixedPoint N K tag :=
  ⟨wrap (storageBits pf tag N) (Int.tdiv (a.v * r.num) r.den)⟩

/-- The overload `operator>(FixedPoint, double)` with a drawn value:
`static_cast<double>(lhs) > rhs`. -/
def gtDraw (a : FixedPoint N K tag) (r : Draw) : Bool :=
  decide ((r.num : Int) * 2 ^ K < a.v * r.den)

end FixedPoint

/-! ## Grid state -/

/-- The four direction vectors `deltas`: up, down, left, right. -/
def deltas : List (Int × Int) := [(-1, 0), (1, 0), (0, -1), (0, 1)]

/-- Update of a two-dimensional array at one index pair. -/
def set2 {α : Type} (f : Int → Int → α) (x y : Int) (a : α) : Int → Int → α :=
  fun i j => if i = x ∧ j = y then a else f i j

/-- The type `VectorField<T, N, M>`: the array `v[x][y][i]` of four values per cell.
Arrays are total functions of their indices. -/
structure VectorField (N K : Nat) (tag : Tag) where
  v : Int → Int → Nat → FixedPoint N K tag

namespace VectorField

variable {N K : Nat} {tag : Tag}

/-- The index `std::find` yields for `(dx, dy)` in `deltas` (4 when the
pair is not a direction, where the source asserts). -/
def index (dx dy : Int) : Nat := deltas.indexOf (dx, dy)

/-- The function `VectorField::get`. -/
def get (f : VectorField N K tag) (x y dx dy : Int) : FixedPoint N K tag :=
  f.v x y (index dx dy)

/-- Assignment through the reference `get` returns. -/
def set (f : VectorField N K tag) (x y dx dy : Int) (a : FixedPoint N K tag) :
    VectorField N K tag :=
  ⟨fun i j k => if i = x ∧ j = y ∧ k = index dx dy then a else f.v i j k⟩

/-- The function `VectorField::add`: `get(x, y, dx, dy) += dv`. -/
def add (pf : Platform) (f : VectorField N K tag) (x y dx dy : Int)
    (dv : FixedPoint N K tag) : VectorField N K tag :=
  f.set x y dx dy (FixedPoint.add pf (f.get x y dx dy) dv)

/-- The value-initialised field `{}`. -/
def zero : VectorField N K tag := ⟨fun _ _ _ => ⟨0⟩⟩

end VectorField

/-- The state of `Simulator<Ptype, VType, VFlowType, N, M>` with the three
numeric types instantiated to one `FixedPoint` parameterisation.  `rows` and
`cols` are `field.size()` and `field[0].size()`.  The members `UT` and
`last_use`, of type `int` in the source, are integers without bound here;
that they are values of `int` is a separate predicate (`IntState`). -/
structure Simulator (N K : Nat) (tag : Tag) where
  rho_ : Char → FixedPoint N K tag
  g_ : FixedPoint N K tag
  dirs : Int → Int → Int
  p : Int → Int → FixedPoint N K tag
  old_p : Int → Int → FixedPoint N K tag
  rows : Nat
  cols : Nat
  field : Int → Int → Char
  velocity : VectorField N K tag
  velocity_flow : VectorField N K tag
  last_use : Int → Int → Int
  UT : Int
  random_generator_ : Nat → Draw

/-- Why a run of the model stops without a result: the fuel bounding
recursion and loops is used up, an `assert` of the source fails, or
`deltas` is indexed out of range. -/
inductive Fault where
  | fuel
  | assertion
  | bounds
  deriving DecidableEq, Repr

/-- The cells `(x, y)` in the order of the nested loops
`for x < field.size()`, `for y < field[0].size()`. -/
def cells (rows cols : Nat) : List (Int × Int) :=
  (List.range rows).flatMap fun (x : Nat) =>
    (List.range cols).map fun (y : Nat) => ((x : Int), (y : Int))

/-- A loop over cells whose body cannot fail. -/
def forCells {σ : Type} (body : σ → Int → Int → σ) : List (Int × Int) → σ → σ
  | [], s => s
  | (x, y) :: cs, s => forCells body cs (body s x y)

/-- A loop over cells whose body can stop the run. -/
def forCellsM {σ : Type} (body : σ → Int → Int → Except Fault σ) :
    List (Int × Int) → σ → Except Fault σ
  | [], s => Except.ok s
  | (x, y) :: cs, s =>
    match body s x y with
    | Except.error e => Except.error e
    | Except.ok s1 => forCellsM body cs s1

namespace Simulator

variable {N K : Nat} {tag : Tag}

/-- The simulator after `readInputFile`: densities, gravity and grid loaded,
every other member value-initialised. -/
def load (rho : Char → FixedPoint N K tag) (g : FixedPoint N K tag) (rows cols : Nat)
    (field : Int → Int → Char) (rng : Nat → Draw) : Simulator N K tag :=
  { rho_ := rho, g_ := g, dirs := fun _ _ => 0, p := fun _ _ => ⟨0⟩,
    old_p := fun _ _ => ⟨0⟩, rows := rows, cols := cols, field := field,
    velocity := VectorField.zero, velocity_flow := VectorField.zero,
    last_use := fun _ _ => 0, UT := 0, random_generator_ := rng }

/-- The function `random01()`: the next draw, and the generator advanced. -/
def random01 (s : Simulator N K tag) : Draw × Simulator N K tag :=
  (s.random_generator_ 0,
    { s with random_generator_ := fun n => s.random_generator_ (n + 1) })

/-! ### propagate_flow -/

/-- The tuple `propagate_flow` returns, with the state after the call.
`calls` is a ghost counter: the number of invocations of `propagate_flow`
the call comprises, itself included. -/
structure FlowOut (N K : Nat) (tag : Tag) where
  sim : Simulator N K tag
  t : FixedPoint N K tag
  prop : Bool
  dest : Int × Int
  calls : Nat

/-- The direction loop of `propagate_flow` at cell `(x, y)` over the
remaining directions, `call` being the recursive invocation. -/
def propagate_flow_loop (pf : Platform)
    (call : Simulator N K tag → Int → Int → FixedPoint N K tag →
      Except Fault (FlowOut N K tag))
    (x y : Int) (lim : FixedPoint N K tag) :
    List (Int × Int) → Simulator N K tag → FixedPoint N K tag → Nat →
      Except Fault (FlowOut N K tag)
  | [], s, ret, calls =>
    Except.ok ⟨{ s with last_use := set2 s.last_use x y s.UT }, ret, false, (0, 0), calls⟩
  | (dx, dy) :: ds, s, ret, calls =>
    if s.field (x + dx) (y + dy) ≠ '#' ∧ s.last_use (x + dx) (y + dy) < s.UT then
      if s.velocity_flow.get x y dx dy = s.velocity.get x y dx dy then
        propagate_flow_loop pf call x y lim ds s ret calls
      else
        let vp := FixedPoint.min lim
          (FixedPoint.sub pf (s.velocity.get x y dx dy) (s.velocity_flow.get x y dx dy))
        if s.last_use (x + dx) (y + dy) = s.UT - 1 then
          Except.ok ⟨{ s with
              velocity_flow := s.velocity_flow.add pf x y dx dy vp,
              last_use := set2 s.last_use x y s.UT },
            vp, true, (x + dx, y + dy), calls⟩
        else
          match call s (x + dx) (y + dy) vp with
          | Except.error e => Except.error e
          | Except.ok r =>
            if r.prop then
              Except.ok ⟨{ r.sim with
                  velocity_flow := r.sim.velocity_flow.add pf x y dx dy r.t,
                  last_use := set2 r.sim.last_use x y r.sim.UT },
                r.t, r.prop && decide (r.dest ≠ (x, y)), r.dest, calls + r.calls⟩
            else
              propagate_flow_loop pf call x y lim ds r.sim
                (FixedPoint.add pf ret r.t) (calls + r.calls)
    else
      propagate_flow_loop pf call x y lim ds s ret calls

/-- The function `Simulator::propagate_flow(x, y, lim)`; `fuel` bounds the recursion
depth. -/
def propagate_flow (pf : Platform) :
    Nat → Simulator N K tag → Int → Int → FixedPoint N K tag →
      Except Fault (FlowOut N K tag)
  | 0, _, _, _, _ => Except.error Fault.fuel
  | fuel + 1, s, x, y, lim =>
    propagate_flow_loop pf (fun s1 nx ny vp => propagate_flow pf fuel s1 nx ny vp) x y lim
      deltas { s with last_use := set2 s.last_use x y (s.UT - 1) } (FixedPoint.ofInt pf 0) 1

/-! ### propagate_stop -/

/-- The first loop of `propagate_stop`: whether some open neighbour not yet
visited in this pass is reached by a positive velocity. -/
def stop_blocked (s : Simulator N K tag) (x y : Int) : Bool :=
  deltas.any fun d =>
    decide (s.field (x + d.1) (y + d.2) ≠ '#' ∧ s.last_use (x + d.1) (y + d.2) < s.UT - 1
      ∧ 0 < (s.velocity.get x y d.1 d.2).v)

/-- The second loop of `propagate_stop`, `call` being the recursive
invocation. -/
def propagate_stop_loop
    (call : Simulator N K tag → Int → Int → Except Fault (Simulator N K tag))
    (x y : Int) : List (Int × Int) → Simulator N K tag → Except Fault (Simulator N K tag)
  | [], s => Except.ok s
  | (dx, dy) :: ds, s =>
    if s.field (x + dx) (y + dy) = '#' ∨ s.last_use (x + dx) (y + dy) = s.UT
        ∨ 0 < (s.velocity.get x y dx dy).v then
      propagate_stop_loop call x y ds s
    else
      match call s (x + dx) (y + dy) with
      | Except.error e => Except.error e
      | Except.ok s1 => propagate_stop_loop call x y ds s1

/-- The function `Simulator::propagate_stop(x, y, force)`; `fuel` bounds the recursion
depth. -/
def propagate_stop :
    Nat → Simulator N K tag → Int → Int → Bool → Except Fault (Simulator N K tag)
  | 0, _, _, _, _ => Except.error Fault.fuel
  | fuel + 1, s, x, y, force =>
    if !force && stop_blocked s x y then
      Except.ok s
    else
      propagate_stop_loop (fun s1 nx ny => propagate_stop fuel s1 nx ny false) x y deltas
        { s with last_use := set2 s.last_use x y s.UT }

/-! ### move_prob and propagate_move -/

/-- The loop shared by `move_prob` and the table construction of
`propagate_move`: the cumulative sums `tres` (in direction order) and the
total `sum`. -/
def move_table (pf : Platform) (s : Simulator N K tag) (x y : Int) :
    List (Int × Int) → FixedPoint N K tag → List (FixedPoint N K tag) →
      List (FixedPoint N K tag) × FixedPoint N K tag
  | [], sum, tres => (tres, sum)
  | (dx, dy) :: ds, sum, tres =>
    if s.field (x + dx) (y + dy) = '#' ∨ s.last_use (x + dx) (y + dy) = s.UT then
      move_table pf s x y ds sum (tres ++ [sum])
    else if (s.velocity.get x y dx dy).v < 0 then
      move_table pf s x y ds sum (tres ++ [sum])
    else
      move_table pf s x y ds (FixedPoint.add pf sum (s.velocity.get x y dx dy))
        (tres ++ [FixedPoint.add pf sum (s.velocity.get x y dx dy)])

/-- The function `Simulator::move_prob(x, y)`. -/
def move_prob (pf : Platform) (s : Simulator N K tag) (x y : Int) : FixedPoint N K tag :=
  (move_table pf s x y deltas (FixedPoint.ofInt pf 0) []).2

/-- The index `std::ranges::upper_bound(tres, p) - tres.begin()`: the halving search
over the window of `len` entries starting at `first`. -/
def upper_bound (tres : List (FixedPoint N K tag)) (p : FixedPoint N K tag) :
    Nat → Nat → Nat → Nat
  | 0, first, _ => first
  | fuel + 1, first, len =>
    if len = 0 then first
    else if p.v < (tres.getD (first + len / 2) ⟨0⟩).v then
      upper_bound tres p fuel first (len / 2)
    else
      upper_bound tres p fuel (first + len / 2 + 1) (len - len / 2 - 1)

/-- The struct `ParticleParams`: the record `swap_with` exchanges with a cell. -/
structure ParticleParams (N K : Nat) (tag : Tag) where
  type : Char
  cur_p : FixedPoint N K tag
  v : Nat → FixedPoint N K tag

/-- The value-initialised record `ParticleParams pp{}`. -/
def ParticleParams.zero : ParticleParams N K tag :=
  ⟨Char.ofNat 0, ⟨0⟩, fun _ => ⟨0⟩⟩

/-- The function `ParticleParams::swap_with(fs, x, y)`. -/
def swap_with (pp : ParticleParams N K tag) (s : Simulator N K tag) (x y : Int) :
    ParticleParams N K tag × Simulator N K tag :=
  (⟨s.field x y, s.p x y, s.velocity.v x y⟩,
    { s with
      field := set2 s.field x y pp.type,
      p := set2 s.p x y pp.cur_p,
      velocity := ⟨fun i j k => if i = x ∧ j = y then pp.v k else s.velocity.v i j k⟩ })

/-- The three `swap_with` calls of `propagate_move` on a value-initialised
record. -/
def swap_cells (s : Simulator N K tag) (x y nx ny : Int) : Simulator N K tag :=
  let r1 := swap_with ParticleParams.zero s x y
  let r2 := swap_with r1.1 r1.2 nx ny
  (swap_with r2.1 r2.2 x y).2

/-- The `do … while (!ret)` loop of `propagate_move` at cell `(x, y)`: the
result is `ret`, the last chosen neighbour `(nx, ny)` and the state.
`call` is the recursive invocation `propagate_move(nx, ny, false)`; the
first argument bounds the number of iterations. -/
def propagate_move_loop (pf : Platform)
    (call : Simulator N K tag → Int → Int → Except Fault (Bool × Simulator N K tag))
    (x y : Int) :
    Nat → Simulator N K tag → Int × Int →
      Except Fault (Bool × (Int × Int) × Simulator N K tag)
  | 0, _, _ => Except.error Fault.fuel
  | fuel + 1, s, last =>
    if (move_table pf s x y deltas (FixedPoint.ofInt pf 0) []).2.v = 0 then
      Except.ok (false, last, s)
    else
      match deltas[upper_bound (move_table pf s x y deltas (FixedPoint.ofInt pf 0) []).1
          (FixedPoint.mulDraw pf (move_table pf s x y deltas (FixedPoint.ofInt pf 0) []).2
            s.random01.1) 4 0 4]? with
      | none => Except.error Fault.bounds
      | some (dx, dy) =>
        if 0 < (s.random01.2.velocity.get x y dx dy).v ∧ s.random01.2.field (x + dx) (y + dy) ≠ '#'
            ∧ s.random01.2.last_use (x + dx) (y + dy) < s.random01.2.UT then
          if s.random01.2.last_use (x + dx) (y + dy) = s.random01.2.UT - 1 then
            Except.ok (true, (x + dx, y + dy), s.random01.2)
          else
            match call s.random01.2 (x + dx) (y + dy) with
            | Except.error e => Except.error e
            | Except.ok (true, s2) => Except.ok (true, (x + dx, y + dy), s2)
            | Except.ok (false, s2) =>
              propagate_move_loop pf call x y fuel s2 (x + dx, y + dy)
        else
          Except.error Fault.assertion

/-- The loop of `propagate_move` that runs the stop traversal on the open
neighbours reached by a negative velocity. -/
def propagate_move_stops (fuel : Nat) (x y : Int) :
    List (Int × Int) → Simulator N K tag → Except Fault (Simulator N K tag)
  | [], s => Except.ok s
  | (dx, dy) :: ds, s =>
    if s.field (x + dx) (y + dy) ≠ '#' ∧ s.last_use (x + dx) (y + dy) < s.UT - 1
        ∧ (s.velocity.get x y dx dy).v < 0 then
      match propagate_stop fuel s (x + dx) (y + dy) false with
      | Except.error e => Except.error e
      | Except.ok s1 => propagate_move_stops fuel x y ds s1
    else
      propagate_move_stops fuel x y ds s

/-- The function `Simulator::propagate_move(x, y, is_first)`; `fuel` bounds the recursion
depth, the iterations of the retry loop and the depth of the stop
traversals. -/
def propagate_move (pf : Platform) :
    Nat → Simulator N K tag → Int → Int → Bool → Except Fault (Bool × Simulator N K tag)
  | 0, _, _, _, _ => Except.error Fault.fuel
  | fuel + 1, s, x, y, is_first =>
    match propagate_move_loop pf (fun s1 nx ny => propagate_move pf fuel s1 nx ny false)
        x y (fuel + 1)
        { s with last_use := set2 s.last_use x y (s.UT - if is_first then 1 else 0) }
        (-1, -1) with
    | Except.error e => Except.error e
    | Except.ok (ret, (nx, ny), s1) =>
      match propagate_move_stops (fuel + 1) x y deltas
          { s1 with last_use := set2 s1.last_use x y s1.UT } with
      | Except.error e => Except.error e
      | Except.ok s2 =>
        if ret = true ∧ is_first = false then
          Except.ok (ret, swap_cells s2 x y nx ny)
        else
          Except.ok (ret, s2)

/-! ### run_simulation -/

/-- The configuration guard of `run_simulation`:
`rho_[' '] == 0 || g_ == 0`, else `rho_['.'] <= 0`. -/
def config_rejected (s : Simulator N K tag) : Bool :=
  if (s.rho_ ' ').v = 0 ∨ s.g_.v = 0 then true
  else if (s.rho_ '.').v ≤ 0 then true
  else false

/-- The body of the loop that fills `dirs`. -/
def init_dirs_cell (s : Simulator N K tag) (x y : Int) : Simulator N K tag :=
  if s.field x y = '#' then s
  else
    deltas.foldl (fun s1 d =>
      { s1 with dirs := (set2 s1.dirs x y
          (s1.dirs x y + if s1.field (x + d.1) (y + d.2) ≠ '#' then 1 else 0)) }) s

/-- The body of the gravity loop. -/
def gravity_cell (pf : Platform) (s : Simulator N K tag) (x y : Int) : Simulator N K tag :=
  if s.field x y = '#' then s
  else if s.field (x + 1) y ≠ '#' then
    { s with velocity := s.velocity.add pf x y 1 0 s.g_ }
  else s

/-- The body of the pressure-exchange loop for one direction of cell
`(x, y)`. -/
def exchange_dir (pf : Platform) (x y : Int) (s : Simulator N K tag) (d : Int × Int) :
    Simulator N K tag :=
  if s.field (x + d.1) (y + d.2) ≠ '#' ∧ (s.old_p (x + d.1) (y + d.2)).v < (s.old_p x y).v then
    let force := FixedPoint.sub pf (s.old_p x y) (s.old_p (x + d.1) (y + d.2))
    let contr := s.velocity.get (x + d.1) (y + d.2) (-d.1) (-d.2)
    let rho_n := s.rho_ (s.field (x + d.1) (y + d.2))
    if force.v ≤ (FixedPoint.mul pf contr rho_n).v then
      { s with velocity := (s.velocity.set (x + d.1) (y + d.2) (-d.1) (-d.2)
          (FixedPoint.sub pf contr (FixedPoint.div pf force rho_n))) }
    else
      let force1 := FixedPoint.sub pf force (FixedPoint.mul pf contr rho_n)
      let vel1 := s.velocity.set (x + d.1) (y + d.2) (-d.1) (-d.2) (FixedPoint.ofInt pf 0)
      { s with
        velocity := vel1.add pf x y d.1 d.2 (FixedPoint.div pf force1 (s.rho_ (s.field x y))),
        p := (set2 s.p x y
          (FixedPoint.sub pf (s.p x y) (FixedPoint.divInt pf force1 (s.dirs x y)))) }
  else s

/-- The body of the pressure-exchange loop. -/
def exchange_cell (pf : Platform) (s : Simulator N K tag) (x y : Int) : Simulator N K tag :=
  if s.field x y = '#' then s
  else deltas.foldl (exchange_dir pf x y) s

/-- The body of one propagation sweep: the state and the flag `prop`. -/
def sweep_cell (pf : Platform) (fuel : Nat) (sp : Simulator N K tag × Bool) (x y : Int) :
    Except Fault (Simulator N K tag × Bool) :=
  if sp.1.field x y ≠ '#' ∧ sp.1.last_use x y ≠ sp.1.UT then
    match propagate_flow pf fuel sp.1 x y (FixedPoint.ofInt pf 1) with
    | Except.error e => Except.error e
    | Except.ok r => Except.ok (r.sim, if 0 < r.t.v then true else sp.2)
  else Except.ok sp

/-- One propagation sweep: `UT += 2; prop = 0;` and the loop over cells. -/
def sweep (pf : Platform) (fuel : Nat) (s : Simulator N K tag) :
    Except Fault (Simulator N K tag × Bool) :=
  forCellsM (sweep_cell pf fuel) (cells s.rows s.cols) ({ s with UT := s.UT + 2 }, false)

/-- The `do … while (prop)` loop of propagation sweeps; the first numeric
argument bounds the number of sweeps, `fuel` the recursion depth of each
`propagate_flow`. -/
def sweep_loop (pf : Platform) (fuel : Nat) :
    Nat → Simulator N K tag → Except Fault (Simulator N K tag)
  | 0, _ => Except.error Fault.fuel
  | n + 1, s =>
    match sweep pf fuel s with
    | Except.error e => Except.error e
    | Except.ok (s1, prop) => if prop then sweep_loop pf fuel n s1 else Except.ok s1

/-- The body of the clamp loop for one direction of cell `(x, y)`.  The
source asserts the inequality on the values converted to `float`, which the
inequality on the raw integers implies. -/
def clamp_dir (pf : Platform) (x y : Int) (s : Simulator N K tag) (d : Int × Int) :
    Except Fault (Simulator N K tag) :=
  let old_v := s.velocity.get x y d.1 d.2
  let new_v := s.velocity_flow.get x y d.1 d.2
  if 0 < old_v.v then
    if new_v.v ≤ old_v.v then
      let force0 := FixedPoint.mul pf (FixedPoint.sub pf old_v new_v) (s.rho_ (s.field x y))
      let force := if s.field x y = '.' then FixedPoint.mul pf force0 (FixedPoint.damping pf)
        else force0
      if s.field (x + d.1) (y + d.2) = '#' then
        Except.ok { s with
          velocity := s.velocity.set x y d.1 d.2 new_v,
          p := (set2 s.p x y
            (FixedPoint.add pf (s.p x y) (FixedPoint.divInt pf force (s.dirs x y)))) }
      else
        Except.ok { s with
          velocity := s.velocity.set x y d.1 d.2 new_v,
          p := (set2 s.p (x + d.1) (y + d.2)
            (FixedPoint.add pf (s.p (x + d.1) (y + d.2))
              (FixedPoint.divInt pf force (s.dirs (x + d.1) (y + d.2))))) }
    else Except.error Fault.assertion
  else Except.ok s

/-- A loop over the directions whose body can stop the run. -/
def forDirsM (body : Simulator N K tag → Int × Int → Except Fault (Simulator N K tag)) :
    List (Int × Int) → Simulator N K tag → Except Fault (Simulator N K tag)
  | [], s => Except.ok s
  | d :: ds, s =>
    match body s d with
    | Except.error e => Except.error e
    | Except.ok s1 => forDirsM body ds s1

/-- The body of the clamp loop. -/
def clamp_cell (pf : Platform) (s : Simulator N K tag) (x y : Int) :
    Except Fault (Simulator N K tag) :=
  if s.field x y = '#' then Except.ok s
  else forDirsM (clamp_dir pf x y) deltas s

/-- The body of the movement pass. -/
def move_cell (pf : Platform) (fuel : Nat) (s : Simulator N K tag) (x y : Int) :
    Except Fault (Simulator N K tag) :=
  if s.field x y ≠ '#' ∧ s.last_use x y ≠ s.UT then
    if (move_prob pf s x y).gtDraw s.random01.1 then
      match propagate_move pf fuel s.random01.2 x y true with
      | Except.error e => Except.error e
      | Except.ok (_, s2) => Except.ok s2
    else
      propagate_stop fuel s.random01.2 x y true
  else Except.ok s

/-- The tick up to the end of the pressure exchange: gravity injection, the
copy of `p` to `old_p`, the pressure exchange, and `velocity_flow = {}`. -/
def tick_forces (pf : Platform) (s : Simulator N K tag) : Simulator N K tag :=
  let s1 := forCells (gravity_cell pf) (cells s.rows s.cols) s
  let s3 := forCells (exchange_cell pf) (cells s1.rows s1.cols) { s1 with old_p := s1.p }
  { s3 with velocity_flow := VectorField.zero }

/-- One iteration of the tick loop of `run_simulation` (the snapshot and the
console output, which do not change the state, are left out). -/
def tick (pf : Platform) (fuel : Nat) (s : Simulator N K tag) :
    Except Fault (Simulator N K tag) :=
  match sweep_loop pf fuel fuel (tick_forces pf s) with
  | Except.error e => Except.error e
  | Except.ok s5 =>
    match forCellsM (clamp_cell pf) (cells s5.rows s5.cols) s5 with
    | Except.error e => Except.error e
    | Except.ok s6 =>
      forCellsM (move_cell pf fuel) (cells s6.rows s6.cols) { s6 with UT := s6.UT + 2 }

/-- The first `T` iterations of the tick loop. -/
def ticks (pf : Platform) (fuel : Nat) :
    Nat → Simulator N K tag → Except Fault (Simulator N K tag)
  | 0, s => Except.ok s
  | T + 1, s =>
    match tick pf fuel s with
    | Except.error e => Except.error e
    | Except.ok s1 => ticks pf fuel T s1

/-- The function `Simulator::run_simulation(T, …)` from the state `readInputFile` leaves:
the configuration guard, the `dirs` initialisation and `T` ticks. -/
def run_simulation (pf : Platform) (fuel : Nat) (T : Nat) (s : Simulator N K tag) :
    Except Fault (Simulator N K tag) :=
  if config_rejected s then Except.ok s
  else ticks pf fuel T (forCells init_dirs_cell (cells s.rows s.cols) s)

end Simulator


/-! ## Predicates of the verification -/

namespace Simulator

variable {N K : Nat} {tag : Tag}

/-- What a `propagate_flow` call at `(x, y)` leaves untouched. -/
structure FlowFrame (s : Simulator N K tag) (x y : Int) (s' : Simulator N K tag) : Prop where
  rho_eq : s'.rho_ = s.rho_
  g_eq : s'.g_ = s.g_
  dirs_eq : s'.dirs = s.dirs
  p_eq : s'.p = s.p
  old_p_eq : s'.old_p = s.old_p
  rows_eq : s'.rows = s.rows
  cols_eq : s'.cols = s.cols
  field_eq : s'.field = s.field
  velocity_eq : s'.velocity = s.velocity
  UT_eq : s'.UT = s.UT
  rng_eq : s'.random_generator_ = s.random_generator_
  stamp : ∀ a b, s'.last_use a b = s.last_use a b ∨ s'.last_use a b = s.UT
  stamp_start : s'.last_use x y = s.UT
  stamp_keep : ∀ a b, (a, b) ≠ (x, y) → s.UT - 1 ≤ s.last_use a b →
    s'.last_use a b = s.last_use a b
  flow_keep : ∀ a b, (a, b) ≠ (x, y) → s.UT - 1 ≤ s.last_use a b →
    s'.velocity_flow.v a b = s.velocity_flow.v a b

/-- The border cells of the grid are walls. -/
def BorderWalls (s : Simulator N K tag) : Prop :=
  ∀ c ∈ cells s.rows s.cols,
    (c.1 = 0 ∨ c.1 + 1 = s.rows ∨ c.2 = 0 ∨ c.2 + 1 = s.cols) → s.field c.1 c.2 = '#'

instance (s : Simulator N K tag) : Decidable (BorderWalls s) := by
  unfold BorderWalls; infer_instance

/-- The number of non-wall cells of the grid. -/
def nonWallCount (s : Simulator N K tag) : Nat :=
  (cells s.rows s.cols).countP fun c => decide (s.field c.1 c.2 ≠ '#')

/-- The number of non-wall cells of the grid whose stamp is below `UT - 1`. -/
def pending (s : Simulator N K tag) : Nat :=
  (cells s.rows s.cols).countP fun c =>
    decide (s.field c.1 c.2 ≠ '#' ∧ s.last_use c.1 c.2 < s.UT - 1)

/-- On every edge the routed flow is at most the velocity, both are storage
values, and their difference is representable. -/
def FlowInv (pf : Platform) (s : Simulator N K tag) : Prop :=
  ∀ c ∈ cells s.rows s.cols, ∀ k < 4,
    (s.velocity_flow.v c.1 c.2 k).v ≤ (s.velocity.v c.1 c.2 k).v ∧
    InRange (storageBits pf tag N) (s.velocity_flow.v c.1 c.2 k).v ∧
    InRange (storageBits pf tag N) (s.velocity.v c.1 c.2 k).v ∧
    InRange (storageBits pf tag N)
      ((s.velocity.v c.1 c.2 k).v - (s.velocity_flow.v c.1 c.2 k).v)

instance (pf : Platform) (s : Simulator N K tag) : Decidable (FlowInv pf s) := by
  unfold FlowInv; infer_instance

/-- Some flow entry of a grid cell is larger in `r` than in `s`. -/
def FlowGrew (s r : Simulator N K tag) : Prop :=
  ∃ a b k, (a, b) ∈ cells s.rows s.cols ∧ k < 4 ∧
    (s.velocity_flow.v a b k).v < (r.velocity_flow.v a b k).v

/-- No flow entry is smaller in `r` than in `s`. -/
def FlowMono (s r : Simulator N K tag) : Prop :=
  ∀ a b k, (s.velocity_flow.v a b k).v ≤ (r.velocity_flow.v a b k).v

/-- What a `propagate_flow` call with a positive limit guarantees on a state
satisfying the flow invariant. -/
structure FlowPost (pf : Platform) (s : Simulator N K tag) (lim : FixedPoint N K tag)
    (r : FlowOut N K tag) : Prop where
  inv : FlowInv pf r.sim
  mono : FlowMono s r.sim
  prop_pos : r.prop = true → 0 < r.t.v ∧ r.t.v ≤ lim.v
  grew : r.t.v = 0 ∨ FlowGrew s r.sim

/-- The total spare capacity of the grid: the sum of `velocity - flow` over
the four directions of every cell. -/
def spare (s : Simulator N K tag) : Int :=
  ((cells s.rows s.cols).map fun c =>
    ((List.range 4).map fun k =>
      (s.velocity.v c.1 c.2 k).v - (s.velocity_flow.v c.1 c.2 k).v).sum).sum

/-- What propagation sweeps preserve. -/
structure SweepStep (pf : Platform) (s s' : Simulator N K tag) : Prop where
  rows_eq : s'.rows = s.rows
  cols_eq : s'.cols = s.cols
  field_eq : s'.field = s.field
  velocity_eq : s'.velocity = s.velocity
  inv : FlowInv pf s'
  mono : FlowMono s s'

/-- On every edge of a grid cell the flow is at most the velocity. -/
def FlowLe (s : Simulator N K tag) : Prop :=
  ∀ c ∈ cells s.rows s.cols, ∀ k < 4,
    (s.velocity_flow.v c.1 c.2 k).v ≤ (s.velocity.v c.1 c.2 k).v

/-- What the clamp step preserves. -/
structure ClampStep (s s' : Simulator N K tag) : Prop where
  rows_eq : s'.rows = s.rows
  cols_eq : s'.cols = s.cols
  field_eq : s'.field = s.field
  flow_eq : s'.velocity_flow = s.velocity_flow
  le : FlowLe s'

/-- The grid a state carries: its dimensions and cell kinds. -/
def SameGrid (s s' : Simulator N K tag) : Prop :=
  s'.rows = s.rows ∧ s'.cols = s.cols ∧ s'.field = s.field

/-- A value that is 0 or the least storage value. -/
def ZeroOrMin (pf : Platform) (a : FixedPoint N K tag) : Prop :=
  a.v = 0 ∨ a.v = -(2 ^ (storageBits pf tag N - 1))

end Simulator

/-! ## Example configurations -/

/-- A 4 × 3 grid: a column of two air cells enclosed by walls. -/
def columnGrid : Int → Int → Char := fun x y =>
  if (x = 1 ∨ x = 2) ∧ y = 1 then ' ' else '#'

/-- The loaded state on `columnGrid` in `FIXED<32, 16>` with gravity `g`
and densities `rhoAir`, `rhoLiquid` (raw values); every draw is 1/2. -/
def columnSim (g rhoAir rhoLiquid : Int) : Simulator 32 16 Tag.FixedTag :=
  Simulator.load (fun c => if c = ' ' then ⟨rhoAir⟩ else if c = '.' then ⟨rhoLiquid⟩ else ⟨0⟩)
    ⟨g⟩ 4 3 columnGrid (fun _ => ⟨1, 2⟩)

/-- A 4 × 4 grid: an air cell at `(1, 1)` and liquid cells at `(1, 2)`,
`(2, 1)`, `(2, 2)`, enclosed by walls. -/
def pondGrid : Int → Int → Char := fun x y =>
  if x = 1 ∧ y = 1 then ' '
  else if (x = 1 ∧ y = 2) ∨ (x = 2 ∧ y = 1) ∨ (x = 2 ∧ y = 2) then '.'
  else '#'

/-- The loaded state on `pondGrid` in `FIXED<32, 16>` with gravity 1, air
density -1 and liquid density 1000; every draw is `r`. -/
def pondSim (r : Draw) : Simulator 32 16 Tag.FixedTag :=
  Simulator.load (fun c => if c = ' ' then ⟨-65536⟩ else if c = '.' then ⟨65536000⟩ else ⟨0⟩)
    ⟨65536⟩ 4 4 pondGrid (fun _ => r)

/-- A 4 × 4 grid: a 2 × 2 block of air cells enclosed by walls. -/
def blockGrid : Int → Int → Char := fun x y =>
  if (x = 1 ∨ x = 2) ∧ (y = 1 ∨ y = 2) then ' ' else '#'

/-- A state on `blockGrid` in `FIXED<32, 16>` whose velocities are 2 along
the ring `(1,1) → (1,2) → (2,2) → (2,1) → (1,1)` and 0 elsewhere; gravity 1,
densities 1, no flow routed, stamps 0 and tick-stamp counter 2. -/
def ringSim : Simulator 32 16 Tag.FixedTag :=
  { Simulator.load (fun _ => ⟨65536⟩) ⟨65536⟩ 4 4 blockGrid (fun _ => ⟨1, 2⟩) with
    velocity := ⟨fun x y k =>
      if (x = 1 ∧ y = 1 ∧ k = 3) ∨ (x = 1 ∧ y = 2 ∧ k = 1) ∨ (x = 2 ∧ y = 2 ∧ k = 2)
        ∨ (x = 2 ∧ y = 1 ∧ k = 0) then ⟨131072⟩ else ⟨0⟩⟩,
    UT := 2 }

/-- A 3 × 4 grid: a row of two air cells enclosed by walls. -/
def rowGrid : Int → Int → Char := fun x y =>
  if x = 1 ∧ (y = 1 ∨ y = 2) then ' ' else '#'

/-- A state on `rowGrid` in `FIXED<16, 8>`: the edge from `(1, 1)` to the
right has velocity raw 32767 and flow raw -1, the edge from `(1, 2)` to the
left has velocity raw 5 and flow 0; stamps 0 and tick-stamp counter 2. -/
def overflowSim : Simulator 16 8 Tag.FixedTag :=
  { Simulator.load (fun _ => ⟨256⟩) ⟨256⟩ 3 4 rowGrid (fun _ => ⟨1, 2⟩) with
    velocity := ⟨fun x y k =>
      if x = 1 ∧ y = 1 ∧ k = 3 then ⟨32767⟩ else if x = 1 ∧ y = 2 ∧ k = 2 then ⟨5⟩ else ⟨0⟩⟩,
    velocity_flow := ⟨fun x y k => if x = 1 ∧ y = 1 ∧ k = 3 then ⟨-1⟩ else ⟨0⟩⟩,
    UT := 2 }

/-! ## Further predicates of the verification -/

/-- The fault a run stopped with, if any. -/
def faultOf {α : Type} (r : Except Fault α) : Option Fault :=
  match r with
  | Except.error e => some e
  | Except.ok _ => none

namespace Simulator

variable {N K : Nat} {tag : Tag}

/-- The velocity the clamp step leaves on an edge, given the state `s0` before the step. -/
def clamped (s0 : Simulator N K tag) (a b : Int) (k : Nat) : FixedPoint N K tag :=
  if 0 < (s0.velocity.v a b k).v then s0.velocity_flow.v a b k else s0.velocity.v a b k

/-- The edge `(a, b, k)` has been clamped: it carries its final velocity, and the
assertion held on it if its velocity was positive. -/
def Clamped (s0 s : Simulator N K tag) (a b : Int) (k : Nat) : Prop :=
  s.velocity.v a b k = clamped s0 a b k ∧
    (0 < (s0.velocity.v a b k).v → (s0.velocity_flow.v a b k).v ≤ (s0.velocity.v a b k).v)

/-- What holds throughout the clamp loop started in `s0`. -/
def Clamping (s0 s : Simulator N K tag) : Prop :=
  s.velocity_flow = s0.velocity_flow ∧ s.field = s0.field ∧ s.rows = s0.rows ∧
    s.cols = s0.cols ∧
    ∀ a b k, s.velocity.v a b k = s0.velocity.v a b k ∨ Clamped s0 s a b k

/-- The running sum of the table loop of `propagate_move` after direction `d`. -/
def move_step (pf : Platform) (s : Simulator N K tag) (x y : Int) (sum : FixedPoint N K tag)
    (d : Int × Int) : FixedPoint N K tag :=
  if s.field (x + d.1) (y + d.2) = '#' ∨ s.last_use (x + d.1) (y + d.2) = s.UT then sum
  else if (s.velocity.get x y d.1 d.2).v < 0 then sum
  else FixedPoint.add pf sum (s.velocity.get x y d.1 d.2)

/-- The sum of the non-negative velocities of a cell. -/
def posSum (s : Simulator N K tag) (x y : Int) : Int :=
  ((List.range 4).map fun k => max 0 (s.velocity.v x y k).v).sum

/-- The non-negative velocities of the cell add up without wrap-around. -/
def MoveFits (pf : Platform) (s : Simulator N K tag) (x y : Int) : Prop :=
  posSum s x y < 2 ^ (storageBits pf tag N - 1)

instance (pf : Platform) (s : Simulator N K tag) (x y : Int) : Decidable (MoveFits pf s x y) := by
  unfold MoveFits; infer_instance

/-- The selection rule in the words of the specification: the index of the first entry of
the table that is at least `p`. -/
def firstAtLeast (tres : List (FixedPoint N K tag)) (p : FixedPoint N K tag) : Nat :=
  tres.findIdx fun t => decide (p.v ≤ t.v)

/-- The index of the first entry of the table that is greater than `p`. -/
def firstAbove (tres : List (FixedPoint N K tag)) (p : FixedPoint N K tag) : Nat :=
  tres.findIdx fun t => decide (p.v < t.v)

/-- No cell is in progress: no stamp equals the tick-stamp counter minus 1. -/
def NoInProgress (s : Simulator N K tag) : Prop :=
  ∀ a b, s.last_use a b ≠ s.UT - 1

/-- No stamp exceeds the tick-stamp counter. -/
def StampsLe (s : Simulator N K tag) : Prop :=
  ∀ a b, s.last_use a b ≤ s.UT

/-- The particle record of a cell: material tag, pressure and the four velocities. -/
def record (s : Simulator N K tag) (c : Int × Int) :
    Char × FixedPoint N K tag × (Nat → FixedPoint N K tag) :=
  (s.field c.1 c.2, s.p c.1 c.2, s.velocity.v c.1 c.2)

/-- What the stop traversal leaves untouched: everything but the stamps, and a stamp that
changes becomes `UT`. -/
structure StopFrame (s s' : Simulator N K tag) : Prop where
  rho_eq : s'.rho_ = s.rho_
  g_eq : s'.g_ = s.g_
  dirs_eq : s'.dirs = s.dirs
  p_eq : s'.p = s.p
  old_p_eq : s'.old_p = s.old_p
  rows_eq : s'.rows = s.rows
  cols_eq : s'.cols = s.cols
  field_eq : s'.field = s.field
  velocity_eq : s'.velocity = s.velocity
  flow_eq : s'.velocity_flow = s.velocity_flow
  UT_eq : s'.UT = s.UT
  rng_eq : s'.random_generator_ = s.random_generator_
  stamp : ∀ a b, s'.last_use a b = s.last_use a b ∨ s'.last_use a b = s.UT

/-- The particle records of `s'` are those of `s` rearranged by a permutation of the
cells that fixes every wall cell and every cell whose four neighbours are walls. -/
def Permuted (s s' : Simulator N K tag) : Prop :=
  ∃ σ : Equiv.Perm (Int × Int), (∀ c, s.field c.1 c.2 = '#' → σ c = c) ∧
    (∀ c, (∀ d ∈ deltas, s.field (c.1 + d.1) (c.2 + d.2) = '#') → σ c = c) ∧
    ∀ c, record s' c = record s (σ c)

/-- What the movement traversal leaves untouched: a stamp that changes becomes `UT`, the
generator is advanced, and the particle records are permuted. -/
structure MoveFrame (s s' : Simulator N K tag) : Prop where
  rho_eq : s'.rho_ = s.rho_
  g_eq : s'.g_ = s.g_
  dirs_eq : s'.dirs = s.dirs
  old_p_eq : s'.old_p = s.old_p
  rows_eq : s'.rows = s.rows
  cols_eq : s'.cols = s.cols
  flow_eq : s'.velocity_flow = s.velocity_flow
  UT_eq : s'.UT = s.UT
  stamp : ∀ a b, s'.last_use a b = s.last_use a b ∨ s'.last_use a b = s.UT
  rng : ∃ j, s'.random_generator_ = fun n => s.random_generator_ (n + j)
  perm : Permuted s s'

/-- The two states hold the same particle records. -/
def SameRecords (s s' : Simulator N K tag) : Prop :=
  s'.field = s.field ∧ s'.p = s.p ∧ s'.velocity = s.velocity

/-- The number of non-wall cells of the grid that are not resolved. -/
def unresolved (s : Simulator N K tag) : Nat :=
  (cells s.rows s.cols).countP fun c =>
    decide (s.field c.1 c.2 ≠ '#' ∧ s.last_use c.1 c.2 ≠ s.UT)

/-- No positive velocity of the cell leads to an open neighbour with a stamp below
`UT - 1`. -/
def Settled (s : Simulator N K tag) (a b : Int) : Prop :=
  ∀ d ∈ deltas, s.field (a + d.1) (b + d.2) = '#' ∨ s.UT - 1 ≤ s.last_use (a + d.1) (b + d.2)
    ∨ (s.velocity.get a b d.1 d.2).v ≤ 0

end Simulator

/-! ## Further example configurations -/

/-- A state on `blockGrid` in `FIXED<16, 8>`: the cell `(1, 1)` has velocity raw 32767
downwards and to the right, every other velocity is 0; stamps 0 and tick-stamp counter 2,
every draw is 1/2. -/
def surgeSim : Simulator 16 8 Tag.FixedTag :=
  { Simulator.load (fun _ => ⟨256⟩) ⟨256⟩ 4 4 blockGrid (fun _ => ⟨1, 2⟩) with
    velocity := ⟨fun x y k =>
      if x = 1 ∧ y = 1 ∧ (k = 1 ∨ k = 3) then ⟨32767⟩ else ⟨0⟩⟩,
    UT := 2 }

/-- A state on `rowGrid` in `FIXED<32, 16>` in the pressure exchange: the previous
pressure is 1 at `(1, 1)` and 0 elsewhere, the velocity from `(1, 2)` to the left is 2,
the densities are 1. -/
def absorbSim : Simulator 32 16 Tag.FixedTag :=
  { Simulator.load (fun _ => ⟨65536⟩) ⟨65536⟩ 3 4 rowGrid (fun _ => ⟨1, 2⟩) with
    old_p := fun x y => if x = 1 ∧ y = 1 then ⟨65536⟩ else ⟨0⟩,
    p := fun x y => if x = 1 ∧ y = 1 then ⟨65536⟩ else ⟨0⟩,
    velocity := ⟨fun x y k => if x = 1 ∧ y = 2 ∧ k = 2 then ⟨131072⟩ else ⟨0⟩⟩ }

/-- A state on `rowGrid` in `FIXED<32, 16>` in the pressure exchange: the previous
pressure is the greatest storage value at `(1, 1)` and the least one elsewhere, the
velocities are 0, the densities are 1. -/
def squeezeSim : Simulator 32 16 Tag.FixedTag :=
  { Simulator.load (fun _ => ⟨65536⟩) ⟨65536⟩ 3 4 rowGrid (fun _ => ⟨1, 2⟩) with
    old_p := fun x y => if x = 1 ∧ y = 1 then ⟨2147483647⟩ else ⟨-2147483648⟩,
    p := fun x y => if x = 1 ∧ y = 1 then ⟨2147483647⟩ else ⟨-2147483648⟩ }

/-! ## Predicates on the movement pass and the run -/

/-- The run did not stop for lack of fuel. -/
def NoFuel {α : Type} (r : Except Fault α) : Prop :=
  r ≠ Except.error Fault.fuel

namespace Simulator

variable {N K : Nat} {tag : Tag}

/-- The number of directions of a cell that lead to an open neighbour that is not
resolved. -/
def avail (s : Simulator N K tag) (x y : Int) : Nat :=
  deltas.countP fun d =>
    decide (s.field (x + d.1) (y + d.2) ≠ '#' ∧ s.last_use (x + d.1) (y + d.2) ≠ s.UT)

/-- The state is free of wrap-around in the movement pass: in every cell the non-negative
velocities add up to a storage value, no stamp exceeds the counter, and every draw lies
in `[0, 1)`. -/
def Healthy (pf : Platform) (s : Simulator N K tag) : Prop :=
  (∀ a b, MoveFits pf s a b) ∧ StampsLe s ∧ ∀ n, (s.random_generator_ n).Valid

/-- The cell `b` is one of the four neighbours of the cell `a`. -/
def Adjacent (a b : Int × Int) : Prop :=
  ∃ d ∈ deltas, b = (a.1 + d.1, a.2 + d.2)

/-- The predecessor of `c` in the list `prev :: l`; `c` itself if `c` is not in `l`. -/
def prevIn (prev : Int × Int) : List (Int × Int) → Int × Int → Int × Int
  | [], c => c
  | l :: ls, c => if c = l then prev else prevIn l ls c

/-- The cell whose record the cell `c` holds after the records have moved one step
forward along the list, the record of the last cell moving to the first. -/
def shiftSource : List (Int × Int) → Int × Int → Int × Int
  | [], c => c
  | l :: ls, c => if c = l then ls.getLastD l else prevIn l ls c

/-- The records of `s'` are those of `s` moved one step forward along the chain `L`, which
starts next to `c`, passes through open cells that are not resolved in `s`, and ends at a
cell that is in progress in `s`. -/
structure Shifted (s s' : Simulator N K tag) (c : Int × Int) (L : List (Int × Int)) :
    Prop where
  ne_nil : L ≠ []
  nodup : L.Nodup
  chain : List.Chain Adjacent c L
  open_cells : ∀ q ∈ L, s.field q.1 q.2 ≠ '#'
  fresh : ∀ q ∈ L, s.last_use q.1 q.2 ≠ s.UT
  last : s.last_use (L.getLastD c).1 (L.getLastD c).2 = s.UT - 1
  rot : ∀ q, record s' q = record s (shiftSource L q)

end Simulator

/-- A state on `rowGrid` in `FIXED<32, 16>`: the velocity from `(1, 1)` to the right is 1,
every other velocity is 0; stamps 0 and tick-stamp counter 2, every draw is 1/2. -/
def deadEndSim : Simulator 32 16 Tag.FixedTag :=
  { Simulator.load (fun _ => ⟨65536⟩) ⟨65536⟩ 3 4 rowGrid (fun _ => ⟨1, 2⟩) with
    velocity := ⟨fun x y k => if x = 1 ∧ y = 1 ∧ k = 3 then ⟨65536⟩ else ⟨0⟩⟩,
    UT := 2 }

/-! ## Predicates on the run -/

namespace Simulator

variable {N K : Nat} {tag : Tag}

/-- What every step of a run preserves: densities, gravity, open-neighbour counts, the
dimensions and the walls of the grid; the counter does not decrease, and a stamp that
changes is at most the counter. -/
structure RunFrame (s s' : Simulator N K tag) : Prop where
  rho_eq : s'.rho_ = s.rho_
  g_eq : s'.g_ = s.g_
  dirs_eq : s'.dirs = s.dirs
  rows_eq : s'.rows = s.rows
  cols_eq : s'.cols = s.cols
  wall_iff : ∀ a b, s'.field a b = '#' ↔ s.field a b = '#'
  UT_le : s.UT ≤ s'.UT
  stamp : ∀ a b, s'.last_use a b = s.last_use a b ∨ s'.last_use a b ≤ s'.UT

/-- The number of the 4 neighbours of a cell that are not walls. -/
def openCount (s : Simulator N K tag) (x y : Int) : Int :=
  (deltas.countP fun d => decide (s.field (x + d.1) (y + d.2) ≠ '#') : Nat)

/-- The stored open-neighbour count of every grid cell is right: the number of open
neighbours for a non-wall cell, 0 for a wall. -/
def DirsOk (s : Simulator N K tag) : Prop :=
  ∀ c ∈ cells s.rows s.cols,
    s.dirs c.1 c.2 = if s.field c.1 c.2 = '#' then 0 else openCount s c.1 c.2

/-- The steps that touch only velocities, pressures and flows. -/
def Quiet (s s' : Simulator N K tag) : Prop :=
  s'.rho_ = s.rho_ ∧ s'.g_ = s.g_ ∧ s'.dirs = s.dirs ∧ s'.rows = s.rows ∧ s'.cols = s.cols ∧
    s'.field = s.field ∧ s'.last_use = s.last_use ∧ s'.UT = s.UT ∧
    s'.random_generator_ = s.random_generator_

end Simulator

/-! ## Predicates on states at rest -/

namespace Simulator

variable {N K : Nat} {tag : Tag}

/-- The state is at rest: all velocities and all pressures are 0. -/
def AtRest (s : Simulator N K tag) : Prop :=
  s.velocity = VectorField.zero ∧ s.p = fun _ _ => ⟨0⟩

/-- No open cell of the grid has an open cell directly below it. -/
def NoDrop (s : Simulator N K tag) : Prop :=
  ∀ c ∈ cells s.rows s.cols, s.field c.1 c.2 ≠ '#' → s.field (c.1 + 1) c.2 = '#'

instance (s : Simulator N K tag) : Decidable (NoDrop s) := by
  unfold NoDrop; infer_instance

/-- The state `s'` differs from `s` at most in the stamps, the counter and the random
generator. -/
def OnlyStamps (s s' : Simulator N K tag) : Prop :=
  ∃ lu ut rng, s' = { s with last_use := lu, UT := ut, random_generator_ := rng }

end Simulator

/-- A 3 × 4 grid: a row of two liquid cells enclosed by walls. -/
def poolGrid : Int → Int → Char := fun x y =>
  if x = 1 ∧ (y = 1 ∨ y = 2) then '.' else '#'

/-- A state on `poolGrid` in `FIXED<32, 16>` as the first tick finds it, but with the
pressures `pL` at `(1, 1)` and `pR` at `(1, 2)` (raw values): gravity 1, densities 1,
velocities 0, one open neighbour per liquid cell, every draw is 1/2. -/
def poolSim (pL pR : Int) : Simulator 32 16 Tag.FixedTag :=
  { Simulator.load (fun _ => ⟨65536⟩) ⟨65536⟩ 3 4 poolGrid (fun _ => ⟨1, 2⟩) with
    dirs := fun x y => if x = 1 ∧ (y = 1 ∨ y = 2) then 1 else 0,
    p := fun x y => if x = 1 ∧ y = 1 then ⟨pL⟩ else if x = 1 ∧ y = 2 then ⟨pR⟩ else ⟨0⟩ }

/-- The loaded state on `rowGrid` in `FIXED<32, 16>` with gravity 1 and densities 1; every
draw is 1/2. -/
def flatSim : Simulator 32 16 Tag.FixedTag :=
  Simulator.load (fun _ => ⟨65536⟩) ⟨65536⟩ 3 4 rowGrid (fun _ => ⟨1, 2⟩)

namespace Simulator

variable {N K : Nat} {tag : Tag}

/-- The cell of the pool with the higher pressure: the left cell `(1, 1)` when `left` is
true, the right cell `(1, 2)` otherwise. -/
def poolHi (left : Bool) : Int × Int := if left then (1, 1) else (1, 2)

/-- The cell of the pool with the lower pressure. -/
def poolLo (left : Bool) : Int × Int := if left then (1, 2) else (1, 1)

/-- The direction from the cell with the higher pressure to the other one. -/
def poolDir (left : Bool) : Int × Int := if left then (0, 1) else (0, -1)

/-- The state is a two-cell liquid pool: the grid is `poolGrid`, each liquid cell has one
open neighbour, the velocities are 0, the stamps do not exceed the counter, and the
pressures of the two cells are `pH` (at `poolHi left`) and `pL` (at `poolLo left`), raw
values. -/
structure Pool (s : Simulator N K tag) (left : Bool) (pH pL : Int) : Prop where
  rows_eq : s.rows = 3
  cols_eq : s.cols = 4
  field_eq : s.field = poolGrid
  dirs_left : s.dirs 1 1 = 1
  dirs_right : s.dirs 1 2 = 1
  velocity_eq : s.velocity = VectorField.zero
  stamps : StampsLe s
  p_hi : s.p (poolHi left).1 (poolHi left).2 = ⟨pH⟩
  p_lo : s.p (poolLo left).1 (poolLo left).2 = ⟨pL⟩

/-- The velocity field whose only entry that may differ from 0 is the raw value `dv` in
direction `k` of cell `(x, y)`. -/
def singleFlow (x y : Int) (k : Nat) (dv : Int) : VectorField N K tag :=
  ⟨fun a b j => if a = x ∧ b = y ∧ j = k then ⟨dv⟩ else ⟨0⟩⟩

/-- The raw value of `FixedPoint(0.8)` when it is a storage value. -/
def dampRaw (K : Nat) : Int := 3602879701896397 * 2 ^ K / 2 ^ 52

/-- The raw velocity the pressure exchange derives from the raw pressure difference
`delta` at the raw density `rho`: `delta / rho` in fixed-point arithmetic. -/
def poolVel (K : Nat) (rho delta : Int) : Int := delta * 2 ^ K / rho

/-- The raw pressure the clamp step gives back for the raw velocity `v` of a liquid cell
of raw density `rho`: `v * rho * 0.8` in fixed-point arithmetic. -/
def poolGain (K : Nat) (rho v : Int) : Int := v * rho / 2 ^ K * dampRaw K / 2 ^ K

end Simulator

/-! ## The divisions by an open-neighbour count -/

namespace Simulator

variable {N K : Nat} {tag : Tag}

/-- All four neighbours of the cell are walls. -/
def Isolated (s : Simulator N K tag) (x y : Int) : Prop :=
  ∀ d ∈ deltas, s.field (x + d.1) (y + d.2) = '#'

/-- A cell without open neighbour has all its velocities 0. -/
def IsolatedStill (s : Simulator N K tag) : Prop :=
  ∀ x y, Isolated s x y → ∀ k, (s.velocity.v x y k).v = 0

/-- The grid is wall-bordered, the stored open-neighbour counts are right and the cells
without open neighbour have zero velocities. -/
def Calm (s : Simulator N K tag) : Prop :=
  BorderWalls s ∧ DirsOk s ∧ IsolatedStill s

/-- The divisor of the division `force / dirs[x][y]` that the pressure-exchange body
performs for direction `d` of cell `(x, y)`, if it performs it (the `else` branch). -/
def exchange_divisors (pf : Platform) (x y : Int) (s : Simulator N K tag) (d : Int × Int) :
    List Int :=
  if s.field (x + d.1) (y + d.2) ≠ '#' ∧ (s.old_p (x + d.1) (y + d.2)).v < (s.old_p x y).v then
    let force := FixedPoint.sub pf (s.old_p x y) (s.old_p (x + d.1) (y + d.2))
    let contr := s.velocity.get (x + d.1) (y + d.2) (-d.1) (-d.2)
    let rho_n := s.rho_ (s.field (x + d.1) (y + d.2))
    if force.v ≤ (FixedPoint.mul pf contr rho_n).v then [] else [s.dirs x y]
  else []

/-- The divisor of the division the clamp body performs for direction `d` of cell `(x, y)`,
if it performs one: `dirs[x][y]` when the neighbour is a wall, `dirs[nx][ny]` otherwise. -/
def clamp_divisors (x y : Int) (s : Simulator N K tag) (d : Int × Int) : List Int :=
  let old_v := s.velocity.get x y d.1 d.2
  let new_v := s.velocity_flow.get x y d.1 d.2
  if 0 < old_v.v then
    if new_v.v ≤ old_v.v then
      if s.field (x + d.1) (y + d.2) = '#' then [s.dirs x y]
      else [s.dirs (x + d.1) (y + d.2)]
    else []
  else []

/-- The body `exchange_dir` with the log of the divisors used so far. -/
def exchange_dir_log (pf : Platform) (x y : Int) (sl : Simulator N K tag × List Int)
    (d : Int × Int) : Simulator N K tag × List Int :=
  (exchange_dir pf x y sl.1 d, sl.2 ++ exchange_divisors pf x y sl.1 d)

/-- The body `exchange_cell` with the log of the divisors used so far. -/
def exchange_cell_log (pf : Platform) (sl : Simulator N K tag × List Int) (x y : Int) :
    Simulator N K tag × List Int :=
  if sl.1.field x y = '#' then sl
  else deltas.foldl (exchange_dir_log pf x y) sl

/-- The loop over the directions of the clamp body with the log of the divisors used so
far; when the loop stops on a fault, the log holds the divisors used before it. -/
def clamp_dirs_log (pf : Platform) (x y : Int) :
    List (Int × Int) → Simulator N K tag × List Int →
      Except Fault (Simulator N K tag) × List Int
  | [], sl => (Except.ok sl.1, sl.2)
  | d :: ds, sl =>
    match clamp_dir pf x y sl.1 d with
    | Except.error e => (Except.error e, sl.2)
    | Except.ok s1 => clamp_dirs_log pf x y ds (s1, sl.2 ++ clamp_divisors x y sl.1 d)

/-- The body `clamp_cell` with the log of the divisors used so far. -/
def clamp_cell_log (pf : Platform) (sl : Simulator N K tag × List Int) (x y : Int) :
    Except Fault (Simulator N K tag) × List Int :=
  if sl.1.field x y = '#' then (Except.ok sl.1, sl.2)
  else clamp_dirs_log pf x y deltas sl

/-- The clamp loop over the cells with the log of the divisors used so far. -/
def clamp_cells_log (pf : Platform) :
    List (Int × Int) → Simulator N K tag × List Int →
      Except Fault (Simulator N K tag) × List Int
  | [], sl => (Except.ok sl.1, sl.2)
  | (x, y) :: cs, sl =>
    match (clamp_cell_log pf sl x y).1 with
    | Except.error e => (Except.error e, (clamp_cell_log pf sl x y).2)
    | Except.ok s1 => clamp_cells_log pf cs (s1, (clamp_cell_log pf sl x y).2)

/-- The tick up to the end of the pressure exchange (`tick_forces`) with the log of the
divisors used so far. -/
def tick_forces_log (pf : Platform) (sl : Simulator N K tag × List Int) :
    Simulator N K tag × List Int :=
  let s1 := forCells (gravity_cell pf) (cells sl.1.rows sl.1.cols) sl.1
  let sl3 := forCells (exchange_cell_log pf) (cells s1.rows s1.cols)
    ({ s1 with old_p := s1.p }, sl.2)
  ({ sl3.1 with velocity_flow := VectorField.zero }, sl3.2)

/-- The tick from the propagation sweeps on, with the log of the divisors used so far;
when the tick stops on a fault, the log holds the divisors used before it. -/
def tick_tail_log (pf : Platform) (fuel : Nat) (sl : Simulator N K tag × List Int) :
    Except Fault (Simulator N K tag) × List Int :=
  match sweep_loop pf fuel fuel sl.1 with
  | Except.error e => (Except.error e, sl.2)
  | Except.ok s5 =>
    match (clamp_cells_log pf (cells s5.rows s5.cols) (s5, sl.2)).1 with
    | Except.error e =>
      (Except.error e, (clamp_cells_log pf (cells s5.rows s5.cols) (s5, sl.2)).2)
    | Except.ok s6 =>
      (forCellsM (move_cell pf fuel) (cells s6.rows s6.cols) { s6 with UT := s6.UT + 2 },
        (clamp_cells_log pf (cells s5.rows s5.cols) (s5, sl.2)).2)

/-- The tick with the log of the divisors used by its divisions by an open-neighbour
count, in the order of the divisions. -/
def tick_log (pf : Platform) (fuel : Nat) (sl : Simulator N K tag × List Int) :
    Except Fault (Simulator N K tag) × List Int :=
  tick_tail_log pf fuel (tick_forces_log pf sl)

/-- The first `T` ticks with the log of the divisors. -/
def ticks_log (pf : Platform) (fuel : Nat) :
    Nat → Simulator N K tag × List Int → Except Fault (Simulator N K tag) × List Int
  | 0, sl => (Except.ok sl.1, sl.2)
  | T + 1, sl =>
    match (tick_log pf fuel sl).1 with
    | Except.error e => (Except.error e, (tick_log pf fuel sl).2)
    | Except.ok s1 => ticks_log pf fuel T (s1, (tick_log pf fuel sl).2)

end Simulator

namespace Simulator

variable {N K : Nat} {tag : Tag}

/-- The state is calm on a grid of `r` rows and `c` columns, and every divisor logged so
far is at least 1. -/
def CalmLog (r c : Nat) (sl : Simulator N K tag × List Int) : Prop :=
  Calm sl.1 ∧ sl.1.rows = r ∧ sl.1.cols = c ∧ ∀ n ∈ sl.2, 1 ≤ n

/-- Every divisor logged is at least 1, and a state that is returned is calm on a grid of
`r` rows and `c` columns. -/
def CalmOut (r c : Nat) (out : Except Fault (Simulator N K tag) × List Int) : Prop :=
  (∀ n ∈ out.2, 1 ≤ n) ∧ ∀ s', out.1 = Except.ok s' → Calm s' ∧ s'.rows = r ∧ s'.cols = c

end Simulator

/-! ## The counter as a value of `int` -/

namespace Simulator

variable {N K : Nat} {tag : Tag}

/-- The counter `UT`, its predecessor `UT - 1` and every stamp are values of the type
`int`: the states on which the counter arithmetic of the source is defined. -/
def IntState (pf : Platform) (s : Simulator N K tag) : Prop :=
  InRange pf.int_bits (s.UT - 1) ∧ InRange pf.int_bits s.UT ∧
    ∀ a b, InRange pf.int_bits (s.last_use a b)

/-- The counter does not decrease, and a stamp that changes is at least the old counter. -/
def Raise (s s' : Simulator N K tag) : Prop :=
  s.UT ≤ s'.UT ∧ ∀ a b, s'.last_use a b = s.last_use a b ∨ s.UT ≤ s'.last_use a b

end Simulator
/-! ## Lemmas on `wrap` -/

theorem two_pow_pred_double {w : Nat} (hw : 0 < w) :
    (2 : Int) ^ w = 2 ^ (w - 1) + 2 ^ (w - 1) := by
  obtain ⟨k, rfl⟩ : ∃ k, w = k + 1 := ⟨w - 1, by omega⟩
  simp [pow_succ]; ring

theorem wrap_eq_self {w : Nat} (hw : 0 < w) {x : Int} (h : InRange w x) :
    wrap w x = x := by
  unfold wrap
  have h2 := two_pow_pred_double hw
  obtain ⟨h1, h3⟩ := h
  rw [Int.emod_eq_of_lt (by linarith) (by linarith)]
  ring

theorem wrap_inRange {w : Nat} (hw : 0 < w) (x : Int) : InRange w (wrap w x) := by
  unfold wrap InRange
  have h2 := two_pow_pred_double hw
  have hpos : (0 : Int) < 2 ^ w := by positivity
  have h1 := Int.emod_nonneg (x + 2 ^ (w - 1)) (ne_of_gt hpos)
  have h3 := Int.emod_lt_of_pos (x + 2 ^ (w - 1)) hpos
  constructor <;> linarith

theorem wrap_congr {w : Nat} {x y : Int} (h : x % 2 ^ w = y % 2 ^ w) :
    wrap w x = wrap w y := by
  unfold wrap
  have : (x + 2 ^ (w - 1)) % 2 ^ w = (y + 2 ^ (w - 1)) % 2 ^ w := by
    rw [Int.add_emod, h, ← Int.add_emod]
  rw [this]

theorem wrap_emod (w : Nat) (x : Int) : wrap w x % 2 ^ w = x % 2 ^ w := by
  unfold wrap
  rw [Int.sub_emod, Int.emod_emod_of_dvd _ (dvd_refl _), ← Int.sub_emod]
  simp

theorem storageBits_ge (pf : Platform) (tag : Tag) (N : Nat) :
    8 ≤ storageBits pf tag N := by
  have h8 := pf.fast8_ge
  have h16 := pf.fast16_ge
  have h32 := pf.fast32_ge
  have h64 := pf.fast64_ge
  unfold storageBits
  cases tag <;> simp only <;> split_ifs <;> omega

theorem storageBits_pos (pf : Platform) (tag : Tag) (N : Nat) :
    0 < storageBits pf tag N :=
  lt_of_lt_of_le (by decide) (storageBits_ge pf tag N)

/-! ## Claims on the fixed-point type -/

/-- C1: on one parameterisation `(a + b) - b == a` holds exactly for every
storage value `a` and every `b`, also when `a + b` wraps around the storage
width. -/
theorem add_sub_cancel_exact (pf : Platform) {N K : Nat} {tag : Tag}
    (a b : FixedPoint N K tag) (ha : a.Valid pf) :
    FixedPoint.sub pf (FixedPoint.add pf a b) b = a := by
  cases a with
  | mk av =>
    simp only [FixedPoint.sub, FixedPoint.add, FixedPoint.mk.injEq]
    have h : (wrap (storageBits pf tag N) (av + b.v) - b.v) % 2 ^ storageBits pf tag N
        = av % 2 ^ storageBits pf tag N := by
      rw [Int.sub_emod, wrap_emod, ← Int.sub_emod]
      simp
    rw [wrap_congr h]
    exact wrap_eq_self (storageBits_pos pf tag N) ha

/-- Witness for C1: in `FIXED<8, 4>` the sum 100 + 100 wraps to -56 and
subtracting 100 again gives 100. -/
theorem add_sub_cancel_exact_witness :
    (FixedPoint.add lp64 (⟨100⟩ : FixedPoint 8 4 Tag.FixedTag) ⟨100⟩).v = -56 ∧
    FixedPoint.sub lp64 (FixedPoint.add lp64 (⟨100⟩ : FixedPoint 8 4 Tag.FixedTag) ⟨100⟩)
      ⟨100⟩ = ⟨100⟩ :=
  ⟨by decide, add_sub_cancel_exact lp64 ⟨100⟩ ⟨100⟩ (by decide)⟩

/-! ## Multiplication and division -/

theorem InRange.mono {w w' : Nat} {x : Int} (h : InRange w x) (hw : w ≤ w') :
    InRange w' x := by
  have hp : (2 : Int) ^ (w - 1) ≤ 2 ^ (w' - 1) :=
    pow_le_pow_right₀ (by norm_num) (by omega)
  exact ⟨by linarith [h.1], by linarith [h.2]⟩

theorem shiftRight_eq_ediv (x : Int) (K : Nat) : x >>> K = x / 2 ^ K := by
  rw [Int.shiftRight_eq_div_pow]; push_cast; rfl

theorem fracBits_lt_intermediate (pf : Platform) {N K : Nat} (hwf : WellFormed N K) :
    K + 1 ≤ intermediateBits pf N := by
  have h32 := pf.fast32_ge
  have h64 := pf.fast64_ge
  obtain ⟨h1, _, h3⟩ := hwf
  unfold intermediateBits
  split_ifs <;> omega

theorem intermediateBits_pos (pf : Platform) (N : Nat) : 0 < intermediateBits pf N := by
  have h32 := pf.fast32_ge
  have h64 := pf.fast64_ge
  unfold intermediateBits
  split_ifs <;> omega

/-- Truncating division of `a * b - r` by a positive `b`, for a remainder
`0 ≤ r < b`. -/
theorem tdiv_mul_sub_pos (a b r : Int) (hb : 0 < b) (hr0 : 0 ≤ r) (hr : r < b) :
    Int.tdiv (a * b - r) b = a ∨ (Int.tdiv (a * b - r) b = a - 1 ∧ 1 ≤ a) := by
  by_cases hx : 0 ≤ a * b - r
  · rw [Int.tdiv_eq_ediv hx (le_of_lt hb)]
    by_cases hr1 : r = 0
    · left
      subst hr1
      simp [Int.mul_ediv_cancel _ (ne_of_gt hb)]
    · right
      have hpos : 0 < r := lt_of_le_of_ne hr0 (Ne.symm hr1)
      have h := (Int.ediv_emod_unique (a := a * b - r) (r := b - r) (q := a - 1) hb).2
        ⟨by ring, by linarith, by linarith⟩
      refine ⟨h.1, ?_⟩
      by_contra hcon
      have : a ≤ 0 := by omega
      nlinarith
  · left
    have hx2 : 0 ≤ -(a * b - r) := by linarith
    have h1 : Int.tdiv (a * b - r) b = -(Int.tdiv (-(a * b - r)) b) := by
      rw [Int.neg_tdiv]; simp
    rw [h1, Int.tdiv_eq_ediv hx2 (le_of_lt hb)]
    have h := (Int.ediv_emod_unique (a := -(a * b - r)) (r := r) (q := -a) hb).2
      ⟨by ring, hr0, hr⟩
    rw [h.1]; simp

/-- Truncating division of `a * b - r` by `b ≠ 0`, for `0 ≤ r < |b|`: the
quotient is `a`, or one step from `a` towards zero. -/
theorem tdiv_mul_sub (a b r : Int) (hb : b ≠ 0) (hr0 : 0 ≤ r) (hr : r < |b|) :
    Int.tdiv (a * b - r) b = a ∨ (Int.tdiv (a * b - r) b = a - 1 ∧ 1 ≤ a)
      ∨ (Int.tdiv (a * b - r) b = a + 1 ∧ a ≤ -1) := by
  rcases lt_or_gt_of_ne hb with hneg | hpos
  · have hb2 : 0 < -b := by linarith
    have habs : |b| = -b := abs_of_neg hneg
    have h1 : Int.tdiv (a * b - r) b = -(Int.tdiv ((-a) * (-b) - r) (-b)) := by
      rw [Int.tdiv_neg]; simp
    rcases tdiv_mul_sub_pos (-a) (-b) r hb2 hr0 (by linarith) with h | ⟨h, h2⟩
    · left; rw [h1, h]; simp
    · right; right
      refine ⟨by rw [h1, h]; ring, by linarith⟩
  · have habs : |b| = b := abs_of_pos hpos
    rcases tdiv_mul_sub_pos a b r hpos hr0 (by linarith) with h | h
    · exact Or.inl h
    · exact Or.inr (Or.inl h)

/-- When the product fits the intermediate type, `operator*` yields the
floor of `a.v * b.v / 2^K` reduced to the storage width. -/
theorem mul_v_of_fits (pf : Platform) {N K : Nat} {tag : Tag} (a b : FixedPoint N K tag)
    (ha : InRange (intermediateBits pf N) a.v) (hb : InRange (intermediateBits pf N) b.v)
    (hprod : InRange (intermediateBits pf N) (a.v * b.v)) :
    (FixedPoint.mul pf a b).v = wrap (storageBits pf tag N) (a.v * b.v / 2 ^ K) := by
  have hp := intermediateBits_pos pf N
  simp only [FixedPoint.mul]
  rw [wrap_eq_self hp ha, wrap_eq_self hp hb, wrap_eq_self hp hprod, shiftRight_eq_ediv]

/-- When the shifted dividend and the quotient fit the intermediate type,
`operator/` yields the truncated quotient of `a.v * 2^K` by `b.v` reduced to
the storage width. -/
theorem div_v_of_fits (pf : Platform) {N K : Nat} {tag : Tag} (a b : FixedPoint N K tag)
    (ha : InRange (intermediateBits pf N) a.v)
    (hshift : InRange (intermediateBits pf N) (a.v * 2 ^ K))
    (hquot : InRange (intermediateBits pf N) (Int.tdiv (a.v * 2 ^ K) b.v)) :
    (FixedPoint.div pf a b).v
      = wrap (storageBits pf tag N) (Int.tdiv (a.v * 2 ^ K) b.v) := by
  have hp := intermediateBits_pos pf N
  simp only [FixedPoint.div]
  rw [wrap_eq_self hp ha, wrap_eq_self hp hshift, wrap_eq_self hp hquot]

/-- The shifted floor quotient `(p / 2^K) * 2^K` fits a width that `p` fits,
when `K` is below that width. -/
theorem inRange_floor_shift {w K : Nat} (hK : K + 1 ≤ w) {p : Int} (hp : InRange w p) :
    InRange w (p / 2 ^ K * 2 ^ K) := by
  have hpos : (0 : Int) < 2 ^ K := by positivity
  have hsplit : (2 : Int) ^ (w - 1) = 2 ^ (w - 1 - K) * 2 ^ K := by
    rw [← pow_add]; congr 1; omega
  have hmod := Int.emod_nonneg p (ne_of_gt hpos)
  have hdecomp := Int.ediv_add_emod p (2 ^ K)
  constructor
  · have h1 : -(2 : Int) ^ (w - 1 - K) ≤ p / 2 ^ K := by
      rw [Int.le_ediv_iff_mul_le hpos]
      have := hp.1
      rw [hsplit] at this
      linarith
    rw [hsplit]
    nlinarith
  · have := hp.2
    nlinarith

/-- C2 (amended): for storage values `a`, `b` of one parameterisation with
`|b| ≥ 1` (raw `|b.v| ≥ 2^K`) whose product overflows neither the
intermediate type nor, after the shift, the storage type, the raw integer of
`(a * b) / b` differs from the raw integer of `a` by at most one unit. -/
theorem mul_div_roundtrip (pf : Platform) {N K : Nat} {tag : Tag}
    (hwf : WellFormed N K)
    (hsb : storageBits pf tag N ≤ intermediateBits pf N)
    (a b : FixedPoint N K tag) (ha : a.Valid pf) (hb : b.Valid pf)
    (hbK : 2 ^ K ≤ |b.v|)
    (hprod : InRange (intermediateBits pf N) (a.v * b.v))
    (hres : InRange (storageBits pf tag N) (a.v * b.v / 2 ^ K)) :
    |(FixedPoint.div pf (FixedPoint.mul pf a b) b).v - a.v| ≤ 1 := by
  have hsp := storageBits_pos pf tag N
  have hpos : (0 : Int) < 2 ^ K := by positivity
  have hbne : b.v ≠ 0 := by
    intro h0
    rw [h0] at hbK
    simp at hbK
    linarith
  have hmul : (FixedPoint.mul pf a b).v = a.v * b.v / 2 ^ K := by
    rw [mul_v_of_fits pf a b (ha.mono hsb) (hb.mono hsb) hprod, wrap_eq_self hsp hres]
  have hr0 := Int.emod_nonneg (a.v * b.v) (ne_of_gt hpos)
  have hr1 := Int.emod_lt_of_pos (a.v * b.v) hpos
  have hdecomp := Int.ediv_add_emod (a.v * b.v) (2 ^ K)
  have hq : a.v * b.v / 2 ^ K * 2 ^ K = a.v * b.v - a.v * b.v % 2 ^ K := by linarith
  have hcases := tdiv_mul_sub a.v b.v (a.v * b.v % 2 ^ K) hbne hr0 (by linarith)
  have ht : InRange (storageBits pf tag N)
        (Int.tdiv (a.v * b.v - a.v * b.v % 2 ^ K) b.v) ∧
      |Int.tdiv (a.v * b.v - a.v * b.v % 2 ^ K) b.v - a.v| ≤ 1 := by
    obtain ⟨ha1, ha2⟩ := ha
    rcases hcases with h | ⟨h, h2⟩ | ⟨h, h2⟩
    · rw [h]; exact ⟨⟨ha1, ha2⟩, by simp⟩
    · rw [h]
      refine ⟨⟨by linarith, by linarith⟩, ?_⟩
      rw [abs_le]; constructor <;> linarith
    · rw [h]
      refine ⟨⟨by linarith, ?_⟩, ?_⟩
      · have : (0 : Int) < 2 ^ (storageBits pf tag N - 1) := by positivity
        linarith
      · rw [abs_le]; constructor <;> linarith
  have hdiv : (FixedPoint.div pf (FixedPoint.mul pf a b) b).v
      = Int.tdiv (a.v * b.v - a.v * b.v % 2 ^ K) b.v := by
    rw [div_v_of_fits pf (FixedPoint.mul pf a b) b]
    · rw [hmul, hq]; exact wrap_eq_self hsp ht.1
    · rw [hmul]; exact hres.mono hsb
    · rw [hmul]; exact inRange_floor_shift (fracBits_lt_intermediate pf hwf) hprod
    · rw [hmul, hq]; exact ht.1.mono hsb
  rw [hdiv]
  exact ht.2

/-- Witness for C2 (amended): `FIXED<32, 16>`, `a` = 1.5 + 1/65536 and
`b` = 1.5; the round trip loses the lowest bit. -/
theorem mul_div_roundtrip_witness :
    (FixedPoint.div lp64
        (FixedPoint.mul lp64 (⟨98305⟩ : FixedPoint 32 16 Tag.FixedTag) ⟨98304⟩) ⟨98304⟩).v
      = 98304 ∧
    |(FixedPoint.div lp64
        (FixedPoint.mul lp64 (⟨98305⟩ : FixedPoint 32 16 Tag.FixedTag) ⟨98304⟩) ⟨98304⟩).v
      - (⟨98305⟩ : FixedPoint 32 16 Tag.FixedTag).v| ≤ 1 :=
  ⟨by decide!, mul_div_roundtrip lp64 (by decide) (by decide) ⟨98305⟩ ⟨98304⟩
    (by decide!) (by decide!) (by decide!) (by decide!) (by decide!)⟩

/-- C2 (counterexample): in `FIXED<32, 16>` take raw `a.v = 100` and raw
`b.v = 1`.  Both are storage values, `b` is non-zero and the product does not
overflow, yet `(a * b) / b` has raw value 0, which is 100 units from `a`. -/
theorem mul_div_roundtrip_counterexample :
    (⟨100⟩ : FixedPoint 32 16 Tag.FixedTag).Valid lp64 ∧
    (⟨1⟩ : FixedPoint 32 16 Tag.FixedTag).Valid lp64 ∧
    (⟨1⟩ : FixedPoint 32 16 Tag.FixedTag).v ≠ 0 ∧
    InRange (intermediateBits lp64 32) (100 * 1) ∧
    InRange (storageBits lp64 Tag.FixedTag 32) (100 * 1 / 2 ^ 16) ∧
    (FixedPoint.div lp64
        (FixedPoint.mul lp64 (⟨100⟩ : FixedPoint 32 16 Tag.FixedTag) ⟨1⟩) ⟨1⟩).v = 0 ∧
    ¬ |(FixedPoint.div lp64
        (FixedPoint.mul lp64 (⟨100⟩ : FixedPoint 32 16 Tag.FixedTag) ⟨1⟩) ⟨1⟩).v
      - (⟨100⟩ : FixedPoint 32 16 Tag.FixedTag).v| ≤ 1 := by
  decide!

/-- For the minimal-width variant with `N ≤ 32` the intermediate type is
wide enough: `operator*` yields the floor of `a.v * b.v / 2^K` reduced to
the storage width for all storage values. -/
theorem mul_exact_of_le_32 (pf : Platform) {N K : Nat} (hN : N ≤ 32)
    (a b : FixedPoint N K Tag.FixedTag) (ha : a.Valid pf) (hb : b.Valid pf) :
    (FixedPoint.mul pf a b).v
      = wrap (storageBits pf Tag.FixedTag N) (a.v * b.v / 2 ^ K) := by
  have h32 := pf.fast32_ge
  have h64 := pf.fast64_ge
  unfold FixedPoint.Valid at ha hb
  by_cases h16 : N ≤ 16
  · have hs : storageBits pf Tag.FixedTag N ≤ 16 := by
      unfold storageBits; simp only; split_ifs <;> omega
    have hi : intermediateBits pf N = pf.fast32 := by simp [intermediateBits, h16]
    have ha2 := ha.mono hs
    have hb2 := hb.mono hs
    have ha3 : InRange 32 a.v := ha2.mono (by decide)
    have hb3 : InRange 32 b.v := hb2.mono (by decide)
    have hprod : InRange 32 (a.v * b.v) := by
      obtain ⟨a1, a2⟩ := ha2
      obtain ⟨b1, b2⟩ := hb2
      norm_num [InRange] at a1 a2 b1 b2 ⊢
      constructor <;> nlinarith
    apply mul_v_of_fits
    · rw [hi]; exact ha3.mono h32
    · rw [hi]; exact hb3.mono h32
    · rw [hi]; exact hprod.mono h32
  · have hs : storageBits pf Tag.FixedTag N = 32 := by
      unfold storageBits; simp only; split_ifs <;> omega
    have hi : intermediateBits pf N = pf.fast64 := by simp [intermediateBits, h16]
    rw [hs] at ha hb
    have ha3 : InRange 64 a.v := ha.mono (by decide)
    have hb3 : InRange 64 b.v := hb.mono (by decide)
    have hprod : InRange 64 (a.v * b.v) := by
      obtain ⟨a1, a2⟩ := ha
      obtain ⟨b1, b2⟩ := hb
      norm_num [InRange] at a1 a2 b1 b2 ⊢
      constructor <;> nlinarith
    apply mul_v_of_fits
    · rw [hi]; exact ha3.mono h64
    · rw [hi]; exact hb3.mono h64
    · rw [hi]; exact hprod.mono h64

/-- C3 (failing input): in `FIXED<64, 32>` on LP64 the intermediate type has
the 64 bits of the storage type.  For `a = b = 32768` (raw `2^47`) the
product `2^94` wraps to 0 in it, so `operator*` returns raw 0, while the
floor of `a.v * b.v / 2^K` reduced to the storage width is `2^62`.  Likewise
`operator/` of `a = 1` by `b = 1` (both raw `2^32`) wraps in the left shift
and returns raw 0 in place of raw `2^32`. -/
theorem mul_intermediate_overflow_64 :
    WellFormed 64 32 ∧
    (FixedPoint.ofInt lp64 32768 : FixedPoint 64 32 Tag.FixedTag).v = 2 ^ 47 ∧
    (FixedPoint.ofInt lp64 32768 : FixedPoint 64 32 Tag.FixedTag).Valid lp64 ∧
    (FixedPoint.mul lp64 (FixedPoint.ofInt lp64 32768 : FixedPoint 64 32 Tag.FixedTag)
        (FixedPoint.ofInt lp64 32768)).v = 0 ∧
    wrap (storageBits lp64 Tag.FixedTag 64) ((2 : Int) ^ 47 * 2 ^ 47 / 2 ^ 32) = 2 ^ 62 ∧
    (FixedPoint.ofInt lp64 1 : FixedPoint 64 32 Tag.FixedTag).v = 2 ^ 32 ∧
    (FixedPoint.div lp64 (FixedPoint.ofInt lp64 1 : FixedPoint 64 32 Tag.FixedTag)
        (FixedPoint.ofInt lp64 1)).v = 0 ∧
    wrap (storageBits lp64 Tag.FixedTag 64) (Int.tdiv ((2 : Int) ^ 32 * 2 ^ 32) (2 ^ 32))
      = 2 ^ 32 := by
  decide!

/-! ## Conversions -/

theorem Integral.cast_eq_self (t : Integral) (ht : 0 < t.bits) {x : Int} (h : t.Holds x) :
    t.cast x = x := by
  unfold Integral.cast
  unfold Integral.Holds at h
  split_ifs at h ⊢
  · exact wrap_eq_self ht h
  · exact Int.emod_eq_of_lt h.1 h.2

theorem floor_div_two_pow (x : Int) (K : Nat) : ⌊(x : ℚ) / 2 ^ K⌋ = x / 2 ^ K := by
  have h := Rat.floor_intCast_div_natCast x (2 ^ K)
  push_cast at h
  exact h

/-- C4: conversion of a fixed-point value with raw integer `v` to an
integral type that holds the result yields the floor of `v / 2^K` (the
arithmetic right shift by `K`), rounding toward negative infinity also for
negative `v`; in general it yields that floor converted to the target type. -/
theorem toIntegral_floor {N K : Nat} {tag : Tag} (t : Integral) (ht : 0 < t.bits)
    (a : FixedPoint N K tag) :
    a.toIntegral t = t.cast ⌊(a.v : ℚ) / 2 ^ K⌋ ∧
    (t.Holds ⌊(a.v : ℚ) / 2 ^ K⌋ → a.toIntegral t = ⌊(a.v : ℚ) / 2 ^ K⌋) := by
  have h : a.toIntegral t = t.cast ⌊(a.v : ℚ) / 2 ^ K⌋ := by
    rw [floor_div_two_pow]
    simp only [FixedPoint.toIntegral, shiftRight_eq_ediv]
  refine ⟨h, fun hfit => ?_⟩
  rw [h]
  exact t.cast_eq_self ht hfit

/-- Witness for C4: in `FIXED<32, 16>` the value -0.5 (raw -32768) converts
to the 32-bit `int` -1. -/
theorem toIntegral_floor_witness :
    ⌊(((⟨-32768⟩ : FixedPoint 32 16 Tag.FixedTag).v : Int) : ℚ) / 2 ^ 16⌋ = -1 ∧
    (⟨-32768⟩ : FixedPoint 32 16 Tag.FixedTag).toIntegral ⟨32, true⟩ = -1 := by
  have hfl : ⌊(((⟨-32768⟩ : FixedPoint 32 16 Tag.FixedTag).v : Int) : ℚ) / 2 ^ 16⌋ = -1 := by
    rw [Int.floor_eq_iff]; norm_num
  have h := (toIntegral_floor ⟨32, true⟩ (by decide)
    (⟨-32768⟩ : FixedPoint 32 16 Tag.FixedTag)).2
  rw [hfl] at h
  exact ⟨hfl, h (by decide)⟩

/-- C5: for every integer `n` such that `n * 2^K` fits the storage type,
constructing a fixed-point value from `n` gives raw value `n * 2^K`, and
converting it to an integral type that holds `n` returns `n`. -/
theorem ofInt_toIntegral (pf : Platform) {N K : Nat} {tag : Tag} (n : Int)
    (hfit : InRange (storageBits pf tag N) (n * 2 ^ K))
    (t : Integral) (ht : 0 < t.bits) (hn : t.Holds n) :
    (FixedPoint.ofInt pf n : FixedPoint N K tag).v = n * 2 ^ K ∧
    (FixedPoint.ofInt pf n : FixedPoint N K tag).toIntegral t = n := by
  have hsp := storageBits_pos pf tag N
  have hpos : (1 : Int) ≤ 2 ^ K := one_le_pow₀ (by norm_num)
  have hbig : (0 : Int) < 2 ^ (storageBits pf tag N - 1) := by positivity
  have hnr : InRange (storageBits pf tag N) n := by
    obtain ⟨h1, h2⟩ := hfit
    constructor
    · by_cases h0 : 0 ≤ n
      · linarith
      · nlinarith
    · by_cases h0 : 0 ≤ n
      · nlinarith
      · linarith
  have hv : (FixedPoint.ofInt pf n : FixedPoint N K tag).v = n * 2 ^ K := by
    simp only [FixedPoint.ofInt]
    rw [wrap_eq_self hsp hnr, wrap_eq_self hsp hfit]
  refine ⟨hv, ?_⟩
  simp only [FixedPoint.toIntegral, shiftRight_eq_ediv]
  rw [hv, Int.mul_ediv_cancel _ (by positivity)]
  exact t.cast_eq_self ht hn

/-- Witness for C5: in `FIXED<32, 16>` the integer -3 is stored as raw
`-3 * 2^16` and converts back to the 32-bit `int` -3. -/
theorem ofInt_toIntegral_witness :
    (FixedPoint.ofInt lp64 (-3) : FixedPoint 32 16 Tag.FixedTag).v = -3 * 2 ^ 16 ∧
    (FixedPoint.ofInt lp64 (-3) : FixedPoint 32 16 Tag.FixedTag).toIntegral ⟨32, true⟩ = -3 :=
  ofInt_toIntegral lp64 (-3) (by decide!) ⟨32, true⟩ (by decide) (by decide!)

/-! ## Equality across parameterisations -/

/-- C6: for `a` with `K1` and `b` with `K2 ≠ K1` fractional bits, whenever the
raw value of the operand with fewer fractional bits can be shifted left by
`|K1 - K2|` without overflow (in the promoted type the shift is evaluated
in), `a == b` holds exactly when `a.v * 2^K2 = b.v * 2^K1`, and `a != b` is
its negation. -/
theorem eqMixed_iff (pf : Platform) {N1 K1 N2 K2 : Nat} {t1 t2 : Tag}
    (a : FixedPoint N1 K1 t1) (b : FixedPoint N2 K2 t2) (hK : K1 ≠ K2)
    (hshift : if K1 > K2 then InRange (promotedBits pf t2 N2) (b.v * 2 ^ (K1 - K2))
      else InRange (promotedBits pf t1 N1) (a.v * 2 ^ (K2 - K1))) :
    (eqMixed pf a b = true ↔ a.v * 2 ^ K2 = b.v * 2 ^ K1) ∧
    neMixed pf a b = !(eqMixed pf a b) := by
  refine ⟨?_, rfl⟩
  have hpp : ∀ (t : Tag) (n : Nat), 0 < promotedBits pf t n := fun t n =>
    lt_of_lt_of_le (storageBits_pos pf t n) (le_max_right _ _)
  unfold eqMixed
  by_cases h : K1 > K2
  · rw [if_pos h] at hshift
    rw [if_pos h, wrap_eq_self (hpp t2 N2) hshift]
    have hsplit : (2 : Int) ^ K1 = 2 ^ (K1 - K2) * 2 ^ K2 := by
      rw [← pow_add]; congr 1; omega
    have hpos : (0 : Int) < 2 ^ K2 := by positivity
    rw [beq_iff_eq, hsplit, ← mul_assoc]
    constructor
    · intro h1; rw [h1]
    · intro h1; exact mul_right_cancel₀ (ne_of_gt hpos) h1
  · have h2 : K2 > K1 := by omega
    rw [if_neg h] at hshift
    rw [if_neg h, if_pos h2, wrap_eq_self (hpp t1 N1) hshift]
    have hsplit : (2 : Int) ^ K2 = 2 ^ (K2 - K1) * 2 ^ K1 := by
      rw [← pow_add]; congr 1; omega
    have hpos : (0 : Int) < 2 ^ K1 := by positivity
    rw [beq_iff_eq, hsplit, ← mul_assoc]
    constructor
    · intro h1; rw [h1]
    · intro h1; exact mul_right_cancel₀ (ne_of_gt hpos) h1

/-- Witness for C6: 1.5 in `FIXED<32, 16>` (raw 98304) equals 1.5 in
`FIXED<16, 8>` (raw 384). -/
theorem eqMixed_iff_witness :
    eqMixed lp64 (⟨98304⟩ : FixedPoint 32 16 Tag.FixedTag)
      (⟨384⟩ : FixedPoint 16 8 Tag.FixedTag) = true ∧
    ((98304 : Int) * 2 ^ 8 = 384 * 2 ^ 16) :=
  ⟨((eqMixed_iff lp64 (⟨98304⟩ : FixedPoint 32 16 Tag.FixedTag)
      (⟨384⟩ : FixedPoint 16 8 Tag.FixedTag) (by decide) (by decide!)).1).2 (by decide!),
    by decide!⟩

/-! ## The configuration guard -/

namespace Simulator

variable {N K : Nat} {tag : Tag}

/-- C7 (amended): `run_simulation` executes no tick and leaves the state as
loaded whenever the configured gravity is exactly zero, the density of air
is exactly zero, or the density of liquid is zero or negative. -/
theorem run_simulation_guard (pf : Platform) (fuel T : Nat) (s : Simulator N K tag)
    (h : s.g_.v = 0 ∨ (s.rho_ ' ').v = 0 ∨ (s.rho_ '.').v ≤ 0) :
    run_simulation pf fuel T s = Except.ok s := by
  have hrej : config_rejected s = true := by
    unfold config_rejected
    rcases h with h | h | h
    · simp [h]
    · simp [h]
    · by_cases h1 : (s.rho_ ' ').v = 0 ∨ s.g_.v = 0
      · simp [h1]
      · simp [h1, h]
  simp [run_simulation, hrej]


/-- Witness for C7 (amended): with gravity 0 the run of 3 ticks returns the
loaded state. -/
theorem run_simulation_guard_witness :
    run_simulation lp64 8 3 (columnSim 0 65536 65536) = Except.ok (columnSim 0 65536 65536) :=
  run_simulation_guard lp64 8 3 (columnSim 0 65536 65536) (Or.inl rfl)

/-- C7 (counterexample): with gravity -1 and both densities 1 the guard does
not abort and one tick changes the loaded velocity (the downward velocity of
the upper cell becomes -1); with gravity 1 and air density -1 the guard does
not abort either and one tick changes the loaded pressure of the lower
cell.  (No draw takes part: no velocity is positive in the movement pass.) -/
theorem run_simulation_guard_counterexample :
    (columnSim (-65536) 65536 65536).g_.v < 0 ∧
    ((columnSim (-65536) 65536 65536).velocity.get 1 1 1 0).v = 0 ∧
    (run_simulation lp64 8 1 (columnSim (-65536) 65536 65536)).toOption.map
      (fun s => (s.velocity.get 1 1 1 0).v) = some (-65536) ∧
    ((columnSim 65536 (-65536) 65536).rho_ ' ').v < 0 ∧
    ((columnSim 65536 (-65536) 65536).p 2 1).v = 0 ∧
    (run_simulation lp64 8 1 (columnSim 65536 (-65536) 65536)).toOption.map
      (fun s => (s.p 2 1).v) = some (-65536) := by
  decide!

end Simulator

/-! ## Flow propagation -/

namespace Simulator

variable {N K : Nat} {tag : Tag}

theorem FlowFrame.exit (s : Simulator N K tag) (x y : Int) (vf : VectorField N K tag)
    (hvf : ∀ a b, (a, b) ≠ (x, y) → vf.v a b = s.velocity_flow.v a b) :
    FlowFrame s x y { s with velocity_flow := vf, last_use := set2 s.last_use x y s.UT } := by
  refine ⟨rfl, rfl, rfl, rfl, rfl, rfl, rfl, rfl, rfl, rfl, rfl, ?_, ?_, ?_, ?_⟩
  · intro a b
    simp only [set2]
    split_ifs <;> simp
  · simp [set2]
  · intro a b hab _
    have : ¬ (a = x ∧ b = y) := fun h => hab (by rw [h.1, h.2])
    simp [set2, this]
  · intro a b hab _
    exact hvf a b hab

theorem FlowFrame.trans_sub {s s2 s3 : Simulator N K tag} {x y nx ny : Int}
    (h1 : FlowFrame s nx ny s2) (h2 : FlowFrame s2 x y s3)
    (hn : s.last_use nx ny < s.UT - 1) : FlowFrame s x y s3 := by
  have hne : ∀ a b, s.UT - 1 ≤ s.last_use a b → (a, b) ≠ (nx, ny) := by
    intro a b hab heq
    simp only [Prod.mk.injEq] at heq
    rw [heq.1, heq.2] at hab
    omega
  refine ⟨h2.rho_eq.trans h1.rho_eq, h2.g_eq.trans h1.g_eq, h2.dirs_eq.trans h1.dirs_eq,
    h2.p_eq.trans h1.p_eq, h2.old_p_eq.trans h1.old_p_eq, h2.rows_eq.trans h1.rows_eq,
    h2.cols_eq.trans h1.cols_eq, h2.field_eq.trans h1.field_eq,
    h2.velocity_eq.trans h1.velocity_eq, h2.UT_eq.trans h1.UT_eq,
    h2.rng_eq.trans h1.rng_eq, ?_, ?_, ?_, ?_⟩
  · intro a b
    rcases h2.stamp a b with h | h
    · rw [h]; exact h1.stamp a b
    · right; rw [h, h1.UT_eq]
  · rw [h2.stamp_start, h1.UT_eq]
  · intro a b hab hst
    have h3 := h1.stamp_keep a b (hne a b hst) hst
    rw [h2.stamp_keep a b hab (by rw [h1.UT_eq, h3]; exact hst), h3]
  · intro a b hab hst
    have h3 := h1.stamp_keep a b (hne a b hst) hst
    rw [h2.flow_keep a b hab (by rw [h1.UT_eq, h3]; exact hst),
      h1.flow_keep a b (hne a b hst) hst]

theorem VectorField_add_other (pf : Platform) (f : VectorField N K tag) (x y dx dy : Int)
    (dv : FixedPoint N K tag) (a b : Int) (hab : (a, b) ≠ (x, y)) :
    (f.add pf x y dx dy dv).v a b = f.v a b := by
  funext k
  have : ¬ (a = x ∧ b = y ∧ k = VectorField.index dx dy) :=
    fun h => hab (by rw [h.1, h.2.1])
  simp [VectorField.add, VectorField.set, this]

theorem propagate_flow_loop_frame (pf : Platform)
    (call : Simulator N K tag → Int → Int → FixedPoint N K tag →
      Except Fault (FlowOut N K tag))
    (hcall : ∀ s1 nx ny vp r1, call s1 nx ny vp = Except.ok r1 → FlowFrame s1 nx ny r1.sim)
    (x y : Int) (lim : FixedPoint N K tag) :
    ∀ (ds : List (Int × Int)) (s : Simulator N K tag) (ret : FixedPoint N K tag) (calls : Nat)
      (r : FlowOut N K tag),
      propagate_flow_loop pf call x y lim ds s ret calls = Except.ok r →
      FlowFrame s x y r.sim := by
  intro ds
  induction ds with
  | nil =>
    intro s ret calls r h
    simp only [propagate_flow_loop, Except.ok.injEq] at h
    subst h
    exact FlowFrame.exit s x y s.velocity_flow (fun _ _ _ => rfl)
  | cons d ds ih =>
    intro s ret calls r h
    obtain ⟨dx, dy⟩ := d
    simp only [propagate_flow_loop] at h
    split_ifs at h with h1 h2 h3
    · exact ih s ret calls r h
    · simp only [Except.ok.injEq] at h
      subst h
      exact FlowFrame.exit s x y _ (fun a b hab => VectorField_add_other pf _ x y dx dy _ a b hab)
    · split at h
      · exact absurd h (by simp)
      · rename_i r1 hr1
        have hf1 := hcall _ _ _ _ _ hr1
        have hlt : s.last_use (x + dx) (y + dy) < s.UT - 1 := by omega
        split_ifs at h with h4
        · simp only [Except.ok.injEq] at h
          subst h
          refine FlowFrame.trans_sub hf1 ?_ hlt
          have := FlowFrame.exit r1.sim x y (r1.sim.velocity_flow.add pf x y dx dy r1.t)
            (fun a b hab => VectorField_add_other pf _ x y dx dy _ a b hab)
          exact this
        · exact FlowFrame.trans_sub hf1 (ih _ _ _ r h) hlt
    · exact ih s ret calls r h

theorem propagate_flow_frame (pf : Platform) :
    ∀ (fuel : Nat) (s : Simulator N K tag) (x y : Int) (lim : FixedPoint N K tag)
      (r : FlowOut N K tag),
      propagate_flow pf fuel s x y lim = Except.ok r → FlowFrame s x y r.sim := by
  intro fuel
  induction fuel with
  | zero => intro s x y lim r h; simp [propagate_flow] at h
  | succ n ih =>
    intro s x y lim r h
    simp only [propagate_flow] at h
    have hl := propagate_flow_loop_frame pf _ (fun s1 nx ny vp r1 h1 => ih s1 nx ny vp r1 h1)
      x y lim _ _ _ _ r h
    refine ⟨hl.rho_eq, hl.g_eq, hl.dirs_eq, hl.p_eq, hl.old_p_eq, hl.rows_eq, hl.cols_eq,
      hl.field_eq, hl.velocity_eq, hl.UT_eq, hl.rng_eq, ?_, hl.stamp_start, ?_, ?_⟩
    · intro a b
      by_cases hab : (a, b) = (x, y)
      · simp only [Prod.mk.injEq] at hab
        right; rw [hab.1, hab.2]; exact hl.stamp_start
      · have hne : ¬ (a = x ∧ b = y) := fun h => hab (by rw [h.1, h.2])
        have := hl.stamp a b
        simpa [set2, hne] using this
    · intro a b hab hst
      have hne : ¬ (a = x ∧ b = y) := fun h => hab (by rw [h.1, h.2])
      have := hl.stamp_keep a b hab (by simpa [set2, hne] using hst)
      simpa [set2, hne] using this
    · intro a b hab hst
      have hne : ¬ (a = x ∧ b = y) := fun h => hab (by rw [h.1, h.2])
      have := hl.flow_keep a b hab (by simpa [set2, hne] using hst)
      simpa using this

theorem mem_cells (rows cols : Nat) (x y : Int) :
    (x, y) ∈ cells rows cols ↔ 0 ≤ x ∧ x < rows ∧ 0 ≤ y ∧ y < cols := by
  simp only [cells, List.mem_flatMap, List.mem_map, List.mem_range, Prod.mk.injEq]
  constructor
  · rintro ⟨a, ha, b, hb, rfl, rfl⟩
    omega
  · rintro ⟨h1, h2, h3, h4⟩
    exact ⟨x.toNat, by omega, y.toNat, by omega, by omega, by omega⟩

theorem mem_deltas (d : Int × Int) :
    d ∈ deltas ↔ d = (-1, 0) ∨ d = (1, 0) ∨ d = (0, -1) ∨ d = (0, 1) := by
  simp [deltas]

theorem neighbour_mem_cells (s : Simulator N K tag) (hb : BorderWalls s) (x y : Int)
    (hxy : (x, y) ∈ cells s.rows s.cols) (hf : s.field x y ≠ '#') (d : Int × Int)
    (hd : d ∈ deltas) : (x + d.1, y + d.2) ∈ cells s.rows s.cols := by
  have hnb : ¬ (x = 0 ∨ x + 1 = s.rows ∨ y = 0 ∨ y + 1 = s.cols) :=
    fun h => hf (hb (x, y) hxy h)
  rw [mem_cells] at hxy ⊢
  simp only [not_or] at hnb
  rw [mem_deltas] at hd
  rcases hd with rfl | rfl | rfl | rfl <;> simp only <;> omega

theorem countP_lt_of_mem {α : Type} (l : List α) (p q : α → Bool)
    (hpq : ∀ c ∈ l, p c = true → q c = true) (c : α) (hc : c ∈ l)
    (hq : q c = true) (hp : p c = false) : l.countP p < l.countP q := by
  induction l with
  | nil => simp at hc
  | cons a l ih =>
    have hle : l.countP p ≤ l.countP q :=
      List.countP_mono_left (fun x hx hpx => hpq x (List.mem_cons_of_mem _ hx) hpx)
    rcases List.mem_cons.1 hc with rfl | hcl
    · rw [List.countP_cons_of_pos _ _ hq, List.countP_cons_of_neg _ _ (by simp [hp])]
      omega
    · have ih2 := ih (fun x hx hpx => hpq x (List.mem_cons_of_mem _ hx) hpx) hcl
      by_cases hpa : p a = true
      · rw [List.countP_cons_of_pos _ _ hpa,
          List.countP_cons_of_pos _ _ (hpq a (List.mem_cons_self _ _) hpa)]
        omega
      · rw [List.countP_cons_of_neg _ _ hpa]
        by_cases hqa : q a = true
        · rw [List.countP_cons_of_pos _ _ hqa]; omega
        · rw [List.countP_cons_of_neg _ _ hqa]; exact ih2

theorem pending_le_of_frame {s s' : Simulator N K tag} {x y : Int}
    (h : FlowFrame s x y s') : pending s' ≤ pending s := by
  unfold pending
  rw [h.rows_eq, h.cols_eq, h.field_eq, h.UT_eq]
  apply List.countP_mono_left
  intro c _ hc
  simp only [decide_eq_true_eq] at hc ⊢
  refine ⟨hc.1, ?_⟩
  rcases h.stamp c.1 c.2 with h1 | h1
  · rw [← h1]; exact hc.2
  · have := hc.2; omega

theorem pending_mark_lt (s : Simulator N K tag) (x y : Int) (v : Int) (hv : s.UT - 1 ≤ v)
    (hxy : (x, y) ∈ cells s.rows s.cols) (hf : s.field x y ≠ '#')
    (hst : s.last_use x y < s.UT - 1) :
    pending { s with last_use := set2 s.last_use x y v } < pending s := by
  unfold pending
  apply countP_lt_of_mem _ _ _ _ (x, y) hxy
  · simp [hf, hst]
  · simp [set2]; intro _; omega
  · intro c _ hc
    simp only [decide_eq_true_eq, set2] at hc ⊢
    refine ⟨hc.1, ?_⟩
    have h2 := hc.2
    split_ifs at h2 with h3
    · omega
    · exact h2

theorem pending_mark_lt_nonWall (s : Simulator N K tag) (x y : Int)
    (hxy : (x, y) ∈ cells s.rows s.cols) (hf : s.field x y ≠ '#') :
    pending { s with last_use := set2 s.last_use x y (s.UT - 1) } < nonWallCount s := by
  unfold pending nonWallCount
  apply countP_lt_of_mem _ _ _ _ (x, y) hxy
  · simp [hf]
  · simp [set2]
  · intro c _ hc
    simp only [decide_eq_true_eq] at hc ⊢
    exact hc.1

theorem BorderWalls.of_frame {s s' : Simulator N K tag} {x y : Int} (hb : BorderWalls s)
    (h : FlowFrame s x y s') : BorderWalls s' := by
  unfold BorderWalls
  rw [h.rows_eq, h.cols_eq, h.field_eq]
  exact hb

theorem propagate_flow_loop_terminates (pf : Platform) (fuel : Nat)
    (call : Simulator N K tag → Int → Int → FixedPoint N K tag →
      Except Fault (FlowOut N K tag))
    (hframe : ∀ s1 nx ny vp r1, call s1 nx ny vp = Except.ok r1 → FlowFrame s1 nx ny r1.sim)
    (hcall : ∀ (s1 : Simulator N K tag) (nx ny : Int) (vp : FixedPoint N K tag),
      BorderWalls s1 → (nx, ny) ∈ cells s1.rows s1.cols → s1.field nx ny ≠ '#' →
      pending { s1 with last_use := set2 s1.last_use nx ny (s1.UT - 1) } < fuel →
      ∃ r1, call s1 nx ny vp = Except.ok r1 ∧
        r1.calls + pending r1.sim
          ≤ pending { s1 with last_use := set2 s1.last_use nx ny (s1.UT - 1) } + 1)
    (x y : Int) (lim : FixedPoint N K tag) :
    ∀ (ds : List (Int × Int)) (s : Simulator N K tag) (ret : FixedPoint N K tag) (calls : Nat),
      (∀ d ∈ ds, d ∈ deltas) → BorderWalls s → (x, y) ∈ cells s.rows s.cols →
      s.field x y ≠ '#' → pending s ≤ fuel →
      ∃ r, propagate_flow_loop pf call x y lim ds s ret calls = Except.ok r ∧
        r.calls + pending r.sim ≤ calls + pending s := by
  intro ds
  induction ds with
  | nil =>
    intro s ret calls _ _ _ _ _
    refine ⟨_, rfl, ?_⟩
    have := pending_le_of_frame (FlowFrame.exit s x y s.velocity_flow (fun _ _ _ => rfl))
    simp only at this ⊢
    omega
  | cons d ds ih =>
    intro s ret calls hds hb hxy hf hp
    obtain ⟨dx, dy⟩ := d
    have hds2 : ∀ d ∈ ds, d ∈ deltas := fun d hd => hds d (List.mem_cons_of_mem _ hd)
    simp only [propagate_flow_loop]
    split_ifs with h1 h2 h3
    · exact ih s ret calls hds2 hb hxy hf hp
    · refine ⟨_, rfl, ?_⟩
      have := pending_le_of_frame (FlowFrame.exit s x y
        (s.velocity_flow.add pf x y dx dy (FixedPoint.min lim
          (FixedPoint.sub pf (s.velocity.get x y dx dy) (s.velocity_flow.get x y dx dy))))
        (fun a b hab => VectorField_add_other pf _ x y dx dy _ a b hab))
      simp only at this ⊢
      omega
    · have hn := neighbour_mem_cells s hb x y hxy hf (dx, dy) (hds _ (List.mem_cons_self _ _))
      have hlt : s.last_use (x + dx) (y + dy) < s.UT - 1 := by omega
      have hm := pending_mark_lt s (x + dx) (y + dy) (s.UT - 1) (le_refl _) hn h1.1 hlt
      obtain ⟨r1, hr1, hc1⟩ := hcall s (x + dx) (y + dy)
        (FixedPoint.min lim
          (FixedPoint.sub pf (s.velocity.get x y dx dy) (s.velocity_flow.get x y dx dy)))
        hb hn h1.1 (by omega)
      have hf1 := hframe _ _ _ _ _ hr1
      rw [hr1]
      simp only
      split_ifs with h4
      · refine ⟨_, rfl, ?_⟩
        have := pending_le_of_frame (FlowFrame.exit r1.sim x y
          (r1.sim.velocity_flow.add pf x y dx dy r1.t)
          (fun a b hab => VectorField_add_other pf _ x y dx dy _ a b hab))
        simp only at this ⊢
        omega
      · obtain ⟨r, hr, hc⟩ := ih r1.sim (FixedPoint.add pf ret r1.t) (calls + r1.calls) hds2
          (hb.of_frame hf1) (by rw [hf1.rows_eq, hf1.cols_eq]; exact hxy)
          (by rw [hf1.field_eq]; exact hf) (by omega)
        exact ⟨r, hr, by omega⟩
    · exact ih s ret calls hds2 hb hxy hf hp

theorem propagate_flow_terminates (pf : Platform) :
    ∀ (fuel : Nat) (s : Simulator N K tag) (x y : Int) (lim : FixedPoint N K tag),
      BorderWalls s → (x, y) ∈ cells s.rows s.cols → s.field x y ≠ '#' →
      pending { s with last_use := set2 s.last_use x y (s.UT - 1) } < fuel →
      ∃ r, propagate_flow pf fuel s x y lim = Except.ok r ∧
        r.calls + pending r.sim
          ≤ pending { s with last_use := set2 s.last_use x y (s.UT - 1) } + 1 := by
  intro fuel
  induction fuel with
  | zero => intro s x y lim _ _ _ h; omega
  | succ n ih =>
    intro s x y lim hb hxy hf hp
    simp only [propagate_flow]
    obtain ⟨r, hr, hc⟩ := propagate_flow_loop_terminates pf n
      (fun s1 nx ny vp => propagate_flow pf n s1 nx ny vp)
      (fun s1 nx ny vp r1 h1 => propagate_flow_frame pf n s1 nx ny vp r1 h1)
      (fun s1 nx ny vp h1 h2 h3 h4 => ih s1 nx ny vp h1 h2 h3 h4)
      x y lim deltas { s with last_use := set2 s.last_use x y (s.UT - 1) }
      (FixedPoint.ofInt pf 0) 1 (fun d hd => hd) hb hxy hf (by omega)
    exact ⟨r, hr, by omega⟩

theorem index_lt_four (d : Int × Int) (hd : d ∈ deltas) : VectorField.index d.1 d.2 < 4 := by
  rw [mem_deltas] at hd
  rcases hd with rfl | rfl | rfl | rfl <;> decide

theorem neighbour_ne (x y : Int) (d : Int × Int) (hd : d ∈ deltas) :
    (x, y) ≠ (x + d.1, y + d.2) := by
  rw [mem_deltas] at hd
  intro h
  simp only [Prod.mk.injEq] at h
  rcases hd with rfl | rfl | rfl | rfl <;> simp at h

theorem FixedPoint.ext_v {a b : FixedPoint N K tag} (h : a.v = b.v) : a = b := by
  cases a; cases b; simp_all

theorem FixedPoint.min_v (a b : FixedPoint N K tag) :
    (FixedPoint.min a b).v = if b.v < a.v then b.v else a.v := by
  unfold FixedPoint.min
  split_ifs <;> rfl

theorem VectorField.add_v (pf : Platform) (f : VectorField N K tag) (x y dx dy : Int)
    (dv : FixedPoint N K tag) (a b : Int) (k : Nat) :
    (f.add pf x y dx dy dv).v a b k =
      if a = x ∧ b = y ∧ k = VectorField.index dx dy
      then FixedPoint.add pf (f.get x y dx dy) dv else f.v a b k := rfl

/-- Adding an amount within the spare capacity to one edge keeps the flow
invariant and decreases no flow entry. -/
theorem FlowInv.add_edge (pf : Platform) (s s' : Simulator N K tag) (x y dx dy : Int)
    (t : FixedPoint N K tag) (hrows : s'.rows = s.rows) (hcols : s'.cols = s.cols)
    (hv : s'.velocity = s.velocity)
    (hf : s'.velocity_flow = s.velocity_flow.add pf x y dx dy t)
    (hxy : (x, y) ∈ cells s.rows s.cols) (hd : (dx, dy) ∈ deltas)
    (hinv : FlowInv pf s) (h0 : 0 ≤ t.v)
    (h1 : t.v ≤ (s.velocity.get x y dx dy).v - (s.velocity_flow.get x y dx dy).v) :
    FlowInv pf s' ∧ FlowMono s s' ∧
      (s'.velocity_flow.get x y dx dy).v = (s.velocity_flow.get x y dx dy).v + t.v := by
  have hsp := storageBits_pos pf tag N
  obtain ⟨e1, e2, e3, e4⟩ := hinv (x, y) hxy (VectorField.index dx dy)
    (index_lt_four (dx, dy) hd)
  simp only at e1 e2 e3 e4
  have hval : (FixedPoint.add pf (s.velocity_flow.get x y dx dy) t).v
      = (s.velocity_flow.get x y dx dy).v + t.v := by
    simp only [FixedPoint.add]
    apply wrap_eq_self hsp
    simp only [VectorField.get] at h1 ⊢
    exact ⟨by linarith [e2.1], by linarith [e3.2]⟩
  refine ⟨?_, ?_, ?_⟩
  · intro c hc k hk
    rw [hrows, hcols] at hc
    rw [hv, hf, VectorField.add_v]
    split_ifs with h
    · obtain ⟨h1x, h1y, rfl⟩ := h
      rw [h1x, h1y, hval]
      simp only [VectorField.get] at h1 ⊢
      have hpos : (0 : Int) < 2 ^ (storageBits pf tag N - 1) := by positivity
      exact ⟨by linarith, ⟨by linarith [e2.1], by linarith [e3.2]⟩, e3,
        ⟨by linarith, by linarith [e4.2]⟩⟩
    · exact hinv c hc k hk
  · intro a b k
    rw [hf, VectorField.add_v]
    split_ifs with h
    · obtain ⟨rfl, rfl, rfl⟩ := h
      rw [hval]
      simp only [VectorField.get]
      linarith
    · exact le_refl _
  · rw [hf]
    simp only [VectorField.get, VectorField.add_v, true_and, and_self, if_true]
    exact hval

theorem FlowMono.andThen {s1 s2 s3 : Simulator N K tag} (h1 : FlowMono s1 s2)
    (h2 : FlowMono s2 s3) : FlowMono s1 s3 :=
  fun a b k => le_trans (h1 a b k) (h2 a b k)

theorem FlowGrew.of_mono_right {s1 s2 s3 : Simulator N K tag} (h1 : FlowGrew s1 s2)
    (h2 : FlowMono s2 s3) : FlowGrew s1 s3 := by
  obtain ⟨a, b, k, hc, hk, hlt⟩ := h1
  exact ⟨a, b, k, hc, hk, lt_of_lt_of_le hlt (h2 a b k)⟩

theorem FlowGrew.of_mono_left {s1 s2 s3 : Simulator N K tag} (h1 : FlowMono s1 s2)
    (h2 : FlowGrew s2 s3) (hr : s2.rows = s1.rows) (hc : s2.cols = s1.cols) :
    FlowGrew s1 s3 := by
  obtain ⟨a, b, k, hm, hk, hlt⟩ := h2
  rw [hr, hc] at hm
  exact ⟨a, b, k, hm, hk, lt_of_le_of_lt (h1 a b k) hlt⟩

/-- The spare capacity of an unsaturated edge, cut to a positive limit. -/
theorem spare_cut (pf : Platform) (s : Simulator N K tag) (hinv : FlowInv pf s)
    (x y dx dy : Int) (hxy : (x, y) ∈ cells s.rows s.cols) (hd : (dx, dy) ∈ deltas)
    (lim : FixedPoint N K tag) (hlim : 0 < lim.v)
    (hne : ¬ s.velocity_flow.get x y dx dy = s.velocity.get x y dx dy) :
    0 < (FixedPoint.min lim (FixedPoint.sub pf (s.velocity.get x y dx dy)
        (s.velocity_flow.get x y dx dy))).v ∧
    (FixedPoint.min lim (FixedPoint.sub pf (s.velocity.get x y dx dy)
        (s.velocity_flow.get x y dx dy))).v ≤ lim.v ∧
    (FixedPoint.min lim (FixedPoint.sub pf (s.velocity.get x y dx dy)
        (s.velocity_flow.get x y dx dy))).v
      ≤ (s.velocity.get x y dx dy).v - (s.velocity_flow.get x y dx dy).v := by
  have hsp := storageBits_pos pf tag N
  obtain ⟨e1, _, _, e4⟩ := hinv (x, y) hxy (VectorField.index dx dy)
    (index_lt_four (dx, dy) hd)
  simp only at e1 e4
  have hne2 : (s.velocity_flow.get x y dx dy).v ≠ (s.velocity.get x y dx dy).v :=
    fun h => hne (FixedPoint.ext_v h)
  have hsub : (FixedPoint.sub pf (s.velocity.get x y dx dy) (s.velocity_flow.get x y dx dy)).v
      = (s.velocity.get x y dx dy).v - (s.velocity_flow.get x y dx dy).v := by
    simp only [FixedPoint.sub]
    exact wrap_eq_self hsp e4
  simp only [VectorField.get] at hne2 hsub ⊢
  rw [FixedPoint.min_v, hsub]
  have hlt : (s.velocity_flow.v x y (VectorField.index dx dy)).v
      < (s.velocity.v x y (VectorField.index dx dy)).v := lt_of_le_of_ne e1 hne2
  split_ifs with h
  · exact ⟨by linarith, by linarith, le_refl _⟩
  · exact ⟨hlim, le_refl _, by linarith⟩

theorem FixedPoint.add_zero_v (pf : Platform) (a b : FixedPoint N K tag)
    (ha : InRange (storageBits pf tag N) a.v) (hb : b.v = 0) : FixedPoint.add pf a b = a := by
  apply FixedPoint.ext_v
  simp only [FixedPoint.add, hb, add_zero]
  exact wrap_eq_self (storageBits_pos pf tag N) ha

theorem FixedPoint.add_inRange (pf : Platform) (a b : FixedPoint N K tag) :
    InRange (storageBits pf tag N) (FixedPoint.add pf a b).v :=
  wrap_inRange (storageBits_pos pf tag N) _

/-- The state after committing an amount within the spare capacity to the
edge `(x, y, d)` and restamping. -/
theorem FlowInv.commit (pf : Platform) (s : Simulator N K tag) (x y dx dy : Int)
    (t : FixedPoint N K tag) (L : Int → Int → Int)
    (hxy : (x, y) ∈ cells s.rows s.cols) (hd : (dx, dy) ∈ deltas)
    (hinv : FlowInv pf s) (h0 : 0 < t.v)
    (h1 : t.v ≤ (s.velocity.get x y dx dy).v - (s.velocity_flow.get x y dx dy).v) :
    FlowInv pf { s with velocity_flow := s.velocity_flow.add pf x y dx dy t, last_use := L } ∧
    FlowMono s { s with velocity_flow := s.velocity_flow.add pf x y dx dy t, last_use := L } ∧
    (s.velocity_flow.v x y (VectorField.index dx dy)).v
      < ((s.velocity_flow.add pf x y dx dy t).v x y (VectorField.index dx dy)).v := by
  obtain ⟨i1, i2, i3⟩ := FlowInv.add_edge pf s
    { s with velocity_flow := s.velocity_flow.add pf x y dx dy t, last_use := L }
    x y dx dy t rfl rfl rfl rfl hxy hd hinv (le_of_lt h0) h1
  refine ⟨i1, i2, ?_⟩
  simp only [VectorField.get] at i3
  rw [i3]
  linarith

theorem propagate_flow_loop_post (pf : Platform)
    (call : Simulator N K tag → Int → Int → FixedPoint N K tag →
      Except Fault (FlowOut N K tag))
    (hframe : ∀ s1 nx ny vp r1, call s1 nx ny vp = Except.ok r1 → FlowFrame s1 nx ny r1.sim)
    (hcall : ∀ (s1 : Simulator N K tag) (nx ny : Int) (vp : FixedPoint N K tag)
      (r1 : FlowOut N K tag), call s1 nx ny vp = Except.ok r1 →
      BorderWalls s1 → (nx, ny) ∈ cells s1.rows s1.cols → s1.field nx ny ≠ '#' →
      FlowInv pf s1 → 0 < vp.v → FlowPost pf s1 vp r1)
    (x y : Int) (lim : FixedPoint N K tag) (hlim : 0 < lim.v) :
    ∀ (ds : List (Int × Int)) (s : Simulator N K tag) (ret : FixedPoint N K tag) (calls : Nat)
      (r : FlowOut N K tag),
      propagate_flow_loop pf call x y lim ds s ret calls = Except.ok r →
      (∀ d ∈ ds, d ∈ deltas) → BorderWalls s → (x, y) ∈ cells s.rows s.cols →
      s.field x y ≠ '#' → s.last_use x y = s.UT - 1 → FlowInv pf s →
      InRange (storageBits pf tag N) ret.v →
      FlowInv pf r.sim ∧ FlowMono s r.sim ∧ (r.prop = true → 0 < r.t.v ∧ r.t.v ≤ lim.v) ∧
        (r.t = ret ∨ FlowGrew s r.sim) := by
  intro ds
  induction ds with
  | nil =>
    intro s ret calls r h _ _ _ _ _ hinv _
    simp only [propagate_flow_loop, Except.ok.injEq] at h
    subst h
    exact ⟨hinv, fun _ _ _ => le_refl _, by simp, Or.inl rfl⟩
  | cons d ds ih =>
    intro s ret calls r h hds hb hxy hf hst hinv hret
    obtain ⟨dx, dy⟩ := d
    have hd : (dx, dy) ∈ deltas := hds _ (List.mem_cons_self _ _)
    have hds2 : ∀ d ∈ ds, d ∈ deltas := fun d hd => hds d (List.mem_cons_of_mem _ hd)
    simp only [propagate_flow_loop] at h
    split_ifs at h with h1 h2 h3
    · exact ih s ret calls r h hds2 hb hxy hf hst hinv hret
    · -- the neighbour is in progress: the spare capacity is committed
      obtain ⟨c1, c2, c3⟩ := spare_cut pf s hinv x y dx dy hxy hd lim hlim h2
      simp only [Except.ok.injEq] at h
      subst h
      obtain ⟨i1, i2, i3⟩ := FlowInv.commit pf s x y dx dy _
        (set2 s.last_use x y s.UT) hxy hd hinv c1 c3
      exact ⟨i1, i2, fun _ => ⟨c1, c2⟩,
        Or.inr ⟨x, y, VectorField.index dx dy, hxy, index_lt_four (dx, dy) hd, i3⟩⟩
    · split at h
      · exact absurd h (by simp)
      · rename_i r1 hr1
        obtain ⟨c1, c2, c3⟩ := spare_cut pf s hinv x y dx dy hxy hd lim hlim h2
        have hn := neighbour_mem_cells s hb x y hxy hf (dx, dy) hd
        have hf1 := hframe _ _ _ _ _ hr1
        have hp1 := hcall _ _ _ _ _ hr1 hb hn h1.1 hinv c1
        have hlt : s.last_use (x + dx) (y + dy) < s.UT - 1 := by omega
        have hself : r1.sim.velocity_flow.v x y = s.velocity_flow.v x y :=
          hf1.flow_keep x y (neighbour_ne x y (dx, dy) hd) (by omega)
        have hstamp : r1.sim.last_use x y = s.last_use x y :=
          hf1.stamp_keep x y (neighbour_ne x y (dx, dy) hd) (by omega)
        split_ifs at h with h4
        · simp only [Except.ok.injEq] at h
          subst h
          obtain ⟨t1, t2⟩ := hp1.prop_pos h4
          have c4 := le_trans t2 c3
          obtain ⟨i1, i2, i3⟩ := FlowInv.commit pf r1.sim x y dx dy r1.t
            (set2 r1.sim.last_use x y r1.sim.UT)
            (by rw [hf1.rows_eq, hf1.cols_eq]; exact hxy) hd hp1.inv t1 (by
              simp only [VectorField.get, hf1.velocity_eq, hself] at c4 ⊢
              exact c4)
          refine ⟨i1, hp1.mono.andThen i2, fun _ => ⟨t1, by linarith⟩, Or.inr ?_⟩
          refine FlowGrew.of_mono_left hp1.mono ?_ hf1.rows_eq hf1.cols_eq
          exact ⟨x, y, VectorField.index dx dy, by rw [hf1.rows_eq, hf1.cols_eq]; exact hxy,
            index_lt_four (dx, dy) hd, i3⟩
        · obtain ⟨j1, j2, j3, j4⟩ := ih r1.sim (FixedPoint.add pf ret r1.t) (calls + r1.calls)
            r h hds2 (hb.of_frame hf1) (by rw [hf1.rows_eq, hf1.cols_eq]; exact hxy)
            (by rw [hf1.field_eq]; exact hf) (by rw [hstamp, hf1.UT_eq]; exact hst) hp1.inv
            (FixedPoint.add_inRange pf ret r1.t)
          refine ⟨j1, hp1.mono.andThen j2, j3, ?_⟩
          rcases hp1.grew with g | g
          · rcases j4 with j | j
            · left; rw [j]; exact FixedPoint.add_zero_v pf ret r1.t hret g
            · right; exact FlowGrew.of_mono_left hp1.mono j hf1.rows_eq hf1.cols_eq
          · right; exact g.of_mono_right j2
    · exact ih s ret calls r h hds2 hb hxy hf hst hinv hret

theorem FixedPoint.ofInt_zero_v (pf : Platform) :
    (FixedPoint.ofInt pf 0 : FixedPoint N K tag).v = 0 := by
  have hsp := storageBits_pos pf tag N
  have h0 : InRange (storageBits pf tag N) 0 := by
    have : (0 : Int) < 2 ^ (storageBits pf tag N - 1) := by positivity
    exact ⟨by linarith, this⟩
  simp only [FixedPoint.ofInt]
  rw [wrap_eq_self hsp h0, zero_mul, wrap_eq_self hsp h0]

theorem propagate_flow_post (pf : Platform) :
    ∀ (fuel : Nat) (s : Simulator N K tag) (x y : Int) (lim : FixedPoint N K tag)
      (r : FlowOut N K tag), propagate_flow pf fuel s x y lim = Except.ok r →
      BorderWalls s → (x, y) ∈ cells s.rows s.cols → s.field x y ≠ '#' →
      FlowInv pf s → 0 < lim.v → FlowPost pf s lim r := by
  intro fuel
  induction fuel with
  | zero => intro s x y lim r h; simp [propagate_flow] at h
  | succ n ih =>
    intro s x y lim r h hb hxy hf hinv hlim
    simp only [propagate_flow] at h
    have h0 : (FixedPoint.ofInt pf 0 : FixedPoint N K tag).v = 0 := FixedPoint.ofInt_zero_v pf
    have hpos : (0 : Int) < 2 ^ (storageBits pf tag N - 1) := by positivity
    have hr0 : InRange (storageBits pf tag N) (FixedPoint.ofInt pf 0 : FixedPoint N K tag).v := by
      rw [h0]; exact ⟨by linarith, hpos⟩
    obtain ⟨j1, j2, j3, j4⟩ := propagate_flow_loop_post pf _
      (fun s1 nx ny vp r1 h1 => propagate_flow_frame pf n s1 nx ny vp r1 h1)
      (fun s1 nx ny vp r1 h1 => ih s1 nx ny vp r1 h1) x y lim hlim deltas _ _ _ r h
      (fun d hd => hd) hb hxy hf (by simp [set2]) hinv hr0
    refine ⟨j1, j2, j3, ?_⟩
    rcases j4 with j | j
    · left; rw [j]; exact h0
    · right; exact j

theorem spare_nonneg (pf : Platform) (s : Simulator N K tag) (hinv : FlowInv pf s) :
    0 ≤ spare s := by
  unfold spare
  apply List.sum_nonneg
  intro v hv
  obtain ⟨c, hc, rfl⟩ := List.mem_map.1 hv
  apply List.sum_nonneg
  intro u hu
  obtain ⟨k, hk, rfl⟩ := List.mem_map.1 hu
  have := (hinv c ‹_› k (List.mem_range.1 hk)).1
  linarith

theorem spare_le {s r : Simulator N K tag} (hr : r.rows = s.rows) (hc : r.cols = s.cols)
    (hv : r.velocity = s.velocity) (hm : FlowMono s r) : spare r ≤ spare s := by
  unfold spare
  rw [hr, hc, hv]
  apply List.sum_le_sum
  intro c _
  apply List.sum_le_sum
  intro k _
  have := hm c.1 c.2 k
  linarith

theorem spare_lt {s r : Simulator N K tag} (hr : r.rows = s.rows) (hc : r.cols = s.cols)
    (hv : r.velocity = s.velocity) (hm : FlowMono s r) (hg : FlowGrew s r) :
    spare r < spare s := by
  obtain ⟨a, b, k, hab, hk, hlt⟩ := hg
  unfold spare
  rw [hr, hc, hv]
  apply List.sum_lt_sum
  · intro c _
    apply List.sum_le_sum
    intro k _
    have := hm c.1 c.2 k
    linarith
  · refine ⟨(a, b), hab, ?_⟩
    apply List.sum_lt_sum
    · intro k _
      have := hm a b k
      simp only
      linarith
    · exact ⟨k, List.mem_range.2 hk, by simp only; linarith⟩

theorem SweepStep.refl (pf : Platform) (s : Simulator N K tag) (hinv : FlowInv pf s) :
    SweepStep pf s s :=
  ⟨rfl, rfl, rfl, rfl, hinv, fun _ _ _ => le_refl _⟩

theorem SweepStep.thenStep {pf : Platform} {s1 s2 s3 : Simulator N K tag}
    (h1 : SweepStep pf s1 s2) (h2 : SweepStep pf s2 s3) : SweepStep pf s1 s3 :=
  ⟨h2.rows_eq.trans h1.rows_eq, h2.cols_eq.trans h1.cols_eq, h2.field_eq.trans h1.field_eq,
    h2.velocity_eq.trans h1.velocity_eq, h2.inv, h1.mono.andThen h2.mono⟩

theorem SweepStep.spare_mono {pf : Platform} {s s' : Simulator N K tag}
    (h : SweepStep pf s s') : spare s' ≤ spare s :=
  Simulator.spare_le h.rows_eq h.cols_eq h.velocity_eq h.mono

theorem SweepStep.borderWalls {pf : Platform} {s s' : Simulator N K tag}
    (h : SweepStep pf s s') (hb : BorderWalls s) : BorderWalls s' := by
  unfold BorderWalls
  rw [h.rows_eq, h.cols_eq, h.field_eq]
  exact hb

theorem SweepStep.nonWallCount {pf : Platform} {s s' : Simulator N K tag}
    (h : SweepStep pf s s') : nonWallCount s' = nonWallCount s := by
  unfold Simulator.nonWallCount
  rw [h.rows_eq, h.cols_eq, h.field_eq]

/-- A `propagate_flow` call from the sweep loop returns with enough fuel and
keeps the flow invariant; a positive routed amount strictly decreases the
spare capacity. -/
theorem propagate_flow_sweep (pf : Platform) (fuel : Nat) (s : Simulator N K tag) (x y : Int)
    (lim : FixedPoint N K tag) (hb : BorderWalls s) (hxy : (x, y) ∈ cells s.rows s.cols)
    (hf : s.field x y ≠ '#') (hfuel : nonWallCount s ≤ fuel) (hinv : FlowInv pf s)
    (hlim : 0 < lim.v) :
    ∃ r, propagate_flow pf fuel s x y lim = Except.ok r ∧ SweepStep pf s r.sim ∧
      r.sim.UT = s.UT ∧ (r.t.v ≠ 0 → spare r.sim < spare s) := by
  obtain ⟨r, hr, _⟩ := propagate_flow_terminates pf fuel s x y lim hb hxy hf
    (lt_of_lt_of_le (pending_mark_lt_nonWall s x y hxy hf) hfuel)
  have hfr := propagate_flow_frame pf fuel s x y lim r hr
  have hp := propagate_flow_post pf fuel s x y lim r hr hb hxy hf hinv hlim
  refine ⟨r, hr, ⟨hfr.rows_eq, hfr.cols_eq, hfr.field_eq, hfr.velocity_eq, hp.inv, hp.mono⟩,
    hfr.UT_eq, ?_⟩
  intro ht
  rcases hp.grew with g | g
  · exact absurd g ht
  · exact spare_lt hfr.rows_eq hfr.cols_eq hfr.velocity_eq hp.mono g

theorem sweep_cells_ok (pf : Platform) (fuel : Nat)
    (hone : 0 < (FixedPoint.ofInt pf 1 : FixedPoint N K tag).v) :
    ∀ (l : List (Int × Int)) (s : Simulator N K tag) (prop : Bool),
      (∀ c ∈ l, c ∈ cells s.rows s.cols) → BorderWalls s → nonWallCount s ≤ fuel →
      FlowInv pf s →
      ∃ s' prop', forCellsM (sweep_cell pf fuel) l (s, prop) = Except.ok (s', prop') ∧
        SweepStep pf s s' ∧ s'.UT = s.UT ∧
        (prop' = true → prop = true ∨ spare s' < spare s) := by
  intro l
  induction l with
  | nil =>
    intro s prop _ _ _ hinv
    exact ⟨s, prop, rfl, SweepStep.refl pf s hinv, rfl, fun h => Or.inl h⟩
  | cons c l ih =>
    intro s prop hl hb hfuel hinv
    obtain ⟨x, y⟩ := c
    have hxy : (x, y) ∈ cells s.rows s.cols := hl _ (List.mem_cons_self _ _)
    have hl2 : ∀ c ∈ l, c ∈ cells s.rows s.cols := fun c hc => hl c (List.mem_cons_of_mem _ hc)
    simp only [forCellsM, sweep_cell]
    split_ifs with h1
    · obtain ⟨r, hr, hstep, hut, hsp⟩ := propagate_flow_sweep pf fuel s x y
        (FixedPoint.ofInt pf 1) hb hxy h1.1 hfuel hinv hone
      rw [hr]
      simp only
      obtain ⟨s', prop', he, hstep2, hut2, hp2⟩ := ih r.sim (if 0 < r.t.v then true else prop)
        (by rw [hstep.rows_eq, hstep.cols_eq]; exact hl2) (hstep.borderWalls hb)
        (by rw [hstep.nonWallCount]; exact hfuel) hstep.inv
      refine ⟨s', prop', he, hstep.thenStep hstep2, hut2.trans hut, ?_⟩
      intro hp
      rcases hp2 hp with h | h
      · split_ifs at h with h3
        · right
          have := hsp (ne_of_gt h3)
          have := hstep2.spare_mono
          omega
        · exact Or.inl h
      · right
        have := hstep.spare_mono
        omega
    · exact ih s prop hl2 hb hfuel hinv

theorem sweep_ok (pf : Platform) (fuel : Nat)
    (hone : 0 < (FixedPoint.ofInt pf 1 : FixedPoint N K tag).v)
    (s : Simulator N K tag) (hb : BorderWalls s) (hfuel : nonWallCount s ≤ fuel)
    (hinv : FlowInv pf s) :
    ∃ s' prop', sweep pf fuel s = Except.ok (s', prop') ∧ SweepStep pf s s' ∧
      (prop' = true → spare s' < spare s) := by
  obtain ⟨s', prop', he, hstep, _, hp⟩ := sweep_cells_ok pf fuel hone (cells s.rows s.cols)
    { s with UT := s.UT + 2 } false (fun c hc => hc) hb hfuel hinv
  refine ⟨s', prop', he, ⟨hstep.rows_eq, hstep.cols_eq, hstep.field_eq, hstep.velocity_eq,
    hstep.inv, hstep.mono⟩, ?_⟩
  intro h
  rcases hp h with h2 | h2
  · exact absurd h2 (by simp)
  · exact h2

theorem sweep_loop_ok (pf : Platform) (fuel : Nat)
    (hone : 0 < (FixedPoint.ofInt pf 1 : FixedPoint N K tag).v) :
    ∀ (n : Nat) (s : Simulator N K tag), BorderWalls s → nonWallCount s ≤ fuel →
      FlowInv pf s → spare s < n →
      ∃ s', sweep_loop pf fuel n s = Except.ok s' ∧ SweepStep pf s s' := by
  intro n
  induction n with
  | zero =>
    intro s _ _ hinv hn
    have := spare_nonneg pf s hinv
    simp at hn
    omega
  | succ n ih =>
    intro s hb hfuel hinv hn
    obtain ⟨s1, prop, he, hstep, hp⟩ := sweep_ok pf fuel hone s hb hfuel hinv
    simp only [sweep_loop, he]
    split_ifs with h
    · obtain ⟨s', he2, hstep2⟩ := ih s1 (hstep.borderWalls hb)
        (by rw [hstep.nonWallCount]; exact hfuel) hstep.inv (by
          have := hp h
          push_cast at hn
          omega)
      exact ⟨s', he2, hstep.thenStep hstep2⟩
    · exact ⟨s1, rfl, hstep⟩

/-! ### The clamp step -/

theorem VectorField.set_v (f : VectorField N K tag) (x y dx dy : Int)
    (v : FixedPoint N K tag) (a b : Int) (k : Nat) :
    (f.set x y dx dy v).v a b k =
      if a = x ∧ b = y ∧ k = VectorField.index dx dy then v else f.v a b k := rfl

theorem ClampStep.thenClamp {s1 s2 s3 : Simulator N K tag} (h1 : ClampStep s1 s2)
    (h2 : ClampStep s2 s3) : ClampStep s1 s3 :=
  ⟨h2.rows_eq.trans h1.rows_eq, h2.cols_eq.trans h1.cols_eq, h2.field_eq.trans h1.field_eq,
    h2.flow_eq.trans h1.flow_eq, h2.le⟩

theorem FlowLe.set_velocity {s : Simulator N K tag} (h : FlowLe s) (x y dx dy : Int)
    (p' : Int → Int → FixedPoint N K tag) :
    FlowLe { s with velocity := s.velocity.set x y dx dy (s.velocity_flow.get x y dx dy),
                    p := p' } := by
  intro c hc k hk
  simp only [VectorField.set_v]
  split_ifs with h1
  · obtain ⟨h1x, h1y, rfl⟩ := h1
    rw [h1x, h1y]
    exact le_refl _
  · exact h c hc k hk

theorem clamp_dir_ok (pf : Platform) (x y : Int) (s : Simulator N K tag) (d : Int × Int)
    (hxy : (x, y) ∈ cells s.rows s.cols) (hd : d ∈ deltas) (hle : FlowLe s) :
    ∃ s', clamp_dir pf x y s d = Except.ok s' ∧ ClampStep s s' := by
  have hedge := hle (x, y) hxy (VectorField.index d.1 d.2) (index_lt_four d hd)
  simp only [clamp_dir]
  split_ifs with h1 h2 h3 h4
  · exact ⟨_, rfl, ⟨rfl, rfl, rfl, rfl, hle.set_velocity x y d.1 d.2 _⟩⟩
  · exact ⟨_, rfl, ⟨rfl, rfl, rfl, rfl, hle.set_velocity x y d.1 d.2 _⟩⟩
  · exact ⟨_, rfl, ⟨rfl, rfl, rfl, rfl, hle.set_velocity x y d.1 d.2 _⟩⟩
  · exact ⟨_, rfl, ⟨rfl, rfl, rfl, rfl, hle.set_velocity x y d.1 d.2 _⟩⟩
  · exact absurd hedge h2
  · exact ⟨s, rfl, ⟨rfl, rfl, rfl, rfl, hle⟩⟩

theorem clamp_dirs_ok (pf : Platform) (x y : Int) :
    ∀ (ds : List (Int × Int)) (s : Simulator N K tag), (∀ d ∈ ds, d ∈ deltas) →
      (x, y) ∈ cells s.rows s.cols → FlowLe s →
      ∃ s', forDirsM (clamp_dir pf x y) ds s = Except.ok s' ∧ ClampStep s s' := by
  intro ds
  induction ds with
  | nil => intro s _ _ hle; exact ⟨s, rfl, ⟨rfl, rfl, rfl, rfl, hle⟩⟩
  | cons d ds ih =>
    intro s hds hxy hle
    obtain ⟨s1, h1, c1⟩ := clamp_dir_ok pf x y s d hxy (hds d (List.mem_cons_self _ _)) hle
    obtain ⟨s2, h2, c2⟩ := ih s1 (fun d hd => hds d (List.mem_cons_of_mem _ hd))
      (by rw [c1.rows_eq, c1.cols_eq]; exact hxy) c1.le
    exact ⟨s2, by simp only [forDirsM, h1, h2], c1.thenClamp c2⟩

theorem clamp_cells_ok (pf : Platform) :
    ∀ (l : List (Int × Int)) (s : Simulator N K tag), (∀ c ∈ l, c ∈ cells s.rows s.cols) →
      FlowLe s → ∃ s', forCellsM (clamp_cell pf) l s = Except.ok s' ∧ ClampStep s s' := by
  intro l
  induction l with
  | nil => intro s _ hle; exact ⟨s, rfl, ⟨rfl, rfl, rfl, rfl, hle⟩⟩
  | cons c l ih =>
    intro s hl hle
    obtain ⟨x, y⟩ := c
    have hxy : (x, y) ∈ cells s.rows s.cols := hl _ (List.mem_cons_self _ _)
    have hstep : ∃ s1, clamp_cell pf s x y = Except.ok s1 ∧ ClampStep s s1 := by
      simp only [clamp_cell]
      split_ifs with h
      · exact ⟨s, rfl, ⟨rfl, rfl, rfl, rfl, hle⟩⟩
      · exact clamp_dirs_ok pf x y deltas s (fun d hd => hd) hxy hle
    obtain ⟨s1, h1, c1⟩ := hstep
    obtain ⟨s2, h2, c2⟩ := ih s1 (by
      rw [c1.rows_eq, c1.cols_eq]
      exact fun c hc => hl c (List.mem_cons_of_mem _ hc)) c1.le
    exact ⟨s2, by simp only [forCellsM, h1, h2], c1.thenClamp c2⟩

/-! ### The state entering the propagation phase -/

theorem forCells_induct {σ : Type} (P : σ → Prop) (body : σ → Int → Int → σ)
    (hbody : ∀ s x y, P s → P (body s x y)) :
    ∀ (l : List (Int × Int)) (s : σ), P s → P (forCells body l s) := by
  intro l
  induction l with
  | nil => intro s h; exact h
  | cons c l ih =>
    intro s h
    obtain ⟨x, y⟩ := c
    exact ih _ (hbody s x y h)

theorem foldl_induct {σ α : Type} (P : σ → Prop) (f : σ → α → σ)
    (hf : ∀ s a, P s → P (f s a)) : ∀ (l : List α) (s : σ), P s → P (l.foldl f s) := by
  intro l
  induction l with
  | nil => intro s h; exact h
  | cons a l ih => intro s h; exact ih _ (hf s a h)

theorem gravity_cell_grid (pf : Platform) (s0 s : Simulator N K tag) (x y : Int)
    (h : SameGrid s0 s) : SameGrid s0 (gravity_cell pf s x y) := by
  unfold gravity_cell
  split_ifs <;> exact h

theorem exchange_dir_grid (pf : Platform) (x y : Int) (s0 s : Simulator N K tag)
    (d : Int × Int) (h : SameGrid s0 s) : SameGrid s0 (exchange_dir pf x y s d) := by
  unfold exchange_dir
  simp only
  split_ifs <;> exact h

theorem exchange_cell_grid (pf : Platform) (s0 s : Simulator N K tag) (x y : Int)
    (h : SameGrid s0 s) : SameGrid s0 (exchange_cell pf s x y) := by
  unfold exchange_cell
  split_ifs
  · exact h
  · exact foldl_induct (SameGrid s0) _ (fun s d hs => exchange_dir_grid pf x y s0 s d hs) _ _ h

theorem tick_forces_grid (pf : Platform) (s : Simulator N K tag) :
    SameGrid s (tick_forces pf s) ∧ (tick_forces pf s).velocity_flow = VectorField.zero := by
  refine ⟨?_, rfl⟩
  have h1 : SameGrid s (forCells (gravity_cell pf) (cells s.rows s.cols) s) :=
    forCells_induct (SameGrid s) _ (fun s1 x y h => gravity_cell_grid pf s s1 x y h) _ _
      ⟨rfl, rfl, rfl⟩
  have h2 := forCells_induct (SameGrid s) (exchange_cell pf)
    (fun s1 x y h => exchange_cell_grid pf s s1 x y h)
    (cells (forCells (gravity_cell pf) (cells s.rows s.cols) s).rows
      (forCells (gravity_cell pf) (cells s.rows s.cols) s).cols)
    { forCells (gravity_cell pf) (cells s.rows s.cols) s with
      old_p := (forCells (gravity_cell pf) (cells s.rows s.cols) s).p } h1
  exact h2

theorem FixedPoint.ofInt_one_v (pf : Platform) (hK : K + 1 < storageBits pf tag N) :
    (FixedPoint.ofInt pf 1 : FixedPoint N K tag).v = 2 ^ K := by
  have hsp := storageBits_pos pf tag N
  have h8 := storageBits_ge pf tag N
  have hpow : (2 : Int) ^ K < 2 ^ (storageBits pf tag N - 1) :=
    pow_lt_pow_right₀ (by norm_num) (by omega)
  have hK1 : (1 : Int) ≤ 2 ^ K := one_le_pow₀ (by norm_num)
  have h1 : InRange (storageBits pf tag N) 1 := ⟨by linarith, by linarith⟩
  have h2 : InRange (storageBits pf tag N) (1 * 2 ^ K) := ⟨by linarith, by linarith⟩
  simp only [FixedPoint.ofInt]
  rw [wrap_eq_self hsp h1, wrap_eq_self hsp h2, one_mul]

/-! ### The limit 1 when it is not representable -/

theorem storageBits_ge_width (pf : Platform) (tag : Tag) (N : Nat) (hN : N ≤ 64) :
    N ≤ storageBits pf tag N := by
  have h8 := pf.fast8_ge
  have h16 := pf.fast16_ge
  have h32 := pf.fast32_ge
  have h64 := pf.fast64_ge
  unfold storageBits
  cases tag <;> simp only <;> split_ifs <;> omega

theorem wrap_min (w : Nat) (hw : 0 < w) : wrap w (-(2 ^ (w - 1))) = -(2 ^ (w - 1)) := by
  apply wrap_eq_self hw
  have : (0 : Int) < 2 ^ (w - 1) := by positivity
  exact ⟨le_refl _, by linarith⟩

theorem wrap_two_pow_pred (w : Nat) (hw : 0 < w) : wrap w (2 ^ (w - 1)) = -(2 ^ (w - 1)) := by
  have h2 := two_pow_pred_double hw
  have hc : wrap w (2 ^ (w - 1)) = wrap w (-(2 ^ (w - 1))) := by
    apply wrap_congr
    have h3 : (2 : Int) ^ (w - 1) = -(2 ^ (w - 1)) + 1 * 2 ^ w := by linarith
    calc (2 : Int) ^ (w - 1) % 2 ^ w = (-(2 ^ (w - 1)) + 1 * 2 ^ w) % 2 ^ w :=
          congrArg (fun z => z % (2 : Int) ^ w) h3
      _ = -(2 ^ (w - 1)) % 2 ^ w := Int.add_mul_emod_self
  rw [hc]
  exact wrap_min w hw

theorem wrap_double_min (w : Nat) (hw : 0 < w) :
    wrap w (-(2 ^ (w - 1)) + -(2 ^ (w - 1))) = 0 := by
  have h2 := two_pow_pred_double hw
  have hpos : (0 : Int) < 2 ^ (w - 1) := by positivity
  have h0 : wrap w 0 = 0 := wrap_eq_self hw ⟨by linarith, hpos⟩
  have hc : wrap w (-(2 ^ (w - 1)) + -(2 ^ (w - 1))) = wrap w 0 := by
    apply wrap_congr
    have h3 : -(2 : Int) ^ (w - 1) + -(2 ^ (w - 1)) = 0 + (-1) * 2 ^ w := by linarith
    calc (-(2 : Int) ^ (w - 1) + -(2 ^ (w - 1))) % 2 ^ w = (0 + (-1) * 2 ^ w) % 2 ^ w :=
          congrArg (fun z => z % (2 : Int) ^ w) h3
      _ = 0 % 2 ^ w := Int.add_mul_emod_self
  rw [hc]
  exact h0

/-- When `K + 1` is the storage width, `FixedPoint(1)` wraps to the least
storage value. -/
theorem FixedPoint.ofInt_one_wrapped (pf : Platform) (hK : K + 1 = storageBits pf tag N) :
    (FixedPoint.ofInt pf 1 : FixedPoint N K tag).v = -(2 ^ (storageBits pf tag N - 1)) := by
  have hsp := storageBits_pos pf tag N
  have h8 := storageBits_ge pf tag N
  have hK2 : K = storageBits pf tag N - 1 := by omega
  have hbig : (1 : Int) < 2 ^ (storageBits pf tag N - 1) := by
    have : (2 : Int) ^ 1 ≤ 2 ^ (storageBits pf tag N - 1) :=
      pow_le_pow_right₀ (by norm_num) (by omega)
    linarith
  have h1 : InRange (storageBits pf tag N) 1 := ⟨by linarith, hbig⟩
  simp only [FixedPoint.ofInt]
  rw [wrap_eq_self hsp h1, one_mul, hK2]
  exact wrap_two_pow_pred _ hsp

theorem ZeroOrMin.add (pf : Platform) {a b : FixedPoint N K tag} (ha : ZeroOrMin pf a)
    (hb : ZeroOrMin pf b) : ZeroOrMin pf (FixedPoint.add pf a b) := by
  have hsp := storageBits_pos pf tag N
  have hpos : (0 : Int) < 2 ^ (storageBits pf tag N - 1) := by positivity
  have h0 : wrap (storageBits pf tag N) 0 = 0 := wrap_eq_self hsp ⟨by linarith, hpos⟩
  unfold ZeroOrMin at *
  simp only [FixedPoint.add]
  rcases ha with ha | ha <;> rcases hb with hb | hb <;> rw [ha, hb]
  · left; simpa using h0
  · right; simpa using wrap_min _ hsp
  · right; simpa using wrap_min _ hsp
  · left; exact wrap_double_min _ hsp

theorem min_of_least (pf : Platform) (lim a b : FixedPoint N K tag)
    (hlim : lim.v = -(2 ^ (storageBits pf tag N - 1))) :
    (FixedPoint.min lim (FixedPoint.sub pf a b)).v = -(2 ^ (storageBits pf tag N - 1)) := by
  have hr := wrap_inRange (storageBits_pos pf tag N) (a.v - b.v)
  rw [FixedPoint.min_v]
  simp only [FixedPoint.sub]
  split_ifs with h
  · have := hr.1
    linarith
  · exact hlim

theorem propagate_flow_loop_least (pf : Platform)
    (call : Simulator N K tag → Int → Int → FixedPoint N K tag →
      Except Fault (FlowOut N K tag))
    (hcall : ∀ s1 nx ny vp r1, call s1 nx ny vp = Except.ok r1 →
      vp.v = -(2 ^ (storageBits pf tag N - 1)) → ZeroOrMin pf r1.t)
    (x y : Int) (lim : FixedPoint N K tag)
    (hlim : lim.v = -(2 ^ (storageBits pf tag N - 1))) :
    ∀ (ds : List (Int × Int)) (s : Simulator N K tag) (ret : FixedPoint N K tag) (calls : Nat)
      (r : FlowOut N K tag),
      propagate_flow_loop pf call x y lim ds s ret calls = Except.ok r →
      ZeroOrMin pf ret → ZeroOrMin pf r.t := by
  intro ds
  induction ds with
  | nil =>
    intro s ret calls r h hret
    simp only [propagate_flow_loop, Except.ok.injEq] at h
    subst h
    exact hret
  | cons d ds ih =>
    intro s ret calls r h hret
    obtain ⟨dx, dy⟩ := d
    simp only [propagate_flow_loop] at h
    split_ifs at h with h1 h2 h3
    · exact ih s ret calls r h hret
    · simp only [Except.ok.injEq] at h
      subst h
      exact Or.inr (min_of_least pf lim _ _ hlim)
    · split at h
      · exact absurd h (by simp)
      · rename_i r1 hr1
        have ht := hcall _ _ _ _ _ hr1 (min_of_least pf lim _ _ hlim)
        split_ifs at h with h4
        · simp only [Except.ok.injEq] at h
          subst h
          exact ht
        · exact ih _ _ _ r h (hret.add pf ht)
    · exact ih s ret calls r h hret

theorem propagate_flow_least (pf : Platform) :
    ∀ (fuel : Nat) (s : Simulator N K tag) (x y : Int) (lim : FixedPoint N K tag)
      (r : FlowOut N K tag), propagate_flow pf fuel s x y lim = Except.ok r →
      lim.v = -(2 ^ (storageBits pf tag N - 1)) → ZeroOrMin pf r.t := by
  intro fuel
  induction fuel with
  | zero => intro s x y lim r h; simp [propagate_flow] at h
  | succ n ih =>
    intro s x y lim r h hlim
    simp only [propagate_flow] at h
    exact propagate_flow_loop_least pf _ (fun s1 nx ny vp r1 h1 h2 => ih s1 nx ny vp r1 h1 h2)
      x y lim hlim deltas _ _ _ r h (Or.inl (FixedPoint.ofInt_zero_v pf))

theorem sweep_cells_least (pf : Platform) (fuel : Nat)
    (hone : (FixedPoint.ofInt pf 1 : FixedPoint N K tag).v = -(2 ^ (storageBits pf tag N - 1))) :
    ∀ (l : List (Int × Int)) (s : Simulator N K tag) (prop : Bool),
      (∀ c ∈ l, c ∈ cells s.rows s.cols) → BorderWalls s → nonWallCount s ≤ fuel →
      ∃ s', forCellsM (sweep_cell pf fuel) l (s, prop) = Except.ok (s', prop) ∧
        s'.velocity = s.velocity := by
  intro l
  induction l with
  | nil => intro s prop _ _ _; exact ⟨s, rfl, rfl⟩
  | cons c l ih =>
    intro s prop hl hb hfuel
    obtain ⟨x, y⟩ := c
    have hxy : (x, y) ∈ cells s.rows s.cols := hl _ (List.mem_cons_self _ _)
    have hl2 : ∀ c ∈ l, c ∈ cells s.rows s.cols := fun c hc => hl c (List.mem_cons_of_mem _ hc)
    simp only [forCellsM, sweep_cell]
    split_ifs with h1
    · obtain ⟨r, hr, _⟩ := propagate_flow_terminates pf fuel s x y (FixedPoint.ofInt pf 1)
        hb hxy h1.1 (lt_of_lt_of_le (pending_mark_lt_nonWall s x y hxy h1.1) hfuel)
      have hfr := propagate_flow_frame pf fuel s x y _ r hr
      have ht := propagate_flow_least pf fuel s x y _ r hr hone
      have hnot : ¬ 0 < r.t.v := by
        have hpos : (0 : Int) < 2 ^ (storageBits pf tag N - 1) := by positivity
        rcases ht with h | h <;> rw [h] <;> linarith
      rw [hr]
      simp only [if_neg hnot]
      obtain ⟨s', he, hv⟩ := ih r.sim prop
        (by rw [hfr.rows_eq, hfr.cols_eq]; exact hl2) (hb.of_frame hfr)
        (by unfold nonWallCount at hfuel ⊢
            rw [hfr.rows_eq, hfr.cols_eq, hfr.field_eq]; exact hfuel)
      exact ⟨s', he, hv.trans hfr.velocity_eq⟩
    · exact ih s prop hl2 hb hfuel

theorem sweep_loop_least (pf : Platform) (fuel n : Nat)
    (hone : (FixedPoint.ofInt pf 1 : FixedPoint N K tag).v = -(2 ^ (storageBits pf tag N - 1)))
    (s : Simulator N K tag) (hb : BorderWalls s) (hfuel : nonWallCount s ≤ fuel) :
    ∃ s', sweep_loop pf fuel (n + 1) s = Except.ok s' ∧ s'.velocity = s.velocity := by
  obtain ⟨s', he, hv⟩ := sweep_cells_least pf fuel hone (cells s.rows s.cols)
    { s with UT := s.UT + 2 } false (fun c hc => hc) hb hfuel
  refine ⟨s', ?_, hv⟩
  simp only [sweep_loop, sweep]
  rw [he]
  simp

end Simulator

/-! ## Claims on flow propagation -/

namespace Simulator

variable {N K : Nat} {tag : Tag}

theorem FlowInv.of_zero_flow (pf : Platform) (s : Simulator N K tag)
    (hz : s.velocity_flow = VectorField.zero)
    (hvel : ∀ c ∈ cells s.rows s.cols, ∀ k < 4, 0 ≤ (s.velocity.v c.1 c.2 k).v ∧
      InRange (storageBits pf tag N) (s.velocity.v c.1 c.2 k).v) : FlowInv pf s := by
  intro c hc k hk
  obtain ⟨h0, h1⟩ := hvel c hc k hk
  have hpos : (0 : Int) < 2 ^ (storageBits pf tag N - 1) := by positivity
  rw [hz]
  simp only [VectorField.zero, sub_zero]
  exact ⟨h0, ⟨by linarith, hpos⟩, h1, h1⟩

theorem BorderWalls.of_sameGrid {s s' : Simulator N K tag} (hb : BorderWalls s)
    (h : SameGrid s s') : BorderWalls s' := by
  unfold BorderWalls
  rw [h.1, h.2.1, h.2.2]
  exact hb

theorem nonWallCount_of_sameGrid {s s' : Simulator N K tag} (h : SameGrid s s') :
    nonWallCount s' = nonWallCount s := by
  unfold nonWallCount
  rw [h.1, h.2.1, h.2.2]

/-- C8 (amended): on a wall-bordered grid, for a parameterisation that
represents 1, in every tick that enters the propagation phase with all
velocities non-negative storage values, the sweep loop converges, and then
every cell and every direction satisfies `0 ≤ flow ≤ velocity` (so
`|flow| ≤ velocity`) for the velocity before the clamp step, which is the
velocity the phase was entered with; the clamp step then runs without a
failing assertion. -/
theorem sweep_flow_le_velocity (pf : Platform) (s0 : Simulator N K tag) (fuel n : Nat)
    (hK : K + 1 < storageBits pf tag N) (hb : BorderWalls s0)
    (hvel : ∀ c ∈ cells (tick_forces pf s0).rows (tick_forces pf s0).cols, ∀ k < 4,
      0 ≤ ((tick_forces pf s0).velocity.v c.1 c.2 k).v ∧
      InRange (storageBits pf tag N) ((tick_forces pf s0).velocity.v c.1 c.2 k).v)
    (hfuel : nonWallCount s0 ≤ fuel) (hn : spare (tick_forces pf s0) < n) :
    ∃ s5, sweep_loop pf fuel n (tick_forces pf s0) = Except.ok s5 ∧
      s5.velocity = (tick_forces pf s0).velocity ∧
      (∀ c ∈ cells s5.rows s5.cols, ∀ k < 4,
        0 ≤ (s5.velocity_flow.v c.1 c.2 k).v ∧
        (s5.velocity_flow.v c.1 c.2 k).v ≤ (s5.velocity.v c.1 c.2 k).v ∧
        |(s5.velocity_flow.v c.1 c.2 k).v| ≤ (s5.velocity.v c.1 c.2 k).v) ∧
      ∃ s6, forCellsM (clamp_cell pf) (cells s5.rows s5.cols) s5 = Except.ok s6 := by
  obtain ⟨hgrid, hzero⟩ := tick_forces_grid pf s0
  have hone : 0 < (FixedPoint.ofInt pf 1 : FixedPoint N K tag).v := by
    rw [FixedPoint.ofInt_one_v pf hK]; positivity
  have hinv := FlowInv.of_zero_flow pf (tick_forces pf s0) hzero hvel
  obtain ⟨s5, h5, hstep⟩ := sweep_loop_ok pf fuel hone n (tick_forces pf s0)
    (hb.of_sameGrid hgrid) (by rw [nonWallCount_of_sameGrid hgrid]; exact hfuel) hinv hn
  have hle : FlowLe s5 := fun c hc k hk => (hstep.inv c hc k hk).1
  obtain ⟨s6, h6, _⟩ := clamp_cells_ok pf (cells s5.rows s5.cols) s5 (fun c hc => hc) hle
  refine ⟨s5, h5, hstep.velocity_eq, ?_, s6, h6⟩
  intro c hc k hk
  have h0 : 0 ≤ (s5.velocity_flow.v c.1 c.2 k).v := by
    have := hstep.mono c.1 c.2 k
    rw [hzero] at this
    simpa [VectorField.zero] using this
  have h1 := hle c hc k hk
  exact ⟨h0, h1, by rw [abs_of_nonneg h0]; exact h1⟩

/-- Witness for C8 (amended): the tick entered from `ringSim`. -/
theorem sweep_flow_le_velocity_witness :
    ∃ s5, sweep_loop lp64 4 655361 (tick_forces lp64 ringSim) = Except.ok s5 ∧
      s5.velocity = (tick_forces lp64 ringSim).velocity ∧
      (∀ c ∈ cells s5.rows s5.cols, ∀ k < 4,
        0 ≤ (s5.velocity_flow.v c.1 c.2 k).v ∧
        (s5.velocity_flow.v c.1 c.2 k).v ≤ (s5.velocity.v c.1 c.2 k).v ∧
        |(s5.velocity_flow.v c.1 c.2 k).v| ≤ (s5.velocity.v c.1 c.2 k).v) ∧
      ∃ s6, forCellsM (clamp_cell lp64) (cells s5.rows s5.cols) s5 = Except.ok s6 :=
  sweep_flow_le_velocity lp64 ringSim 4 655361 (by decide) (by decide!) (by decide!)
    (by decide!) (by decide!)

/-- C8 (counterexample): `pondSim` has gravity 1, liquid density 1000 and
air density -1, which the configuration guard accepts.  In its fourth tick,
when the propagation sweeps have converged, the downward edge of cell
`(1, 2)` has velocity raw 31208 (positive) and flow raw -4210542, so
`|flow| ≤ velocity` fails.  The draws play no part: in the first three ticks
every positive velocity is clamped to a zero flow, `move_prob` is 0 in every
cell and no draw in `[0, 1)` is below it; the run is the same when every
draw is 0, the least value, and when every draw is 1/2. -/
theorem sweep_flow_le_velocity_counterexample :
    config_rejected (pondSim ⟨0, 1⟩) = false ∧
    (run_simulation lp64 5 3 (pondSim ⟨0, 1⟩)).toOption.bind (fun s3 =>
      (sweep_loop lp64 5 5 (tick_forces lp64 s3)).toOption.map fun s5 =>
        ((s5.velocity.get 1 2 1 0).v, (s5.velocity_flow.get 1 2 1 0).v))
      = some (31208, -4210542) ∧
    (run_simulation lp64 5 3 (pondSim ⟨1, 2⟩)).toOption.bind (fun s3 =>
      (sweep_loop lp64 5 5 (tick_forces lp64 s3)).toOption.map fun s5 =>
        ((s5.velocity.get 1 2 1 0).v, (s5.velocity_flow.get 1 2 1 0).v))
      = some (31208, -4210542) ∧
    ¬ |(-4210542 : Int)| ≤ 31208 := by
  decide!

/-- C9 (amended): on a wall-bordered grid, starting from a state where on
every edge `flow ≤ velocity` and the difference `velocity - flow` is
representable in the storage type, a `propagate_flow` call with a positive
limit returns (with enough fuel), changes no velocity and decreases no flow
entry, so the total spare capacity does not increase, and whenever it returns
a positive routed amount that total has strictly decreased.  Hence, for
every parameterisation (`N ≤ 64`, `K < N`), the sweep loop returns after at
most `spare + 1` sweeps, leaving the velocities unchanged; when 1 is
representable (`K + 1` below the storage width) it decreases no flow entry
and keeps the invariant. -/
theorem propagate_flow_spare (pf : Platform) (s : Simulator N K tag) (hb : BorderWalls s)
    (hinv : FlowInv pf s) :
    (∀ (x y : Int) (lim : FixedPoint N K tag) (fuel : Nat),
      (x, y) ∈ cells s.rows s.cols → s.field x y ≠ '#' → 0 < lim.v → nonWallCount s ≤ fuel →
      ∃ r, propagate_flow pf fuel s x y lim = Except.ok r ∧
        r.sim.velocity = s.velocity ∧
        (∀ a b k, (s.velocity_flow.v a b k).v ≤ (r.sim.velocity_flow.v a b k).v) ∧
        FlowInv pf r.sim ∧ spare r.sim ≤ spare s ∧
        (0 < r.t.v → spare r.sim < spare s)) ∧
    (WellFormed N K → ∀ (fuel n : Nat), nonWallCount s ≤ fuel → spare s < n →
      ∃ s', sweep_loop pf fuel n s = Except.ok s' ∧ s'.velocity = s.velocity ∧
        (K + 1 < storageBits pf tag N →
          (∀ a b k, (s.velocity_flow.v a b k).v ≤ (s'.velocity_flow.v a b k).v) ∧
          FlowInv pf s')) := by
  constructor
  · intro x y lim fuel hxy hf hlim hfuel
    obtain ⟨r, hr, hstep, _, hsp⟩ := propagate_flow_sweep pf fuel s x y lim hb hxy hf hfuel
      hinv hlim
    exact ⟨r, hr, hstep.velocity_eq, hstep.mono, hstep.inv, hstep.spare_mono,
      fun ht => hsp (ne_of_gt ht)⟩
  · intro hwf fuel n hfuel hn
    have hle := storageBits_ge_width pf tag N hwf.1
    by_cases hK : K + 1 < storageBits pf tag N
    · have hone : 0 < (FixedPoint.ofInt pf 1 : FixedPoint N K tag).v := by
        rw [FixedPoint.ofInt_one_v pf hK]; positivity
      obtain ⟨s', h, hstep⟩ := sweep_loop_ok pf fuel hone n s hb hfuel hinv hn
      exact ⟨s', h, hstep.velocity_eq, fun _ => ⟨hstep.mono, hstep.inv⟩⟩
    · have hK2 : K + 1 = storageBits pf tag N := by
        have := hwf.2.2
        omega
      have hpos := spare_nonneg pf s hinv
      obtain ⟨m, rfl⟩ : ∃ m, n = m + 1 := ⟨n - 1, by omega⟩
      obtain ⟨s', h, hv⟩ := sweep_loop_least pf fuel m (FixedPoint.ofInt_one_wrapped pf hK2)
        s hb hfuel
      exact ⟨s', h, hv, fun h2 => absurd h2 hK⟩

/-- Witness for C9 (amended): on `ringSim` the call at `(1, 1)` with limit 1
routes 1 around the ring of four edges, and the sweep loop returns. -/
theorem propagate_flow_spare_witness :
    (propagate_flow lp64 4 ringSim 1 1 ⟨65536⟩).toOption.map
      (fun r => (r.t.v, spare r.sim)) = some (65536, 262144) ∧
    spare ringSim = 524288 ∧
    (∃ r, propagate_flow lp64 4 ringSim 1 1 ⟨65536⟩ = Except.ok r ∧
        r.sim.velocity = ringSim.velocity ∧
        (∀ a b k, (ringSim.velocity_flow.v a b k).v ≤ (r.sim.velocity_flow.v a b k).v) ∧
        FlowInv lp64 r.sim ∧ spare r.sim ≤ spare ringSim ∧
        (0 < r.t.v → spare r.sim < spare ringSim)) ∧
    (∃ s', sweep_loop lp64 4 524289 ringSim = Except.ok s' ∧ s'.velocity = ringSim.velocity ∧
        (16 + 1 < storageBits lp64 Tag.FixedTag 32 →
          (∀ a b k, (ringSim.velocity_flow.v a b k).v ≤ (s'.velocity_flow.v a b k).v) ∧
          FlowInv lp64 s')) :=
  ⟨by decide!, by decide!,
    (propagate_flow_spare lp64 ringSim (by decide!) (by decide!)).1 1 1 ⟨65536⟩ 4
      (by decide!) (by decide!) (by decide!) (by decide!),
    (propagate_flow_spare lp64 ringSim (by decide!) (by decide!)).2 (by decide) 4 524289
      (by decide!) (by decide!)⟩

/-- C9 (counterexample): `overflowSim` in `FIXED<16, 8>` satisfies
`flow ≤ velocity` on every edge, with velocity raw 32767 and flow raw -1 on
the edge `(1, 1) → (1, 2)`.  There `velocity - flow` wraps to raw -32768, so
the call `propagate_flow(1, 1, 1)` recurses into `(1, 2)` with a negative
limit and lowers the flow of the edge `(1, 2) → (1, 1)` from 0 to raw
-32768. -/
theorem propagate_flow_spare_counterexample :
    (∀ c ∈ cells overflowSim.rows overflowSim.cols, ∀ k < 4,
      (overflowSim.velocity_flow.v c.1 c.2 k).v ≤ (overflowSim.velocity.v c.1 c.2 k).v) ∧
    BorderWalls overflowSim ∧
    (0 : Int) < (⟨256⟩ : FixedPoint 16 8 Tag.FixedTag).v ∧
    (overflowSim.velocity_flow.v 1 2 2).v = 0 ∧
    (propagate_flow lp64 4 overflowSim 1 1 ⟨256⟩).toOption.map
      (fun r => (r.sim.velocity_flow.v 1 2 2).v) = some (-32768) := by
  decide!

/-- C10: on a grid whose border cells are walls, for every state of the
stamp grid and every limit, `propagate_flow` at a non-wall cell returns once
the fuel reaches the number of non-wall cells; the whole traversal comprises
at most that many calls, and every cell whose stamp it changes is the start
cell or had a stamp below `UT - 1`, and ends with stamp `UT`. -/
theorem propagate_flow_total (pf : Platform) (s : Simulator N K tag) (x y : Int)
    (lim : FixedPoint N K tag) (fuel : Nat) (hb : BorderWalls s)
    (hxy : (x, y) ∈ cells s.rows s.cols) (hf : s.field x y ≠ '#')
    (hfuel : nonWallCount s ≤ fuel) :
    ∃ r, propagate_flow pf fuel s x y lim = Except.ok r ∧ r.calls ≤ nonWallCount s ∧
      ∀ a b, r.sim.last_use a b ≠ s.last_use a b →
        ((a, b) = (x, y) ∨ s.last_use a b < s.UT - 1) ∧ r.sim.last_use a b = s.UT := by
  have hlt := pending_mark_lt_nonWall s x y hxy hf
  obtain ⟨r, hr, hc⟩ := propagate_flow_terminates pf fuel s x y lim hb hxy hf
    (lt_of_lt_of_le hlt hfuel)
  have hfr := propagate_flow_frame pf fuel s x y lim r hr
  refine ⟨r, hr, by omega, ?_⟩
  intro a b hne
  constructor
  · by_contra hcon
    simp only [not_or, not_lt] at hcon
    exact hne (hfr.stamp_keep a b hcon.1 hcon.2)
  · rcases hfr.stamp a b with h | h
    · exact absurd h hne
    · exact h

/-- Witness for C10: on `ringSim` the traversal from `(1, 1)` makes 4 calls,
the number of non-wall cells. -/
theorem propagate_flow_total_witness :
    nonWallCount ringSim = 4 ∧
    (propagate_flow lp64 4 ringSim 1 1 ⟨65536⟩).toOption.map (fun r => r.calls) = some 4 ∧
    ∃ r, propagate_flow lp64 4 ringSim 1 1 ⟨65536⟩ = Except.ok r ∧
      r.calls ≤ nonWallCount ringSim ∧
      ∀ a b, r.sim.last_use a b ≠ ringSim.last_use a b →
        ((a, b) = (1, 1) ∨ ringSim.last_use a b < ringSim.UT - 1) ∧
          r.sim.last_use a b = ringSim.UT :=
  ⟨by decide!, by decide!,
    propagate_flow_total lp64 ringSim 1 1 ⟨65536⟩ 4 (by decide!) (by decide!) (by decide!)
      (by decide!)⟩

end Simulator

/-! ## The content swap and the clamp step -/

namespace Simulator

variable {N K : Nat} {tag : Tag}

theorem swap_cells_spec (s : Simulator N K tag) (x y nx ny : Int)
    (h : (x, y) ≠ (nx, ny)) :
    (swap_with (swap_with (swap_with ParticleParams.zero s x y).1
        (swap_with ParticleParams.zero s x y).2 nx ny).1
      (swap_with (swap_with ParticleParams.zero s x y).1
        (swap_with ParticleParams.zero s x y).2 nx ny).2 x y)
      = (ParticleParams.zero, swap_cells s x y nx ny) ∧
    ((swap_cells s x y nx ny).field x y = s.field nx ny ∧
      (swap_cells s x y nx ny).p x y = s.p nx ny ∧
      (swap_cells s x y nx ny).velocity.v x y = s.velocity.v nx ny) ∧
    ((swap_cells s x y nx ny).field nx ny = s.field x y ∧
      (swap_cells s x y nx ny).p nx ny = s.p x y ∧
      (swap_cells s x y nx ny).velocity.v nx ny = s.velocity.v x y) ∧
    (∀ a b, (a, b) ≠ (x, y) → (a, b) ≠ (nx, ny) →
      (swap_cells s x y nx ny).field a b = s.field a b ∧
      (swap_cells s x y nx ny).p a b = s.p a b ∧
      (swap_cells s x y nx ny).velocity.v a b = s.velocity.v a b) ∧
    ((swap_cells s x y nx ny).rho_ = s.rho_ ∧ (swap_cells s x y nx ny).g_ = s.g_ ∧
      (swap_cells s x y nx ny).dirs = s.dirs ∧ (swap_cells s x y nx ny).old_p = s.old_p ∧
      (swap_cells s x y nx ny).rows = s.rows ∧ (swap_cells s x y nx ny).cols = s.cols ∧
      (swap_cells s x y nx ny).velocity_flow = s.velocity_flow ∧
      (swap_cells s x y nx ny).last_use = s.last_use ∧ (swap_cells s x y nx ny).UT = s.UT ∧
      (swap_cells s x y nx ny).random_generator_ = s.random_generator_) ∧
    swap_cells (swap_cells s x y nx ny) x y nx ny = s := by
  have hne : ¬ (x = nx ∧ y = ny) := fun e => h (by rw [e.1, e.2])
  have hne2 : ¬ (nx = x ∧ ny = y) := fun e => h (by rw [e.1, e.2])
  refine ⟨?_, ?_, ?_, ?_, ?_, ?_⟩
  · simp only [swap_cells, swap_with, set2, ParticleParams.zero, Prod.mk.injEq, and_true]
    simp [hne]
  · refine ⟨?_, ?_, ?_⟩
    · simp [swap_cells, swap_with, set2, hne, hne2]
    · simp [swap_cells, swap_with, set2, hne, hne2]
    · funext k
      simp [swap_cells, swap_with, set2, hne, hne2]
  · refine ⟨?_, ?_, ?_⟩
    · simp [swap_cells, swap_with, set2, hne2]
    · simp [swap_cells, swap_with, set2, hne2]
    · funext k
      simp [swap_cells, swap_with, set2, hne2]
  · intro a b h1 h2
    have e1 : ¬ (a = x ∧ b = y) := fun e => h1 (by rw [e.1, e.2])
    have e2 : ¬ (a = nx ∧ b = ny) := fun e => h2 (by rw [e.1, e.2])
    refine ⟨?_, ?_, ?_⟩
    · simp [swap_cells, swap_with, set2, e1, e2]
    · simp [swap_cells, swap_with, set2, e1, e2]
    · funext k
      simp [swap_cells, swap_with, set2, e1, e2]
  · simp [swap_cells, swap_with]
  · cases s with
    | mk rho g dirs p old_p rows cols field velocity velocity_flow last_use UT rng =>
      simp only [swap_cells, swap_with, set2, hne, hne2, mk.injEq, true_and, and_true]
      refine ⟨?_, ?_, ?_⟩
      · funext a b
        by_cases e1 : a = x ∧ b = y
        · obtain ⟨rfl, rfl⟩ := e1
          simp [set2, hne, hne2]
        · by_cases e2 : a = nx ∧ b = ny
          · obtain ⟨rfl, rfl⟩ := e2
            simp [set2, hne, hne2]
          · simp [set2, e1, e2]
      · funext a b
        by_cases e1 : a = x ∧ b = y
        · obtain ⟨rfl, rfl⟩ := e1
          simp [set2, hne, hne2]
        · by_cases e2 : a = nx ∧ b = ny
          · obtain ⟨rfl, rfl⟩ := e2
            simp [set2, hne, hne2]
          · simp [set2, e1, e2]
      · cases velocity with
        | mk v =>
          congr 1
          funext a b k
          by_cases e1 : a = x ∧ b = y
          · obtain ⟨rfl, rfl⟩ := e1
            simp [hne, hne2]
          · by_cases e2 : a = nx ∧ b = ny
            · obtain ⟨rfl, rfl⟩ := e2
              simp [hne, hne2]
            · simp [e1, e2]

theorem forCellsM_mem {σ : Type} (P : σ → Prop) (D : Int → Int → σ → Prop)
    (body : σ → Int → Int → Except Fault σ)
    (hstep : ∀ s x y s', P s → body s x y = Except.ok s' →
      P s' ∧ D x y s' ∧ ∀ a b, D a b s → D a b s') :
    ∀ (l : List (Int × Int)) (s s' : σ), P s → forCellsM body l s = Except.ok s' →
      P s' ∧ (∀ c ∈ l, D c.1 c.2 s') ∧ ∀ a b, D a b s → D a b s' := by
  intro l
  induction l with
  | nil =>
    intro s s' hP h
    simp only [forCellsM, Except.ok.injEq] at h
    subst h
    exact ⟨hP, by simp, fun _ _ h => h⟩
  | cons c l ih =>
    intro s s' hP h
    obtain ⟨x, y⟩ := c
    simp only [forCellsM] at h
    split at h
    · exact absurd h (by simp)
    · rename_i s1 h1
      obtain ⟨p1, d1, k1⟩ := hstep s x y s1 hP h1
      obtain ⟨p2, d2, k2⟩ := ih s1 s' p1 h
      refine ⟨p2, ?_, fun a b hd => k2 a b (k1 a b hd)⟩
      intro c hc
      rcases List.mem_cons.1 hc with rfl | hc
      · exact k2 _ _ d1
      · exact d2 c hc

theorem forDirsM_mem (P : Simulator N K tag → Prop) (D : Int × Int → Simulator N K tag → Prop)
    (body : Simulator N K tag → Int × Int → Except Fault (Simulator N K tag))
    (hstep : ∀ s d s', P s → body s d = Except.ok s' →
      P s' ∧ D d s' ∧ ∀ e, D e s → D e s') :
    ∀ (l : List (Int × Int)) (s s' : Simulator N K tag), P s →
      forDirsM body l s = Except.ok s' →
      P s' ∧ (∀ d ∈ l, D d s') ∧ ∀ e, D e s → D e s' := by
  intro l
  induction l with
  | nil =>
    intro s s' hP h
    simp only [forDirsM, Except.ok.injEq] at h
    subst h
    exact ⟨hP, by simp, fun _ h => h⟩
  | cons c l ih =>
    intro s s' hP h
    simp only [forDirsM] at h
    split at h
    · exact absurd h (by simp)
    · rename_i s1 h1
      obtain ⟨p1, d1, k1⟩ := hstep s c s1 hP h1
      obtain ⟨p2, d2, k2⟩ := ih s1 s' p1 h
      refine ⟨p2, ?_, fun e hd => k2 e (k1 e hd)⟩
      intro c hc
      rcases List.mem_cons.1 hc with rfl | hc
      · exact k2 _ d1
      · exact d2 c hc

theorem index_surj (k : Nat) (hk : k < 4) : ∃ d ∈ deltas, VectorField.index d.1 d.2 = k := by
  have : k = 0 ∨ k = 1 ∨ k = 2 ∨ k = 3 := by omega
  rcases this with rfl | rfl | rfl | rfl
  · exact ⟨(-1, 0), by decide, by decide⟩
  · exact ⟨(1, 0), by decide, by decide⟩
  · exact ⟨(0, -1), by decide, by decide⟩
  · exact ⟨(0, 1), by decide, by decide⟩

theorem clamp_dir_step (pf : Platform) (s0 : Simulator N K tag) (x y : Int)
    (s : Simulator N K tag) (d : Int × Int) (s' : Simulator N K tag)
    (hP : Clamping s0 s) (h : clamp_dir pf x y s d = Except.ok s') :
    Clamping s0 s' ∧ Clamped s0 s' x y (VectorField.index d.1 d.2) ∧
      ∀ a b k, Clamped s0 s a b k → Clamped s0 s' a b k := by
  obtain ⟨hflow, hfield, hrows, hcols, hvel⟩ := hP
  -- the state after the step: only this edge's velocity may differ
  have key : s'.velocity_flow = s.velocity_flow ∧ s'.field = s.field ∧ s'.rows = s.rows ∧
      s'.cols = s.cols ∧
      (∀ a b k, ¬ (a = x ∧ b = y ∧ k = VectorField.index d.1 d.2) →
        s'.velocity.v a b k = s.velocity.v a b k) ∧
      Clamped s0 s' x y (VectorField.index d.1 d.2) := by
    simp only [clamp_dir, VectorField.get] at h
    have hcur := hvel x y (VectorField.index d.1 d.2)
    by_cases h1 : 0 < (s.velocity.v x y (VectorField.index d.1 d.2)).v
    · rw [if_pos h1] at h
      by_cases h2 : (s.velocity_flow.v x y (VectorField.index d.1 d.2)).v
          ≤ (s.velocity.v x y (VectorField.index d.1 d.2)).v
      · rw [if_pos h2] at h
        have hcl : Clamped s0
            { s with velocity := (s.velocity.set x y d.1 d.2
                (s.velocity_flow.v x y (VectorField.index d.1 d.2))) }
            x y (VectorField.index d.1 d.2) := by
          simp only [Clamped, VectorField.set_v, and_self, if_true, clamped]
          rcases hcur with e | e
          · rw [e] at h1 h2
            rw [hflow] at h2 ⊢
            simp [h1, h2]
          · rw [e.1] at h1 h2
            simp only [clamped] at h1 h2
            rw [hflow]
            split_ifs at h1 h2 ⊢ with h5
            · exact ⟨rfl, fun _ => e.2 h5⟩
            · exact absurd h1 h5
        split_ifs at h
        all_goals simp only [Except.ok.injEq] at h
        all_goals subst h
        all_goals refine ⟨rfl, rfl, rfl, rfl, ?_, hcl⟩
        all_goals intro a b k hne
        all_goals simp [VectorField.set_v, hne]
      · rw [if_neg h2] at h
        cases h
    · rw [if_neg h1] at h
      simp only [Except.ok.injEq] at h
      subst h
      refine ⟨rfl, rfl, rfl, rfl, fun _ _ _ _ => rfl, ?_⟩
      rcases hcur with e | e
      · refine ⟨?_, ?_⟩
        · rw [e, clamped]
          rw [e] at h1
          simp [h1]
        · intro h5
          rw [e] at h1
          exact absurd h5 h1
      · exact e
  obtain ⟨k1, k2, k3, k4, k5, k6⟩ := key
  refine ⟨⟨k1.trans hflow, k2.trans hfield, k3.trans hrows, k4.trans hcols, ?_⟩, k6, ?_⟩
  · intro a b k
    by_cases hne : a = x ∧ b = y ∧ k = VectorField.index d.1 d.2
    · obtain ⟨rfl, rfl, rfl⟩ := hne
      exact Or.inr k6
    · rcases hvel a b k with e | e
      · left; rw [k5 a b k hne, e]
      · right; exact ⟨by rw [k5 a b k hne]; exact e.1, e.2⟩
  · intro a b k he
    by_cases hne : a = x ∧ b = y ∧ k = VectorField.index d.1 d.2
    · obtain ⟨rfl, rfl, rfl⟩ := hne
      exact k6
    · exact ⟨by rw [k5 a b k hne]; exact he.1, he.2⟩

theorem clamp_cell_step (pf : Platform) (s0 : Simulator N K tag)
    (s : Simulator N K tag) (x y : Int) (s' : Simulator N K tag)
    (hP : Clamping s0 s) (h : clamp_cell pf s x y = Except.ok s') :
    Clamping s0 s' ∧ (s0.field x y ≠ '#' → ∀ k < 4, Clamped s0 s' x y k) ∧
      ∀ a b, (s0.field a b ≠ '#' → ∀ k < 4, Clamped s0 s a b k) →
        (s0.field a b ≠ '#' → ∀ k < 4, Clamped s0 s' a b k) := by
  simp only [clamp_cell] at h
  split_ifs at h with hw
  · simp only [Except.ok.injEq] at h
    subst h
    exact ⟨hP, fun hf => absurd (hP.2.1 ▸ hw) hf, fun _ _ h => h⟩
  · have := forDirsM_mem
      (fun s1 => Clamping s0 s1 ∧ ∀ a b k, Clamped s0 s a b k → Clamped s0 s1 a b k)
      (fun d s1 => Clamped s0 s1 x y (VectorField.index d.1 d.2))
      (clamp_dir pf x y) ?_ deltas s s' ⟨hP, fun _ _ _ h => h⟩ h
    · obtain ⟨⟨p1, p2⟩, d1, -⟩ := this
      refine ⟨p1, ?_, ?_⟩
      · intro _ k hk
        obtain ⟨d, hd, rfl⟩ := index_surj k hk
        exact d1 d hd
      · intro a b hab hf k hk
        exact p2 a b k (hab hf k hk)
    · intro s1 d s2 hP1 h12
      obtain ⟨q1, q2, q3⟩ := clamp_dir_step pf s0 x y s1 d s2 hP1.1 h12
      exact ⟨⟨q1, fun a b k hc => q3 a b k (hP1.2 a b k hc)⟩, q2, fun e he => q3 _ _ _ he⟩

end Simulator

/-! ## The cumulative table and the selection of a direction -/

namespace Simulator

variable {N K : Nat} {tag : Tag}

theorem move_table_cons (pf : Platform) (s : Simulator N K tag) (x y : Int) (d : Int × Int)
    (ds : List (Int × Int)) (sum : FixedPoint N K tag) (tres : List (FixedPoint N K tag)) :
    move_table pf s x y (d :: ds) sum tres =
      move_table pf s x y ds (move_step pf s x y sum d) (tres ++ [move_step pf s x y sum d]) := by
  obtain ⟨dx, dy⟩ := d
  simp only [move_table, move_step]
  split_ifs <;> rfl

theorem move_table_deltas (pf : Platform) (s : Simulator N K tag) (x y : Int)
    (z : FixedPoint N K tag) :
    move_table pf s x y deltas z [] =
      ([move_step pf s x y z (-1, 0),
        move_step pf s x y (move_step pf s x y z (-1, 0)) (1, 0),
        move_step pf s x y (move_step pf s x y (move_step pf s x y z (-1, 0)) (1, 0)) (0, -1),
        move_step pf s x y (move_step pf s x y (move_step pf s x y
          (move_step pf s x y z (-1, 0)) (1, 0)) (0, -1)) (0, 1)],
       move_step pf s x y (move_step pf s x y (move_step pf s x y
          (move_step pf s x y z (-1, 0)) (1, 0)) (0, -1)) (0, 1)) := by
  rw [deltas, move_table_cons, move_table_cons, move_table_cons, move_table_cons]
  rfl

theorem upper_bound_four (a0 a1 a2 a3 p : FixedPoint N K tag) :
    upper_bound [a0, a1, a2, a3] p 4 0 4 =
      if p.v < a2.v then (if p.v < a1.v then (if p.v < a0.v then 0 else 1) else 2)
      else (if p.v < a3.v then 3 else 4) := by
  simp only [upper_bound]
  norm_num

theorem firstAbove_four (a0 a1 a2 a3 p : FixedPoint N K tag)
    (h01 : a0.v ≤ a1.v) (h12 : a1.v ≤ a2.v) :
    upper_bound [a0, a1, a2, a3] p 4 0 4 = firstAbove [a0, a1, a2, a3] p := by
  rw [upper_bound_four]
  simp only [firstAbove, List.findIdx_cons, List.findIdx_nil]
  by_cases c0 : p.v < a0.v <;> by_cases c1 : p.v < a1.v <;> by_cases c2 : p.v < a2.v <;>
    by_cases c3 : p.v < a3.v <;> simp [c0, c1, c2, c3] <;> omega

theorem move_step_inRange (pf : Platform) (s : Simulator N K tag) (x y : Int)
    (sum : FixedPoint N K tag) (d : Int × Int) (hs : InRange (storageBits pf tag N) sum.v) :
    InRange (storageBits pf tag N) (move_step pf s x y sum d).v := by
  have hw : 0 < storageBits pf tag N := by have := storageBits_ge pf tag N; omega
  unfold move_step
  split_ifs
  · exact hs
  · exact hs
  · exact wrap_inRange hw _

theorem move_step_changed (pf : Platform) (s : Simulator N K tag) (x y : Int)
    (sum : FixedPoint N K tag) (d : Int × Int) (hs : InRange (storageBits pf tag N) sum.v)
    (hne : (move_step pf s x y sum d).v ≠ sum.v) :
    0 < (s.velocity.get x y d.1 d.2).v ∧ s.field (x + d.1) (y + d.2) ≠ '#' ∧
      s.last_use (x + d.1) (y + d.2) ≠ s.UT := by
  have hw : 0 < storageBits pf tag N := by have := storageBits_ge pf tag N; omega
  unfold move_step at hne
  split_ifs at hne with h1 h2
  · exact absurd rfl hne
  · exact absurd rfl hne
  · simp only [not_or] at h1
    refine ⟨?_, h1.1, h1.2⟩
    by_contra h3
    have h4 : (s.velocity.get x y d.1 d.2).v = 0 := by omega
    apply hne
    simp only [FixedPoint.add, h4, add_zero]
    exact wrap_eq_self hw hs

theorem ofInt_zero_inRange (pf : Platform) :
    InRange (storageBits pf tag N) (FixedPoint.ofInt pf 0 : FixedPoint N K tag).v := by
  rw [FixedPoint.ofInt_zero_v]
  constructor
  · have : (0 : Int) < 2 ^ (storageBits pf tag N - 1) := by positivity
    omega
  · positivity

theorem move_table_inRange (pf : Platform) (s : Simulator N K tag) (x y : Int) :
    InRange (storageBits pf tag N)
      (move_table pf s x y deltas (FixedPoint.ofInt pf 0) []).2.v := by
  rw [move_table_deltas]
  exact move_step_inRange pf s x y _ _ (move_step_inRange pf s x y _ _
    (move_step_inRange pf s x y _ _ (move_step_inRange pf s x y _ _ (ofInt_zero_inRange pf))))

theorem selection_valid (pf : Platform) (s : Simulator N K tag) (x y : Int)
    (p : FixedPoint N K tag) (h0 : 0 ≤ p.v)
    (hp : p.v < (move_table pf s x y deltas (FixedPoint.ofInt pf 0) []).2.v) :
    ∃ d, deltas[upper_bound (move_table pf s x y deltas (FixedPoint.ofInt pf 0) []).1 p 4 0 4]?
        = some d ∧
      0 < (s.velocity.get x y d.1 d.2).v ∧ s.field (x + d.1) (y + d.2) ≠ '#' ∧
      s.last_use (x + d.1) (y + d.2) ≠ s.UT := by
  rw [move_table_deltas] at hp ⊢
  simp only at hp ⊢
  rw [upper_bound_four]
  have r0 : InRange (storageBits pf tag N) (FixedPoint.ofInt pf 0 : FixedPoint N K tag).v :=
    ofInt_zero_inRange pf
  have r1 := move_step_inRange pf s x y _ (-1, 0) r0
  have r2 := move_step_inRange pf s x y _ (1, 0) r1
  have r3 := move_step_inRange pf s x y _ (0, -1) r2
  have z0 : (FixedPoint.ofInt pf 0 : FixedPoint N K tag).v = 0 := FixedPoint.ofInt_zero_v pf
  split_ifs with c2 c1 c0
  · exact ⟨(-1, 0), rfl, move_step_changed pf s x y _ (-1, 0) r0 (by omega)⟩
  · exact ⟨(1, 0), rfl, move_step_changed pf s x y _ (1, 0) r1 (by omega)⟩
  · exact ⟨(0, -1), rfl, move_step_changed pf s x y _ (0, -1) r2 (by omega)⟩
  · exact ⟨(0, 1), rfl, move_step_changed pf s x y _ (0, 1) r3 (by omega)⟩

theorem mulDraw_bounds (pf : Platform) (sum : FixedPoint N K tag) (r : Draw)
    (hs : InRange (storageBits pf tag N) sum.v) (hpos : 0 < sum.v) (hr : r.Valid) :
    0 ≤ (FixedPoint.mulDraw pf sum r).v ∧ (FixedPoint.mulDraw pf sum r).v < sum.v := by
  have hw : 0 < storageBits pf tag N := by have := storageBits_ge pf tag N; omega
  unfold Draw.Valid at hr
  have hden : (0 : Int) < r.den := by omega
  have hnum : (0 : Int) ≤ r.num := by omega
  have hq0 : 0 ≤ Int.tdiv (sum.v * r.num) r.den := by
    rw [Int.tdiv_eq_ediv (by positivity) (le_of_lt hden)]
    exact Int.ediv_nonneg (by positivity) (by omega)
  have hq1 : Int.tdiv (sum.v * r.num) r.den < sum.v := by
    rw [Int.tdiv_eq_ediv (by positivity) (le_of_lt hden)]
    apply Int.ediv_lt_of_lt_mul hden
    have : (r.num : Int) < r.den := by exact_mod_cast hr
    nlinarith
  have hin : InRange (storageBits pf tag N) (Int.tdiv (sum.v * r.num) r.den) :=
    ⟨by have := hs.1; have : (0 : Int) < 2 ^ (storageBits pf tag N - 1) := by positivity
        omega, by have := hs.2; omega⟩
  simp only [FixedPoint.mulDraw]
  rw [wrap_eq_self hw hin]
  exact ⟨hq0, hq1⟩

theorem move_step_bounds (pf : Platform) (s : Simulator N K tag) (x y : Int)
    (sum : FixedPoint N K tag) (d : Int × Int) (h0 : 0 ≤ sum.v)
    (hfit : sum.v + max 0 (s.velocity.get x y d.1 d.2).v < 2 ^ (storageBits pf tag N - 1)) :
    sum.v ≤ (move_step pf s x y sum d).v ∧
      (move_step pf s x y sum d).v ≤ sum.v + max 0 (s.velocity.get x y d.1 d.2).v := by
  have hw : 0 < storageBits pf tag N := by have := storageBits_ge pf tag N; omega
  have hm : 0 ≤ max 0 (s.velocity.get x y d.1 d.2).v := le_max_left _ _
  unfold move_step
  split_ifs with h1 h2
  · exact ⟨le_refl _, by omega⟩
  · exact ⟨le_refl _, by omega⟩
  · have hv : max 0 (s.velocity.get x y d.1 d.2).v = (s.velocity.get x y d.1 d.2).v :=
      max_eq_right (by omega)
    rw [hv] at hfit ⊢
    have hpos : (0 : Int) < 2 ^ (storageBits pf tag N - 1) := by positivity
    simp only [FixedPoint.add]
    rw [wrap_eq_self hw ⟨by omega, hfit⟩]
    omega

theorem posSum_eq (s : Simulator N K tag) (x y : Int) :
    posSum s x y = max 0 (s.velocity.get x y (-1) 0).v + max 0 (s.velocity.get x y 1 0).v
      + max 0 (s.velocity.get x y 0 (-1)).v + max 0 (s.velocity.get x y 0 1).v := by
  have e0 : VectorField.index (-1) 0 = 0 := by decide
  have e1 : VectorField.index 1 0 = 1 := by decide
  have e2 : VectorField.index 0 (-1) = 2 := by decide
  have e3 : VectorField.index 0 1 = 3 := by decide
  simp only [posSum, VectorField.get, e0, e1, e2, e3]
  simp [List.range_succ]
  ring

theorem move_table_sorted (pf : Platform) (s : Simulator N K tag) (x y : Int)
    (hfit : MoveFits pf s x y) :
    ∃ a0 a1 a2 a3 : FixedPoint N K tag,
      move_table pf s x y deltas (FixedPoint.ofInt pf 0) [] = ([a0, a1, a2, a3], a3) ∧
      0 ≤ a0.v ∧ a0.v ≤ a1.v ∧ a1.v ≤ a2.v ∧ a2.v ≤ a3.v := by
  rw [move_table_deltas]
  refine ⟨_, _, _, _, rfl, ?_⟩
  unfold MoveFits at hfit
  rw [posSum_eq] at hfit
  have z0 : (FixedPoint.ofInt pf 0 : FixedPoint N K tag).v = 0 := FixedPoint.ofInt_zero_v pf
  have m0 : 0 ≤ max 0 (s.velocity.get x y (-1) 0).v := le_max_left _ _
  have m1 : 0 ≤ max 0 (s.velocity.get x y 1 0).v := le_max_left _ _
  have m2 : 0 ≤ max 0 (s.velocity.get x y 0 (-1)).v := le_max_left _ _
  have m3 : 0 ≤ max 0 (s.velocity.get x y 0 1).v := le_max_left _ _
  have b0 := move_step_bounds pf s x y (FixedPoint.ofInt pf 0) (-1, 0) (by omega)
    (by simp only; omega)
  simp only at b0
  have b1 := move_step_bounds pf s x y (move_step pf s x y (FixedPoint.ofInt pf 0) (-1, 0))
    (1, 0) (by omega) (by simp only; omega)
  simp only at b1
  have b2 := move_step_bounds pf s x y (move_step pf s x y
    (move_step pf s x y (FixedPoint.ofInt pf 0) (-1, 0)) (1, 0)) (0, -1) (by omega)
    (by simp only; omega)
  simp only at b2
  have b3 := move_step_bounds pf s x y (move_step pf s x y (move_step pf s x y
    (move_step pf s x y (FixedPoint.ofInt pf 0) (-1, 0)) (1, 0)) (0, -1)) (0, 1) (by omega)
    (by simp only; omega)
  simp only at b3
  exact ⟨by omega, b1.1, b2.1, b3.1⟩

end Simulator

/-! ## The end coordinate of a successful flow traversal -/

namespace Simulator

variable {N K : Nat} {tag : Tag}

theorem propagate_flow_loop_dest (pf : Platform)
    (call : Simulator N K tag → Int → Int → FixedPoint N K tag →
      Except Fault (FlowOut N K tag))
    (hframe : ∀ s1 nx ny vp r1, call s1 nx ny vp = Except.ok r1 → FlowFrame s1 nx ny r1.sim)
    (hcall : ∀ s1 nx ny vp r1, call s1 nx ny vp = Except.ok r1 → r1.prop = true →
      r1.dest ≠ (nx, ny) ∧ s1.last_use r1.dest.1 r1.dest.2 = s1.UT - 1)
    (x y : Int) (lim : FixedPoint N K tag) :
    ∀ (ds : List (Int × Int)) (s : Simulator N K tag) (ret : FixedPoint N K tag) (calls : Nat)
      (r : FlowOut N K tag), (∀ d ∈ ds, d ∈ deltas) →
      propagate_flow_loop pf call x y lim ds s ret calls = Except.ok r → r.prop = true →
      r.dest ≠ (x, y) ∧ s.last_use r.dest.1 r.dest.2 = s.UT - 1 := by
  intro ds
  induction ds with
  | nil =>
    intro s ret calls r _ h hp
    simp only [propagate_flow_loop, Except.ok.injEq] at h
    subst h
    simp at hp
  | cons d ds ih =>
    intro s ret calls r hds h hp
    obtain ⟨dx, dy⟩ := d
    have hds2 : ∀ d ∈ ds, d ∈ deltas := fun d hd => hds d (List.mem_cons_of_mem _ hd)
    simp only [propagate_flow_loop] at h
    split_ifs at h with h1 h2 h3
    · exact ih s ret calls r hds2 h hp
    · simp only [Except.ok.injEq] at h
      subst h
      exact ⟨(neighbour_ne x y (dx, dy) (hds _ (List.mem_cons_self _ _))).symm, h3⟩
    · split at h
      · exact absurd h (by simp)
      · rename_i r1 hr1
        have hf1 := hframe _ _ _ _ _ hr1
        split_ifs at h with h4
        · simp only [Except.ok.injEq] at h
          subst h
          simp only [Bool.and_eq_true, decide_eq_true_eq] at hp
          exact ⟨hp.2, (hcall _ _ _ _ _ hr1 h4).2⟩
        · obtain ⟨i1, i2⟩ := ih _ _ _ r hds2 h hp
          refine ⟨i1, ?_⟩
          rw [hf1.UT_eq] at i2
          rcases hf1.stamp r.dest.1 r.dest.2 with e | e
          · rw [← e]; exact i2
          · omega
    · exact ih s ret calls r hds2 h hp

theorem propagate_flow_dest (pf : Platform) :
    ∀ (fuel : Nat) (s : Simulator N K tag) (x y : Int) (lim : FixedPoint N K tag)
      (r : FlowOut N K tag),
      propagate_flow pf fuel s x y lim = Except.ok r → r.prop = true →
      r.dest ≠ (x, y) ∧ s.last_use r.dest.1 r.dest.2 = s.UT - 1 := by
  intro fuel
  induction fuel with
  | zero => intro s x y lim r h; simp [propagate_flow] at h
  | succ n ih =>
    intro s x y lim r h hp
    simp only [propagate_flow] at h
    obtain ⟨h1, h2⟩ := propagate_flow_loop_dest pf _
      (fun s1 nx ny vp r1 h1 => propagate_flow_frame pf n s1 nx ny vp r1 h1)
      (fun s1 nx ny vp r1 h1 h2 => ih s1 nx ny vp r1 h1 h2) x y lim deltas _ _ _ r
      (fun d hd => hd) h hp
    refine ⟨h1, ?_⟩
    have hne : ¬ (r.dest.1 = x ∧ r.dest.2 = y) := fun e => h1 (Prod.ext e.1 e.2)
    simpa [set2, hne] using h2

end Simulator

/-! ## The stop traversal -/

namespace Simulator

variable {N K : Nat} {tag : Tag}

theorem StopFrame.id_stop (s : Simulator N K tag) : StopFrame s s :=
  ⟨rfl, rfl, rfl, rfl, rfl, rfl, rfl, rfl, rfl, rfl, rfl, rfl, fun _ _ => Or.inl rfl⟩

theorem StopFrame.thenStop {s1 s2 s3 : Simulator N K tag} (h1 : StopFrame s1 s2)
    (h2 : StopFrame s2 s3) : StopFrame s1 s3 := by
  refine ⟨h2.rho_eq.trans h1.rho_eq, h2.g_eq.trans h1.g_eq, h2.dirs_eq.trans h1.dirs_eq,
    h2.p_eq.trans h1.p_eq, h2.old_p_eq.trans h1.old_p_eq, h2.rows_eq.trans h1.rows_eq,
    h2.cols_eq.trans h1.cols_eq, h2.field_eq.trans h1.field_eq,
    h2.velocity_eq.trans h1.velocity_eq, h2.flow_eq.trans h1.flow_eq,
    h2.UT_eq.trans h1.UT_eq, h2.rng_eq.trans h1.rng_eq, ?_⟩
  intro a b
  rcases h2.stamp a b with h | h
  · rw [h]; exact h1.stamp a b
  · right; rw [h, h1.UT_eq]

theorem StopFrame.mark (s : Simulator N K tag) (x y : Int) :
    StopFrame s { s with last_use := set2 s.last_use x y s.UT } := by
  refine ⟨rfl, rfl, rfl, rfl, rfl, rfl, rfl, rfl, rfl, rfl, rfl, rfl, ?_⟩
  intro a b
  simp only [set2]
  split_ifs <;> simp

theorem Settled.stays {s s' : Simulator N K tag} (h : StopFrame s s') (a b : Int)
    (hs : Settled s a b) : Settled s' a b := by
  intro d hd
  rw [h.field_eq, h.velocity_eq, h.UT_eq]
  rcases hs d hd with h1 | h1 | h1
  · exact Or.inl h1
  · right; left
    rcases h.stamp (a + d.1) (b + d.2) with e | e
    · rw [e]; exact h1
    · rw [e]; omega
  · exact Or.inr (Or.inr h1)

theorem Settled.of_not_blocked (s : Simulator N K tag) (x y : Int)
    (h : stop_blocked s x y = false) : Settled s x y := by
  intro d hd
  simp only [stop_blocked, List.any_eq_false, decide_eq_true_eq] at h
  have := h d hd
  by_contra hc
  simp only [not_or, not_le] at hc
  exact this ⟨hc.1, by omega, hc.2.2⟩

/-- What a stop traversal started at `(x, y)` guarantees. -/
theorem propagate_stop_loop_frame
    (call : Simulator N K tag → Int → Int → Except Fault (Simulator N K tag))
    (P : Simulator N K tag → Simulator N K tag → Prop)
    (hrefl : ∀ s, P s s)
    (htrans : ∀ s1 s2 s3, P s1 s2 → P s2 s3 → P s1 s3)
    (hcall : ∀ s1 nx ny s2, call s1 nx ny = Except.ok s2 → P s1 s2)
    (x y : Int) :
    ∀ (ds : List (Int × Int)) (s s' : Simulator N K tag),
      propagate_stop_loop call x y ds s = Except.ok s' → P s s' := by
  intro ds
  induction ds with
  | nil =>
    intro s s' h
    simp only [propagate_stop_loop, Except.ok.injEq] at h
    subst h
    exact hrefl s
  | cons d ds ih =>
    intro s s' h
    obtain ⟨dx, dy⟩ := d
    simp only [propagate_stop_loop] at h
    split_ifs at h with h1
    · exact ih s s' h
    · split at h
      · exact absurd h (by simp)
      · rename_i s1 hs1
        exact htrans _ _ _ (hcall _ _ _ _ hs1) (ih s1 s' h)

theorem propagate_stop_frame :
    ∀ (fuel : Nat) (s : Simulator N K tag) (x y : Int) (force : Bool)
      (s' : Simulator N K tag),
      propagate_stop fuel s x y force = Except.ok s' →
      StopFrame s s' ∧
      (∀ a b, s'.last_use a b ≠ s.last_use a b →
        ((a, b) = (x, y) ∧ force = true) ∨ Settled s' a b) ∧
      (force = true → s'.last_use x y = s.UT) := by
  intro fuel
  induction fuel with
  | zero => intro s x y force s' h; simp [propagate_stop] at h
  | succ n ih =>
    intro s x y force s' h
    simp only [propagate_stop] at h
    split_ifs at h with h1
    · simp only [Except.ok.injEq] at h
      subst h
      refine ⟨StopFrame.id_stop s, fun a b hne => absurd rfl hne, fun hf => ?_⟩
      simp [hf] at h1
    · have hloop := propagate_stop_loop_frame
        (fun s1 nx ny => propagate_stop n s1 nx ny false)
        (fun s1 s2 => StopFrame s1 s2 ∧
          ∀ a b, s2.last_use a b ≠ s1.last_use a b → Settled s2 a b)
        (fun s1 => ⟨StopFrame.id_stop s1, fun a b hne => absurd rfl hne⟩)
        (fun s1 s2 s3 h12 h23 => ⟨h12.1.thenStop h23.1, fun a b hne => by
          by_cases e : s3.last_use a b = s2.last_use a b
          · exact Settled.stays h23.1 a b (h12.2 a b (by rw [← e]; exact hne))
          · exact h23.2 a b e⟩)
        (fun s1 nx ny s2 h12 => by
          obtain ⟨f1, f2, -⟩ := ih s1 nx ny false s2 h12
          refine ⟨f1, fun a b hne => ?_⟩
          rcases f2 a b hne with ⟨-, hf⟩ | hs
          · exact absurd hf (by simp)
          · exact hs)
        x y deltas _ s' h
      obtain ⟨l1, l2⟩ := hloop
      have hm := StopFrame.mark s x y
      refine ⟨hm.thenStop l1, fun a b hne => ?_, fun _ => ?_⟩
      · by_cases e : s'.last_use a b = set2 s.last_use x y s.UT a b
        · -- the stamp was changed by the marking of the start cell
          have hab : a = x ∧ b = y := by
            by_contra hab
            rw [e] at hne
            simp [set2, hab] at hne
          by_cases hf : force = true
          · exact Or.inl ⟨by rw [hab.1, hab.2], hf⟩
          · right
            have hb : stop_blocked s x y = false := by
              simp only [Bool.and_eq_true, Bool.not_eq_true', not_and] at h1
              simpa using h1 (by simpa using hf)
            rw [hab.1, hab.2]
            exact Settled.stays (hm.thenStop l1) x y (Settled.of_not_blocked s x y hb)
        · exact Or.inr (l2 a b e)
      · rcases l1.stamp x y with e | e
        · rw [e]; simp [set2]
        · exact e

theorem BorderWalls.of_stop {s s' : Simulator N K tag} (hb : BorderWalls s)
    (h : StopFrame s s') : BorderWalls s' := by
  unfold BorderWalls
  rw [h.rows_eq, h.cols_eq, h.field_eq]
  exact hb

theorem unresolved_le_of_stop {s s' : Simulator N K tag} (h : StopFrame s s') :
    unresolved s' ≤ unresolved s := by
  unfold unresolved
  rw [h.rows_eq, h.cols_eq, h.field_eq, h.UT_eq]
  apply List.countP_mono_left
  intro c _ hc
  simp only [decide_eq_true_eq] at hc ⊢
  refine ⟨hc.1, ?_⟩
  rcases h.stamp c.1 c.2 with h1 | h1
  · rw [← h1]; exact hc.2
  · exact absurd h1 hc.2

theorem unresolved_mark_lt (s : Simulator N K tag) (x y : Int)
    (hxy : (x, y) ∈ cells s.rows s.cols) (hf : s.field x y ≠ '#')
    (hst : s.last_use x y ≠ s.UT) :
    unresolved { s with last_use := set2 s.last_use x y s.UT } < unresolved s := by
  unfold unresolved
  apply countP_lt_of_mem _ _ _ _ (x, y) hxy
  · simp [hf, hst]
  · simp [set2]
  · intro c _ hc
    simp only [decide_eq_true_eq, set2] at hc ⊢
    refine ⟨hc.1, ?_⟩
    have h2 := hc.2
    split_ifs at h2 with h3
    · exact absurd rfl h2
    · exact h2

theorem propagate_stop_loop_terminates (n : Nat)
    (call : Simulator N K tag → Int → Int → Except Fault (Simulator N K tag))
    (hframe : ∀ s1 nx ny s2, call s1 nx ny = Except.ok s2 → StopFrame s1 s2)
    (hcall : ∀ (s1 : Simulator N K tag) (nx ny : Int), BorderWalls s1 →
      (nx, ny) ∈ cells s1.rows s1.cols → s1.field nx ny ≠ '#' →
      unresolved { s1 with last_use := set2 s1.last_use nx ny s1.UT } < n →
      ∃ s2, call s1 nx ny = Except.ok s2)
    (x y : Int) :
    ∀ (ds : List (Int × Int)) (s : Simulator N K tag), (∀ d ∈ ds, d ∈ deltas) →
      BorderWalls s → (x, y) ∈ cells s.rows s.cols → s.field x y ≠ '#' →
      unresolved s ≤ n → ∃ s', propagate_stop_loop call x y ds s = Except.ok s' := by
  intro ds
  induction ds with
  | nil => intro s _ _ _ _ _; exact ⟨s, rfl⟩
  | cons d ds ih =>
    intro s hds hb hxy hf hn
    obtain ⟨dx, dy⟩ := d
    have hds2 : ∀ d ∈ ds, d ∈ deltas := fun d hd => hds d (List.mem_cons_of_mem _ hd)
    simp only [propagate_stop_loop]
    split_ifs with h1
    · exact ih s hds2 hb hxy hf hn
    · simp only [not_or] at h1
      have hnb := neighbour_mem_cells s hb x y hxy hf (dx, dy) (hds _ (List.mem_cons_self _ _))
      have hlt := unresolved_mark_lt s (x + dx) (y + dy) hnb h1.1 h1.2.1
      obtain ⟨s2, h2⟩ := hcall s (x + dx) (y + dy) hb hnb h1.1 (by omega)
      have hf2 := hframe _ _ _ _ h2
      rw [h2]
      simp only
      exact ih s2 hds2 (hb.of_stop hf2) (by rw [hf2.rows_eq, hf2.cols_eq]; exact hxy)
        (by rw [hf2.field_eq]; exact hf) (le_trans (unresolved_le_of_stop hf2) hn)

theorem propagate_stop_terminates :
    ∀ (fuel : Nat) (s : Simulator N K tag) (x y : Int) (force : Bool),
      BorderWalls s → (x, y) ∈ cells s.rows s.cols → s.field x y ≠ '#' →
      unresolved { s with last_use := set2 s.last_use x y s.UT } < fuel →
      ∃ s', propagate_stop fuel s x y force = Except.ok s' := by
  intro fuel
  induction fuel with
  | zero => intro s x y force _ _ _ h; omega
  | succ n ih =>
    intro s x y force hb hxy hf hn
    simp only [propagate_stop]
    split_ifs with h1
    · exact ⟨s, rfl⟩
    · exact propagate_stop_loop_terminates n
        (fun s1 nx ny => propagate_stop n s1 nx ny false)
        (fun s1 nx ny s2 h => (propagate_stop_frame n s1 nx ny false s2 h).1)
        (fun s1 nx ny h1 h2 h3 h4 => ih s1 nx ny false h1 h2 h3 h4)
        x y deltas _ (fun d hd => hd) (hb.of_stop (StopFrame.mark s x y)) hxy hf (by omega)

theorem unresolved_le_nonWallCount (s : Simulator N K tag) : unresolved s ≤ nonWallCount s := by
  unfold unresolved nonWallCount
  apply List.countP_mono_left
  intro c _ hc
  simp only [decide_eq_true_eq] at hc ⊢
  exact hc.1

theorem nonWallCount_mark (s : Simulator N K tag) (x y v : Int) :
    nonWallCount { s with last_use := set2 s.last_use x y v } = nonWallCount s := rfl

end Simulator

/-! ## The movement traversal: what it preserves -/

namespace Simulator

variable {N K : Nat} {tag : Tag}

theorem Permuted.id_perm (s : Simulator N K tag) : Permuted s s :=
  ⟨1, fun _ _ => rfl, fun _ _ => rfl, fun _ => rfl⟩

theorem Permuted.of_same {s s' : Simulator N K tag} (h : SameRecords s s') : Permuted s s' :=
  ⟨1, fun _ _ => rfl, fun _ _ => rfl, fun c => by
    obtain ⟨h1, h2, h3⟩ := h
    simp [record, h1, h2, h3]⟩

theorem Permuted.wall_iff {s s' : Simulator N K tag} (h : Permuted s s') (a b : Int) :
    s'.field a b = '#' ↔ s.field a b = '#' := by
  obtain ⟨σ, w, -, r⟩ := h
  have e : s'.field a b = s.field (σ (a, b)).1 (σ (a, b)).2 := by
    have := congrArg Prod.fst (r (a, b))
    simpa [record] using this
  constructor
  · intro hw
    rw [e] at hw
    have h2 := w (σ (a, b)) hw
    have h3 : σ (a, b) = (a, b) := σ.injective h2
    rw [h3] at hw
    exact hw
  · intro hw
    rw [e, w (a, b) hw]
    exact hw

theorem Permuted.thenPerm {s1 s2 s3 : Simulator N K tag} (h1 : Permuted s1 s2)
    (h2 : Permuted s2 s3) : Permuted s1 s3 := by
  have hw := h1.wall_iff
  obtain ⟨σ1, w1, i1, r1⟩ := h1
  obtain ⟨σ2, w2, i2, r2⟩ := h2
  refine ⟨σ1 * σ2, fun c hc => ?_, fun c hc => ?_, fun c => ?_⟩
  · rw [Equiv.Perm.mul_apply, w2 c ((hw c.1 c.2).2 hc), w1 c hc]
  · rw [Equiv.Perm.mul_apply, i2 c (fun d hd => (hw _ _).2 (hc d hd)), i1 c hc]
  · rw [r2 c, r1 (σ2 c), Equiv.Perm.mul_apply]

theorem MoveFrame.id_move (s : Simulator N K tag) : MoveFrame s s :=
  ⟨rfl, rfl, rfl, rfl, rfl, rfl, rfl, rfl, fun _ _ => Or.inl rfl, ⟨0, rfl⟩, Permuted.id_perm s⟩

theorem MoveFrame.thenMove {s1 s2 s3 : Simulator N K tag} (h1 : MoveFrame s1 s2)
    (h2 : MoveFrame s2 s3) : MoveFrame s1 s3 := by
  refine ⟨h2.rho_eq.trans h1.rho_eq, h2.g_eq.trans h1.g_eq, h2.dirs_eq.trans h1.dirs_eq,
    h2.old_p_eq.trans h1.old_p_eq, h2.rows_eq.trans h1.rows_eq,
    h2.cols_eq.trans h1.cols_eq, h2.flow_eq.trans h1.flow_eq,
    h2.UT_eq.trans h1.UT_eq, ?_, ?_, h1.perm.thenPerm h2.perm⟩
  · intro a b
    rcases h2.stamp a b with h | h
    · rw [h]; exact h1.stamp a b
    · right; rw [h, h1.UT_eq]
  · obtain ⟨j1, e1⟩ := h1.rng
    obtain ⟨j2, e2⟩ := h2.rng
    refine ⟨j2 + j1, ?_⟩
    rw [e2, e1]
    funext n
    simp only
    congr 1
    omega

theorem StopFrame.toMove {s s' : Simulator N K tag} (h : StopFrame s s') : MoveFrame s s' :=
  ⟨h.rho_eq, h.g_eq, h.dirs_eq, h.old_p_eq, h.rows_eq, h.cols_eq, h.flow_eq, h.UT_eq,
    h.stamp, ⟨0, by rw [h.rng_eq]; rfl⟩,
    Permuted.of_same ⟨h.field_eq, h.p_eq, h.velocity_eq⟩⟩

theorem MoveFrame.draw (s : Simulator N K tag) : MoveFrame s s.random01.2 :=
  ⟨rfl, rfl, rfl, rfl, rfl, rfl, rfl, rfl, fun _ _ => Or.inl rfl, ⟨1, rfl⟩, Permuted.id_perm s⟩

theorem SameRecords.id_same (s : Simulator N K tag) : SameRecords s s := ⟨rfl, rfl, rfl⟩

theorem SameRecords.thenSame {s1 s2 s3 : Simulator N K tag} (h1 : SameRecords s1 s2)
    (h2 : SameRecords s2 s3) : SameRecords s1 s3 :=
  ⟨h2.1.trans h1.1, h2.2.1.trans h1.2.1, h2.2.2.trans h1.2.2⟩

theorem propagate_move_loop_frame (pf : Platform)
    (call : Simulator N K tag → Int → Int → Except Fault (Bool × Simulator N K tag))
    (hcall : ∀ s1 nx ny b s2, s1.field nx ny ≠ '#' → call s1 nx ny = Except.ok (b, s2) →
      MoveFrame s1 s2 ∧ (b = false → SameRecords s1 s2))
    (x y : Int) :
    ∀ (fuel : Nat) (s : Simulator N K tag) (last : Int × Int) (b : Bool) (nxt : Int × Int)
      (s' : Simulator N K tag),
      propagate_move_loop pf call x y fuel s last = Except.ok (b, nxt, s') →
      MoveFrame s s' ∧ (b = false → SameRecords s s') ∧
        (b = true → (∃ d ∈ deltas, nxt = (x + d.1, y + d.2)) ∧ s'.field nxt.1 nxt.2 ≠ '#') := by
  intro fuel
  induction fuel with
  | zero => intro s last b nxt s' h; simp [propagate_move_loop] at h
  | succ n ih =>
    intro s last b nxt s' h
    simp only [propagate_move_loop] at h
    split_ifs at h with h0
    · simp only [Except.ok.injEq, Prod.mk.injEq] at h
      obtain ⟨rfl, rfl, rfl⟩ := h
      exact ⟨MoveFrame.id_move s, fun _ => SameRecords.id_same s, fun hb => absurd hb (by simp)⟩
    · split at h
      · exact absurd h (by simp)
      · rename_i dx dy hd
        have hmem : (dx, dy) ∈ deltas := List.getElem?_mem hd
        split_ifs at h with h1 h2
        · simp only [Except.ok.injEq, Prod.mk.injEq] at h
          obtain ⟨rfl, rfl, rfl⟩ := h
          exact ⟨MoveFrame.draw s, fun hb => absurd hb (by simp),
            fun _ => ⟨⟨(dx, dy), hmem, rfl⟩, h1.2.1⟩⟩
        · split at h
          · exact absurd h (by simp)
          · rename_i s2 hs2
            simp only [Except.ok.injEq, Prod.mk.injEq] at h
            obtain ⟨rfl, rfl, rfl⟩ := h
            obtain ⟨f1, -⟩ := hcall _ _ _ _ _ h1.2.1 hs2
            refine ⟨(MoveFrame.draw s).thenMove f1, fun hb => absurd hb (by simp),
              fun _ => ⟨⟨(dx, dy), hmem, rfl⟩, ?_⟩⟩
            intro hw
            exact h1.2.1 ((f1.perm.wall_iff _ _).1 hw)
          · rename_i s2 hs2
            obtain ⟨f1, f2⟩ := hcall _ _ _ _ _ h1.2.1 hs2
            obtain ⟨i1, i2, i3⟩ := ih s2 _ b nxt s' h
            exact ⟨((MoveFrame.draw s).thenMove f1).thenMove i1,
              fun hb => (show SameRecords s s.random01.2 from ⟨rfl, rfl, rfl⟩).thenSame
                ((f2 rfl).thenSame (i2 hb)), i3⟩

theorem neighbour_back (x y : Int) (d : Int × Int) (hd : d ∈ deltas) :
    ∃ e ∈ deltas, (x + d.1 + e.1, y + d.2 + e.2) = (x, y) := by
  rw [mem_deltas] at hd
  rcases hd with rfl | rfl | rfl | rfl
  · exact ⟨(1, 0), by decide, by simp⟩
  · exact ⟨(-1, 0), by decide, by simp⟩
  · exact ⟨(0, 1), by decide, by simp⟩
  · exact ⟨(0, -1), by decide, by simp⟩

theorem swap_cells_frame (s : Simulator N K tag) (x y : Int) (d : Int × Int)
    (hd : d ∈ deltas) (h1 : s.field x y ≠ '#') (h2 : s.field (x + d.1) (y + d.2) ≠ '#') :
    MoveFrame s (swap_cells s x y (x + d.1) (y + d.2)) := by
  have h := neighbour_ne x y d hd
  obtain ⟨-, ha, hb, hc, hd2, -⟩ := swap_cells_spec s x y (x + d.1) (y + d.2) h
  obtain ⟨d1, d2, d3, d4, d5, d6, d7, d8, d9, d10⟩ := hd2
  refine ⟨d1, d2, d3, d4, d5, d6, d7, d9, fun a b => Or.inl (by rw [d8]),
    ⟨0, by rw [d10]; rfl⟩, ?_⟩
  refine ⟨Equiv.swap (x, y) (x + d.1, y + d.2), fun c hw => ?_, fun c hiso => ?_, fun c => ?_⟩
  · apply Equiv.swap_apply_of_ne_of_ne
    · intro e; rw [e] at hw; exact h1 hw
    · intro e; rw [e] at hw; exact h2 hw
  · apply Equiv.swap_apply_of_ne_of_ne
    · intro e
      rw [e] at hiso
      exact h2 (hiso d hd)
    · intro e
      rw [e] at hiso
      obtain ⟨e2, he2, hback⟩ := neighbour_back x y d hd
      have := hiso e2 he2
      simp only [Prod.mk.injEq] at hback
      rw [hback.1, hback.2] at this
      exact h1 this
  · by_cases e1 : c = (x, y)
    · subst e1
      rw [Equiv.swap_apply_left]
      simp only [record, ha.1, ha.2.1, ha.2.2]
    · by_cases e2 : c = (x + d.1, y + d.2)
      · subst e2
        rw [Equiv.swap_apply_right]
        simp only [record, hb.1, hb.2.1, hb.2.2]
      · rw [Equiv.swap_apply_of_ne_of_ne e1 e2]
        obtain ⟨c1, c2⟩ := c
        obtain ⟨q1, q2, q3⟩ := hc c1 c2 e1 e2
        simp only [record, q1, q2, q3]

theorem propagate_move_stops_frame (fuel : Nat) (x y : Int) :
    ∀ (ds : List (Int × Int)) (s s' : Simulator N K tag),
      propagate_move_stops fuel x y ds s = Except.ok s' → StopFrame s s' := by
  intro ds
  induction ds with
  | nil =>
    intro s s' h
    simp only [propagate_move_stops, Except.ok.injEq] at h
    subst h
    exact StopFrame.id_stop s
  | cons d ds ih =>
    intro s s' h
    obtain ⟨dx, dy⟩ := d
    simp only [propagate_move_stops] at h
    split_ifs at h with h1
    · split at h
      · exact absurd h (by simp)
      · rename_i s1 hs1
        exact (propagate_stop_frame fuel s _ _ false s1 hs1).1.thenStop (ih s1 s' h)
    · exact ih s s' h

theorem propagate_move_frame (pf : Platform) :
    ∀ (fuel : Nat) (s : Simulator N K tag) (x y : Int) (is_first b : Bool)
      (s' : Simulator N K tag), s.field x y ≠ '#' →
      propagate_move pf fuel s x y is_first = Except.ok (b, s') →
      MoveFrame s s' ∧ (b = false → SameRecords s s') ∧ s'.last_use x y = s.UT := by
  intro fuel
  induction fuel with
  | zero => intro s x y is_first b s' _ h; simp [propagate_move] at h
  | succ n ih =>
    intro s x y is_first b s' hf h
    simp only [propagate_move] at h
    split at h
    · exact absurd h (by simp)
    · rename_i ret nx ny s1 hloop
      obtain ⟨l1, l2, l3⟩ := propagate_move_loop_frame pf _
        (fun s1 nx ny b s2 hw h12 => by
          obtain ⟨a1, a2, -⟩ := ih s1 nx ny false b s2 hw h12
          exact ⟨a1, a2⟩) x y _ _ _ _ _ _ hloop
      split at h
      · exact absurd h (by simp)
      · rename_i s2 hstops
        have hst := propagate_move_stops_frame _ x y deltas _ s2 hstops
        have hmark := StopFrame.mark s1 x y
        -- the state before the swap
        have hpre : MoveFrame { s with last_use := (set2 s.last_use x y
            (s.UT - if is_first = true then 1 else 0)) } s2 :=
          l1.thenMove (hmark.thenStop hst).toMove
        have hxy2 : s2.last_use x y = s.UT := by
          rcases hst.stamp x y with e | e
          · rw [e, l1.UT_eq]; simp [set2]
          · rw [e, l1.UT_eq]
        have hfin : ∀ s3 : Simulator N K tag, MoveFrame s2 s3 → s3.last_use = s2.last_use →
            MoveFrame s s3 ∧ s3.last_use x y = s.UT := by
          intro s3 h23 hlu
          have h03 := hpre.thenMove h23
          refine ⟨⟨h03.rho_eq, h03.g_eq, h03.dirs_eq, h03.old_p_eq, h03.rows_eq, h03.cols_eq,
            h03.flow_eq, h03.UT_eq, ?_, h03.rng, h03.perm⟩, by rw [hlu]; exact hxy2⟩
          intro a b
          by_cases hab : a = x ∧ b = y
          · right; rw [hab.1, hab.2, hlu]; exact hxy2
          · have := h03.stamp a b
            simpa [set2, hab] using this
        split_ifs at h with hsw
        · simp only [Except.ok.injEq, Prod.mk.injEq] at h
          obtain ⟨rfl, rfl⟩ := h
          obtain ⟨⟨d, hd, hnxt⟩, hopen⟩ := l3 hsw.1
          simp only [Prod.mk.injEq] at hnxt
          obtain ⟨rfl, rfl⟩ := hnxt
          have hne : (x, y) ≠ (x + d.1, y + d.2) := neighbour_ne x y d hd
          have hf2 : s2.field x y ≠ '#' := by
            intro hw
            exact hf ((hpre.perm.wall_iff x y).1 hw)
          have hopen2 : s2.field (x + d.1) (y + d.2) ≠ '#' := by
            intro hw
            have := ((hmark.thenStop hst).toMove.perm.wall_iff _ _).1 hw
            exact hopen this
          have hswap := swap_cells_frame s2 x y d hd hf2 hopen2
          obtain ⟨f1, f2⟩ := hfin _ hswap
            (swap_cells_spec s2 x y _ _ hne).2.2.2.2.1.2.2.2.2.2.2.2.1
          exact ⟨f1, fun hb => absurd hsw.1 (by simp [hb]), f2⟩
        · simp only [Except.ok.injEq, Prod.mk.injEq] at h
          obtain ⟨rfl, rfl⟩ := h
          obtain ⟨f1, f2⟩ := hfin _ (MoveFrame.id_move s2) rfl
          refine ⟨f1, fun hb => ?_, f2⟩
          have e1 := l2 hb
          have e2 : SameRecords s1 s2 :=
            ⟨(hmark.thenStop hst).field_eq, (hmark.thenStop hst).p_eq,
              (hmark.thenStop hst).velocity_eq⟩
          exact (show SameRecords s _ from ⟨rfl, rfl, rfl⟩).thenSame (e1.thenSame e2)

end Simulator

/-! ## The movement traversal: termination -/

namespace Simulator

variable {N K : Nat} {tag : Tag}

theorem BorderWalls.of_move {s s' : Simulator N K tag} (hb : BorderWalls s)
    (h : MoveFrame s s') : BorderWalls s' := by
  intro c hc hbd
  rw [h.rows_eq, h.cols_eq] at hc hbd
  exact (h.perm.wall_iff c.1 c.2).2 (hb c hc hbd)

theorem unresolved_le_of_move {s s' : Simulator N K tag} (h : MoveFrame s s') :
    unresolved s' ≤ unresolved s := by
  unfold unresolved
  rw [h.rows_eq, h.cols_eq, h.UT_eq]
  apply List.countP_mono_left
  intro c _ hc
  simp only [decide_eq_true_eq] at hc ⊢
  refine ⟨fun hw => hc.1 ((h.perm.wall_iff c.1 c.2).2 hw), ?_⟩
  rcases h.stamp c.1 c.2 with h1 | h1
  · rw [← h1]; exact hc.2
  · exact absurd h1 hc.2

theorem avail_le_four (s : Simulator N K tag) (x y : Int) : avail s x y ≤ 4 := by
  unfold avail
  exact List.countP_le_length _

theorem avail_lt_of_move {s s' : Simulator N K tag} (h : MoveFrame s s') (x y : Int)
    (d : Int × Int) (hd : d ∈ deltas) (hopen : s.field (x + d.1) (y + d.2) ≠ '#')
    (hst : s.last_use (x + d.1) (y + d.2) ≠ s.UT)
    (hres : s'.last_use (x + d.1) (y + d.2) = s.UT) : avail s' x y < avail s x y := by
  unfold avail
  apply countP_lt_of_mem _ _ _ _ d hd
  · simp [hopen, hst]
  · simp [hres, h.UT_eq]
  · intro c _ hc
    simp only [decide_eq_true_eq] at hc ⊢
    refine ⟨fun hw => hc.1 ((h.perm.wall_iff _ _).2 hw), ?_⟩
    rcases h.stamp (x + c.1) (y + c.2) with h1 | h1
    · rw [← h1, ← h.UT_eq]; exact hc.2
    · rw [h.UT_eq] at hc; exact absurd h1 hc.2

theorem Healthy.after_move {pf : Platform} {s s' : Simulator N K tag} (hh : Healthy pf s)
    (h : MoveFrame s s') : Healthy pf s' := by
  obtain ⟨h1, h2, h3⟩ := hh
  refine ⟨fun a b => ?_, fun a b => ?_, fun n => ?_⟩
  · obtain ⟨σ, -, -, r⟩ := h.perm
    have e : s'.velocity.v a b = s.velocity.v (σ (a, b)).1 (σ (a, b)).2 := by
      have := congrArg (fun t => t.2.2) (r (a, b))
      simpa [record] using this
    have := h1 (σ (a, b)).1 (σ (a, b)).2
    unfold MoveFits posSum at this ⊢
    rw [e]
    exact this
  · rw [h.UT_eq]
    rcases h.stamp a b with e | e
    · rw [e]; exact h2 a b
    · rw [e]
  · obtain ⟨j, e⟩ := h.rng
    rw [e]
    exact h3 (n + j)

theorem propagate_move_stops_terminates (fuel : Nat) (x y : Int) :
    ∀ (ds : List (Int × Int)) (s : Simulator N K tag), (∀ d ∈ ds, d ∈ deltas) →
      BorderWalls s → (x, y) ∈ cells s.rows s.cols → s.field x y ≠ '#' →
      unresolved s < fuel → ∃ s', propagate_move_stops fuel x y ds s = Except.ok s' := by
  intro ds
  induction ds with
  | nil => intro s _ _ _ _ _; exact ⟨s, rfl⟩
  | cons d ds ih =>
    intro s hds hb hxy hf hn
    obtain ⟨dx, dy⟩ := d
    have hds2 : ∀ d ∈ ds, d ∈ deltas := fun d hd => hds d (List.mem_cons_of_mem _ hd)
    simp only [propagate_move_stops]
    split_ifs with h1
    · have hnb := neighbour_mem_cells s hb x y hxy hf (dx, dy) (hds _ (List.mem_cons_self _ _))
      have hle : unresolved { s with last_use := set2 s.last_use (x + dx) (y + dy) s.UT }
          ≤ unresolved s := unresolved_le_of_stop (StopFrame.mark s _ _)
      obtain ⟨s2, h2⟩ := propagate_stop_terminates fuel s (x + dx) (y + dy) false hb hnb h1.1
        (by omega)
      have hf2 := (propagate_stop_frame fuel s _ _ false s2 h2).1
      rw [h2]
      simp only
      exact ih s2 hds2 (hb.of_stop hf2) (by rw [hf2.rows_eq, hf2.cols_eq]; exact hxy)
        (by rw [hf2.field_eq]; exact hf) (lt_of_le_of_lt (unresolved_le_of_stop hf2) hn)
    · exact ih s hds2 hb hxy hf hn

theorem propagate_move_loop_terminates (pf : Platform) (k : Nat)
    (call : Simulator N K tag → Int → Int → Except Fault (Bool × Simulator N K tag))
    (hframe : ∀ s1 nx ny b s2, s1.field nx ny ≠ '#' → call s1 nx ny = Except.ok (b, s2) →
      MoveFrame s1 s2 ∧ s2.last_use nx ny = s1.UT)
    (hcall : ∀ (s1 : Simulator N K tag) (nx ny : Int), BorderWalls s1 →
      (nx, ny) ∈ cells s1.rows s1.cols → s1.field nx ny ≠ '#' →
      unresolved { s1 with last_use := set2 s1.last_use nx ny s1.UT } + 5 ≤ k →
      NoFuel (call s1 nx ny) ∧ (Healthy pf s1 → ∃ v, call s1 nx ny = Except.ok v))
    (x y : Int) :
    ∀ (f : Nat) (s : Simulator N K tag) (last : Int × Int)
      (r : Except Fault (Bool × (Int × Int) × Simulator N K tag)),
      avail s x y < f → BorderWalls s → (x, y) ∈ cells s.rows s.cols → s.field x y ≠ '#' →
      unresolved s + 4 ≤ k → propagate_move_loop pf call x y f s last = r →
      NoFuel r ∧ (Healthy pf s → ∃ v, r = Except.ok v) := by
  intro f
  induction f with
  | zero => intro s last r h; omega
  | succ n ih =>
    intro s last r hav hb hxy hf hk hr
    simp only [propagate_move_loop] at hr
    split_ifs at hr with h0
    · subst hr
      exact ⟨by simp [NoFuel], fun _ => ⟨_, rfl⟩⟩
    · -- what the selection yields in a healthy state
      have hsel : Healthy pf s → ∃ d, deltas[upper_bound
            (move_table pf s x y deltas (FixedPoint.ofInt pf 0) []).1
            (FixedPoint.mulDraw pf (move_table pf s x y deltas (FixedPoint.ofInt pf 0) []).2
              s.random01.1) 4 0 4]? = some d ∧
          0 < (s.velocity.get x y d.1 d.2).v ∧ s.field (x + d.1) (y + d.2) ≠ '#' ∧
          s.last_use (x + d.1) (y + d.2) < s.UT := by
        intro hh
        obtain ⟨a0, a1, a2, a3, e, q0, q1, q2, q3⟩ := move_table_sorted pf s x y (hh.1 x y)
        have hpos : 0 < (move_table pf s x y deltas (FixedPoint.ofInt pf 0) []).2.v := by
          rw [e] at h0 ⊢
          simp only at h0 ⊢
          omega
        obtain ⟨b1, b2⟩ := mulDraw_bounds pf _ s.random01.1 (move_table_inRange pf s x y)
          hpos (hh.2.2 0)
        obtain ⟨d, hd, v1, v2, v3⟩ := selection_valid pf s x y _ b1 b2
        exact ⟨d, hd, v1, v2, lt_of_le_of_ne (hh.2.1 _ _) v3⟩
      split at hr
      · rename_i hnone
        subst hr
        refine ⟨by simp [NoFuel], fun hh => ?_⟩
        obtain ⟨d, hd, -⟩ := hsel hh
        rw [hnone] at hd
        exact absurd hd (by simp)
      · rename_i dx dy hd
        have hmem : (dx, dy) ∈ deltas := List.getElem?_mem hd
        split_ifs at hr with h1 h2
        · subst hr
          exact ⟨by simp [NoFuel], fun _ => ⟨_, rfl⟩⟩
        · have hnb := neighbour_mem_cells s hb x y hxy hf (dx, dy) hmem
          have hne : s.last_use (x + dx) (y + dy) ≠ s.UT := by
            have := h1.2.2
            simp only [random01] at this
            omega
          have hopen : s.field (x + dx) (y + dy) ≠ '#' := h1.2.1
          have hlt := unresolved_mark_lt s (x + dx) (y + dy) hnb hopen hne
          have key : ∀ m : Nat, m < unresolved s → m + 5 ≤ k := fun m hm => by omega
          obtain ⟨c1, c2⟩ := hcall s.random01.2 (x + dx) (y + dy) hb hnb hopen (key _ hlt)
          split at hr
          · rename_i e he
            subst hr
            refine ⟨?_, fun hh => ?_⟩
            · intro hfu
              simp only [Except.error.injEq] at hfu
              rw [hfu] at he
              exact c1 he
            · obtain ⟨v, hv⟩ := c2 (hh.after_move (MoveFrame.draw s))
              rw [hv] at he
              exact absurd he (by simp)
          · subst hr
            exact ⟨by simp [NoFuel], fun _ => ⟨_, rfl⟩⟩
          · rename_i s2 hs2
            obtain ⟨f1, f2⟩ := hframe s.random01.2 (x + dx) (y + dy) false s2 hopen hs2
            have f0 := (MoveFrame.draw s).thenMove f1
            have hav2 : avail s2 x y < avail s x y :=
              avail_lt_of_move f0 x y (dx, dy) hmem hopen hne f2
            obtain ⟨i1, i2⟩ := ih s2 (x + dx, y + dy) r (by omega) (hb.of_move f0)
              (by rw [f0.rows_eq, f0.cols_eq]; exact hxy)
              (fun hw => hf ((f0.perm.wall_iff x y).1 hw))
              (le_trans (Nat.add_le_add_right (unresolved_le_of_move f0) 4) hk) hr
            exact ⟨i1, fun hh => i2 (hh.after_move f0)⟩
        · subst hr
          refine ⟨by simp [NoFuel], fun hh => ?_⟩
          obtain ⟨d, hd2, v1, v2, v3⟩ := hsel hh
          rw [hd] at hd2
          simp only [Option.some.injEq] at hd2
          subst hd2
          exact absurd ⟨v1, v2, v3⟩ h1

theorem Healthy.stamped {pf : Platform} {s : Simulator N K tag} (hh : Healthy pf s) (x y v : Int)
    (hv : v ≤ s.UT) : Healthy pf { s with last_use := set2 s.last_use x y v } := by
  obtain ⟨h1, h2, h3⟩ := hh
  refine ⟨h1, fun a b => ?_, h3⟩
  simp only [set2]
  split_ifs
  · exact hv
  · exact h2 a b

theorem propagate_move_terminates (pf : Platform) :
    ∀ (fuel : Nat) (s : Simulator N K tag) (x y : Int) (is_first : Bool)
      (r : Except Fault (Bool × Simulator N K tag)),
      BorderWalls s → (x, y) ∈ cells s.rows s.cols → s.field x y ≠ '#' →
      unresolved { s with last_use := (set2 s.last_use x y
        (s.UT - if is_first = true then 1 else 0)) } + 5 ≤ fuel →
      propagate_move pf fuel s x y is_first = r →
      NoFuel r ∧ (Healthy pf s → ∃ v, r = Except.ok v) := by
  intro fuel
  induction fuel with
  | zero => intro s x y is_first r _ _ _ h; omega
  | succ k ih =>
    intro s x y is_first r hb hxy hf hk hr
    simp only [propagate_move] at hr
    have hloop := propagate_move_loop_terminates pf k
      (fun s1 nx ny => propagate_move pf k s1 nx ny false)
      (fun s1 nx ny b s2 hw h12 => by
        obtain ⟨a1, -, a3⟩ := propagate_move_frame pf k s1 nx ny false b s2 hw h12
        exact ⟨a1, a3⟩)
      (fun s1 nx ny h1 h2 h3 h4 => ih s1 nx ny false _ h1 h2 h3 (by simpa using h4) rfl)
      x y (k + 1)
      { s with last_use := (set2 s.last_use x y (s.UT - if is_first = true then 1 else 0)) }
      (-1, -1) _ (lt_of_le_of_lt (avail_le_four _ x y) (by omega)) hb hxy hf (by omega) rfl
    obtain ⟨l1, l2⟩ := hloop
    have hh0 : Healthy pf s → Healthy pf
        { s with last_use := (set2 s.last_use x y (s.UT - if is_first = true then 1 else 0)) } :=
      fun hh => hh.stamped x y _ (by split_ifs <;> omega)
    split at hr
    · rename_i e he
      subst hr
      refine ⟨?_, fun hh => ?_⟩
      · intro hfu
        simp only [Except.error.injEq] at hfu
        rw [hfu] at he
        exact l1 he
      · obtain ⟨v, hv⟩ := l2 (hh0 hh)
        rw [hv] at he
        exact absurd he (by simp)
    · rename_i ret nx ny s1 he
      obtain ⟨f1, -, -⟩ := propagate_move_loop_frame pf _
        (fun s1 nx ny b s2 hw h12 => by
          obtain ⟨a1, a2, -⟩ := propagate_move_frame pf k s1 nx ny false b s2 hw h12
          exact ⟨a1, a2⟩) x y _ _ _ _ _ _ he
      have hm := StopFrame.mark s1 x y
      have hb0 : BorderWalls { s with last_use := (set2 s.last_use x y
          (s.UT - if is_first = true then 1 else 0)) } := hb
      have hb1 : BorderWalls s1 := hb0.of_move f1
      have hu1 : unresolved { s1 with last_use := set2 s1.last_use x y s1.UT } < k + 1 := by
        have a1 := unresolved_le_of_stop hm
        have a2 := unresolved_le_of_move f1
        simp only at a1 a2 ⊢
        omega
      obtain ⟨s2, h2⟩ := propagate_move_stops_terminates (k + 1) x y deltas
        { s1 with last_use := set2 s1.last_use x y s1.UT } (fun d hd => hd) (hb1.of_stop hm)
        (by rw [f1.rows_eq, f1.cols_eq]; exact hxy)
        (fun hw => hf ((f1.perm.wall_iff x y).1 hw)) hu1
      rw [h2] at hr
      simp only at hr
      split_ifs at hr
      · subst hr
        exact ⟨by simp [NoFuel], fun _ => ⟨_, rfl⟩⟩
      · subst hr
        exact ⟨by simp [NoFuel], fun _ => ⟨_, rfl⟩⟩

end Simulator

/-! ## The movement traversal: the chain of a successful move -/

namespace Simulator

variable {N K : Nat} {tag : Tag}

theorem prevIn_not_mem (prev : Int × Int) :
    ∀ (l : List (Int × Int)) (c : Int × Int), c ∉ l → prevIn prev l c = c := by
  intro l
  induction l generalizing prev with
  | nil => intro c _; rfl
  | cons a l ih =>
    intro c hc
    simp only [List.mem_cons, not_or] at hc
    simp only [prevIn, if_neg hc.1]
    exact ih a c hc.2

theorem shiftSource_not_mem (L : List (Int × Int)) (c : Int × Int) (hc : c ∉ L) :
    shiftSource L c = c := by
  cases L with
  | nil => rfl
  | cons a l =>
    simp only [List.mem_cons, not_or] at hc
    simp only [shiftSource, if_neg hc.1]
    exact prevIn_not_mem a l c hc.2

theorem shiftSource_single (a q : Int × Int) : shiftSource [a] q = q := by
  simp only [shiftSource, prevIn, List.getLastD_nil]
  split_ifs with h
  · exact h.symm
  · rfl

theorem shiftSource_cons (c : Int × Int) (L : List (Int × Int)) (hL : L ≠ [])
    (hc : c ∉ L) (q : Int × Int) :
    shiftSource (c :: L) q =
      if q = c then shiftSource L (L.head hL)
      else if q = L.head hL then c else shiftSource L q := by
  cases L with
  | nil => exact absurd rfl hL
  | cons a l =>
    simp only [List.mem_cons, not_or] at hc
    simp only [shiftSource, List.head_cons, if_true, prevIn, List.getLastD_cons]
    split_ifs <;> rfl

theorem Shifted.of_failed {s s2 s' : Simulator N K tag} {c : Int × Int}
    {L : List (Int × Int)} (h : Shifted s2 s' c L) (hf : MoveFrame s s2)
    (hs : SameRecords s s2) : Shifted s s' c L := by
  obtain ⟨r1, r2, r3⟩ := hs
  have hrec : ∀ q, record s2 q = record s q := fun q => by simp [record, r1, r2, r3]
  refine ⟨h.ne_nil, h.nodup, h.chain, fun q hq => ?_, fun q hq => ?_, ?_, fun q => ?_⟩
  · rw [← r1]; exact h.open_cells q hq
  · have := h.fresh q hq
    rw [hf.UT_eq] at this
    rcases hf.stamp q.1 q.2 with e | e
    · rw [← e]; exact this
    · exact absurd e this
  · have := h.last
    rw [hf.UT_eq] at this
    rcases hf.stamp (L.getLastD c).1 (L.getLastD c).2 with e | e
    · rw [← e]; exact this
    · omega
  · rw [h.rot q, hrec]

theorem propagate_move_loop_chain (pf : Platform)
    (call : Simulator N K tag → Int → Int → Except Fault (Bool × Simulator N K tag))
    (hframe : ∀ s1 nx ny b s2, s1.field nx ny ≠ '#' → call s1 nx ny = Except.ok (b, s2) →
      MoveFrame s1 s2 ∧ (b = false → SameRecords s1 s2))
    (hcall : ∀ (s1 : Simulator N K tag) (nx ny : Int) (s2 : Simulator N K tag)
      (p : Int × Int), Adjacent p (nx, ny) → s1.field nx ny ≠ '#' →
      s1.last_use nx ny ≠ s1.UT → call s1 nx ny = Except.ok (true, s2) →
      ∃ L, L.head? = some (nx, ny) ∧ Shifted s1 s2 p L)
    (x y : Int) :
    ∀ (f : Nat) (s : Simulator N K tag) (last nxt : Int × Int) (s' : Simulator N K tag),
      propagate_move_loop pf call x y f s last = Except.ok (true, nxt, s') →
      ∃ L, L.head? = some nxt ∧ Shifted s s' (x, y) L := by
  intro f
  induction f with
  | zero => intro s last nxt s' h; simp [propagate_move_loop] at h
  | succ n ih =>
    intro s last nxt s' h
    simp only [propagate_move_loop] at h
    split_ifs at h with h0
    · simp at h
    · split at h
      · exact absurd h (by simp)
      · rename_i dx dy hd
        have hmem : (dx, dy) ∈ deltas := List.getElem?_mem hd
        have hadj : Adjacent (x, y) (x + dx, y + dy) := ⟨(dx, dy), hmem, rfl⟩
        split_ifs at h with h1 h2
        · simp only [Except.ok.injEq, Prod.mk.injEq, true_and] at h
          obtain ⟨rfl, rfl⟩ := h
          refine ⟨[(x + dx, y + dy)], rfl, ⟨by simp, by simp, ?_, ?_, ?_, ?_, ?_⟩⟩
          · exact List.Chain.cons hadj List.Chain.nil
          · intro q hq
            simp only [List.mem_singleton] at hq
            subst hq
            exact h1.2.1
          · intro q hq
            simp only [List.mem_singleton] at hq
            subst hq
            have := h2
            simp only [random01] at this ⊢
            omega
          · exact h2
          · intro q
            rw [shiftSource_single]
            rfl
        · have hne : s.last_use (x + dx) (y + dy) ≠ s.UT := by
            have := h1.2.2
            simp only [random01] at this
            omega
          split at h
          · exact absurd h (by simp)
          · rename_i s2 hs2
            simp only [Except.ok.injEq, Prod.mk.injEq, true_and] at h
            obtain ⟨rfl, rfl⟩ := h
            obtain ⟨L, hL, hsh⟩ := hcall s.random01.2 (x + dx) (y + dy) s2 (x, y) hadj
              h1.2.1 hne hs2
            exact ⟨L, hL, ⟨hsh.ne_nil, hsh.nodup, hsh.chain, hsh.open_cells, hsh.fresh,
              hsh.last, hsh.rot⟩⟩
          · rename_i s2 hs2
            obtain ⟨f1, f2⟩ := hframe s.random01.2 (x + dx) (y + dy) false s2 h1.2.1 hs2
            obtain ⟨L, hL, hsh⟩ := ih s2 _ nxt s' h
            exact ⟨L, hL, hsh.of_failed ((MoveFrame.draw s).thenMove f1)
              ((show SameRecords s s.random01.2 from ⟨rfl, rfl, rfl⟩).thenSame (f2 rfl))⟩

theorem record_of_same {s s' : Simulator N K tag} (h : SameRecords s s') (q : Int × Int) :
    record s' q = record s q := by
  obtain ⟨r1, r2, r3⟩ := h
  simp [record, r1, r2, r3]

/-- The state after the loop of `propagate_move`, the final stamp and the stop traversals,
before the swap. -/
theorem propagate_move_before_swap (pf : Platform) (fuel : Nat) (s : Simulator N K tag)
    (x y : Int) (is_first : Bool) (s' : Simulator N K tag)
    (h : propagate_move pf (fuel + 1) s x y is_first = Except.ok (true, s')) :
    ∃ nx ny s1 s2, propagate_move_loop pf
        (fun s1 nx ny => propagate_move pf fuel s1 nx ny false) x y (fuel + 1)
        { s with last_use := (set2 s.last_use x y (s.UT - if is_first = true then 1 else 0)) }
        (-1, -1) = Except.ok (true, (nx, ny), s1) ∧
      SameRecords s1 s2 ∧
      s' = if is_first = false then swap_cells s2 x y nx ny else s2 := by
  simp only [propagate_move] at h
  split at h
  · exact absurd h (by simp)
  · rename_i ret nx ny s1 hloop
    split at h
    · exact absurd h (by simp)
    · rename_i s2 hstops
      have hst := propagate_move_stops_frame _ x y deltas _ s2 hstops
      have hm := StopFrame.mark s1 x y
      have hs : SameRecords s1 s2 :=
        ⟨(hm.thenStop hst).field_eq, (hm.thenStop hst).p_eq, (hm.thenStop hst).velocity_eq⟩
      split_ifs at h with hsw
      · simp only [Except.ok.injEq, Prod.mk.injEq] at h
        obtain ⟨rfl, rfl⟩ := h
        refine ⟨nx, ny, s1, s2, hloop, hs, ?_⟩
        rw [if_pos hsw.2]
      · simp only [Except.ok.injEq, Prod.mk.injEq] at h
        obtain ⟨rfl, rfl⟩ := h
        refine ⟨nx, ny, s1, s2, hloop, hs, ?_⟩
        have : ¬ is_first = false := fun e => hsw ⟨rfl, e⟩
        rw [if_neg this]

theorem propagate_move_chain (pf : Platform) :
    ∀ (fuel : Nat) (s : Simulator N K tag) (x y : Int) (s' : Simulator N K tag)
      (p : Int × Int), Adjacent p (x, y) → s.field x y ≠ '#' → s.last_use x y ≠ s.UT →
      propagate_move pf fuel s x y false = Except.ok (true, s') →
      ∃ L, L.head? = some (x, y) ∧ Shifted s s' p L := by
  intro fuel
  induction fuel with
  | zero => intro s x y s' p _ _ _ h; simp [propagate_move] at h
  | succ k ih =>
    intro s x y s' p hadj hf hfresh h
    obtain ⟨nx, ny, s1, s2, hloop, hs12, hs'⟩ :=
      propagate_move_before_swap pf k s x y false s' h
    simp only [if_true] at hs'
    obtain ⟨L, hL, hsh⟩ := propagate_move_loop_chain pf _
      (fun s1 nx ny b s2 hw h12 => by
        obtain ⟨a1, a2, -⟩ := propagate_move_frame pf k s1 nx ny false b s2 hw h12
        exact ⟨a1, a2⟩)
      (fun s1 nx ny s2 p h1 h2 h3 h4 => ih s1 nx ny s2 p h1 h2 h3 h4)
      x y _ _ _ _ _ hloop
    have hLne := hsh.ne_nil
    have hhead : L.head hLne = (nx, ny) := by
      cases L with
      | nil => exact absurd rfl hLne
      | cons a l => simpa using hL
    have hxyL : (x, y) ∉ L := by
      intro hmem
      have := hsh.fresh (x, y) hmem
      simp [set2] at this
    have hnadj : Adjacent (x, y) (nx, ny) := by
      cases L with
      | nil => exact absurd rfl hLne
      | cons a l =>
        have := hsh.chain
        simp only [List.chain_cons] at this
        simp only [List.head_cons] at hhead
        rw [← hhead]
        exact this.1
    have hne : (x, y) ≠ (nx, ny) := by
      obtain ⟨d, hd, e⟩ := hnadj
      rw [e]
      exact neighbour_ne x y d hd
    refine ⟨(x, y) :: L, rfl, ⟨by simp, List.nodup_cons.2 ⟨hxyL, hsh.nodup⟩,
      List.Chain.cons hadj hsh.chain, ?_, ?_, ?_, ?_⟩⟩
    · intro q hq
      rcases List.mem_cons.1 hq with rfl | hq
      · exact hf
      · exact hsh.open_cells q hq
    · intro q hq
      rcases List.mem_cons.1 hq with rfl | hq
      · exact hfresh
      · have := hsh.fresh q hq
        have hqne : ¬ (q.1 = x ∧ q.2 = y) := fun e => hxyL (by
          have : q = (x, y) := Prod.ext e.1 e.2
          rw [← this]; exact hq)
        simpa [set2, hqne] using this
    · rw [List.getLastD_cons]
      have := hsh.last
      simp only [set2, Bool.false_eq_true, if_false, sub_zero] at this
      split_ifs at this with e
      · omega
      · exact this
    · intro q
      have hrec : ∀ q, record s2 q = record s (shiftSource L q) := fun q => by
        rw [record_of_same hs12, hsh.rot q]
        rfl
      obtain ⟨-, ha, hb, hc, -⟩ := swap_cells_spec s2 x y nx ny hne
      rw [shiftSource_cons (x, y) L hLne hxyL, hhead, hs']
      by_cases e1 : q = (x, y)
      · subst e1
        rw [if_pos rfl, ← hrec]
        simp only [record, ha.1, ha.2.1, ha.2.2]
      · rw [if_neg e1]
        by_cases e2 : q = (nx, ny)
        · subst e2
          rw [if_pos rfl]
          have := hrec (x, y)
          rw [shiftSource_not_mem L _ hxyL] at this
          rw [← this]
          simp only [record, hb.1, hb.2.1, hb.2.2]
        · rw [if_neg e2, ← hrec]
          obtain ⟨q1, q2⟩ := q
          obtain ⟨c1, c2, c3⟩ := hc q1 q2 e1 e2
          simp only [record, c1, c2, c3]

theorem propagate_move_first_chain (pf : Platform) (fuel : Nat) (s : Simulator N K tag)
    (x y : Int) (s' : Simulator N K tag)
    (h : propagate_move pf fuel s x y true = Except.ok (true, s')) :
    ∃ L, Shifted { s with last_use := set2 s.last_use x y (s.UT - 1) } s' (x, y) L := by
  cases fuel with
  | zero => simp [propagate_move] at h
  | succ k =>
    obtain ⟨nx, ny, s1, s2, hloop, hs12, hs'⟩ :=
      propagate_move_before_swap pf k s x y true s' h
    simp only [Bool.true_eq_false, if_false, if_true] at hs' hloop
    subst hs'
    obtain ⟨L, -, hsh⟩ := propagate_move_loop_chain pf _
      (fun s1 nx ny b s2 hw h12 => by
        obtain ⟨a1, a2, -⟩ := propagate_move_frame pf k s1 nx ny false b s2 hw h12
        exact ⟨a1, a2⟩)
      (fun s1 nx ny s2 p h1 h2 h3 h4 => propagate_move_chain pf k s1 nx ny s2 p h1 h2 h3 h4)
      x y _ _ _ _ _ hloop
    exact ⟨L, ⟨hsh.ne_nil, hsh.nodup, hsh.chain, hsh.open_cells, hsh.fresh, hsh.last,
      fun q => by rw [record_of_same hs12, hsh.rot q]⟩⟩

theorem prevIn_getElem (p : Int × Int) :
    ∀ (l : List (Int × Int)), l.Nodup → ∀ (i : Nat) (h : i < l.length),
      prevIn p l (l.get ⟨i, h⟩) = (p :: l).get ⟨i, by simp; omega⟩ := by
  intro l
  induction l generalizing p with
  | nil => intro _ i h; simp at h
  | cons a t ih =>
    intro hnd i h
    cases i with
    | zero => simp [prevIn]
    | succ j =>
      have hj : j < t.length := by simpa using h
      have hne : t.get ⟨j, hj⟩ ≠ a := by
        intro e
        have := (List.nodup_cons.1 hnd).1
        exact this (e ▸ List.get_mem t j hj)
      simp only [List.get_eq_getElem, List.getElem_cons_succ, prevIn] at hne ⊢
      rw [if_neg hne]
      have := ih a (List.nodup_cons.1 hnd).2 j hj
      simpa using this

theorem shiftSource_getElem (L : List (Int × Int)) (hnd : L.Nodup) (i : Nat)
    (h : i + 1 < L.length) :
    shiftSource L (L.get ⟨i + 1, h⟩) = L.get ⟨i, by omega⟩ := by
  cases L with
  | nil => simp at h
  | cons a t =>
    have hi : i < t.length := by simpa using h
    have hne : t.get ⟨i, hi⟩ ≠ a := by
      intro e
      have := (List.nodup_cons.1 hnd).1
      exact this (e ▸ List.get_mem t i hi)
    simp only [List.get_eq_getElem, List.getElem_cons_succ, shiftSource] at hne ⊢
    rw [if_neg hne]
    have := prevIn_getElem a t (List.nodup_cons.1 hnd).2 i hi
    simpa using this

end Simulator

/-! ## What every step of a run preserves -/

namespace Simulator

variable {N K : Nat} {tag : Tag}

theorem RunFrame.id_run (s : Simulator N K tag) : RunFrame s s :=
  ⟨rfl, rfl, rfl, rfl, rfl, fun _ _ => Iff.rfl, le_refl _, fun _ _ => Or.inl rfl⟩

theorem RunFrame.thenRun {s1 s2 s3 : Simulator N K tag} (h1 : RunFrame s1 s2)
    (h2 : RunFrame s2 s3) : RunFrame s1 s3 := by
  refine ⟨h2.rho_eq.trans h1.rho_eq, h2.g_eq.trans h1.g_eq, h2.dirs_eq.trans h1.dirs_eq,
    h2.rows_eq.trans h1.rows_eq, h2.cols_eq.trans h1.cols_eq,
    fun a b => (h2.wall_iff a b).trans (h1.wall_iff a b), le_trans h1.UT_le h2.UT_le, ?_⟩
  intro a b
  rcases h2.stamp a b with e | e
  · rcases h1.stamp a b with e1 | e1
    · left; rw [e, e1]
    · right; rw [e]; exact le_trans e1 h2.UT_le
  · exact Or.inr e

theorem FlowFrame.run_of_flow {s s' : Simulator N K tag} {x y : Int} (h : FlowFrame s x y s') :
    RunFrame s s' := by
  refine ⟨h.rho_eq, h.g_eq, h.dirs_eq, h.rows_eq, h.cols_eq, fun a b => by rw [h.field_eq],
    by rw [h.UT_eq], fun a b => ?_⟩
  rcases h.stamp a b with e | e
  · exact Or.inl e
  · right; rw [e, h.UT_eq]

theorem StopFrame.run_of_stop {s s' : Simulator N K tag} (h : StopFrame s s') :
    RunFrame s s' := by
  refine ⟨h.rho_eq, h.g_eq, h.dirs_eq, h.rows_eq, h.cols_eq, fun a b => by rw [h.field_eq],
    by rw [h.UT_eq], fun a b => ?_⟩
  rcases h.stamp a b with e | e
  · exact Or.inl e
  · right; rw [e, h.UT_eq]

theorem MoveFrame.run_of_move {s s' : Simulator N K tag} (h : MoveFrame s s') :
    RunFrame s s' := by
  refine ⟨h.rho_eq, h.g_eq, h.dirs_eq, h.rows_eq, h.cols_eq, h.perm.wall_iff,
    by rw [h.UT_eq], fun a b => ?_⟩
  rcases h.stamp a b with e | e
  · exact Or.inl e
  · right; rw [e, h.UT_eq]

theorem RunFrame.advance (s : Simulator N K tag) : RunFrame s { s with UT := s.UT + 2 } :=
  ⟨rfl, rfl, rfl, rfl, rfl, fun _ _ => Iff.rfl, by simp, fun _ _ => Or.inl rfl⟩

theorem forCellsM_frame {σ : Type} (R : σ → σ → Prop) (hrefl : ∀ s, R s s)
    (htrans : ∀ s1 s2 s3, R s1 s2 → R s2 s3 → R s1 s3)
    (body : σ → Int → Int → Except Fault σ)
    (hbody : ∀ s x y s', body s x y = Except.ok s' → R s s') :
    ∀ (l : List (Int × Int)) (s s' : σ), forCellsM body l s = Except.ok s' → R s s' := by
  intro l
  induction l with
  | nil =>
    intro s s' h
    simp only [forCellsM, Except.ok.injEq] at h
    subst h
    exact hrefl s
  | cons c l ih =>
    intro s s' h
    obtain ⟨x, y⟩ := c
    simp only [forCellsM] at h
    split at h
    · exact absurd h (by simp)
    · rename_i s1 h1
      exact htrans _ _ _ (hbody s x y s1 h1) (ih s1 s' h)

theorem forDirsM_frame (R : Simulator N K tag → Simulator N K tag → Prop) (hrefl : ∀ s, R s s)
    (htrans : ∀ s1 s2 s3, R s1 s2 → R s2 s3 → R s1 s3)
    (body : Simulator N K tag → Int × Int → Except Fault (Simulator N K tag))
    (hbody : ∀ s d s', body s d = Except.ok s' → R s s') :
    ∀ (l : List (Int × Int)) (s s' : Simulator N K tag),
      forDirsM body l s = Except.ok s' → R s s' := by
  intro l
  induction l with
  | nil =>
    intro s s' h
    simp only [forDirsM, Except.ok.injEq] at h
    subst h
    exact hrefl s
  | cons c l ih =>
    intro s s' h
    simp only [forDirsM] at h
    split at h
    · exact absurd h (by simp)
    · rename_i s1 h1
      exact htrans _ _ _ (hbody s c s1 h1) (ih s1 s' h)

theorem forCells_frame {σ : Type} (R : σ → σ → Prop) (hrefl : ∀ s, R s s)
    (htrans : ∀ s1 s2 s3, R s1 s2 → R s2 s3 → R s1 s3)
    (body : σ → Int → Int → σ) (hbody : ∀ s x y, R s (body s x y)) :
    ∀ (l : List (Int × Int)) (s : σ), R s (forCells body l s) := by
  intro l
  induction l with
  | nil => intro s; exact hrefl s
  | cons c l ih =>
    intro s
    obtain ⟨x, y⟩ := c
    exact htrans _ _ _ (hbody s x y) (ih _)

theorem foldl_frame {σ α : Type} (R : σ → σ → Prop) (hrefl : ∀ s, R s s)
    (htrans : ∀ s1 s2 s3, R s1 s2 → R s2 s3 → R s1 s3)
    (f : σ → α → σ) (hf : ∀ s a, R s (f s a)) :
    ∀ (l : List α) (s : σ), R s (l.foldl f s) := by
  intro l
  induction l with
  | nil => intro s; exact hrefl s
  | cons a l ih => intro s; exact htrans _ _ _ (hf s a) (ih _)

theorem Quiet.id_quiet (s : Simulator N K tag) : Quiet s s :=
  ⟨rfl, rfl, rfl, rfl, rfl, rfl, rfl, rfl, rfl⟩

theorem Quiet.thenQuiet {s1 s2 s3 : Simulator N K tag} (h1 : Quiet s1 s2) (h2 : Quiet s2 s3) :
    Quiet s1 s3 := by
  obtain ⟨a1, a2, a3, a4, a5, a6, a7, a8, a9⟩ := h1
  obtain ⟨b1, b2, b3, b4, b5, b6, b7, b8, b9⟩ := h2
  exact ⟨b1.trans a1, b2.trans a2, b3.trans a3, b4.trans a4, b5.trans a5, b6.trans a6,
    b7.trans a7, b8.trans a8, b9.trans a9⟩

theorem Quiet.run_of_quiet {s s' : Simulator N K tag} (h : Quiet s s') : RunFrame s s' := by
  obtain ⟨a1, a2, a3, a4, a5, a6, a7, a8, -⟩ := h
  exact ⟨a1, a2, a3, a4, a5, fun a b => by rw [a6], by rw [a8], fun a b => Or.inl (by rw [a7])⟩

theorem gravity_cell_quiet (pf : Platform) (s : Simulator N K tag) (x y : Int) :
    Quiet s (gravity_cell pf s x y) := by
  unfold gravity_cell
  split_ifs <;> exact ⟨rfl, rfl, rfl, rfl, rfl, rfl, rfl, rfl, rfl⟩

theorem exchange_dir_quiet (pf : Platform) (x y : Int) (s : Simulator N K tag)
    (d : Int × Int) : Quiet s (exchange_dir pf x y s d) := by
  unfold exchange_dir
  simp only
  split_ifs <;> exact ⟨rfl, rfl, rfl, rfl, rfl, rfl, rfl, rfl, rfl⟩

theorem exchange_cell_quiet (pf : Platform) (s : Simulator N K tag) (x y : Int) :
    Quiet s (exchange_cell pf s x y) := by
  unfold exchange_cell
  split_ifs
  · exact Quiet.id_quiet s
  · exact foldl_frame Quiet Quiet.id_quiet (fun _ _ _ h1 h2 => h1.thenQuiet h2) _
      (fun s d => exchange_dir_quiet pf x y s d) _ _

theorem tick_forces_quiet (pf : Platform) (s : Simulator N K tag) :
    Quiet s (tick_forces pf s) := by
  have h1 : Quiet s (forCells (gravity_cell pf) (cells s.rows s.cols) s) :=
    forCells_frame Quiet Quiet.id_quiet (fun _ _ _ h1 h2 => h1.thenQuiet h2) _
      (fun s x y => gravity_cell_quiet pf s x y) _ _
  have h2 : Quiet (forCells (gravity_cell pf) (cells s.rows s.cols) s)
      { forCells (gravity_cell pf) (cells s.rows s.cols) s with
        old_p := (forCells (gravity_cell pf) (cells s.rows s.cols) s).p } :=
    ⟨rfl, rfl, rfl, rfl, rfl, rfl, rfl, rfl, rfl⟩
  have h3 := forCells_frame Quiet Quiet.id_quiet (fun _ _ _ h1 h2 => h1.thenQuiet h2)
    (exchange_cell pf) (fun s x y => exchange_cell_quiet pf s x y)
    (cells (forCells (gravity_cell pf) (cells s.rows s.cols) s).rows
      (forCells (gravity_cell pf) (cells s.rows s.cols) s).cols)
    { forCells (gravity_cell pf) (cells s.rows s.cols) s with
      old_p := (forCells (gravity_cell pf) (cells s.rows s.cols) s).p }
  have h4 := (h1.thenQuiet h2).thenQuiet h3
  obtain ⟨a1, a2, a3, a4, a5, a6, a7, a8, a9⟩ := h4
  exact ⟨a1, a2, a3, a4, a5, a6, a7, a8, a9⟩

theorem clamp_dir_quiet (pf : Platform) (x y : Int) (s : Simulator N K tag) (d : Int × Int)
    (s' : Simulator N K tag) (h : clamp_dir pf x y s d = Except.ok s') : Quiet s s' := by
  simp only [clamp_dir] at h
  split_ifs at h
  all_goals first
    | cases h; done
    | (simp only [Except.ok.injEq] at h; subst h
       exact ⟨rfl, rfl, rfl, rfl, rfl, rfl, rfl, rfl, rfl⟩)

theorem clamp_cell_quiet (pf : Platform) (s : Simulator N K tag) (x y : Int)
    (s' : Simulator N K tag) (h : clamp_cell pf s x y = Except.ok s') : Quiet s s' := by
  simp only [clamp_cell] at h
  split_ifs at h
  · simp only [Except.ok.injEq] at h
    subst h
    exact Quiet.id_quiet s
  · exact forDirsM_frame Quiet Quiet.id_quiet (fun _ _ _ h1 h2 => h1.thenQuiet h2) _
      (fun s d s' h => clamp_dir_quiet pf x y s d s' h) _ _ _ h

theorem clamp_cells_quiet (pf : Platform) (l : List (Int × Int)) (s s' : Simulator N K tag)
    (h : forCellsM (clamp_cell pf) l s = Except.ok s') : Quiet s s' :=
  forCellsM_frame Quiet Quiet.id_quiet (fun _ _ _ h1 h2 => h1.thenQuiet h2) _
    (fun s x y s' h => clamp_cell_quiet pf s x y s' h) l s s' h

theorem sweep_cell_run (pf : Platform) (fuel : Nat) (sp : Simulator N K tag × Bool)
    (x y : Int) (sp' : Simulator N K tag × Bool)
    (h : sweep_cell pf fuel sp x y = Except.ok sp') :
    RunFrame sp.1 sp'.1 ∧ sp'.1.UT = sp.1.UT := by
  simp only [sweep_cell] at h
  split_ifs at h with h1
  · split at h
    · exact absurd h (by simp)
    · rename_i r hr
      simp only [Except.ok.injEq] at h
      subst h
      have hf := propagate_flow_frame pf fuel sp.1 x y _ r hr
      exact ⟨hf.run_of_flow, hf.UT_eq⟩
  · simp only [Except.ok.injEq] at h
    subst h
    exact ⟨RunFrame.id_run _, rfl⟩

theorem sweep_run (pf : Platform) (fuel : Nat) (s : Simulator N K tag)
    (sp : Simulator N K tag × Bool) (h : sweep pf fuel s = Except.ok sp) :
    RunFrame s sp.1 ∧ sp.1.UT = s.UT + 2 := by
  simp only [sweep] at h
  have := forCellsM_frame
    (fun a b : Simulator N K tag × Bool => RunFrame a.1 b.1 ∧ b.1.UT = a.1.UT)
    (fun a => ⟨RunFrame.id_run _, rfl⟩)
    (fun a b c h1 h2 => ⟨h1.1.thenRun h2.1, h2.2.trans h1.2⟩)
    (sweep_cell pf fuel) (fun a x y b h => sweep_cell_run pf fuel a x y b h) _ _ _ h
  exact ⟨(RunFrame.advance s).thenRun this.1, this.2⟩

theorem sweep_loop_run (pf : Platform) (fuel : Nat) :
    ∀ (n : Nat) (s s' : Simulator N K tag), sweep_loop pf fuel n s = Except.ok s' →
      RunFrame s s' ∧ s.UT + 2 ≤ s'.UT := by
  intro n
  induction n with
  | zero => intro s s' h; simp [sweep_loop] at h
  | succ n ih =>
    intro s s' h
    simp only [sweep_loop] at h
    split at h
    · exact absurd h (by simp)
    · rename_i s1 prop h1
      obtain ⟨f1, f2⟩ := sweep_run pf fuel s (s1, prop) h1
      split_ifs at h
      · obtain ⟨g1, g2⟩ := ih s1 s' h
        simp only at f1 f2
        exact ⟨f1.thenRun g1, by omega⟩
      · simp only [Except.ok.injEq] at h
        subst h
        simp only at f1 f2
        exact ⟨f1, by omega⟩

theorem move_cell_run (pf : Platform) (fuel : Nat) (s : Simulator N K tag) (x y : Int)
    (s' : Simulator N K tag) (h : move_cell pf fuel s x y = Except.ok s') :
    RunFrame s s' ∧ s'.UT = s.UT := by
  simp only [move_cell] at h
  split_ifs at h with h1 h2
  · split at h
    · exact absurd h (by simp)
    · rename_i b s2 hm
      simp only [Except.ok.injEq] at h
      subst h
      have hf := (propagate_move_frame pf fuel s.random01.2 x y true b s2 h1.1 hm).1
      have h0 := MoveFrame.draw s
      exact ⟨(h0.thenMove hf).run_of_move, (h0.thenMove hf).UT_eq⟩
  · have hf := (propagate_stop_frame fuel s.random01.2 x y true s' h).1
    have h0 := MoveFrame.draw s
    exact ⟨(h0.thenMove hf.toMove).run_of_move, (h0.thenMove hf.toMove).UT_eq⟩
  · simp only [Except.ok.injEq] at h
    subst h
    exact ⟨RunFrame.id_run _, rfl⟩

theorem tick_run (pf : Platform) (fuel : Nat) (s s' : Simulator N K tag)
    (h : tick pf fuel s = Except.ok s') : RunFrame s s' ∧ s.UT + 4 ≤ s'.UT := by
  simp only [tick] at h
  split at h
  · exact absurd h (by simp)
  · rename_i s5 h5
    split at h
    · exact absurd h (by simp)
    · rename_i s6 h6
      have q0 := tick_forces_quiet pf s
      obtain ⟨r5, u5⟩ := sweep_loop_run pf fuel fuel _ s5 h5
      have q6 := clamp_cells_quiet pf _ s5 s6 h6
      have m := forCellsM_frame
        (fun a b : Simulator N K tag => RunFrame a b ∧ b.UT = a.UT)
        (fun a => ⟨RunFrame.id_run _, rfl⟩)
        (fun a b c h1 h2 => ⟨h1.1.thenRun h2.1, h2.2.trans h1.2⟩)
        (move_cell pf fuel) (fun a x y b h => move_cell_run pf fuel a x y b h) _ _ _ h
      have e0 := q0.2.2.2.2.2.2.2.1
      have e6 := q6.2.2.2.2.2.2.2.1
      refine ⟨((q0.run_of_quiet.thenRun r5).thenRun q6.run_of_quiet).thenRun
        ((RunFrame.advance s6).thenRun m.1), ?_⟩
      have := m.2
      simp only at this
      omega

theorem ticks_run (pf : Platform) (fuel : Nat) :
    ∀ (T : Nat) (s s' : Simulator N K tag), ticks pf fuel T s = Except.ok s' →
      RunFrame s s' := by
  intro T
  induction T with
  | zero =>
    intro s s' h
    simp only [ticks, Except.ok.injEq] at h
    subst h
    exact RunFrame.id_run s
  | succ T ih =>
    intro s s' h
    simp only [ticks] at h
    split at h
    · exact absurd h (by simp)
    · rename_i s1 h1
      exact (tick_run pf fuel s s1 h1).1.thenRun (ih s1 s' h)

end Simulator

/-! ## The open-neighbour counts -/

namespace Simulator

variable {N K : Nat} {tag : Tag}

theorem cells_nodup (rows cols : Nat) : (cells rows cols).Nodup := by
  unfold cells
  rw [List.nodup_flatMap]
  constructor
  · intro x _
    apply List.Nodup.map
    · intro a b h
      simp only [Prod.mk.injEq, Nat.cast_inj, true_and] at h
      exact h
    · exact List.nodup_range cols
  · apply List.Pairwise.imp_of_mem _ (List.nodup_range rows)
    intro a b _ _ hab
    simp only [Function.onFun, List.disjoint_left, List.mem_map, List.mem_range, not_exists,
      not_and, forall_exists_index, and_imp]
    intro c y _ hc z _ hz
    rw [← hz] at hc
    simp only [Prod.mk.injEq, Nat.cast_inj] at hc
    exact hab hc.1

/-- A loop over distinct cells: every cell is handled once, in the state in which it has
not been handled yet. -/
theorem forCells_nodup {σ : Type} (P : σ → Prop) (U D : Int × Int → σ → Prop)
    (body : σ → Int → Int → σ)
    (hstep : ∀ s x y, P s → U (x, y) s →
      P (body s x y) ∧ D (x, y) (body s x y) ∧
      ∀ c, c ≠ (x, y) → (U c s → U c (body s x y)) ∧ (D c s → D c (body s x y))) :
    ∀ (l : List (Int × Int)) (s : σ), l.Nodup → P s → (∀ c ∈ l, U c s) →
      P (forCells body l s) ∧ (∀ c ∈ l, D c (forCells body l s)) ∧
      ∀ c, c ∉ l → (U c s → U c (forCells body l s)) ∧ (D c s → D c (forCells body l s)) := by
  intro l
  induction l with
  | nil => intro s _ hP _; exact ⟨hP, by simp, fun c _ => ⟨fun h => h, fun h => h⟩⟩
  | cons c l ih =>
    intro s hnd hP hU
    obtain ⟨x, y⟩ := c
    obtain ⟨hnot, hnd2⟩ := List.nodup_cons.1 hnd
    obtain ⟨p1, d1, k1⟩ := hstep s x y hP (hU _ (List.mem_cons_self _ _))
    have hU2 : ∀ c ∈ l, U c (body s x y) := fun c hc =>
      (k1 c (fun e => hnot (e ▸ hc))).1 (hU c (List.mem_cons_of_mem _ hc))
    obtain ⟨p2, d2, k2⟩ := ih (body s x y) hnd2 p1 hU2
    refine ⟨p2, ?_, ?_⟩
    · intro c hc
      rcases List.mem_cons.1 hc with rfl | hc
      · exact (k2 _ hnot).2 d1
      · exact d2 c hc
    · intro c hc
      simp only [List.mem_cons, not_or] at hc
      exact ⟨fun h => (k2 c hc.2).1 ((k1 c hc.1).1 h), fun h => (k2 c hc.2).2 ((k1 c hc.1).2 h)⟩

theorem set2_set2 {α : Type} (f : Int → Int → α) (x y : Int) (a b : α) :
    set2 (set2 f x y a) x y b = set2 f x y b := by
  funext i j
  simp only [set2]
  split_ifs <;> rfl

theorem set2_same {α : Type} (f : Int → Int → α) (x y : Int) : set2 f x y (f x y) = f := by
  funext i j
  simp only [set2]
  split_ifs with h
  · rw [h.1, h.2]
  · rfl

theorem init_dirs_fold (x y : Int) :
    ∀ (ds : List (Int × Int)) (s : Simulator N K tag),
      (ds.foldl (fun s1 d =>
        { s1 with dirs := (set2 s1.dirs x y
            (s1.dirs x y + if s1.field (x + d.1) (y + d.2) ≠ '#' then 1 else 0)) }) s)
      = { s with dirs := (set2 s.dirs x y (s.dirs x y +
            (ds.countP (fun d => decide (s.field (x + d.1) (y + d.2) ≠ '#')) : Nat))) } := by
  intro ds
  induction ds with
  | nil =>
    intro s
    simp only [List.foldl, List.countP_nil, Nat.cast_zero, add_zero, set2_same]
  | cons d ds ih =>
    intro s
    simp only [List.foldl]
    rw [ih]
    simp only [set2_set2]
    congr 1
    simp only [set2, and_self, if_true, List.countP_cons]
    split_ifs with h1
    · simp only [h1, ne_eq, not_false_eq_true, decide_True, if_true]
      exact congrArg (set2 s.dirs x y) (by push_cast; ring)
    · simp only [h1, ne_eq, decide_False, Bool.false_eq_true, if_false]
      exact congrArg (set2 s.dirs x y) (by push_cast; ring)

theorem init_dirs_cell_spec (s : Simulator N K tag) (x y : Int) :
    init_dirs_cell s x y =
      if s.field x y = '#' then s
      else { s with dirs := set2 s.dirs x y (s.dirs x y + openCount s x y) } := by
  unfold init_dirs_cell
  split_ifs with hw
  · rfl
  · rw [init_dirs_fold]
    rfl

theorem openCount_congr {s s' : Simulator N K tag}
    (h : ∀ a b, s'.field a b = '#' ↔ s.field a b = '#') (x y : Int) :
    openCount s' x y = openCount s x y := by
  unfold openCount
  congr 2
  funext d
  simp only [ne_eq, decide_not, h]

theorem DirsOk.of_run {s s' : Simulator N K tag} (hd : DirsOk s) (h : RunFrame s s') :
    DirsOk s' := by
  intro c hc
  rw [h.rows_eq, h.cols_eq] at hc
  rw [h.dirs_eq, hd c hc, openCount_congr h.wall_iff]
  by_cases hw : s.field c.1 c.2 = '#'
  · rw [if_pos hw, if_pos ((h.wall_iff _ _).2 hw)]
  · rw [if_neg hw, if_neg (fun e => hw ((h.wall_iff _ _).1 e))]

theorem init_dirs_spec (s0 : Simulator N K tag) :
    (∃ d, forCells init_dirs_cell (cells s0.rows s0.cols) s0 = { s0 with dirs := d }) ∧
      ∀ c ∈ cells s0.rows s0.cols,
        (forCells init_dirs_cell (cells s0.rows s0.cols) s0).dirs c.1 c.2
          = s0.dirs c.1 c.2 + if s0.field c.1 c.2 = '#' then 0 else openCount s0 c.1 c.2 := by
  have := forCells_nodup (fun s : Simulator N K tag => ∃ d, s = { s0 with dirs := d })
    (fun c s => s.dirs c.1 c.2 = s0.dirs c.1 c.2)
    (fun c s => s.dirs c.1 c.2
      = s0.dirs c.1 c.2 + if s0.field c.1 c.2 = '#' then 0 else openCount s0 c.1 c.2)
    init_dirs_cell ?_ (cells s0.rows s0.cols) s0 (cells_nodup _ _) ⟨s0.dirs, rfl⟩
    (fun _ _ => rfl)
  · exact ⟨this.1, this.2.1⟩
  · intro s x y hP hU
    obtain ⟨d, rfl⟩ := hP
    have hoc : openCount { s0 with dirs := d } x y = openCount s0 x y := rfl
    rw [init_dirs_cell_spec]
    split_ifs with hw
    · refine ⟨⟨d, rfl⟩, ?_, fun c _ => ⟨fun h => h, fun h => h⟩⟩
      simp only at hU hw ⊢
      rw [hU, if_pos hw, add_zero]
    · refine ⟨⟨_, rfl⟩, ?_, fun c hc => ?_⟩
      · simp only at hU hw ⊢
        rw [if_neg hw, ← hU, hoc]
        simp [set2]
      · have hne : ¬ (c.1 = x ∧ c.2 = y) := fun e => hc (Prod.ext e.1 e.2)
        simp only [set2, if_neg hne]
        exact ⟨fun h => h, fun h => h⟩

theorem init_dirs_ok (s0 : Simulator N K tag)
    (hz : ∀ c ∈ cells s0.rows s0.cols, s0.dirs c.1 c.2 = 0) :
    DirsOk (forCells init_dirs_cell (cells s0.rows s0.cols) s0) := by
  obtain ⟨⟨d, h1⟩, h2⟩ := init_dirs_spec s0
  intro c hc
  have hr : (forCells init_dirs_cell (cells s0.rows s0.cols) s0).rows = s0.rows := by rw [h1]
  have hcl : (forCells init_dirs_cell (cells s0.rows s0.cols) s0).cols = s0.cols := by rw [h1]
  have hf : (forCells init_dirs_cell (cells s0.rows s0.cols) s0).field = s0.field := by rw [h1]
  rw [hr, hcl] at hc
  rw [h2 c hc, hz c hc, zero_add, hf, openCount_congr (fun a b => by rw [hf])]

theorem StampsLe.after_run {s s' : Simulator N K tag} (hs : StampsLe s) (h : RunFrame s s') :
    StampsLe s' := by
  intro a b
  rcases h.stamp a b with e | e
  · rw [e]; exact le_trans (hs a b) h.UT_le
  · exact e

end Simulator

/-! ## A tick from a state at rest -/

namespace Simulator

variable {N K : Nat} {tag : Tag}

theorem forCells_fix {σ : Type} (body : σ → Int → Int → σ) (s : σ) :
    ∀ (l : List (Int × Int)), (∀ c ∈ l, body s c.1 c.2 = s) → forCells body l s = s := by
  intro l
  induction l with
  | nil => intro _; rfl
  | cons c l ih =>
    intro h
    obtain ⟨x, y⟩ := c
    simp only [forCells]
    rw [h (x, y) (List.mem_cons_self _ _)]
    exact ih (fun c hc => h c (List.mem_cons_of_mem _ hc))

theorem forCellsM_fix {σ : Type} (body : σ → Int → Int → Except Fault σ) (s : σ) :
    ∀ (l : List (Int × Int)), (∀ c ∈ l, body s c.1 c.2 = Except.ok s) →
      forCellsM body l s = Except.ok s := by
  intro l
  induction l with
  | nil => intro _; rfl
  | cons c l ih =>
    intro h
    obtain ⟨x, y⟩ := c
    simp only [forCellsM]
    rw [h (x, y) (List.mem_cons_self _ _)]
    exact ih (fun c hc => h c (List.mem_cons_of_mem _ hc))

theorem forCellsM_total {σ : Type} (P : σ → Prop) (body : σ → Int → Int → Except Fault σ) :
    ∀ (l : List (Int × Int)),
      (∀ s, P s → ∀ c ∈ l, ∃ s', body s c.1 c.2 = Except.ok s' ∧ P s') →
      ∀ s, P s → ∃ s', forCellsM body l s = Except.ok s' ∧ P s' := by
  intro l
  induction l with
  | nil => intro _ s hP; exact ⟨s, rfl, hP⟩
  | cons c l ih =>
    intro h s hP
    obtain ⟨x, y⟩ := c
    obtain ⟨s1, h1, p1⟩ := h s hP (x, y) (List.mem_cons_self _ _)
    obtain ⟨s2, h2, p2⟩ := ih (fun s hs c hc => h s hs c (List.mem_cons_of_mem _ hc)) s1 p1
    exact ⟨s2, by simp only [forCellsM, h1, h2], p2⟩

theorem tick_forces_rest (pf : Platform) (s : Simulator N K tag) (hr : AtRest s)
    (hd : NoDrop s) :
    tick_forces pf s = { s with old_p := s.p, velocity_flow := VectorField.zero } := by
  obtain ⟨hv, hp⟩ := hr
  have h1 : forCells (gravity_cell pf) (cells s.rows s.cols) s = s := by
    apply forCells_fix
    intro c hc
    simp only [gravity_cell]
    split_ifs with h1 h2
    · rfl
    · exact absurd (hd c hc h1) h2
    · rfl
  have h2 : ∀ l : List (Int × Int), forCells (exchange_cell pf) l { s with old_p := s.p }
      = { s with old_p := s.p } := by
    intro l
    apply forCells_fix
    intro c _
    simp only [exchange_cell]
    split_ifs
    · rfl
    · have hfix : ∀ d : Int × Int,
          exchange_dir pf c.1 c.2 { s with old_p := s.p } d = { s with old_p := s.p } := by
        intro d
        simp only [exchange_dir, hp]
        simp
      have : ∀ ds : List (Int × Int),
          ds.foldl (exchange_dir pf c.1 c.2) { s with old_p := s.p } = { s with old_p := s.p } := by
        intro ds
        induction ds with
        | nil => rfl
        | cons d ds ih => simp only [List.foldl, hfix, ih]
      exact this deltas
  simp only [tick_forces, h1, h2]

theorem propagate_flow_loop_saturated (pf : Platform)
    (call : Simulator N K tag → Int → Int → FixedPoint N K tag →
      Except Fault (FlowOut N K tag))
    (x y : Int) (lim : FixedPoint N K tag) (s : Simulator N K tag)
    (hs : s.velocity_flow = s.velocity) (ret : FixedPoint N K tag) (calls : Nat) :
    ∀ (ds : List (Int × Int)),
      propagate_flow_loop pf call x y lim ds s ret calls =
        Except.ok ⟨{ s with last_use := set2 s.last_use x y s.UT }, ret, false, (0, 0), calls⟩ := by
  intro ds
  induction ds with
  | nil => rfl
  | cons d ds ih =>
    obtain ⟨dx, dy⟩ := d
    rw [propagate_flow_loop]
    split_ifs with h1 h2
    · exact ih
    · exact absurd (by rw [hs]) h2
    · exact absurd (by rw [hs]) h2
    · exact ih

theorem propagate_flow_saturated (pf : Platform) (fuel : Nat) (s : Simulator N K tag)
    (x y : Int) (lim : FixedPoint N K tag) (hs : s.velocity_flow = s.velocity) :
    propagate_flow pf (fuel + 1) s x y lim =
      Except.ok ⟨{ s with last_use := set2 s.last_use x y s.UT }, FixedPoint.ofInt pf 0, false,
        (0, 0), 1⟩ := by
  simp only [propagate_flow]
  rw [propagate_flow_loop_saturated pf _ x y lim
    { s with last_use := set2 s.last_use x y (s.UT - 1) } hs]
  simp only [set2_set2]

theorem sweep_saturated (pf : Platform) (fuel : Nat) (s : Simulator N K tag)
    (hs : s.velocity_flow = s.velocity) :
    ∃ lu, sweep pf (fuel + 1) s
      = Except.ok ({ s with last_use := lu, UT := s.UT + 2 }, false) := by
  simp only [sweep]
  have := forCellsM_total
    (fun sp : Simulator N K tag × Bool => ∃ lu, sp = ({ s with last_use := lu, UT := s.UT + 2 }, false))
    (sweep_cell pf (fuel + 1)) (cells s.rows s.cols) ?_ ({ s with UT := s.UT + 2 }, false)
    ⟨s.last_use, rfl⟩
  · obtain ⟨sp, h1, lu, h2⟩ := this
    exact ⟨lu, by rw [h1, h2]⟩
  · rintro sp ⟨lu, rfl⟩ c _
    simp only [sweep_cell]
    split_ifs with h1
    · rw [propagate_flow_saturated pf fuel { s with last_use := lu, UT := s.UT + 2 } c.1 c.2 _ hs]
      simp only [FixedPoint.ofInt_zero_v, lt_self_iff_false, if_false]
      exact ⟨_, rfl, ⟨_, rfl⟩⟩
    · exact ⟨_, rfl, ⟨lu, rfl⟩⟩

theorem sweep_loop_saturated (pf : Platform) (fuel n : Nat) (s : Simulator N K tag)
    (hs : s.velocity_flow = s.velocity) :
    ∃ lu, sweep_loop pf (fuel + 1) (n + 1) s
      = Except.ok { s with last_use := lu, UT := s.UT + 2 } := by
  obtain ⟨lu, h⟩ := sweep_saturated pf fuel s hs
  exact ⟨lu, by simp only [sweep_loop, h, Bool.false_eq_true, if_false]⟩

theorem clamp_rest (pf : Platform) (s : Simulator N K tag) (hv : s.velocity = VectorField.zero)
    (l : List (Int × Int)) : forCellsM (clamp_cell pf) l s = Except.ok s := by
  apply forCellsM_fix
  intro c _
  simp only [clamp_cell]
  split_ifs
  · rfl
  · have hfix : ∀ d : Int × Int, clamp_dir pf c.1 c.2 s d = Except.ok s := by
      intro d
      simp [clamp_dir, hv, VectorField.get, VectorField.zero]
    simp only [deltas, forDirsM, hfix]

theorem move_prob_rest (pf : Platform) (s : Simulator N K tag)
    (hv : s.velocity = VectorField.zero) (x y : Int) : (move_prob pf s x y).v = 0 := by
  have hstep : ∀ (sum : FixedPoint N K tag) (d : Int × Int), sum.v = 0 →
      (move_step pf s x y sum d).v = 0 := by
    intro sum d h0
    have hw := storageBits_pos pf tag N
    simp only [move_step, hv, VectorField.get, VectorField.zero, lt_self_iff_false, if_false]
    split_ifs
    · exact h0
    · simp only [FixedPoint.add, h0, add_zero]
      exact wrap_eq_self hw ⟨by have : (0 : Int) < 2 ^ (storageBits pf tag N - 1) := by positivity
                                omega, by positivity⟩
  simp only [move_prob]
  rw [move_table_deltas]
  exact hstep _ _ (hstep _ _ (hstep _ _ (hstep _ _ (FixedPoint.ofInt_zero_v pf))))

end Simulator

namespace Simulator

variable {N K : Nat} {tag : Tag}

theorem OnlyStamps.after_stop {s0 s s' : Simulator N K tag} (h0 : OnlyStamps s0 s)
    (h : StopFrame s s') : OnlyStamps s0 s' := by
  obtain ⟨lu, ut, rng, rfl⟩ := h0
  refine ⟨s'.last_use, s'.UT, s'.random_generator_, ?_⟩
  obtain ⟨h1, h2, h3, h4, h5, h6, h7, h8, h9, h10, -, -, -⟩ := h
  cases s'
  simp only at h1 h2 h3 h4 h5 h6 h7 h8 h9 h10
  subst h1 h2 h3 h4 h5 h6 h7 h8 h9 h10
  rfl

theorem move_pass_rest (pf : Platform) (fuel : Nat) (s0 : Simulator N K tag)
    (hv : s0.velocity = VectorField.zero) (hb : BorderWalls s0)
    (hfuel : nonWallCount s0 < fuel) (s : Simulator N K tag) (hs : OnlyStamps s0 s) :
    ∃ s', forCellsM (move_cell pf fuel) (cells s0.rows s0.cols) s = Except.ok s' ∧
      OnlyStamps s0 s' := by
  refine forCellsM_total (fun s => OnlyStamps s0 s) (move_cell pf fuel) _ ?_ s hs
  intro s hs c hc
  simp only [move_cell]
  split_ifs with h1 h2
  · obtain ⟨lu, ut, rng, rfl⟩ := hs
    exfalso
    have := move_prob_rest pf ({ s0 with last_use := lu, UT := ut, random_generator_ := rng })
      hv c.1 c.2
    simp only [FixedPoint.gtDraw, this, zero_mul, decide_eq_true_eq] at h2
    exact absurd h2 (not_lt.mpr (by positivity))
  · have hs1 : OnlyStamps s0 s.random01.2 := by
      obtain ⟨lu, ut, rng, rfl⟩ := hs
      exact ⟨lu, ut, _, rfl⟩
    have hb1 : BorderWalls s.random01.2 := by
      obtain ⟨lu, ut, rng, rfl⟩ := hs
      exact hb
    have hn : nonWallCount s.random01.2 = nonWallCount s0 := by
      obtain ⟨lu, ut, rng, rfl⟩ := hs
      rfl
    have hc1 : (c.1, c.2) ∈ cells s.random01.2.rows s.random01.2.cols := by
      obtain ⟨lu, ut, rng, rfl⟩ := hs
      exact hc
    obtain ⟨s', h'⟩ := propagate_stop_terminates fuel s.random01.2 c.1 c.2 true hb1 hc1 h1.1
      (lt_of_le_of_lt (unresolved_le_nonWallCount _) (by
        have : nonWallCount { s.random01.2 with
            last_use := set2 s.random01.2.last_use c.1 c.2 s.random01.2.UT }
          = nonWallCount s.random01.2 := rfl
        rw [this, hn]; exact hfuel))
    exact ⟨s', h', hs1.after_stop (propagate_stop_frame fuel _ c.1 c.2 true s' h').1⟩
  · exact ⟨s, rfl, hs⟩

theorem tick_of_steps (pf : Platform) (fuel : Nat) (s s5 s6 s7 : Simulator N K tag)
    (h5 : sweep_loop pf fuel fuel (tick_forces pf s) = Except.ok s5)
    (h6 : forCellsM (clamp_cell pf) (cells s5.rows s5.cols) s5 = Except.ok s6)
    (h7 : forCellsM (move_cell pf fuel) (cells s6.rows s6.cols) { s6 with UT := s6.UT + 2 }
      = Except.ok s7) : tick pf fuel s = Except.ok s7 := by
  simp only [tick, h5, h6, h7]

theorem tick_rest (pf : Platform) (fuel : Nat) (s : Simulator N K tag) (hr : AtRest s)
    (hd : NoDrop s) (hb : BorderWalls s) (hfuel : nonWallCount s < fuel) :
    ∃ s', tick pf fuel s = Except.ok s' ∧
      OnlyStamps { s with old_p := s.p, velocity_flow := VectorField.zero } s' := by
  obtain ⟨k, rfl⟩ : ∃ k, fuel = k + 1 := ⟨fuel - 1, by omega⟩
  obtain ⟨lu, h5⟩ := sweep_loop_saturated pf k k
    { s with old_p := s.p, velocity_flow := VectorField.zero } hr.1.symm
  have h5 : sweep_loop pf (k + 1) (k + 1) (tick_forces pf s) = Except.ok
      { s with old_p := s.p, velocity_flow := VectorField.zero, last_use := lu,
               UT := s.UT + 2 } := by
    rw [tick_forces_rest pf s hr hd]; exact h5
  obtain ⟨s7, h7, hs7⟩ := move_pass_rest pf (k + 1)
    { s with old_p := s.p, velocity_flow := VectorField.zero }
    hr.1 hb hfuel
    { s with old_p := s.p, velocity_flow := VectorField.zero, last_use := lu, UT := s.UT + 2 + 2 }
    ⟨lu, s.UT + 2 + 2, s.random_generator_, rfl⟩
  exact ⟨s7, tick_of_steps pf (k + 1) s
    { s with old_p := s.p, velocity_flow := VectorField.zero, last_use := lu, UT := s.UT + 2 }
    { s with old_p := s.p, velocity_flow := VectorField.zero, last_use := lu, UT := s.UT + 2 }
    s7 h5 (clamp_rest pf
      { s with old_p := s.p, velocity_flow := VectorField.zero, last_use := lu, UT := s.UT + 2 }
      hr.1 _) h7, hs7⟩

end Simulator

namespace Simulator

variable {N K : Nat} {tag : Tag}

theorem ticks_rest (pf : Platform) (fuel : Nat) :
    ∀ (T : Nat) (s : Simulator N K tag), AtRest s → NoDrop s → BorderWalls s →
      nonWallCount s < fuel →
      ∃ s', ticks pf fuel T s = Except.ok s' ∧ AtRest s' ∧ s'.field = s.field ∧
        s'.rows = s.rows ∧ s'.cols = s.cols ∧
        (1 ≤ T → s'.velocity_flow = VectorField.zero) := by
  intro T
  induction T with
  | zero =>
    intro s hr _ _ _
    exact ⟨s, rfl, hr, rfl, rfl, rfl, fun h => absurd h (by omega)⟩
  | succ T ih =>
    intro s hr hd hb hfuel
    obtain ⟨s1, h1, lu, ut, rng, rfl⟩ := tick_rest pf fuel s hr hd hb hfuel
    obtain ⟨s2, h2, hr2, hf2, hrw2, hc2, hfl2⟩ := ih
      { s with old_p := s.p, velocity_flow := VectorField.zero, last_use := lu, UT := ut,
               random_generator_ := rng } hr hd hb hfuel
    refine ⟨s2, by simp only [ticks, h1, h2], hr2, hf2, hrw2, hc2, fun _ => ?_⟩
    rcases Nat.eq_zero_or_pos T with h0 | h0
    · subst h0
      simp only [ticks, Except.ok.injEq] at h2
      rw [← h2]
    · exact hfl2 h0

theorem NoDrop.of_row (s : Simulator N K tag) (r : Int) (hb : BorderWalls s)
    (hrow : ∀ c ∈ cells s.rows s.cols, s.field c.1 c.2 ≠ '#' → c.1 = r) : NoDrop s := by
  intro c hc hf
  by_contra hn
  have hmem : (c.1 + 1, c.2) ∈ cells s.rows s.cols := by
    simpa using neighbour_mem_cells s hb c.1 c.2 hc hf (1, 0) (by decide)
  have h1 := hrow c hc hf
  have h2 := hrow (c.1 + 1, c.2) hmem hn
  simp only at h2
  omega

end Simulator

/-! ## A tick of the two-cell pool -/

namespace Simulator

theorem cells_three_four : cells 3 4 =
    [(0, 0), (0, 1), (0, 2), (0, 3), (1, 0)] ++
      (1, 1) :: (1, 2) :: [(1, 3), (2, 0), (2, 1), (2, 2), (2, 3)] := by
  decide

theorem forCells_cons {σ : Type} (body : σ → Int → Int → σ) (x y : Int)
    (cs : List (Int × Int)) (s : σ) :
    forCells body ((x, y) :: cs) s = forCells body cs (body s x y) := rfl

theorem forCellsM_cons {σ : Type} (body : σ → Int → Int → Except Fault σ) (x y : Int)
    (cs : List (Int × Int)) (s s1 : σ) (h : body s x y = Except.ok s1) :
    forCellsM body ((x, y) :: cs) s = forCellsM body cs s1 := by
  simp only [forCellsM, h]

theorem forCells_append {σ : Type} (body : σ → Int → Int → σ) :
    ∀ (l1 l2 : List (Int × Int)) (s : σ),
      forCells body (l1 ++ l2) s = forCells body l2 (forCells body l1 s) := by
  intro l1
  induction l1 with
  | nil => intro l2 s; rfl
  | cons c l1 ih =>
    intro l2 s
    obtain ⟨x, y⟩ := c
    rw [List.cons_append]
    simp only [forCells]
    exact ih l2 _

theorem forCellsM_append {σ : Type} (body : σ → Int → Int → Except Fault σ) :
    ∀ (l1 l2 : List (Int × Int)) (s s1 : σ), forCellsM body l1 s = Except.ok s1 →
      forCellsM body (l1 ++ l2) s = forCellsM body l2 s1 := by
  intro l1
  induction l1 with
  | nil =>
    intro l2 s s1 h
    simp only [forCellsM, Except.ok.injEq] at h
    subst h; rfl
  | cons c l1 ih =>
    intro l2 s s1 h
    obtain ⟨x, y⟩ := c
    simp only [List.cons_append, forCellsM] at h ⊢
    cases hb : body s x y with
    | error e => rw [hb] at h; exact absurd h (by simp)
    | ok s2 =>
      rw [hb] at h
      simp only at h ⊢
      exact ih l2 s2 s1 h

variable {N K : Nat} {tag : Tag}

theorem inRange_of_bounds {w : Nat} {x : Int} (h0 : 0 ≤ x) (h1 : x < 2 ^ (w - 1)) :
    InRange w x := by
  have : (0 : Int) < 2 ^ (w - 1) := by positivity
  exact ⟨by linarith, h1⟩

theorem sub_val (pf : Platform) (a b : Int) (h : InRange (storageBits pf tag N) (a - b)) :
    FixedPoint.sub pf (⟨a⟩ : FixedPoint N K tag) ⟨b⟩ = ⟨a - b⟩ := by
  simp only [FixedPoint.sub]
  rw [wrap_eq_self (storageBits_pos pf tag N) h]

theorem add_val (pf : Platform) (a b : Int) (h : InRange (storageBits pf tag N) (a + b)) :
    FixedPoint.add pf (⟨a⟩ : FixedPoint N K tag) ⟨b⟩ = ⟨a + b⟩ := by
  simp only [FixedPoint.add]
  rw [wrap_eq_self (storageBits_pos pf tag N) h]

theorem ofInt_zero (pf : Platform) : (FixedPoint.ofInt pf 0 : FixedPoint N K tag) = ⟨0⟩ := by
  have h := @FixedPoint.ofInt_zero_v N K tag pf
  cases h' : (FixedPoint.ofInt pf 0 : FixedPoint N K tag) with
  | mk v =>
    rw [h'] at h
    simp only at h
    rw [h]

theorem mul_zero_val (pf : Platform) (b : FixedPoint N K tag) :
    FixedPoint.mul pf (⟨0⟩ : FixedPoint N K tag) b = ⟨0⟩ := by
  have h0 : ∀ w, 0 < w → wrap w 0 = 0 := fun w hw =>
    wrap_eq_self hw (inRange_of_bounds (le_refl 0) (by positivity))
  simp only [FixedPoint.mul]
  rw [h0 _ (intermediateBits_pos pf N), zero_mul, h0 _ (intermediateBits_pos pf N),
    shiftRight_eq_ediv, Int.zero_ediv, h0 _ (storageBits_pos pf tag N)]

theorem mul_val (pf : Platform) (a b : Int) (ha : 0 ≤ a) (hb : 0 ≤ b)
    (ha1 : a < 2 ^ (intermediateBits pf N - 1)) (hb1 : b < 2 ^ (intermediateBits pf N - 1))
    (hp : a * b < 2 ^ (intermediateBits pf N - 1))
    (hq : a * b / 2 ^ K < 2 ^ (storageBits pf tag N - 1)) :
    FixedPoint.mul pf (⟨a⟩ : FixedPoint N K tag) ⟨b⟩ = ⟨a * b / 2 ^ K⟩ := by
  have h := mul_v_of_fits pf (⟨a⟩ : FixedPoint N K tag) ⟨b⟩ (inRange_of_bounds ha ha1)
    (inRange_of_bounds hb hb1) (inRange_of_bounds (Int.mul_nonneg ha hb) hp)
  simp only at h
  rw [wrap_eq_self (storageBits_pos pf tag N)
    (inRange_of_bounds (Int.ediv_nonneg (Int.mul_nonneg ha hb) (by positivity)) hq)] at h
  cases h' : FixedPoint.mul pf (⟨a⟩ : FixedPoint N K tag) ⟨b⟩ with
  | mk v =>
    rw [h'] at h
    simp only at h
    rw [h]

theorem div_val (pf : Platform) (a b : Int) (ha : 0 ≤ a) (hb : 0 < b)
    (hs : a * 2 ^ K < 2 ^ (intermediateBits pf N - 1))
    (hq : a * 2 ^ K / b < 2 ^ (storageBits pf tag N - 1)) :
    FixedPoint.div pf (⟨a⟩ : FixedPoint N K tag) ⟨b⟩ = ⟨a * 2 ^ K / b⟩ := by
  have hpos : (0 : Int) < 2 ^ K := by positivity
  have hs0 : 0 ≤ a * 2 ^ K := Int.mul_nonneg ha hpos.le
  have ha1 : a < 2 ^ (intermediateBits pf N - 1) := by
    have : a * 1 ≤ a * 2 ^ K := Int.mul_le_mul_of_nonneg_left (by linarith) ha
    linarith
  have hq0 : 0 ≤ a * 2 ^ K / b := Int.ediv_nonneg hs0 hb.le
  have hq1 : a * 2 ^ K / b ≤ a * 2 ^ K := Int.ediv_le_self _ hs0
  have ht : Int.tdiv (a * 2 ^ K) b = a * 2 ^ K / b := Int.tdiv_eq_ediv hs0 hb.le
  have h := div_v_of_fits pf (⟨a⟩ : FixedPoint N K tag) ⟨b⟩ (inRange_of_bounds ha ha1)
    (inRange_of_bounds hs0 hs) (by
      show InRange _ (Int.tdiv (a * 2 ^ K) b)
      rw [ht]
      exact inRange_of_bounds hq0 (by linarith))
  simp only at h
  rw [ht, wrap_eq_self (storageBits_pos pf tag N) (inRange_of_bounds hq0 hq)] at h
  cases h' : FixedPoint.div pf (⟨a⟩ : FixedPoint N K tag) ⟨b⟩ with
  | mk v =>
    rw [h'] at h
    simp only at h
    rw [h]

theorem divInt_one (pf : Platform) (a : Int) (h : InRange (storageBits pf tag N) a) :
    FixedPoint.divInt pf (⟨a⟩ : FixedPoint N K tag) 1 = ⟨a⟩ := by
  simp only [FixedPoint.divInt, Int.tdiv_one]
  rw [wrap_eq_self (storageBits_pos pf tag N) h]

theorem dampRaw_nonneg (K : Nat) : 0 ≤ dampRaw K := by
  unfold dampRaw
  exact Int.ediv_nonneg (by positivity) (by positivity)

theorem dampRaw_lt (K : Nat) : dampRaw K < 2 ^ K := by
  unfold dampRaw
  apply Int.ediv_lt_of_lt_mul (by positivity)
  have : (0 : Int) < 2 ^ K := by positivity
  nlinarith

theorem damping_val (pf : Platform) (hw : WellFormed N K) :
    (FixedPoint.damping pf : FixedPoint N K tag) = ⟨dampRaw K⟩ := by
  have hN := storageBits_ge_width pf tag N hw.1
  have hlt := dampRaw_lt K
  have hle : (2 : Int) ^ K ≤ 2 ^ (storageBits pf tag N - 1) :=
    pow_le_pow_right₀ (by norm_num) (by have := hw.2.2; omega)
  simp only [FixedPoint.damping]
  rw [show (3602879701896397 : Int) * 2 ^ K / 2 ^ 52 = dampRaw K from rfl,
    wrap_eq_self (storageBits_pos pf tag N)
      (inRange_of_bounds (dampRaw_nonneg K) (by linarith))]

theorem poolGrid_wall (c : Int × Int)
    (hc : c ∈ [((0 : Int), (0 : Int)), (0, 1), (0, 2), (0, 3), (1, 0)] ∨
      c ∈ [((1 : Int), (3 : Int)), (2, 0), (2, 1), (2, 2), (2, 3)]) :
    poolGrid c.1 c.2 = '#' := by
  simp only [List.mem_cons, List.mem_singleton, List.not_mem_nil, or_false] at hc
  rcases hc with (rfl | rfl | rfl | rfl | rfl) | (rfl | rfl | rfl | rfl | rfl) <;> decide

theorem Pool.no_drop {s : Simulator N K tag} {left : Bool} {pH pL : Int}
    (h : Pool s left pH pL) : NoDrop s := by
  intro c hc hf
  rw [h.rows_eq, h.cols_eq] at hc
  rw [h.field_eq] at hf ⊢
  revert c
  decide

theorem Pool.walls {s : Simulator N K tag} {left : Bool} {pH pL : Int}
    (h : Pool s left pH pL) : BorderWalls s := by
  intro c hc
  rw [h.rows_eq, h.cols_eq] at hc ⊢
  rw [h.field_eq]
  revert c
  decide

theorem Pool.count_two {s : Simulator N K tag} {left : Bool} {pH pL : Int}
    (h : Pool s left pH pL) : nonWallCount s = 2 := by
  unfold Simulator.nonWallCount
  rw [h.rows_eq, h.cols_eq, h.field_eq]
  decide

theorem exchange_cell_wall (pf : Platform) (s : Simulator N K tag)
    (x y : Int) (h : s.field x y = '#') : exchange_cell pf s x y = s := by
  simp only [exchange_cell, h, if_true]

theorem exchange_dir_wall (pf : Platform) (s : Simulator N K tag)
    (x y : Int) (d : Int × Int) (h : s.field (x + d.1) (y + d.2) = '#') :
    exchange_dir pf x y s d = s := by
  simp only [exchange_dir, h, ne_eq, not_true_eq_false, false_and, if_false]

theorem exchange_dir_not_lower (pf : Platform) (s : Simulator N K tag)
    (x y : Int) (d : Int × Int)
    (h : ¬ (s.old_p (x + d.1) (y + d.2)).v < (s.old_p x y).v) :
    exchange_dir pf x y s d = s := by
  simp only [exchange_dir, h, and_false, if_false]

/-- The bounds on the raw velocity and on the raw pressure gain that follow from the
bounds on the pressure difference `delta`. -/
theorem pool_arith (K : Nat) (rho delta : Int) (hrho : 0 < rho) (hd : 0 < delta) :
    0 ≤ poolVel K rho delta ∧ poolVel K rho delta * rho ≤ delta * 2 ^ K ∧
    0 ≤ poolVel K rho delta * rho / 2 ^ K ∧ poolVel K rho delta * rho / 2 ^ K ≤ delta ∧
    0 ≤ poolGain K rho (poolVel K rho delta) ∧
    poolGain K rho (poolVel K rho delta) < delta ∧
    poolVel K rho delta * rho / 2 ^ K * dampRaw K ≤ delta * 2 ^ K := by
  have hpos : (0 : Int) < 2 ^ K := by positivity
  have h0 : 0 ≤ delta * 2 ^ K := Int.mul_nonneg hd.le hpos.le
  have h1 : 0 ≤ poolVel K rho delta := Int.ediv_nonneg h0 hrho.le
  have h2 : poolVel K rho delta * rho ≤ delta * 2 ^ K := Int.ediv_mul_le _ (ne_of_gt hrho)
  have h2n : 0 ≤ poolVel K rho delta * rho := Int.mul_nonneg h1 hrho.le
  have h3 : 0 ≤ poolVel K rho delta * rho / 2 ^ K := Int.ediv_nonneg h2n hpos.le
  have h4 : poolVel K rho delta * rho / 2 ^ K ≤ delta :=
    Int.ediv_le_of_le_mul hpos h2
  have hd0 := dampRaw_nonneg K
  have hd1 := dampRaw_lt K
  have h5 : 0 ≤ poolGain K rho (poolVel K rho delta) :=
    Int.ediv_nonneg (Int.mul_nonneg h3 hd0) hpos.le
  have h7 : poolVel K rho delta * rho / 2 ^ K * dampRaw K ≤ delta * 2 ^ K := by
    calc poolVel K rho delta * rho / 2 ^ K * dampRaw K
        ≤ delta * dampRaw K := Int.mul_le_mul_of_nonneg_right h4 hd0
      _ ≤ delta * 2 ^ K := Int.mul_le_mul_of_nonneg_left hd1.le hd.le
  have h6 : poolGain K rho (poolVel K rho delta) < delta := by
    unfold poolGain
    apply Int.ediv_lt_of_lt_mul hpos
    calc poolVel K rho delta * rho / 2 ^ K * dampRaw K
        ≤ delta * dampRaw K := Int.mul_le_mul_of_nonneg_right h4 hd0
      _ < delta * 2 ^ K := Int.mul_lt_mul_of_pos_left hd1 hd
  exact ⟨h1, h2, h3, h4, h5, h6, h7⟩

/-- The pressure exchange of a cell with the raw pressure `pH` towards a neighbour with
the lower raw pressure `pL`, when neither edge between them carries velocity: the cell
gives up the whole difference, which becomes velocity towards the neighbour. -/
theorem exchange_dir_pool (pf : Platform) (t : Simulator N K tag) (x y : Int) (d : Int × Int)
    (pH pL : Int)
    (hf : t.field x y = '.') (hfn : t.field (x + d.1) (y + d.2) = '.')
    (ho : t.old_p x y = ⟨pH⟩) (hon : t.old_p (x + d.1) (y + d.2) = ⟨pL⟩)
    (hp : t.p x y = ⟨pH⟩) (hdirs : t.dirs x y = 1)
    (hv : t.velocity.get x y d.1 d.2 = ⟨0⟩)
    (hvn : t.velocity.get (x + d.1) (y + d.2) (-d.1) (-d.2) = ⟨0⟩)
    (hne : (x + d.1, y + d.2, VectorField.index (-d.1) (-d.2)) ≠ (x, y, VectorField.index d.1 d.2))
    (hrho : 0 < (t.rho_ '.').v)
    (hL : InRange (storageBits pf tag N) pL) (hlt : pL < pH)
    (hd : pH - pL < 2 ^ (storageBits pf tag N - 1))
    (hm : (pH - pL) * 2 ^ K < 2 ^ (intermediateBits pf N - 1))
    (hq : poolVel K (t.rho_ '.').v (pH - pL) < 2 ^ (storageBits pf tag N - 1)) :
    exchange_dir pf x y t d =
      { t with
        velocity := ((t.velocity.set (x + d.1) (y + d.2) (-d.1) (-d.2) ⟨0⟩).set x y d.1 d.2
          ⟨poolVel K (t.rho_ '.').v (pH - pL)⟩),
        p := set2 t.p x y ⟨pL⟩ } := by
  have hΔ0 : 0 ≤ pH - pL := by omega
  have hΔ : InRange (storageBits pf tag N) (pH - pL) := inRange_of_bounds hΔ0 hd
  obtain ⟨q0, -, -, -, -, -, -⟩ := pool_arith K (t.rho_ '.').v (pH - pL) hrho (by omega)
  have hrhoe : t.rho_ '.' = ⟨(t.rho_ '.').v⟩ := rfl
  simp only [exchange_dir, hf, hfn, ho, hon, hp, hdirs, hvn]
  rw [if_pos ⟨by decide, hlt⟩, sub_val pf pH pL hΔ, mul_zero_val, if_neg (by
    show ¬ pH - pL ≤ 0
    omega), sub_val pf (pH - pL) 0 (by simpa using hΔ)]
  simp only [sub_zero]
  rw [hrhoe, div_val pf (pH - pL) (t.rho_ '.').v hΔ0 hrho hm hq, divInt_one pf _ hΔ,
    sub_val pf pH (pH - pL) (by rw [sub_sub_cancel]; exact hL), sub_sub_cancel, ofInt_zero]
  congr 1
  simp only [VectorField.add, VectorField.get, VectorField.set]
  rw [if_neg (by
    rintro ⟨h1, h2, h3⟩
    exact hne (Prod.ext h1.symm (Prod.ext h2.symm h3.symm)))]
  have hv' : t.velocity.v x y (VectorField.index d.1 d.2) = ⟨0⟩ := hv
  rw [hv', add_val pf 0 _ (by simpa using inRange_of_bounds q0 hq), zero_add]
  rfl

theorem singleFlow_of_zero (x y d1 d2 a b e1 e2 q : Int) :
    ((VectorField.zero : VectorField N K tag).set a b e1 e2 ⟨0⟩).set x y d1 d2 ⟨q⟩
      = singleFlow x y (VectorField.index d1 d2) q := by
  simp only [VectorField.set, VectorField.zero, singleFlow]
  congr 1
  funext i j k
  split_ifs <;> rfl

theorem singleFlow_zero (x y : Int) (k : Nat) :
    (singleFlow x y k 0 : VectorField N K tag) = VectorField.zero := by
  simp only [singleFlow, VectorField.zero]
  congr 1
  funext i j l
  split_ifs <;> rfl

theorem exchange_cell_dirs (pf : Platform) (t : Simulator N K tag) (x y : Int)
    (hf : t.field x y ≠ '#') :
    exchange_cell pf t x y =
      exchange_dir pf x y (exchange_dir pf x y (exchange_dir pf x y
        (exchange_dir pf x y t (-1, 0)) (1, 0)) (0, -1)) (0, 1) := by
  simp only [exchange_cell, hf, if_false, deltas, List.foldl]

/-- The pressure exchange at the left cell of the pool when it has the higher pressure. -/
theorem exchange_hi_left (pf : Platform) (t : Simulator N K tag) (pH pL : Int)
    (hf : t.field = poolGrid) (hv : t.velocity = VectorField.zero)
    (ho : t.old_p 1 1 = ⟨pH⟩) (hon : t.old_p 1 2 = ⟨pL⟩) (hp : t.p 1 1 = ⟨pH⟩)
    (hdirs : t.dirs 1 1 = 1) (hrho : 0 < (t.rho_ '.').v)
    (hL : InRange (storageBits pf tag N) pL) (hlt : pL < pH)
    (hd : pH - pL < 2 ^ (storageBits pf tag N - 1))
    (hm : (pH - pL) * 2 ^ K < 2 ^ (intermediateBits pf N - 1))
    (hq : poolVel K (t.rho_ '.').v (pH - pL) < 2 ^ (storageBits pf tag N - 1)) :
    exchange_cell pf t 1 1 =
      { t with
        velocity := singleFlow 1 1 3 (poolVel K (t.rho_ '.').v (pH - pL)),
        p := set2 t.p 1 1 ⟨pL⟩ } := by
  have w1 : exchange_dir pf 1 1 t (-1, 0) = t :=
    exchange_dir_wall pf _ 1 1 _ (by rw [hf]; decide)
  have w2 : exchange_dir pf 1 1 t (1, 0) = t :=
    exchange_dir_wall pf _ 1 1 _ (by rw [hf]; decide)
  have w3 : exchange_dir pf 1 1 t (0, -1) = t :=
    exchange_dir_wall pf _ 1 1 _ (by rw [hf]; decide)
  have w4 := exchange_dir_pool pf t 1 1 (0, 1) pH pL (by rw [hf]; decide)
    (by rw [hf]; decide) ho hon hp hdirs (by rw [hv]; rfl) (by rw [hv]; rfl) (by decide)
    hrho hL hlt hd hm hq
  rw [hv, singleFlow_of_zero] at w4
  rw [exchange_cell_dirs pf t 1 1 (by rw [hf]; decide), w1, w2, w3, w4]
  rfl

/-- The pressure exchange at the right cell of the pool when it has the higher
pressure. -/
theorem exchange_hi_right (pf : Platform) (t : Simulator N K tag) (pH pL : Int)
    (hf : t.field = poolGrid) (hv : t.velocity = VectorField.zero)
    (ho : t.old_p 1 2 = ⟨pH⟩) (hon : t.old_p 1 1 = ⟨pL⟩) (hp : t.p 1 2 = ⟨pH⟩)
    (hdirs : t.dirs 1 2 = 1) (hrho : 0 < (t.rho_ '.').v)
    (hL : InRange (storageBits pf tag N) pL) (hlt : pL < pH)
    (hd : pH - pL < 2 ^ (storageBits pf tag N - 1))
    (hm : (pH - pL) * 2 ^ K < 2 ^ (intermediateBits pf N - 1))
    (hq : poolVel K (t.rho_ '.').v (pH - pL) < 2 ^ (storageBits pf tag N - 1)) :
    exchange_cell pf t 1 2 =
      { t with
        velocity := singleFlow 1 2 2 (poolVel K (t.rho_ '.').v (pH - pL)),
        p := set2 t.p 1 2 ⟨pL⟩ } := by
  have w1 : exchange_dir pf 1 2 t (-1, 0) = t :=
    exchange_dir_wall pf _ 1 2 _ (by rw [hf]; decide)
  have w2 : exchange_dir pf 1 2 t (1, 0) = t :=
    exchange_dir_wall pf _ 1 2 _ (by rw [hf]; decide)
  have hon' : t.old_p (1 + ((0 : Int), (-1 : Int)).1) (2 + ((0 : Int), (-1 : Int)).2)
      = ⟨pL⟩ := by
    show t.old_p (1 + 0) (2 + -1) = _
    rw [show (1 : Int) + 0 = 1 from rfl, show (2 : Int) + -1 = 1 from rfl]
    exact hon
  have w3 := exchange_dir_pool pf t 1 2 (0, -1) pH pL (by rw [hf]; decide)
    (by rw [hf]; decide) ho hon' hp hdirs (by rw [hv]; rfl) (by rw [hv]; rfl) (by decide)
    hrho hL hlt hd hm hq
  rw [hv, singleFlow_of_zero] at w3
  rw [exchange_cell_dirs pf t 1 2 (by rw [hf]; decide), w1, w2, w3]
  exact exchange_dir_wall pf _ 1 2 _ (by show t.field _ _ = _; rw [hf]; decide)

/-- The pressure exchange at the right cell of the pool when it has the lower pressure. -/
theorem exchange_lo_right (pf : Platform) (t : Simulator N K tag) (pH pL : Int)
    (hf : t.field = poolGrid) (ho : t.old_p 1 1 = ⟨pH⟩) (hon : t.old_p 1 2 = ⟨pL⟩)
    (hlt : pL < pH) : exchange_cell pf t 1 2 = t := by
  have w1 : exchange_dir pf 1 2 t (-1, 0) = t :=
    exchange_dir_wall pf _ 1 2 _ (by rw [hf]; decide)
  have w2 : exchange_dir pf 1 2 t (1, 0) = t :=
    exchange_dir_wall pf _ 1 2 _ (by rw [hf]; decide)
  have w3 : exchange_dir pf 1 2 t (0, -1) = t :=
    exchange_dir_not_lower pf _ 1 2 _ (by
      show ¬ (t.old_p (1 + 0) (2 + -1)).v < (t.old_p 1 2).v
      rw [show (1 : Int) + 0 = 1 from rfl, show (2 : Int) + -1 = 1 from rfl, ho, hon]
      show ¬ pH < pL
      omega)
  have w4 : exchange_dir pf 1 2 t (0, 1) = t :=
    exchange_dir_wall pf _ 1 2 _ (by rw [hf]; decide)
  rw [exchange_cell_dirs pf t 1 2 (by rw [hf]; decide), w1, w2, w3, w4]

/-- The pressure exchange at the left cell of the pool when it has the lower pressure. -/
theorem exchange_lo_left (pf : Platform) (t : Simulator N K tag) (pH pL : Int)
    (hf : t.field = poolGrid) (ho : t.old_p 1 2 = ⟨pH⟩) (hon : t.old_p 1 1 = ⟨pL⟩)
    (hlt : pL < pH) : exchange_cell pf t 1 1 = t := by
  have w1 : exchange_dir pf 1 1 t (-1, 0) = t :=
    exchange_dir_wall pf _ 1 1 _ (by rw [hf]; decide)
  have w2 : exchange_dir pf 1 1 t (1, 0) = t :=
    exchange_dir_wall pf _ 1 1 _ (by rw [hf]; decide)
  have w3 : exchange_dir pf 1 1 t (0, -1) = t :=
    exchange_dir_wall pf _ 1 1 _ (by rw [hf]; decide)
  have w4 : exchange_dir pf 1 1 t (0, 1) = t :=
    exchange_dir_not_lower pf _ 1 1 _ (by
      show ¬ (t.old_p (1 + 0) (1 + 1)).v < (t.old_p 1 1).v
      rw [show (1 : Int) + 0 = 1 from rfl, show (1 : Int) + 1 = 2 from rfl, ho, hon]
      show ¬ pH < pL
      omega)
  rw [exchange_cell_dirs pf t 1 1 (by rw [hf]; decide), w1, w2, w3, w4]

theorem gravity_pool (pf : Platform) (s : Simulator N K tag) (hnd : NoDrop s) :
    forCells (gravity_cell pf) (cells s.rows s.cols) s = s := by
  apply forCells_fix
  intro c hc
  simp only [gravity_cell]
  split_ifs with h1 h2
  · rfl
  · exact absurd (hnd c hc h1) h2
  · rfl

theorem exchange_pool_pre (pf : Platform) (t : Simulator N K tag) (ht : t.field = poolGrid) :
    forCells (exchange_cell pf) [(0, 0), (0, 1), (0, 2), (0, 3), (1, 0)] t = t := by
  apply forCells_fix
  intro c hc
  exact exchange_cell_wall pf t c.1 c.2 (by rw [ht]; exact poolGrid_wall c (Or.inl hc))

theorem exchange_pool_post (pf : Platform) (t : Simulator N K tag) (ht : t.field = poolGrid) :
    forCells (exchange_cell pf) [(1, 3), (2, 0), (2, 1), (2, 2), (2, 3)] t = t := by
  apply forCells_fix
  intro c hc
  exact exchange_cell_wall pf t c.1 c.2 (by rw [ht]; exact poolGrid_wall c (Or.inr hc))

/-- The tick of the pool up to the end of the pressure exchange, the left cell having
the higher pressure. -/
theorem tick_forces_pool_left (pf : Platform) (s : Simulator N K tag) (pH pL : Int)
    (hs : Pool s true pH pL) (hrho : 0 < (s.rho_ '.').v)
    (hL : InRange (storageBits pf tag N) pL) (hlt : pL < pH)
    (hd : pH - pL < 2 ^ (storageBits pf tag N - 1))
    (hm : (pH - pL) * 2 ^ K < 2 ^ (intermediateBits pf N - 1))
    (hq : poolVel K (s.rho_ '.').v (pH - pL) < 2 ^ (storageBits pf tag N - 1)) :
    tick_forces pf s =
      { s with
        old_p := s.p,
        velocity := singleFlow 1 1 3 (poolVel K (s.rho_ '.').v (pH - pL)),
        p := set2 s.p 1 1 ⟨pL⟩,
        velocity_flow := VectorField.zero } := by
  have hhi : s.p 1 1 = ⟨pH⟩ := hs.p_hi
  have hlo : s.p 1 2 = ⟨pL⟩ := hs.p_lo
  have hx : forCells (exchange_cell pf) (cells 3 4) { s with old_p := s.p } =
      { s with
        old_p := s.p,
        velocity := singleFlow 1 1 3 (poolVel K (s.rho_ '.').v (pH - pL)),
        p := set2 s.p 1 1 ⟨pL⟩ } := by
    rw [cells_three_four, forCells_append,
      exchange_pool_pre pf { s with old_p := s.p } hs.field_eq,
      forCells_cons, forCells_cons,
      exchange_hi_left pf { s with old_p := s.p } pH pL hs.field_eq hs.velocity_eq hhi hlo hhi
        hs.dirs_left hrho hL hlt hd hm hq,
      exchange_lo_right pf
        { s with
          old_p := s.p,
          velocity := singleFlow 1 1 3 (poolVel K (s.rho_ '.').v (pH - pL)),
          p := set2 s.p 1 1 ⟨pL⟩ } pH pL hs.field_eq hhi hlo hlt,
      exchange_pool_post pf
        { s with
          old_p := s.p,
          velocity := singleFlow 1 1 3 (poolVel K (s.rho_ '.').v (pH - pL)),
          p := set2 s.p 1 1 ⟨pL⟩ } hs.field_eq]
  have e : cells s.rows s.cols = cells 3 4 := by rw [hs.rows_eq, hs.cols_eq]
  simp only [tick_forces, gravity_pool pf s hs.no_drop]
  rw [e, hx]

/-- The tick of the pool up to the end of the pressure exchange, the right cell having
the higher pressure. -/
theorem tick_forces_pool_right (pf : Platform) (s : Simulator N K tag) (pH pL : Int)
    (hs : Pool s false pH pL) (hrho : 0 < (s.rho_ '.').v)
    (hL : InRange (storageBits pf tag N) pL) (hlt : pL < pH)
    (hd : pH - pL < 2 ^ (storageBits pf tag N - 1))
    (hm : (pH - pL) * 2 ^ K < 2 ^ (intermediateBits pf N - 1))
    (hq : poolVel K (s.rho_ '.').v (pH - pL) < 2 ^ (storageBits pf tag N - 1)) :
    tick_forces pf s =
      { s with
        old_p := s.p,
        velocity := singleFlow 1 2 2 (poolVel K (s.rho_ '.').v (pH - pL)),
        p := set2 s.p 1 2 ⟨pL⟩,
        velocity_flow := VectorField.zero } := by
  have hhi : s.p 1 2 = ⟨pH⟩ := hs.p_hi
  have hlo : s.p 1 1 = ⟨pL⟩ := hs.p_lo
  have hx : forCells (exchange_cell pf) (cells 3 4) { s with old_p := s.p } =
      { s with
        old_p := s.p,
        velocity := singleFlow 1 2 2 (poolVel K (s.rho_ '.').v (pH - pL)),
        p := set2 s.p 1 2 ⟨pL⟩ } := by
    rw [cells_three_four, forCells_append,
      exchange_pool_pre pf { s with old_p := s.p } hs.field_eq,
      forCells_cons, forCells_cons,
      exchange_lo_left pf { s with old_p := s.p } pH pL hs.field_eq hhi hlo hlt,
      exchange_hi_right pf { s with old_p := s.p } pH pL hs.field_eq hs.velocity_eq hhi hlo hhi
        hs.dirs_right hrho hL hlt hd hm hq,
      exchange_pool_post pf
        { s with
          old_p := s.p,
          velocity := singleFlow 1 2 2 (poolVel K (s.rho_ '.').v (pH - pL)),
          p := set2 s.p 1 2 ⟨pL⟩ } hs.field_eq]
  have e : cells s.rows s.cols = cells 3 4 := by rw [hs.rows_eq, hs.cols_eq]
  simp only [tick_forces, gravity_pool pf s hs.no_drop]
  rw [e, hx]

end Simulator

namespace Simulator

variable {N K : Nat} {tag : Tag}

theorem propagate_flow_loop_wall (pf : Platform)
    (call : Simulator N K tag → Int → Int → FixedPoint N K tag →
      Except Fault (FlowOut N K tag))
    (x y : Int) (lim : FixedPoint N K tag) (d : Int × Int) (ds : List (Int × Int))
    (s : Simulator N K tag) (ret : FixedPoint N K tag) (calls : Nat)
    (h : s.field (x + d.1) (y + d.2) = '#') :
    propagate_flow_loop pf call x y lim (d :: ds) s ret calls =
      propagate_flow_loop pf call x y lim ds s ret calls := by
  obtain ⟨dx, dy⟩ := d
  rw [propagate_flow_loop, if_neg (by simp only [ne_eq, not_and]; intro h1; exact absurd h h1)]

theorem propagate_flow_loop_done (pf : Platform)
    (call : Simulator N K tag → Int → Int → FixedPoint N K tag →
      Except Fault (FlowOut N K tag))
    (x y : Int) (lim : FixedPoint N K tag) (d : Int × Int) (ds : List (Int × Int))
    (s : Simulator N K tag) (ret : FixedPoint N K tag) (calls : Nat)
    (h : s.UT ≤ s.last_use (x + d.1) (y + d.2)) :
    propagate_flow_loop pf call x y lim (d :: ds) s ret calls =
      propagate_flow_loop pf call x y lim ds s ret calls := by
  obtain ⟨dx, dy⟩ := d
  simp only at h
  rw [propagate_flow_loop, if_neg (by rintro ⟨-, h2⟩; omega)]

theorem propagate_flow_loop_full (pf : Platform)
    (call : Simulator N K tag → Int → Int → FixedPoint N K tag →
      Except Fault (FlowOut N K tag))
    (x y : Int) (lim : FixedPoint N K tag) (d : Int × Int) (ds : List (Int × Int))
    (s : Simulator N K tag) (ret : FixedPoint N K tag) (calls : Nat)
    (h : s.velocity_flow.get x y d.1 d.2 = s.velocity.get x y d.1 d.2) :
    propagate_flow_loop pf call x y lim (d :: ds) s ret calls =
      propagate_flow_loop pf call x y lim ds s ret calls := by
  obtain ⟨dx, dy⟩ := d
  rw [propagate_flow_loop]
  split_ifs with h1
  · rfl
  · rfl

theorem propagate_flow_loop_dead (pf : Platform)
    (call : Simulator N K tag → Int → Int → FixedPoint N K tag →
      Except Fault (FlowOut N K tag))
    (x y : Int) (lim : FixedPoint N K tag) (d : Int × Int) (ds : List (Int × Int))
    (s : Simulator N K tag) (ret : FixedPoint N K tag) (calls : Nat)
    (h1 : s.field (x + d.1) (y + d.2) ≠ '#') (h2 : s.last_use (x + d.1) (y + d.2) < s.UT - 1)
    (h3 : s.velocity_flow.get x y d.1 d.2 ≠ s.velocity.get x y d.1 d.2)
    (r : FlowOut N K tag)
    (hcall : call s (x + d.1) (y + d.2) (FixedPoint.min lim
      (FixedPoint.sub pf (s.velocity.get x y d.1 d.2) (s.velocity_flow.get x y d.1 d.2)))
        = Except.ok r)
    (hprop : r.prop = false) :
    propagate_flow_loop pf call x y lim (d :: ds) s ret calls =
      propagate_flow_loop pf call x y lim ds r.sim (FixedPoint.add pf ret r.t)
        (calls + r.calls) := by
  obtain ⟨dx, dy⟩ := d
  simp only at h1 h2 h3 hcall
  rw [propagate_flow_loop, if_pos ⟨h1, by omega⟩, if_neg h3, if_neg (by omega)]
  simp only [hcall, hprop, Bool.false_eq_true, if_false]

/-- The flow search from the right cell of the pool finds nothing when the edge to the
left cell is saturated. -/
theorem flow_right_full (pf : Platform) (k : Nat) (u : Simulator N K tag)
    (hf : u.field = poolGrid)
    (hfull : u.velocity_flow.get 1 2 0 (-1) = u.velocity.get 1 2 0 (-1))
    (lim : FixedPoint N K tag) :
    propagate_flow pf (k + 1) u 1 2 lim =
      Except.ok ⟨{ u with last_use := set2 u.last_use 1 2 u.UT }, FixedPoint.ofInt pf 0,
        false, (0, 0), 1⟩ := by
  rw [propagate_flow, deltas,
    propagate_flow_loop_wall pf _ 1 2 lim (-1, 0) _ _ _ _ (by
      show u.field _ _ = _; rw [hf]; decide),
    propagate_flow_loop_wall pf _ 1 2 lim (1, 0) _ _ _ _ (by
      show u.field _ _ = _; rw [hf]; decide),
    propagate_flow_loop_full pf _ 1 2 lim (0, -1) _ _ _ _ (by exact hfull),
    propagate_flow_loop_wall pf _ 1 2 lim (0, 1) _ _ _ _ (by
      show u.field _ _ = _; rw [hf]; decide),
    propagate_flow_loop]
  simp only [set2_set2]

/-- The flow search from the left cell of the pool finds nothing when the edge to the
right cell is saturated. -/
theorem flow_left_full (pf : Platform) (k : Nat) (u : Simulator N K tag)
    (hf : u.field = poolGrid)
    (hfull : u.velocity_flow.get 1 1 0 1 = u.velocity.get 1 1 0 1)
    (lim : FixedPoint N K tag) :
    propagate_flow pf (k + 1) u 1 1 lim =
      Except.ok ⟨{ u with last_use := set2 u.last_use 1 1 u.UT }, FixedPoint.ofInt pf 0,
        false, (0, 0), 1⟩ := by
  rw [propagate_flow, deltas,
    propagate_flow_loop_wall pf _ 1 1 lim (-1, 0) _ _ _ _ (by
      show u.field _ _ = _; rw [hf]; decide),
    propagate_flow_loop_wall pf _ 1 1 lim (1, 0) _ _ _ _ (by
      show u.field _ _ = _; rw [hf]; decide),
    propagate_flow_loop_wall pf _ 1 1 lim (0, -1) _ _ _ _ (by
      show u.field _ _ = _; rw [hf]; decide),
    propagate_flow_loop_full pf _ 1 1 lim (0, 1) _ _ _ _ (by exact hfull),
    propagate_flow_loop]
  simp only [set2_set2]

/-- The flow search from the right cell of the pool finds nothing when the left cell is
resolved in this sweep. -/
theorem flow_right_done (pf : Platform) (k : Nat) (u : Simulator N K tag)
    (hf : u.field = poolGrid) (hdone : u.UT ≤ u.last_use 1 1)
    (lim : FixedPoint N K tag) :
    propagate_flow pf (k + 1) u 1 2 lim =
      Except.ok ⟨{ u with last_use := set2 u.last_use 1 2 u.UT }, FixedPoint.ofInt pf 0,
        false, (0, 0), 1⟩ := by
  rw [propagate_flow, deltas,
    propagate_flow_loop_wall pf _ 1 2 lim (-1, 0) _ _ _ _ (by
      show u.field _ _ = _; rw [hf]; decide),
    propagate_flow_loop_wall pf _ 1 2 lim (1, 0) _ _ _ _ (by
      show u.field _ _ = _; rw [hf]; decide),
    propagate_flow_loop_done pf _ 1 2 lim (0, -1) _ _ _ _ (by
      show u.UT ≤ set2 u.last_use 1 2 (u.UT - 1) (1 + 0) (2 + -1)
      simp only [set2]
      rw [if_neg (by decide)]
      exact hdone),
    propagate_flow_loop_wall pf _ 1 2 lim (0, 1) _ _ _ _ (by
      show u.field _ _ = _; rw [hf]; decide),
    propagate_flow_loop]
  simp only [set2_set2]

/-- The flow search from the left cell of the pool, whose velocity towards the right cell
is not routed yet: the right cell is visited and nothing is routed. -/
theorem flow_left_open (pf : Platform) (k : Nat) (t : Simulator N K tag)
    (hf : t.field = poolGrid)
    (hopen : t.velocity_flow.get 1 1 0 1 ≠ t.velocity.get 1 1 0 1)
    (hfull : t.velocity_flow.get 1 2 0 (-1) = t.velocity.get 1 2 0 (-1))
    (hst : ∀ a b, t.last_use a b < t.UT - 1) (lim : FixedPoint N K tag) :
    propagate_flow pf (k + 2) t 1 1 lim =
      Except.ok ⟨{ t with
          last_use := (set2 (set2 (set2 t.last_use 1 1 (t.UT - 1)) 1 2 t.UT) 1 1 t.UT) },
        FixedPoint.add pf (FixedPoint.ofInt pf 0) (FixedPoint.ofInt pf 0),
        false, (0, 0), 2⟩ := by
  rw [propagate_flow, deltas,
    propagate_flow_loop_wall pf _ 1 1 lim (-1, 0) _ _ _ _ (by
      show t.field _ _ = _; rw [hf]; decide),
    propagate_flow_loop_wall pf _ 1 1 lim (1, 0) _ _ _ _ (by
      show t.field _ _ = _; rw [hf]; decide),
    propagate_flow_loop_wall pf _ 1 1 lim (0, -1) _ _ _ _ (by
      show t.field _ _ = _; rw [hf]; decide),
    propagate_flow_loop_dead pf _ 1 1 lim (0, 1) _ _ _ _
      (by show t.field _ _ ≠ _; rw [hf]; decide)
      (by show set2 t.last_use 1 1 (t.UT - 1) (1 + 0) (1 + 1) < t.UT - 1
          simp only [set2]
          rw [if_neg (by decide)]
          exact hst _ _)
      (by exact hopen)
      _ (flow_right_full pf k { t with last_use := set2 t.last_use 1 1 (t.UT - 1) } hf hfull _)
      rfl,
    propagate_flow_loop]
  simp only [set2_set2]

theorem sweep_cell_skip (pf : Platform) (fuel : Nat) (sp : Simulator N K tag × Bool)
    (x y : Int) (h : sp.1.field x y = '#' ∨ sp.1.last_use x y = sp.1.UT) :
    sweep_cell pf fuel sp x y = Except.ok sp := by
  simp only [sweep_cell]
  rw [if_neg]
  rintro ⟨h1, h2⟩
  rcases h with h | h
  · exact h1 h
  · exact h2 h

theorem sweep_pool_pre (pf : Platform) (fuel : Nat) (sp : Simulator N K tag × Bool)
    (ht : sp.1.field = poolGrid) :
    forCellsM (sweep_cell pf fuel) [(0, 0), (0, 1), (0, 2), (0, 3), (1, 0)] sp
      = Except.ok sp := by
  apply forCellsM_fix
  intro c hc
  exact sweep_cell_skip pf _ sp c.1 c.2
    (Or.inl (by rw [ht]; exact poolGrid_wall c (Or.inl hc)))

theorem sweep_pool_post (pf : Platform) (fuel : Nat) (sp : Simulator N K tag × Bool)
    (ht : sp.1.field = poolGrid) :
    forCellsM (sweep_cell pf fuel) [(1, 3), (2, 0), (2, 1), (2, 2), (2, 3)] sp
      = Except.ok sp := by
  apply forCellsM_fix
  intro c hc
  exact sweep_cell_skip pf _ sp c.1 c.2
    (Or.inl (by rw [ht]; exact poolGrid_wall c (Or.inr hc)))

theorem add_zero_zero (pf : Platform) :
    (FixedPoint.add pf (FixedPoint.ofInt pf 0) (FixedPoint.ofInt pf 0) : FixedPoint N K tag)
      = ⟨0⟩ := by
  rw [ofInt_zero, add_val pf 0 0 (inRange_of_bounds (le_refl 0) (by positivity))]
  rfl

/-- The propagation sweep of the pool whose only velocity leaves the left cell towards
the right cell: nothing is routed, only the stamps and the counter change. -/
theorem sweep_pool_left (pf : Platform) (k : Nat) (t : Simulator N K tag) (dv : Int)
    (hr : t.rows = 3) (hc : t.cols = 4)
    (hf : t.field = poolGrid) (hv : t.velocity = singleFlow 1 1 3 dv) (hdv : dv ≠ 0)
    (hfl : t.velocity_flow = VectorField.zero) (hst : StampsLe t) :
    ∃ lu, sweep pf (k + 2) t = Except.ok ({ t with last_use := lu, UT := t.UT + 2 }, false) := by
  have hA : sweep_cell pf (k + 2) ({ t with UT := t.UT + 2 }, false) 1 1 =
      Except.ok ({ t with
        last_use := (set2 (set2 (set2 t.last_use 1 1 (t.UT + 2 - 1)) 1 2 (t.UT + 2)) 1 1
          (t.UT + 2)),
        UT := t.UT + 2 }, false) := by
    simp only [sweep_cell]
    rw [if_pos ⟨by rw [hf]; decide, by have := hst 1 1; omega⟩,
      flow_left_open pf k { t with UT := t.UT + 2 } hf
        (by show t.velocity_flow.get 1 1 0 1 ≠ t.velocity.get 1 1 0 1
            rw [hfl, hv]
            show (⟨0⟩ : FixedPoint N K tag) ≠ ⟨dv⟩
            intro h
            exact hdv (congrArg FixedPoint.v h).symm)
        (by show t.velocity_flow.get 1 2 0 (-1) = t.velocity.get 1 2 0 (-1)
            rw [hfl, hv]
            rfl)
        (fun a b => by have := hst a b; show t.last_use a b < t.UT + 2 - 1; omega)]
    simp only [add_zero_zero]
    simp
  refine ⟨set2 (set2 (set2 t.last_use 1 1 (t.UT + 2 - 1)) 1 2 (t.UT + 2)) 1 1 (t.UT + 2), ?_⟩
  have e : cells t.rows t.cols = cells 3 4 := by rw [hr, hc]
  simp only [sweep]
  rw [e, cells_three_four,
    forCellsM_append _ _ _ _ _ (sweep_pool_pre pf _ ({ t with UT := t.UT + 2 }, false) hf),
    forCellsM_cons _ _ _ _ _ _ hA,
    forCellsM_cons _ _ _ _ _ _ (sweep_cell_skip pf _ _ 1 2 (Or.inr (by simp [set2]))),
    sweep_pool_post pf _ _ hf]

/-- The propagation sweep of the pool whose only velocity leaves the right cell towards
the left cell: nothing is routed, only the stamps and the counter change. -/
theorem sweep_pool_right (pf : Platform) (k : Nat) (t : Simulator N K tag) (dv : Int)
    (hr : t.rows = 3) (hc : t.cols = 4)
    (hf : t.field = poolGrid) (hv : t.velocity = singleFlow 1 2 2 dv)
    (hfl : t.velocity_flow = VectorField.zero) (hst : StampsLe t) :
    ∃ lu, sweep pf (k + 1) t = Except.ok ({ t with last_use := lu, UT := t.UT + 2 }, false) := by
  have hA : sweep_cell pf (k + 1) ({ t with UT := t.UT + 2 }, false) 1 1 =
      Except.ok ({ t with
        last_use := set2 t.last_use 1 1 (t.UT + 2),
        UT := t.UT + 2 }, false) := by
    simp only [sweep_cell]
    rw [if_pos ⟨by rw [hf]; decide, by have := hst 1 1; omega⟩,
      flow_left_full pf k { t with UT := t.UT + 2 } hf
        (by show t.velocity_flow.get 1 1 0 1 = t.velocity.get 1 1 0 1
            rw [hfl, hv]
            rfl)]
    simp only [FixedPoint.ofInt_zero_v, lt_self_iff_false, if_false]
  have hB : sweep_cell pf (k + 1)
      ({ t with last_use := set2 t.last_use 1 1 (t.UT + 2), UT := t.UT + 2 }, false) 1 2 =
      Except.ok ({ t with
        last_use := set2 (set2 t.last_use 1 1 (t.UT + 2)) 1 2 (t.UT + 2),
        UT := t.UT + 2 }, false) := by
    simp only [sweep_cell]
    rw [if_pos ⟨by rw [hf]; decide, by
        show set2 t.last_use 1 1 (t.UT + 2) 1 2 ≠ t.UT + 2
        simp only [set2]
        rw [if_neg (by decide)]
        have := hst 1 2
        omega⟩,
      flow_right_done pf k
        { t with last_use := set2 t.last_use 1 1 (t.UT + 2), UT := t.UT + 2 } hf
        (by show t.UT + 2 ≤ set2 t.last_use 1 1 (t.UT + 2) 1 1
            simp [set2])]
    simp only [FixedPoint.ofInt_zero_v, lt_self_iff_false, if_false]
  refine ⟨set2 (set2 t.last_use 1 1 (t.UT + 2)) 1 2 (t.UT + 2), ?_⟩
  have e : cells t.rows t.cols = cells 3 4 := by rw [hr, hc]
  simp only [sweep]
  rw [e, cells_three_four,
    forCellsM_append _ _ _ _ _ (sweep_pool_pre pf _ ({ t with UT := t.UT + 2 }, false) hf),
    forCellsM_cons _ _ _ _ _ _ hA, forCellsM_cons _ _ _ _ _ _ hB,
    sweep_pool_post pf _ _ hf]

theorem sweep_loop_pool_left (pf : Platform) (k n : Nat) (t : Simulator N K tag) (dv : Int)
    (hr : t.rows = 3) (hc : t.cols = 4)
    (hf : t.field = poolGrid) (hv : t.velocity = singleFlow 1 1 3 dv) (hdv : dv ≠ 0)
    (hfl : t.velocity_flow = VectorField.zero) (hst : StampsLe t) :
    ∃ lu, sweep_loop pf (k + 2) (n + 1) t =
      Except.ok { t with last_use := lu, UT := t.UT + 2 } := by
  obtain ⟨lu, h⟩ := sweep_pool_left pf k t dv hr hc hf hv hdv hfl hst
  exact ⟨lu, by simp only [sweep_loop, h, Bool.false_eq_true, if_false]⟩

theorem sweep_loop_pool_right (pf : Platform) (k n : Nat) (t : Simulator N K tag) (dv : Int)
    (hr : t.rows = 3) (hc : t.cols = 4)
    (hf : t.field = poolGrid) (hv : t.velocity = singleFlow 1 2 2 dv)
    (hfl : t.velocity_flow = VectorField.zero) (hst : StampsLe t) :
    ∃ lu, sweep_loop pf (k + 1) (n + 1) t =
      Except.ok { t with last_use := lu, UT := t.UT + 2 } := by
  obtain ⟨lu, h⟩ := sweep_pool_right pf k t dv hr hc hf hv hfl hst
  exact ⟨lu, by simp only [sweep_loop, h, Bool.false_eq_true, if_false]⟩

end Simulator

namespace Simulator

variable {N K : Nat} {tag : Tag}

theorem clamp_cell_wall (pf : Platform) (s : Simulator N K tag) (x y : Int)
    (h : s.field x y = '#') : clamp_cell pf s x y = Except.ok s := by
  simp only [clamp_cell, h, if_true]

theorem clamp_dir_idle (pf : Platform) (s : Simulator N K tag) (x y : Int) (d : Int × Int)
    (h : (s.velocity.get x y d.1 d.2).v ≤ 0) : clamp_dir pf x y s d = Except.ok s := by
  simp only [clamp_dir]
  rw [if_neg (by omega)]

theorem clamp_cell_idle (pf : Platform) (s : Simulator N K tag) (x y : Int)
    (h : ∀ d : Int × Int, (s.velocity.get x y d.1 d.2).v ≤ 0) :
    clamp_cell pf s x y = Except.ok s := by
  simp only [clamp_cell]
  split_ifs
  · rfl
  · simp only [deltas, forDirsM, clamp_dir_idle pf s x y _ (h _)]

/-- The clamp step for a direction of a liquid cell in which the raw velocity
`poolVel K rho delta` was not routed at all and whose neighbour is open: the velocity is
reset and the neighbour receives the pressure `poolGain`. -/
theorem clamp_dir_pool (pf : Platform) (hw : WellFormed N K) (u : Simulator N K tag)
    (x y : Int) (d : Int × Int) (pL delta : Int)
    (hf : u.field x y = '.') (hfn : u.field (x + d.1) (y + d.2) = '.')
    (hv : u.velocity.get x y d.1 d.2 = ⟨poolVel K (u.rho_ '.').v delta⟩)
    (hfl : u.velocity_flow.get x y d.1 d.2 = ⟨0⟩)
    (hdirs : u.dirs (x + d.1) (y + d.2) = 1) (hp : u.p (x + d.1) (y + d.2) = ⟨pL⟩)
    (hrho : 0 < (u.rho_ '.').v) (hq0 : 0 < poolVel K (u.rho_ '.').v delta)
    (hd0 : 0 < delta)
    (hL : InRange (storageBits pf tag N) pL)
    (hH : pL + delta < 2 ^ (storageBits pf tag N - 1))
    (hd : delta < 2 ^ (storageBits pf tag N - 1))
    (hm : delta * 2 ^ K < 2 ^ (intermediateBits pf N - 1))
    (hq : poolVel K (u.rho_ '.').v delta < 2 ^ (storageBits pf tag N - 1)) :
    clamp_dir pf x y u d =
      Except.ok { u with
        velocity := u.velocity.set x y d.1 d.2 ⟨0⟩,
        p := (set2 u.p (x + d.1) (y + d.2)
          ⟨pL + poolGain K (u.rho_ '.').v (poolVel K (u.rho_ '.').v delta)⟩) } := by
  obtain ⟨a1, a2, a3, a4, a5, a6, a7⟩ := pool_arith K (u.rho_ '.').v delta hrho hd0
  have hpos : (0 : Int) < 2 ^ K := by positivity
  have hK : (2 : Int) ^ K ≤ delta * 2 ^ K := by nlinarith
  have hqr : poolVel K (u.rho_ '.').v delta ≤ poolVel K (u.rho_ '.').v delta * (u.rho_ '.').v := by
    nlinarith
  have hrq : (u.rho_ '.').v ≤ poolVel K (u.rho_ '.').v delta * (u.rho_ '.').v := by
    nlinarith
  have hdm : delta ≤ delta * 2 ^ K := by nlinarith
  have hrhoe : u.rho_ '.' = ⟨(u.rho_ '.').v⟩ := rfl
  have e1 : FixedPoint.sub pf (⟨poolVel K (u.rho_ '.').v delta⟩ : FixedPoint N K tag) ⟨0⟩
      = ⟨poolVel K (u.rho_ '.').v delta⟩ := by
    rw [sub_val pf _ 0 (by simpa using inRange_of_bounds a1 hq), sub_zero]
  have e2 : FixedPoint.mul pf (⟨poolVel K (u.rho_ '.').v delta⟩ : FixedPoint N K tag)
      (u.rho_ '.') = ⟨poolVel K (u.rho_ '.').v delta * (u.rho_ '.').v / 2 ^ K⟩ := by
    rw [hrhoe]
    exact mul_val pf _ _ a1 hrho.le (by linarith) (by linarith) (by linarith) (by linarith)
  have e3 : FixedPoint.mul pf
      (⟨poolVel K (u.rho_ '.').v delta * (u.rho_ '.').v / 2 ^ K⟩ : FixedPoint N K tag)
      (FixedPoint.damping pf) = ⟨poolGain K (u.rho_ '.').v (poolVel K (u.rho_ '.').v delta)⟩ := by
    rw [damping_val pf hw]
    exact mul_val pf _ _ a3 (dampRaw_nonneg K) (by linarith)
      (by have := dampRaw_lt K; linarith) (by linarith) (by
        show poolGain K (u.rho_ '.').v (poolVel K (u.rho_ '.').v delta) < _
        linarith)
  have e4 : FixedPoint.divInt pf
      (⟨poolGain K (u.rho_ '.').v (poolVel K (u.rho_ '.').v delta)⟩ : FixedPoint N K tag) 1
      = ⟨poolGain K (u.rho_ '.').v (poolVel K (u.rho_ '.').v delta)⟩ :=
    divInt_one pf _ (inRange_of_bounds a5 (by linarith))
  have e5 : FixedPoint.add pf (⟨pL⟩ : FixedPoint N K tag)
      ⟨poolGain K (u.rho_ '.').v (poolVel K (u.rho_ '.').v delta)⟩
      = ⟨pL + poolGain K (u.rho_ '.').v (poolVel K (u.rho_ '.').v delta)⟩ :=
    add_val pf _ _ ⟨by have := hL.1; linarith, by linarith⟩
  simp only [clamp_dir, hv, hfl, hf, hfn, hdirs, hp]
  rw [if_pos hq0, if_pos a1, e1, e2]
  simp only [if_true, show (('.' : Char) = '#') = False from by decide, if_false]
  rw [e3, e4, e5]

/-- The clamp step at the left cell of the pool whose velocity towards the right cell
was not routed. -/
theorem clamp_hi_left (pf : Platform) (hw : WellFormed N K) (u : Simulator N K tag)
    (pL delta : Int) (hf : u.field = poolGrid)
    (hv : u.velocity = singleFlow 1 1 3 (poolVel K (u.rho_ '.').v delta))
    (hfl : u.velocity_flow = VectorField.zero)
    (hdirs : u.dirs 1 2 = 1) (hp : u.p 1 2 = ⟨pL⟩)
    (hrho : 0 < (u.rho_ '.').v) (hq0 : 0 < poolVel K (u.rho_ '.').v delta)
    (hd0 : 0 < delta)
    (hL : InRange (storageBits pf tag N) pL)
    (hH : pL + delta < 2 ^ (storageBits pf tag N - 1))
    (hd : delta < 2 ^ (storageBits pf tag N - 1))
    (hm : delta * 2 ^ K < 2 ^ (intermediateBits pf N - 1))
    (hq : poolVel K (u.rho_ '.').v delta < 2 ^ (storageBits pf tag N - 1)) :
    clamp_cell pf u 1 1 =
      Except.ok { u with
        velocity := VectorField.zero,
        p := (set2 u.p 1 2
          ⟨pL + poolGain K (u.rho_ '.').v (poolVel K (u.rho_ '.').v delta)⟩) } := by
  have w1 : clamp_dir pf 1 1 u (-1, 0) = Except.ok u :=
    clamp_dir_idle pf u 1 1 _ (by rw [hv]; exact le_refl 0)
  have w2 : clamp_dir pf 1 1 u (1, 0) = Except.ok u :=
    clamp_dir_idle pf u 1 1 _ (by rw [hv]; exact le_refl 0)
  have w3 : clamp_dir pf 1 1 u (0, -1) = Except.ok u :=
    clamp_dir_idle pf u 1 1 _ (by rw [hv]; exact le_refl 0)
  have w4 := clamp_dir_pool pf hw u 1 1 (0, 1) pL delta (by rw [hf]; decide)
    (by rw [hf]; decide) (by rw [hv]; rfl) (by rw [hfl]; rfl) hdirs hp hrho hq0 hd0 hL hH hd hm
    hq
  have hz : (u.velocity.set 1 1 ((0 : Int), (1 : Int)).1 ((0 : Int), (1 : Int)).2 ⟨0⟩)
      = VectorField.zero := by
    rw [hv]
    simp only [VectorField.set, VectorField.zero, singleFlow,
      show VectorField.index 0 1 = 3 from rfl]
    congr 1
    funext i j k
    split_ifs <;> rfl
  rw [hz] at w4
  have hfx : u.field 1 1 ≠ '#' := by rw [hf]; decide
  simp only [clamp_cell, hfx, if_false, deltas, forDirsM, w1, w2, w3]
  rw [w4]
  rfl

/-- The clamp step at the right cell of the pool whose velocity towards the left cell
was not routed. -/
theorem clamp_hi_right (pf : Platform) (hw : WellFormed N K) (u : Simulator N K tag)
    (pL delta : Int) (hf : u.field = poolGrid)
    (hv : u.velocity = singleFlow 1 2 2 (poolVel K (u.rho_ '.').v delta))
    (hfl : u.velocity_flow = VectorField.zero)
    (hdirs : u.dirs 1 1 = 1) (hp : u.p 1 1 = ⟨pL⟩)
    (hrho : 0 < (u.rho_ '.').v) (hq0 : 0 < poolVel K (u.rho_ '.').v delta)
    (hd0 : 0 < delta)
    (hL : InRange (storageBits pf tag N) pL)
    (hH : pL + delta < 2 ^ (storageBits pf tag N - 1))
    (hd : delta < 2 ^ (storageBits pf tag N - 1))
    (hm : delta * 2 ^ K < 2 ^ (intermediateBits pf N - 1))
    (hq : poolVel K (u.rho_ '.').v delta < 2 ^ (storageBits pf tag N - 1)) :
    clamp_cell pf u 1 2 =
      Except.ok { u with
        velocity := VectorField.zero,
        p := (set2 u.p 1 1
          ⟨pL + poolGain K (u.rho_ '.').v (poolVel K (u.rho_ '.').v delta)⟩) } := by
  have w1 : clamp_dir pf 1 2 u (-1, 0) = Except.ok u :=
    clamp_dir_idle pf u 1 2 _ (by rw [hv]; exact le_refl 0)
  have w2 : clamp_dir pf 1 2 u (1, 0) = Except.ok u :=
    clamp_dir_idle pf u 1 2 _ (by rw [hv]; exact le_refl 0)
  have hdirs' : u.dirs (1 + ((0 : Int), (-1 : Int)).1) (2 + ((0 : Int), (-1 : Int)).2) = 1 := by
    show u.dirs (1 + 0) (2 + -1) = _
    rw [show (1 : Int) + 0 = 1 from rfl, show (2 : Int) + -1 = 1 from rfl]
    exact hdirs
  have hp' : u.p (1 + ((0 : Int), (-1 : Int)).1) (2 + ((0 : Int), (-1 : Int)).2) = ⟨pL⟩ := by
    show u.p (1 + 0) (2 + -1) = _
    rw [show (1 : Int) + 0 = 1 from rfl, show (2 : Int) + -1 = 1 from rfl]
    exact hp
  have w3 := clamp_dir_pool pf hw u 1 2 (0, -1) pL delta (by rw [hf]; decide)
    (by rw [hf]; decide) (by rw [hv]; rfl) (by rw [hfl]; rfl) hdirs' hp' hrho hq0 hd0 hL hH hd
    hm hq
  have hz : (u.velocity.set 1 2 ((0 : Int), (-1 : Int)).1 ((0 : Int), (-1 : Int)).2 ⟨0⟩)
      = VectorField.zero := by
    rw [hv]
    simp only [VectorField.set, VectorField.zero, singleFlow,
      show VectorField.index 0 (-1) = 2 from rfl]
    congr 1
    funext i j k
    split_ifs <;> rfl
  rw [hz] at w3
  have hfx : u.field 1 2 ≠ '#' := by rw [hf]; decide
  simp only [clamp_cell, hfx, if_false, deltas, forDirsM, w1, w2]
  rw [w3]
  simp only
  rw [clamp_dir_idle pf _ 1 2 (0, 1) (le_refl 0)]
  rfl

theorem clamp_pool_pre (pf : Platform) (u : Simulator N K tag) (hf : u.field = poolGrid) :
    forCellsM (clamp_cell pf) [(0, 0), (0, 1), (0, 2), (0, 3), (1, 0)] u = Except.ok u := by
  apply forCellsM_fix
  intro c hc
  exact clamp_cell_wall pf u c.1 c.2 (by rw [hf]; exact poolGrid_wall c (Or.inl hc))

/-- The clamp loop of the pool whose only velocity leaves the left cell. -/
theorem clamp_pool_left (pf : Platform) (hw : WellFormed N K) (u : Simulator N K tag)
    (pL delta : Int) (hf : u.field = poolGrid)
    (hv : u.velocity = singleFlow 1 1 3 (poolVel K (u.rho_ '.').v delta))
    (hfl : u.velocity_flow = VectorField.zero)
    (hdirs : u.dirs 1 2 = 1) (hp : u.p 1 2 = ⟨pL⟩)
    (hrho : 0 < (u.rho_ '.').v) (hq0 : 0 < poolVel K (u.rho_ '.').v delta)
    (hd0 : 0 < delta)
    (hL : InRange (storageBits pf tag N) pL)
    (hH : pL + delta < 2 ^ (storageBits pf tag N - 1))
    (hd : delta < 2 ^ (storageBits pf tag N - 1))
    (hm : delta * 2 ^ K < 2 ^ (intermediateBits pf N - 1))
    (hq : poolVel K (u.rho_ '.').v delta < 2 ^ (storageBits pf tag N - 1)) :
    forCellsM (clamp_cell pf) (cells 3 4) u =
      Except.ok { u with
        velocity := VectorField.zero,
        p := (set2 u.p 1 2
          ⟨pL + poolGain K (u.rho_ '.').v (poolVel K (u.rho_ '.').v delta)⟩) } := by
  rw [cells_three_four, forCellsM_append _ _ _ _ _ (clamp_pool_pre pf u hf),
    forCellsM_cons _ _ _ _ _ _
      (clamp_hi_left pf hw u pL delta hf hv hfl hdirs hp hrho hq0 hd0 hL hH hd hm hq)]
  exact clamp_rest pf _ rfl _

/-- The clamp loop of the pool whose only velocity leaves the right cell. -/
theorem clamp_pool_right (pf : Platform) (hw : WellFormed N K) (u : Simulator N K tag)
    (pL delta : Int) (hf : u.field = poolGrid)
    (hv : u.velocity = singleFlow 1 2 2 (poolVel K (u.rho_ '.').v delta))
    (hfl : u.velocity_flow = VectorField.zero)
    (hdirs : u.dirs 1 1 = 1) (hp : u.p 1 1 = ⟨pL⟩)
    (hrho : 0 < (u.rho_ '.').v) (hq0 : 0 < poolVel K (u.rho_ '.').v delta)
    (hd0 : 0 < delta)
    (hL : InRange (storageBits pf tag N) pL)
    (hH : pL + delta < 2 ^ (storageBits pf tag N - 1))
    (hd : delta < 2 ^ (storageBits pf tag N - 1))
    (hm : delta * 2 ^ K < 2 ^ (intermediateBits pf N - 1))
    (hq : poolVel K (u.rho_ '.').v delta < 2 ^ (storageBits pf tag N - 1)) :
    forCellsM (clamp_cell pf) (cells 3 4) u =
      Except.ok { u with
        velocity := VectorField.zero,
        p := (set2 u.p 1 1
          ⟨pL + poolGain K (u.rho_ '.').v (poolVel K (u.rho_ '.').v delta)⟩) } := by
  rw [cells_three_four, forCellsM_append _ _ _ _ _ (clamp_pool_pre pf u hf),
    forCellsM_cons _ _ _ _ _ _
      (clamp_cell_idle pf u 1 1 (fun d => by rw [hv]; exact le_refl 0)),
    forCellsM_cons _ _ _ _ _ _
      (clamp_hi_right pf hw u pL delta hf hv hfl hdirs hp hrho hq0 hd0 hL hH hd hm hq)]
  exact clamp_rest pf _ rfl _

end Simulator

namespace Simulator

variable {N K : Nat} {tag : Tag}

theorem set2_known {α : Type} (f : Int → Int → α) (x y : Int) (a : α) (h : f x y = a) :
    set2 f x y a = f := by
  have := set2_same f x y
  rw [h] at this
  exact this

theorem poolGain_zero (K : Nat) (rho : Int) : poolGain K rho 0 = 0 := by
  simp [poolGain]

/-- One tick of the pool whose left cell has the higher pressure. -/
theorem tick_pool_left (pf : Platform) (hw : WellFormed N K) (s : Simulator N K tag)
    (pH pL : Int) (hs : Pool s true pH pL) (hrho : 0 < (s.rho_ '.').v)
    (hH : InRange (storageBits pf tag N) pH) (hL : InRange (storageBits pf tag N) pL)
    (hlt : pL < pH) (hd : pH - pL < 2 ^ (storageBits pf tag N - 1))
    (hm : (pH - pL) * 2 ^ K < 2 ^ (intermediateBits pf N - 1))
    (hq : poolVel K (s.rho_ '.').v (pH - pL) < 2 ^ (storageBits pf tag N - 1))
    (fuel : Nat) (hfuel : 3 ≤ fuel) :
    ∃ s', tick pf fuel s = Except.ok s' ∧
      OnlyStamps { s with
        old_p := s.p, velocity := VectorField.zero, velocity_flow := VectorField.zero,
        p := (set2 (set2 s.p 1 1 ⟨pL⟩) 1 2
          ⟨pL + poolGain K (s.rho_ '.').v (poolVel K (s.rho_ '.').v (pH - pL))⟩) } s' := by
  obtain ⟨k, rfl⟩ : ∃ k, fuel = k + 3 := ⟨fuel - 3, by omega⟩
  have hlo : s.p 1 2 = ⟨pL⟩ := hs.p_lo
  have hlo' : set2 s.p 1 1 ⟨pL⟩ 1 2 = ⟨pL⟩ := by
    simp only [set2]
    rw [if_neg (by decide)]
    exact hlo
  have hforces := tick_forces_pool_left pf s pH pL hs hrho hL hlt hd hm hq
  have e : cells s.rows s.cols = cells 3 4 := by rw [hs.rows_eq, hs.cols_eq]
  have hq0 := (pool_arith K (s.rho_ '.').v (pH - pL) hrho (by omega)).1
  have hmove : ∀ lu, ∃ s7,
      forCellsM (move_cell pf (k + 3)) (cells 3 4)
        { s with
          old_p := s.p, velocity := VectorField.zero, velocity_flow := VectorField.zero,
          p := (set2 (set2 s.p 1 1 ⟨pL⟩) 1 2
            ⟨pL + poolGain K (s.rho_ '.').v (poolVel K (s.rho_ '.').v (pH - pL))⟩),
          last_use := lu, UT := s.UT + 2 + 2 } = Except.ok s7 ∧
      OnlyStamps { s with
        old_p := s.p, velocity := VectorField.zero, velocity_flow := VectorField.zero,
        p := (set2 (set2 s.p 1 1 ⟨pL⟩) 1 2
          ⟨pL + poolGain K (s.rho_ '.').v (poolVel K (s.rho_ '.').v (pH - pL))⟩) } s7 := by
    intro lu
    have h7 := move_pass_rest pf (k + 3)
      { s with
        old_p := s.p, velocity := VectorField.zero, velocity_flow := VectorField.zero,
        p := (set2 (set2 s.p 1 1 ⟨pL⟩) 1 2
          ⟨pL + poolGain K (s.rho_ '.').v (poolVel K (s.rho_ '.').v (pH - pL))⟩) }
      rfl hs.walls (by
        have : nonWallCount s = 2 := hs.count_two
        show nonWallCount s < k + 3
        omega)
      { s with
        old_p := s.p, velocity := VectorField.zero, velocity_flow := VectorField.zero,
        p := (set2 (set2 s.p 1 1 ⟨pL⟩) 1 2
          ⟨pL + poolGain K (s.rho_ '.').v (poolVel K (s.rho_ '.').v (pH - pL))⟩),
        last_use := lu, UT := s.UT + 2 + 2 }
      ⟨lu, s.UT + 2 + 2, s.random_generator_, rfl⟩
    rw [e] at h7
    exact h7
  rcases eq_or_lt_of_le hq0 with h0 | hpos
  · -- the raw velocity is 0: the tick runs as from a state without velocity
    rw [← h0] at hforces
    rw [singleFlow_zero] at hforces
    rw [← h0, poolGain_zero, add_zero, set2_known _ 1 2 ⟨pL⟩ hlo'] at hmove ⊢
    obtain ⟨lu, h5⟩ := sweep_loop_saturated pf (k + 2) (k + 2)
      { s with
        old_p := s.p, velocity := VectorField.zero, p := set2 s.p 1 1 ⟨pL⟩,
        velocity_flow := VectorField.zero } rfl
    obtain ⟨s7, h7, hs7⟩ := hmove lu
    refine ⟨s7, tick_of_steps pf (k + 3) s _ _ s7 (by rw [hforces]; exact h5)
      (clamp_rest pf _ rfl _) (by
        show forCellsM (move_cell pf (k + 3)) (cells s.rows s.cols) _ = _
        rw [e]
        exact h7), hs7⟩
  · obtain ⟨lu, h5⟩ := sweep_loop_pool_left pf (k + 1) (k + 2)
      { s with
        old_p := s.p,
        velocity := singleFlow 1 1 3 (poolVel K (s.rho_ '.').v (pH - pL)),
        p := set2 s.p 1 1 ⟨pL⟩,
        velocity_flow := VectorField.zero }
      (poolVel K (s.rho_ '.').v (pH - pL)) hs.rows_eq hs.cols_eq hs.field_eq rfl
      (ne_of_gt hpos) rfl hs.stamps
    have h6 := clamp_pool_left pf hw
      { s with
        old_p := s.p,
        velocity := singleFlow 1 1 3 (poolVel K (s.rho_ '.').v (pH - pL)),
        p := set2 s.p 1 1 ⟨pL⟩,
        velocity_flow := VectorField.zero, last_use := lu, UT := s.UT + 2 }
      pL (pH - pL) hs.field_eq rfl rfl hs.dirs_right hlo' hrho hpos (by omega) hL
      (by have := hH.2; linarith) hd hm hq
    obtain ⟨s7, h7, hs7⟩ := hmove lu
    refine ⟨s7, tick_of_steps pf (k + 3) s _ _ s7 (by rw [hforces]; exact h5)
      (by
        show forCellsM (clamp_cell pf) (cells s.rows s.cols) _ = _
        rw [e]
        exact h6)
      (by
        show forCellsM (move_cell pf (k + 3)) (cells s.rows s.cols) _ = _
        rw [e]
        exact h7), hs7⟩

/-- One tick of the pool whose right cell has the higher pressure. -/
theorem tick_pool_right (pf : Platform) (hw : WellFormed N K) (s : Simulator N K tag)
    (pH pL : Int) (hs : Pool s false pH pL) (hrho : 0 < (s.rho_ '.').v)
    (hH : InRange (storageBits pf tag N) pH) (hL : InRange (storageBits pf tag N) pL)
    (hlt : pL < pH) (hd : pH - pL < 2 ^ (storageBits pf tag N - 1))
    (hm : (pH - pL) * 2 ^ K < 2 ^ (intermediateBits pf N - 1))
    (hq : poolVel K (s.rho_ '.').v (pH - pL) < 2 ^ (storageBits pf tag N - 1))
    (fuel : Nat) (hfuel : 3 ≤ fuel) :
    ∃ s', tick pf fuel s = Except.ok s' ∧
      OnlyStamps { s with
        old_p := s.p, velocity := VectorField.zero, velocity_flow := VectorField.zero,
        p := (set2 (set2 s.p 1 2 ⟨pL⟩) 1 1
          ⟨pL + poolGain K (s.rho_ '.').v (poolVel K (s.rho_ '.').v (pH - pL))⟩) } s' := by
  obtain ⟨k, rfl⟩ : ∃ k, fuel = k + 3 := ⟨fuel - 3, by omega⟩
  have hlo : s.p 1 1 = ⟨pL⟩ := hs.p_lo
  have hlo' : set2 s.p 1 2 ⟨pL⟩ 1 1 = ⟨pL⟩ := by
    simp only [set2]
    rw [if_neg (by decide)]
    exact hlo
  have hforces := tick_forces_pool_right pf s pH pL hs hrho hL hlt hd hm hq
  have e : cells s.rows s.cols = cells 3 4 := by rw [hs.rows_eq, hs.cols_eq]
  have hq0 := (pool_arith K (s.rho_ '.').v (pH - pL) hrho (by omega)).1
  have hmove : ∀ lu, ∃ s7,
      forCellsM (move_cell pf (k + 3)) (cells 3 4)
        { s with
          old_p := s.p, velocity := VectorField.zero, velocity_flow := VectorField.zero,
          p := (set2 (set2 s.p 1 2 ⟨pL⟩) 1 1
            ⟨pL + poolGain K (s.rho_ '.').v (poolVel K (s.rho_ '.').v (pH - pL))⟩),
          last_use := lu, UT := s.UT + 2 + 2 } = Except.ok s7 ∧
      OnlyStamps { s with
        old_p := s.p, velocity := VectorField.zero, velocity_flow := VectorField.zero,
        p := (set2 (set2 s.p 1 2 ⟨pL⟩) 1 1
          ⟨pL + poolGain K (s.rho_ '.').v (poolVel K (s.rho_ '.').v (pH - pL))⟩) } s7 := by
    intro lu
    have h7 := move_pass_rest pf (k + 3)
      { s with
        old_p := s.p, velocity := VectorField.zero, velocity_flow := VectorField.zero,
        p := (set2 (set2 s.p 1 2 ⟨pL⟩) 1 1
          ⟨pL + poolGain K (s.rho_ '.').v (poolVel K (s.rho_ '.').v (pH - pL))⟩) }
      rfl hs.walls (by
        have : nonWallCount s = 2 := hs.count_two
        show nonWallCount s < k + 3
        omega)
      { s with
        old_p := s.p, velocity := VectorField.zero, velocity_flow := VectorField.zero,
        p := (set2 (set2 s.p 1 2 ⟨pL⟩) 1 1
          ⟨pL + poolGain K (s.rho_ '.').v (poolVel K (s.rho_ '.').v (pH - pL))⟩),
        last_use := lu, UT := s.UT + 2 + 2 }
      ⟨lu, s.UT + 2 + 2, s.random_generator_, rfl⟩
    rw [e] at h7
    exact h7
  rcases eq_or_lt_of_le hq0 with h0 | hpos
  · rw [← h0] at hforces
    rw [singleFlow_zero] at hforces
    rw [← h0, poolGain_zero, add_zero, set2_known _ 1 1 ⟨pL⟩ hlo'] at hmove ⊢
    obtain ⟨lu, h5⟩ := sweep_loop_saturated pf (k + 2) (k + 2)
      { s with
        old_p := s.p, velocity := VectorField.zero, p := set2 s.p 1 2 ⟨pL⟩,
        velocity_flow := VectorField.zero } rfl
    obtain ⟨s7, h7, hs7⟩ := hmove lu
    refine ⟨s7, tick_of_steps pf (k + 3) s _ _ s7 (by rw [hforces]; exact h5)
      (clamp_rest pf _ rfl _) (by
        show forCellsM (move_cell pf (k + 3)) (cells s.rows s.cols) _ = _
        rw [e]
        exact h7), hs7⟩
  · obtain ⟨lu, h5⟩ := sweep_loop_pool_right pf (k + 2) (k + 2)
      { s with
        old_p := s.p,
        velocity := singleFlow 1 2 2 (poolVel K (s.rho_ '.').v (pH - pL)),
        p := set2 s.p 1 2 ⟨pL⟩,
        velocity_flow := VectorField.zero }
      (poolVel K (s.rho_ '.').v (pH - pL)) hs.rows_eq hs.cols_eq hs.field_eq rfl
      rfl hs.stamps
    have h6 := clamp_pool_right pf hw
      { s with
        old_p := s.p,
        velocity := singleFlow 1 2 2 (poolVel K (s.rho_ '.').v (pH - pL)),
        p := set2 s.p 1 2 ⟨pL⟩,
        velocity_flow := VectorField.zero, last_use := lu, UT := s.UT + 2 }
      pL (pH - pL) hs.field_eq rfl rfl hs.dirs_left hlo' hrho hpos (by omega) hL
      (by have := hH.2; linarith) hd hm hq
    obtain ⟨s7, h7, hs7⟩ := hmove lu
    refine ⟨s7, tick_of_steps pf (k + 3) s _ _ s7 (by rw [hforces]; exact h5)
      (by
        show forCellsM (clamp_cell pf) (cells s.rows s.cols) _ = _
        rw [e]
        exact h6)
      (by
        show forCellsM (move_cell pf (k + 3)) (cells s.rows s.cols) _ = _
        rw [e]
        exact h7), hs7⟩

end Simulator

/-! ## The divisors of a tick -/

namespace Simulator

variable {N K : Nat} {tag : Tag}

theorem exchange_dirs_log_fst (pf : Platform) (x y : Int) :
    ∀ (ds : List (Int × Int)) (sl : Simulator N K tag × List Int),
      (ds.foldl (exchange_dir_log pf x y) sl).1 = ds.foldl (exchange_dir pf x y) sl.1 := by
  intro ds
  induction ds with
  | nil => intro sl; rfl
  | cons d ds ih => intro sl; simp only [List.foldl]; rw [ih]; rfl

theorem exchange_cell_log_fst (pf : Platform) (sl : Simulator N K tag × List Int) (x y : Int) :
    (exchange_cell_log pf sl x y).1 = exchange_cell pf sl.1 x y := by
  simp only [exchange_cell_log, exchange_cell]
  split_ifs
  · rfl
  · exact exchange_dirs_log_fst pf x y deltas sl

theorem exchange_cells_log_fst (pf : Platform) :
    ∀ (l : List (Int × Int)) (sl : Simulator N K tag × List Int),
      (forCells (exchange_cell_log pf) l sl).1 = forCells (exchange_cell pf) l sl.1 := by
  intro l
  induction l with
  | nil => intro sl; rfl
  | cons c l ih =>
    intro sl
    obtain ⟨x, y⟩ := c
    simp only [forCells]
    rw [ih, exchange_cell_log_fst]

theorem clamp_dirs_log_fst (pf : Platform) (x y : Int) :
    ∀ (ds : List (Int × Int)) (sl : Simulator N K tag × List Int),
      (clamp_dirs_log pf x y ds sl).1 = forDirsM (clamp_dir pf x y) ds sl.1 := by
  intro ds
  induction ds with
  | nil => intro sl; rfl
  | cons d ds ih =>
    intro sl
    simp only [clamp_dirs_log, forDirsM]
    cases h : clamp_dir pf x y sl.1 d with
    | error e => rfl
    | ok s1 => exact ih _

theorem clamp_cell_log_fst (pf : Platform) (sl : Simulator N K tag × List Int) (x y : Int) :
    (clamp_cell_log pf sl x y).1 = clamp_cell pf sl.1 x y := by
  simp only [clamp_cell_log, clamp_cell]
  split_ifs
  · rfl
  · exact clamp_dirs_log_fst pf x y deltas sl

theorem clamp_cells_log_fst (pf : Platform) :
    ∀ (l : List (Int × Int)) (sl : Simulator N K tag × List Int),
      (clamp_cells_log pf l sl).1 = forCellsM (clamp_cell pf) l sl.1 := by
  intro l
  induction l with
  | nil => intro sl; rfl
  | cons c l ih =>
    intro sl
    obtain ⟨x, y⟩ := c
    simp only [clamp_cells_log, forCellsM]
    rw [clamp_cell_log_fst]
    cases h1 : clamp_cell pf sl.1 x y with
    | error e => rfl
    | ok s1 => exact ih _

theorem tick_forces_log_fst (pf : Platform) (sl : Simulator N K tag × List Int) :
    (tick_forces_log pf sl).1 = tick_forces pf sl.1 := by
  simp only [tick_forces_log, tick_forces]
  rw [exchange_cells_log_fst]

theorem tick_log_fst (pf : Platform) (fuel : Nat) (sl : Simulator N K tag × List Int) :
    (tick_log pf fuel sl).1 = tick pf fuel sl.1 := by
  unfold tick_log tick tick_tail_log
  rw [tick_forces_log_fst]
  cases sweep_loop pf fuel fuel (tick_forces pf sl.1) with
  | error e => rfl
  | ok s5 =>
    simp only
    rw [clamp_cells_log_fst]
    cases forCellsM (clamp_cell pf) (cells s5.rows s5.cols) s5 with
    | error e => rfl
    | ok s6 => rfl

theorem ticks_log_fst (pf : Platform) (fuel : Nat) :
    ∀ (T : Nat) (sl : Simulator N K tag × List Int),
      (ticks_log pf fuel T sl).1 = ticks pf fuel T sl.1 := by
  intro T
  induction T with
  | zero => intro sl; rfl
  | succ T ih =>
    intro sl
    simp only [ticks_log, ticks]
    rw [tick_log_fst]
    cases h1 : tick pf fuel sl.1 with
    | error e => rfl
    | ok s1 => exact ih _

end Simulator

namespace Simulator

variable {N K : Nat} {tag : Tag}

theorem BorderWalls.of_run_frame {s s' : Simulator N K tag} (hb : BorderWalls s)
    (h : RunFrame s s') : BorderWalls s' := by
  intro c hc hedge
  rw [h.rows_eq, h.cols_eq] at hc hedge
  exact (h.wall_iff _ _).2 (hb c hc hedge)

theorem Calm.after {s s' : Simulator N K tag} (hc : Calm s) (h : RunFrame s s')
    (hi : IsolatedStill s') : Calm s' :=
  ⟨hc.1.of_run_frame h, hc.2.1.of_run h, hi⟩

theorem openCount_pos (s : Simulator N K tag) (x y : Int) (d : Int × Int) (hd : d ∈ deltas)
    (h : s.field (x + d.1) (y + d.2) ≠ '#') : 1 ≤ openCount s x y := by
  unfold openCount
  have : 0 < deltas.countP fun d => decide (s.field (x + d.1) (y + d.2) ≠ '#') :=
    List.countP_pos_iff.2 ⟨d, hd, by simpa using h⟩
  omega

theorem Calm.dirs_pos {s : Simulator N K tag} (hc : Calm s) (x y : Int)
    (hxy : (x, y) ∈ cells s.rows s.cols) (hf : s.field x y ≠ '#') (d : Int × Int)
    (hd : d ∈ deltas) (h : s.field (x + d.1) (y + d.2) ≠ '#') : 1 ≤ s.dirs x y := by
  have := hc.2.1 (x, y) hxy
  simp only at this
  rw [this, if_neg hf]
  exact openCount_pos s x y d hd h

theorem IsolatedStill.of_changes {s s' : Simulator N K tag} (hi : IsolatedStill s)
    (hw : ∀ a b, s'.field a b = '#' ↔ s.field a b = '#')
    (hv : ∀ a b, Isolated s a b → ∀ k, s'.velocity.v a b k = s.velocity.v a b k) :
    IsolatedStill s' := by
  intro a b hab k
  have hab0 : Isolated s a b := fun d hd => (hw _ _).1 (hab d hd)
  rw [hv a b hab0 k]
  exact hi a b hab0 k

theorem Isolated.ne_of_open {s : Simulator N K tag} {a b : Int} (h : Isolated s a b)
    (x y : Int) (d : Int × Int) (hd : d ∈ deltas) (ho : s.field (x + d.1) (y + d.2) ≠ '#') :
    ¬ (a = x ∧ b = y) := by
  rintro ⟨rfl, rfl⟩
  exact ho (h d hd)

theorem gravity_cell_still (pf : Platform) (s : Simulator N K tag) (x y : Int)
    (hi : IsolatedStill s) : IsolatedStill (gravity_cell pf s x y) := by
  unfold gravity_cell
  split_ifs with h1 h2
  · exact hi
  · refine hi.of_changes (fun _ _ => Iff.rfl) ?_
    intro a b hab k
    show (s.velocity.add pf x y 1 0 s.g_).v a b k = _
    rw [VectorField.add_v, if_neg]
    intro h
    exact hab.ne_of_open x y (1, 0) (by decide) (by simpa using h2) ⟨h.1, h.2.1⟩
  · exact hi

theorem exchange_dir_still (pf : Platform) (x y : Int) (s : Simulator N K tag) (d : Int × Int)
    (hd : d ∈ deltas) (hf : s.field x y ≠ '#') (hi : IsolatedStill s) :
    IsolatedStill (exchange_dir pf x y s d) := by
  simp only [exchange_dir]
  obtain ⟨e, he, hback⟩ := neighbour_back x y d hd
  have hx : x + d.1 + e.1 = x := congrArg Prod.fst hback
  have hy : y + d.2 + e.2 = y := congrArg Prod.snd hback
  split_ifs with h1 h2
  · refine hi.of_changes (fun _ _ => Iff.rfl) ?_
    intro a b hab k
    show (s.velocity.set (x + d.1) (y + d.2) (-d.1) (-d.2) _).v a b k = _
    rw [VectorField.set_v, if_neg]
    intro h
    exact hab.ne_of_open (x + d.1) (y + d.2) e he (by rw [hx, hy]; exact hf) ⟨h.1, h.2.1⟩
  · refine hi.of_changes (fun _ _ => Iff.rfl) ?_
    intro a b hab k
    show (VectorField.add pf (s.velocity.set (x + d.1) (y + d.2) (-d.1) (-d.2) _) x y d.1 d.2
      _).v a b k = _
    rw [VectorField.add_v, if_neg, VectorField.set_v, if_neg]
    · intro h
      exact hab.ne_of_open (x + d.1) (y + d.2) e he (by rw [hx, hy]; exact hf) ⟨h.1, h.2.1⟩
    · intro h
      exact hab.ne_of_open x y d hd h1.1 ⟨h.1, h.2.1⟩
  · exact hi

theorem exchange_divisors_pos (pf : Platform) (x y : Int) (s : Simulator N K tag)
    (d : Int × Int) (hd : d ∈ deltas) (hc : Calm s) (hxy : (x, y) ∈ cells s.rows s.cols)
    (hf : s.field x y ≠ '#') : ∀ n ∈ exchange_divisors pf x y s d, 1 ≤ n := by
  intro n hn
  simp only [exchange_divisors] at hn
  split_ifs at hn with h1 h2
  · simp at hn
  · simp only [List.mem_singleton] at hn
    subst hn
    exact hc.dirs_pos x y hxy hf d hd h1.1
  · simp at hn

theorem clamp_dir_still (pf : Platform) (x y : Int) (s : Simulator N K tag) (d : Int × Int)
    (s' : Simulator N K tag) (h : clamp_dir pf x y s d = Except.ok s')
    (hi : IsolatedStill s) : IsolatedStill s' := by
  unfold clamp_dir at h
  simp only at h
  have key : ∀ v : FixedPoint N K tag, 0 < (s.velocity.get x y d.1 d.2).v →
      ∀ a b, Isolated s a b → ∀ k,
        (s.velocity.set x y d.1 d.2 v).v a b k = s.velocity.v a b k := by
    intro v hpos a b hab k
    rw [VectorField.set_v, if_neg]
    rintro ⟨rfl, rfl, rfl⟩
    have := hi a b hab (VectorField.index d.1 d.2)
    unfold VectorField.get at hpos
    omega
  by_cases h1 : 0 < (s.velocity.get x y d.1 d.2).v
  · rw [if_pos h1] at h
    by_cases h2 : (s.velocity_flow.get x y d.1 d.2).v ≤ (s.velocity.get x y d.1 d.2).v
    · rw [if_pos h2] at h
      split_ifs at h <;>
        (simp only [Except.ok.injEq] at h
         subst h
         exact hi.of_changes (fun _ _ => Iff.rfl) (key _ h1))
    · rw [if_neg h2] at h
      exact absurd h (by simp)
  · rw [if_neg h1] at h
    simp only [Except.ok.injEq] at h
    subst h
    exact hi

theorem clamp_divisors_pos (x y : Int) (s : Simulator N K tag)
    (d : Int × Int) (hd : d ∈ deltas) (hc : Calm s) (hxy : (x, y) ∈ cells s.rows s.cols)
    (hf : s.field x y ≠ '#') : ∀ n ∈ clamp_divisors x y s d, 1 ≤ n := by
  intro n hn
  unfold clamp_divisors at hn
  simp only at hn
  split_ifs at hn with h1 h2 h3
  · simp only [List.mem_singleton] at hn
    subst hn
    have hni : ¬ Isolated s x y := by
      intro hiso
      have := hc.2.2 x y hiso (VectorField.index d.1 d.2)
      unfold VectorField.get at h1
      omega
    unfold Isolated at hni
    push_neg at hni
    obtain ⟨e, he, hopen⟩ := hni
    exact hc.dirs_pos x y hxy hf e he hopen
  · simp only [List.mem_singleton] at hn
    subst hn
    obtain ⟨e, he, hback⟩ := neighbour_back x y d hd
    have hx : x + d.1 + e.1 = x := congrArg Prod.fst hback
    have hy : y + d.2 + e.2 = y := congrArg Prod.snd hback
    exact hc.dirs_pos (x + d.1) (y + d.2) (neighbour_mem_cells s hc.1 x y hxy hf d hd) h3 e he
      (by rw [hx, hy]; exact hf)
  · simp at hn
  · simp at hn

end Simulator

namespace Simulator

variable {N K : Nat} {tag : Tag}

theorem forCells_inv_mem {σ : Type} (P : σ → Prop) (body : σ → Int → Int → σ) :
    ∀ (l : List (Int × Int)), (∀ s, ∀ c ∈ l, P s → P (body s c.1 c.2)) →
      ∀ s, P s → P (forCells body l s) := by
  intro l
  induction l with
  | nil => intro _ s h; exact h
  | cons c l ih =>
    intro hb s h
    obtain ⟨x, y⟩ := c
    exact ih (fun s c hc => hb s c (List.mem_cons_of_mem _ hc)) _
      (hb s (x, y) (List.mem_cons_self _ _) h)

theorem forCellsM_inv_mem {σ : Type} (P : σ → Prop) (body : σ → Int → Int → Except Fault σ) :
    ∀ (l : List (Int × Int)),
      (∀ s, ∀ c ∈ l, ∀ s', P s → body s c.1 c.2 = Except.ok s' → P s') →
      ∀ s s', P s → forCellsM body l s = Except.ok s' → P s' := by
  intro l
  induction l with
  | nil =>
    intro _ s s' h e
    simp only [forCellsM, Except.ok.injEq] at e
    subst e
    exact h
  | cons c l ih =>
    intro hb s s' h e
    obtain ⟨x, y⟩ := c
    simp only [forCellsM] at e
    split at e
    · exact absurd e (by simp)
    · rename_i s1 h1
      exact ih (fun s c hc => hb s c (List.mem_cons_of_mem _ hc)) s1 s'
        (hb s (x, y) (List.mem_cons_self _ _) s1 h h1) e

theorem exchange_dir_log_calm (pf : Platform) (r c : Nat) (x y : Int)
    (hxy : (x, y) ∈ cells r c) (sl : Simulator N K tag × List Int) (d : Int × Int)
    (hd : d ∈ deltas) (hf : sl.1.field x y ≠ '#') (h : CalmLog r c sl) :
    CalmLog r c (exchange_dir_log pf x y sl d) ∧
      (exchange_dir_log pf x y sl d).1.field x y ≠ '#' := by
  obtain ⟨hc, hr, hcl, hlog⟩ := h
  have hq := exchange_dir_quiet pf x y sl.1 d
  have hq2 := hq
  obtain ⟨-, -, -, q4, q5, q6, -⟩ := hq2
  refine ⟨⟨hc.after hq.run_of_quiet (exchange_dir_still pf x y sl.1 d hd hf hc.2.2),
    q4.trans hr, q5.trans hcl, ?_⟩, ?_⟩
  · intro n hn
    simp only [exchange_dir_log, List.mem_append] at hn
    rcases hn with hn | hn
    · exact hlog n hn
    · exact exchange_divisors_pos pf x y sl.1 d hd hc (by rw [hr, hcl]; exact hxy) hf n hn
  · show (exchange_dir pf x y sl.1 d).field x y ≠ '#'
    rw [q6]
    exact hf

theorem exchange_cell_log_calm (pf : Platform) (r c : Nat) (x y : Int)
    (hxy : (x, y) ∈ cells r c) (sl : Simulator N K tag × List Int) (h : CalmLog r c sl) :
    CalmLog r c (exchange_cell_log pf sl x y) := by
  unfold exchange_cell_log
  split_ifs with hw
  · exact h
  · have a1 := exchange_dir_log_calm pf r c x y hxy sl (-1, 0) (by decide) hw h
    have a2 := exchange_dir_log_calm pf r c x y hxy _ (1, 0) (by decide) a1.2 a1.1
    have a3 := exchange_dir_log_calm pf r c x y hxy _ (0, -1) (by decide) a2.2 a2.1
    have a4 := exchange_dir_log_calm pf r c x y hxy _ (0, 1) (by decide) a3.2 a3.1
    exact a4.1

theorem clamp_dirs_log_calm (pf : Platform) (r c : Nat) (x y : Int)
    (hxy : (x, y) ∈ cells r c) :
    ∀ (ds : List (Int × Int)), (∀ d ∈ ds, d ∈ deltas) →
      ∀ (sl : Simulator N K tag × List Int), sl.1.field x y ≠ '#' → CalmLog r c sl →
        CalmOut r c (clamp_dirs_log pf x y ds sl) := by
  intro ds
  induction ds with
  | nil =>
    intro _ sl _ h
    refine ⟨h.2.2.2, ?_⟩
    intro s' e
    simp only [clamp_dirs_log, Except.ok.injEq] at e
    subst e
    exact ⟨h.1, h.2.1, h.2.2.1⟩
  | cons d ds ih =>
    intro hds sl hf h
    simp only [clamp_dirs_log]
    cases h1 : clamp_dir pf x y sl.1 d with
    | error e => exact ⟨h.2.2.2, fun s' e' => absurd e' (by simp)⟩
    | ok s1 =>
      obtain ⟨hc, hr, hcl, hlog⟩ := h
      have hd : d ∈ deltas := hds d (List.mem_cons_self _ _)
      have hq := clamp_dir_quiet pf x y sl.1 d s1 h1
      have hq2 := hq
      obtain ⟨-, -, -, q4, q5, q6, -⟩ := hq2
      refine ih (fun e he => hds e (List.mem_cons_of_mem _ he)) _ (by
        show s1.field x y ≠ '#'
        rw [q6]; exact hf) ⟨hc.after hq.run_of_quiet (clamp_dir_still pf x y sl.1 d s1 h1 hc.2.2),
          q4.trans hr, q5.trans hcl, ?_⟩
      intro n hn
      simp only [List.mem_append] at hn
      rcases hn with hn | hn
      · exact hlog n hn
      · exact clamp_divisors_pos x y sl.1 d hd hc (by rw [hr, hcl]; exact hxy) hf n hn

theorem clamp_cell_log_calm (pf : Platform) (r c : Nat) (x y : Int)
    (hxy : (x, y) ∈ cells r c) (sl : Simulator N K tag × List Int) (h : CalmLog r c sl) :
    CalmOut r c (clamp_cell_log pf sl x y) := by
  unfold clamp_cell_log
  split_ifs with hw
  · refine ⟨h.2.2.2, ?_⟩
    intro s' e
    simp only [Except.ok.injEq] at e
    subst e
    exact ⟨h.1, h.2.1, h.2.2.1⟩
  · exact clamp_dirs_log_calm pf r c x y hxy deltas (fun _ hd => hd) sl hw h

theorem clamp_cells_log_calm (pf : Platform) (r c : Nat) :
    ∀ (l : List (Int × Int)), (∀ q ∈ l, q ∈ cells r c) →
      ∀ (sl : Simulator N K tag × List Int), CalmLog r c sl →
        CalmOut r c (clamp_cells_log pf l sl) := by
  intro l
  induction l with
  | nil =>
    intro _ sl h
    refine ⟨h.2.2.2, ?_⟩
    intro s' e
    simp only [clamp_cells_log, Except.ok.injEq] at e
    subst e
    exact ⟨h.1, h.2.1, h.2.2.1⟩
  | cons q l ih =>
    intro hl sl h
    obtain ⟨x, y⟩ := q
    have hcell := clamp_cell_log_calm pf r c x y (hl (x, y) (List.mem_cons_self _ _)) sl h
    simp only [clamp_cells_log]
    cases h1 : (clamp_cell_log pf sl x y).1 with
    | error e => exact ⟨hcell.1, fun s' e' => absurd e' (by simp)⟩
    | ok s1 =>
      obtain ⟨a1, a2, a3⟩ := hcell.2 s1 h1
      exact ih (fun q hq => hl q (List.mem_cons_of_mem _ hq)) _ ⟨a1, a2, a3, hcell.1⟩

end Simulator

namespace Simulator

variable {N K : Nat} {tag : Tag}

theorem IsolatedStill.of_perm {s s' : Simulator N K tag} (hi : IsolatedStill s)
    (h : Permuted s s') : IsolatedStill s' := by
  have hw := h.wall_iff
  obtain ⟨σ, -, hfix, hrec⟩ := h
  intro a b hab k
  have hab0 : Isolated s a b := fun d hd => (hw _ _).1 (hab d hd)
  have e := hrec (a, b)
  rw [hfix (a, b) hab0] at e
  have e2 : s'.velocity.v a b = s.velocity.v a b := congrArg (fun t => t.2.2) e
  rw [e2]
  exact hi a b hab0 k

theorem sweep_cell_motion (pf : Platform) (fuel : Nat) (sp : Simulator N K tag × Bool)
    (x y : Int) (sp' : Simulator N K tag × Bool)
    (h : sweep_cell pf fuel sp x y = Except.ok sp') :
    sp'.1.velocity = sp.1.velocity ∧ sp'.1.field = sp.1.field := by
  simp only [sweep_cell] at h
  split_ifs at h with h1
  · split at h
    · exact absurd h (by simp)
    · rename_i r hr
      simp only [Except.ok.injEq] at h
      subst h
      have hf := propagate_flow_frame pf fuel sp.1 x y _ r hr
      exact ⟨hf.velocity_eq, hf.field_eq⟩
  · simp only [Except.ok.injEq] at h
    subst h
    exact ⟨rfl, rfl⟩

theorem sweep_loop_motion (pf : Platform) (fuel : Nat) :
    ∀ (n : Nat) (s s' : Simulator N K tag), sweep_loop pf fuel n s = Except.ok s' →
      s'.velocity = s.velocity ∧ s'.field = s.field := by
  intro n
  induction n with
  | zero => intro s s' h; simp [sweep_loop] at h
  | succ n ih =>
    intro s s' h
    simp only [sweep_loop] at h
    split at h
    · exact absurd h (by simp)
    · rename_i s1 prop h1
      have f1 := forCellsM_frame
        (fun a b : Simulator N K tag × Bool =>
          b.1.velocity = a.1.velocity ∧ b.1.field = a.1.field)
        (fun a => ⟨rfl, rfl⟩)
        (fun a b c h1 h2 => ⟨h2.1.trans h1.1, h2.2.trans h1.2⟩)
        (sweep_cell pf fuel) (fun a x y b h => sweep_cell_motion pf fuel a x y b h) _ _ _ h1
      simp only at f1
      split_ifs at h
      · obtain ⟨g1, g2⟩ := ih s1 s' h
        exact ⟨g1.trans f1.1, g2.trans f1.2⟩
      · simp only [Except.ok.injEq] at h
        subst h
        exact f1

theorem sweep_loop_calm (pf : Platform) (fuel n : Nat) (s s' : Simulator N K tag)
    (hc : Calm s) (h : sweep_loop pf fuel n s = Except.ok s') : Calm s' := by
  obtain ⟨hv, hf⟩ := sweep_loop_motion pf fuel n s s' h
  exact hc.after (sweep_loop_run pf fuel n s s' h).1
    (hc.2.2.of_changes (fun a b => by rw [hf]) (fun a b _ k => by rw [hv]))

theorem move_cell_calm (pf : Platform) (fuel : Nat) (s : Simulator N K tag) (x y : Int)
    (s' : Simulator N K tag) (hc : Calm s) (h : move_cell pf fuel s x y = Except.ok s') :
    Calm s' := by
  refine hc.after (move_cell_run pf fuel s x y s' h).1 ?_
  simp only [move_cell] at h
  split_ifs at h with h1 h2
  · split at h
    · exact absurd h (by simp)
    · rename_i b s2 hm
      simp only [Except.ok.injEq] at h
      subst h
      have hf := (propagate_move_frame pf fuel s.random01.2 x y true b s2 h1.1 hm).1
      exact hc.2.2.of_perm ((MoveFrame.draw s).thenMove hf).perm
  · have hf := (propagate_stop_frame fuel s.random01.2 x y true s' h).1
    exact hc.2.2.of_perm ((MoveFrame.draw s).thenMove hf.toMove).perm
  · simp only [Except.ok.injEq] at h
    subst h
    exact hc.2.2

theorem exchange_log_calm (pf : Platform) (r c : Nat) (s1 : Simulator N K tag)
    (l : List Int) (hc : Calm s1) (hr : s1.rows = r) (hcl : s1.cols = c)
    (hlog : ∀ n ∈ l, 1 ≤ n) :
    CalmLog r c
      ({ (forCells (exchange_cell_log pf) (cells s1.rows s1.cols)
            ({ s1 with old_p := s1.p }, l)).1 with velocity_flow := VectorField.zero },
        (forCells (exchange_cell_log pf) (cells s1.rows s1.cols)
            ({ s1 with old_p := s1.p }, l)).2) := by
  have e : cells s1.rows s1.cols = cells r c := by rw [hr, hcl]
  rw [e]
  have h3 := forCells_inv_mem (CalmLog r c) (exchange_cell_log pf) (cells r c)
    (fun s cc hcc hs => exchange_cell_log_calm pf r c cc.1 cc.2 hcc s hs)
    ({ s1 with old_p := s1.p }, l) ⟨hc, hr, hcl, hlog⟩
  exact ⟨h3.1, h3.2.1, h3.2.2.1, h3.2.2.2⟩

theorem tick_forces_log_calm (pf : Platform) (r c : Nat) (sl : Simulator N K tag × List Int)
    (h : CalmLog r c sl) : CalmLog r c (tick_forces_log pf sl) := by
  obtain ⟨hc, hr, hcl, hlog⟩ := h
  have h1 : Calm (forCells (gravity_cell pf) (cells sl.1.rows sl.1.cols) sl.1) ∧
      (forCells (gravity_cell pf) (cells sl.1.rows sl.1.cols) sl.1).rows = r ∧
      (forCells (gravity_cell pf) (cells sl.1.rows sl.1.cols) sl.1).cols = c :=
    forCells_induct (fun s : Simulator N K tag => Calm s ∧ s.rows = r ∧ s.cols = c)
      (gravity_cell pf) (fun s x y hs => by
        have hq := gravity_cell_quiet pf s x y
        have hq2 := hq
        obtain ⟨-, -, -, q4, q5, -⟩ := hq2
        exact ⟨hs.1.after hq.run_of_quiet (gravity_cell_still pf s x y hs.1.2.2),
          q4.trans hs.2.1, q5.trans hs.2.2⟩) _ sl.1 ⟨hc, hr, hcl⟩
  exact exchange_log_calm pf r c _ sl.2 h1.1 h1.2.1 h1.2.2 hlog

end Simulator

namespace Simulator

variable {N K : Nat} {tag : Tag}

theorem move_pass_calm (pf : Platform) (fuel : Nat) (r c : Nat) (l : List (Int × Int))
    (s s' : Simulator N K tag) (hc : Calm s) (hr : s.rows = r) (hcl : s.cols = c)
    (h : forCellsM (move_cell pf fuel) l s = Except.ok s') :
    Calm s' ∧ s'.rows = r ∧ s'.cols = c :=
  forCellsM_inv_mem (fun s : Simulator N K tag => Calm s ∧ s.rows = r ∧ s.cols = c)
    (move_cell pf fuel) l (fun s q _ s' hs e => by
      have hrun := (move_cell_run pf fuel s q.1 q.2 s' e).1
      exact ⟨move_cell_calm pf fuel s q.1 q.2 s' hs.1 e, hrun.rows_eq.trans hs.2.1,
        hrun.cols_eq.trans hs.2.2⟩) s s' ⟨hc, hr, hcl⟩ h

theorem tick_tail_log_calm (pf : Platform) (fuel : Nat) (r c : Nat)
    (sl : Simulator N K tag × List Int) (h : CalmLog r c sl) :
    CalmOut r c (tick_tail_log pf fuel sl) := by
  unfold tick_tail_log
  cases h5 : sweep_loop pf fuel fuel sl.1 with
  | error e => exact ⟨h.2.2.2, fun s' e' => absurd e' (by simp)⟩
  | ok s5 =>
    simp only
    have hrun := (sweep_loop_run pf fuel fuel sl.1 s5 h5).1
    have hr5 : s5.rows = r := hrun.rows_eq.trans h.2.1
    have hc5 : s5.cols = c := hrun.cols_eq.trans h.2.2.1
    have e : cells s5.rows s5.cols = cells r c := by rw [hr5, hc5]
    rw [e]
    have hcl := clamp_cells_log_calm pf r c (cells r c) (fun _ hq => hq) (s5, sl.2)
      ⟨sweep_loop_calm pf fuel fuel sl.1 s5 h.1 h5, hr5, hc5, h.2.2.2⟩
    cases h6 : (clamp_cells_log pf (cells r c) (s5, sl.2)).1 with
    | error e => exact ⟨hcl.1, fun s' e' => absurd e' (by simp)⟩
    | ok s6 =>
      obtain ⟨a1, a2, a3⟩ := hcl.2 s6 h6
      refine ⟨hcl.1, ?_⟩
      intro s' e'
      exact move_pass_calm pf fuel r c _ { s6 with UT := s6.UT + 2 } s'
        (a1.after (RunFrame.advance s6) a1.2.2) a2 a3 e'

theorem tick_log_calm (pf : Platform) (fuel : Nat) (r c : Nat)
    (sl : Simulator N K tag × List Int) (h : CalmLog r c sl) :
    CalmOut r c (tick_log pf fuel sl) :=
  tick_tail_log_calm pf fuel r c _ (tick_forces_log_calm pf r c sl h)

theorem ticks_log_calm (pf : Platform) (fuel : Nat) (r c : Nat) :
    ∀ (T : Nat) (sl : Simulator N K tag × List Int), CalmLog r c sl →
      CalmOut r c (ticks_log pf fuel T sl) := by
  intro T
  induction T with
  | zero =>
    intro sl h
    refine ⟨h.2.2.2, ?_⟩
    intro s' e
    simp only [ticks_log, Except.ok.injEq] at e
    subst e
    exact ⟨h.1, h.2.1, h.2.2.1⟩
  | succ T ih =>
    intro sl h
    have ht := tick_log_calm pf fuel r c sl h
    simp only [ticks_log]
    cases h1 : (tick_log pf fuel sl).1 with
    | error e => exact ⟨ht.1, fun s' e' => absurd e' (by simp)⟩
    | ok s1 =>
      obtain ⟨a1, a2, a3⟩ := ht.2 s1 h1
      exact ih _ ⟨a1, a2, a3, ht.1⟩

end Simulator

/-! ## The counter stays a value of `int` while it does not pass the greatest one -/

namespace Simulator

variable {N K : Nat} {tag : Tag}

theorem Raise.id_raise (s : Simulator N K tag) : Raise s s :=
  ⟨le_refl _, fun _ _ => Or.inl rfl⟩

theorem Raise.thenRaise {s1 s2 s3 : Simulator N K tag} (h1 : Raise s1 s2) (h2 : Raise s2 s3) :
    Raise s1 s3 := by
  refine ⟨le_trans h1.1 h2.1, fun a b => ?_⟩
  rcases h2.2 a b with e | e
  · rcases h1.2 a b with e1 | e1
    · left; rw [e, e1]
    · right; rw [e]; exact e1
  · right; exact le_trans h1.1 e

theorem Raise.of_stamps {s s' : Simulator N K tag} (hu : s'.UT = s.UT)
    (h : ∀ a b, s'.last_use a b = s.last_use a b ∨ s'.last_use a b = s.UT) : Raise s s' :=
  ⟨by rw [hu], fun a b => (h a b).imp id (fun e => by rw [e])⟩

theorem Quiet.raise_of_quiet {s s' : Simulator N K tag} (h : Quiet s s') : Raise s s' := by
  obtain ⟨-, -, -, -, -, -, a7, a8, -⟩ := h
  exact ⟨by rw [a8], fun a b => Or.inl (by rw [a7])⟩

theorem Raise.counter_step (s : Simulator N K tag) : Raise s { s with UT := s.UT + 2 } :=
  ⟨by simp, fun _ _ => Or.inl rfl⟩

theorem IntState.kept {pf : Platform} {s s' : Simulator N K tag} (hi : IntState pf s)
    (hr : Raise s s') (hs : StampsLe s') (hmax : s'.UT < 2 ^ (pf.int_bits - 1)) :
    IntState pf s' := by
  obtain ⟨⟨l1, -⟩, ⟨l2, -⟩, hst⟩ := hi
  have h1 := hr.1
  refine ⟨⟨by omega, by omega⟩, ⟨by omega, hmax⟩, fun a b => ?_⟩
  have hle := hs a b
  rcases hr.2 a b with e | e
  · exact ⟨by rw [e]; exact (hst a b).1, by omega⟩
  · exact ⟨by omega, by omega⟩

theorem sweep_cell_raise (pf : Platform) (fuel : Nat) (sp : Simulator N K tag × Bool)
    (x y : Int) (sp' : Simulator N K tag × Bool)
    (h : sweep_cell pf fuel sp x y = Except.ok sp') : Raise sp.1 sp'.1 := by
  simp only [sweep_cell] at h
  split_ifs at h with h1
  · split at h
    · exact absurd h (by simp)
    · rename_i r hr
      simp only [Except.ok.injEq] at h
      subst h
      have hf := propagate_flow_frame pf fuel sp.1 x y _ r hr
      exact Raise.of_stamps hf.UT_eq hf.stamp
  · simp only [Except.ok.injEq] at h
    subst h
    exact Raise.id_raise _

theorem sweep_raise (pf : Platform) (fuel : Nat) (s : Simulator N K tag)
    (sp : Simulator N K tag × Bool) (h : sweep pf fuel s = Except.ok sp) : Raise s sp.1 := by
  simp only [sweep] at h
  have := forCellsM_frame
    (fun a b : Simulator N K tag × Bool => Raise a.1 b.1)
    (fun _ => Raise.id_raise _) (fun _ _ _ h1 h2 => h1.thenRaise h2)
    (sweep_cell pf fuel) (fun a x y b h => sweep_cell_raise pf fuel a x y b h) _ _ _ h
  exact (Raise.counter_step s).thenRaise this

theorem sweep_loop_raise (pf : Platform) (fuel : Nat) :
    ∀ (n : Nat) (s s' : Simulator N K tag), sweep_loop pf fuel n s = Except.ok s' →
      Raise s s' := by
  intro n
  induction n with
  | zero => intro s s' h; simp [sweep_loop] at h
  | succ n ih =>
    intro s s' h
    simp only [sweep_loop] at h
    split at h
    · exact absurd h (by simp)
    · rename_i s1 prop h1
      have f1 := sweep_raise pf fuel s (s1, prop) h1
      split_ifs at h
      · exact f1.thenRaise (ih s1 s' h)
      · simp only [Except.ok.injEq] at h
        subst h
        exact f1

theorem move_cell_raise (pf : Platform) (fuel : Nat) (s : Simulator N K tag) (x y : Int)
    (s' : Simulator N K tag) (h : move_cell pf fuel s x y = Except.ok s') : Raise s s' := by
  simp only [move_cell] at h
  split_ifs at h with h1 h2
  · split at h
    · exact absurd h (by simp)
    · rename_i b s2 hm
      simp only [Except.ok.injEq] at h
      subst h
      have hf := (propagate_move_frame pf fuel s.random01.2 x y true b s2 h1.1 hm).1
      have hm2 := (MoveFrame.draw s).thenMove hf
      exact Raise.of_stamps hm2.UT_eq hm2.stamp
  · have hf := (propagate_stop_frame fuel s.random01.2 x y true s' h).1
    have hm2 := (MoveFrame.draw s).thenMove hf.toMove
    exact Raise.of_stamps hm2.UT_eq hm2.stamp
  · simp only [Except.ok.injEq] at h
    subst h
    exact Raise.id_raise _

theorem move_pass_raise (pf : Platform) (fuel : Nat) (l : List (Int × Int))
    (s s' : Simulator N K tag) (h : forCellsM (move_cell pf fuel) l s = Except.ok s') :
    Raise s s' :=
  forCellsM_frame (fun a b : Simulator N K tag => Raise a b)
    (fun _ => Raise.id_raise _) (fun _ _ _ h1 h2 => h1.thenRaise h2)
    (move_cell pf fuel) (fun a x y b h => move_cell_raise pf fuel a x y b h) _ _ _ h

theorem tick_raise (pf : Platform) (fuel : Nat) (s s' : Simulator N K tag)
    (h : tick pf fuel s = Except.ok s') : Raise s s' := by
  simp only [tick] at h
  split at h
  · exact absurd h (by simp)
  · rename_i s5 h5
    split at h
    · exact absurd h (by simp)
    · rename_i s6 h6
      have q0 := (tick_forces_quiet pf s).raise_of_quiet
      have r5 := sweep_loop_raise pf fuel fuel _ s5 h5
      have q6 := (clamp_cells_quiet pf _ s5 s6 h6).raise_of_quiet
      have m := move_pass_raise pf fuel _ _ s' h
      exact ((q0.thenRaise r5).thenRaise q6).thenRaise ((Raise.counter_step s6).thenRaise m)

theorem ticks_raise (pf : Platform) (fuel : Nat) :
    ∀ (T : Nat) (s s' : Simulator N K tag), ticks pf fuel T s = Except.ok s' →
      Raise s s' ∧ s.UT + 4 * T ≤ s'.UT := by
  intro T
  induction T with
  | zero =>
    intro s s' h
    simp only [ticks, Except.ok.injEq] at h
    subst h
    exact ⟨Raise.id_raise s, by simp⟩
  | succ T ih =>
    intro s s' h
    simp only [ticks] at h
    split at h
    · exact absurd h (by simp)
    · rename_i s1 h1
      obtain ⟨r2, u2⟩ := ih s1 s' h
      have u1 := (tick_run pf fuel s s1 h1).2
      exact ⟨(tick_raise pf fuel s s1 h1).thenRaise r2, by push_cast; omega⟩

end Simulator

/-! ## Claims on the selection of a direction -/

namespace Simulator

variable {N K : Nat} {tag : Tag}

/-- Claim C15 (amended): when the non-negative velocities of the cell add up without
wrap-around, the index `propagate_move` selects for a value `p` is that of the first
direction, in the order up, down, left, right, whose cumulative sum is greater than `p`. -/
theorem selection_first_above (pf : Platform) (s : Simulator N K tag) (x y : Int)
    (p : FixedPoint N K tag) (hfit : MoveFits pf s x y) :
    upper_bound (move_table pf s x y deltas (FixedPoint.ofInt pf 0) []).1 p 4 0 4
      = firstAbove (move_table pf s x y deltas (FixedPoint.ofInt pf 0) []).1 p := by
  obtain ⟨a0, a1, a2, a3, h, -, h01, h12, -⟩ := move_table_sorted pf s x y hfit
  rw [h]
  exact firstAbove_four a0 a1 a2 a3 p h01 h12

/-- The claim C15 (amended) at the cell `(1, 1)` of the ring example with the draw 1/2:
the direction selected is the fourth (right), the first whose cumulative sum exceeds 1. -/
theorem selection_first_above_witness :
    MoveFits lp64 ringSim 1 1 ∧
    upper_bound (move_table lp64 ringSim 1 1 deltas (FixedPoint.ofInt lp64 0) []).1
        (FixedPoint.mulDraw lp64
          (move_table lp64 ringSim 1 1 deltas (FixedPoint.ofInt lp64 0) []).2 ⟨1, 2⟩) 4 0 4
      = firstAbove (move_table lp64 ringSim 1 1 deltas (FixedPoint.ofInt lp64 0) []).1
        (FixedPoint.mulDraw lp64
          (move_table lp64 ringSim 1 1 deltas (FixedPoint.ofInt lp64 0) []).2 ⟨1, 2⟩) ∧
    firstAbove (move_table lp64 ringSim 1 1 deltas (FixedPoint.ofInt lp64 0) []).1
        (FixedPoint.mulDraw lp64
          (move_table lp64 ringSim 1 1 deltas (FixedPoint.ofInt lp64 0) []).2 ⟨1, 2⟩) = 3 :=
  ⟨by decide!, selection_first_above lp64 ringSim 1 1 _ (by decide!), by decide!⟩

/-- The claim C15 as stated fails at the cell `(1, 1)` of the ring example with the draw 0:
the total is positive and `p` is 0; the first direction whose cumulative sum is at least
`p` is the first one (up, towards a wall), the direction selected is the fourth (right). -/
theorem selection_first_above_counterexample :
    0 < (move_table lp64 ringSim 1 1 deltas (FixedPoint.ofInt lp64 0) []).2.v ∧
    Draw.Valid ⟨0, 1⟩ ∧
    firstAtLeast (move_table lp64 ringSim 1 1 deltas (FixedPoint.ofInt lp64 0) []).1
        (FixedPoint.mulDraw lp64
          (move_table lp64 ringSim 1 1 deltas (FixedPoint.ofInt lp64 0) []).2 ⟨0, 1⟩) = 0 ∧
    upper_bound (move_table lp64 ringSim 1 1 deltas (FixedPoint.ofInt lp64 0) []).1
        (FixedPoint.mulDraw lp64
          (move_table lp64 ringSim 1 1 deltas (FixedPoint.ofInt lp64 0) []).2 ⟨0, 1⟩) 4 0 4
      = 3 := by
  decide!

/-- The selection of `propagate_move` where the sums do not wrap: the cumulative table is
non-decreasing when the non-negative velocities of the cell add up without wrap-around;
and for every `p` with `0 ≤ p < total` the index chosen by `upper_bound` is below 4 and
names a direction whose velocity is positive and whose neighbour is neither a wall nor
resolved (so the assertion holds when no stamp exceeds the counter). -/
theorem selection_sound (pf : Platform) (s : Simulator N K tag) (x y : Int) :
    (MoveFits pf s x y →
      List.Pairwise (fun a b : FixedPoint N K tag => a.v ≤ b.v)
        (move_table pf s x y deltas (FixedPoint.ofInt pf 0) []).1) ∧
    (∀ p : FixedPoint N K tag, 0 ≤ p.v →
      p.v < (move_table pf s x y deltas (FixedPoint.ofInt pf 0) []).2.v →
      ∃ d, deltas[upper_bound (move_table pf s x y deltas (FixedPoint.ofInt pf 0) []).1
            p 4 0 4]? = some d ∧
        0 < (s.velocity.get x y d.1 d.2).v ∧ s.field (x + d.1) (y + d.2) ≠ '#' ∧
        s.last_use (x + d.1) (y + d.2) ≠ s.UT ∧
        (StampsLe s → s.last_use (x + d.1) (y + d.2) < s.UT)) := by
  refine ⟨fun hfit => ?_, fun p h0 hp => ?_⟩
  · obtain ⟨a0, a1, a2, a3, h, -, h01, h12, h23⟩ := move_table_sorted pf s x y hfit
    rw [h]
    simp only [List.pairwise_cons, List.mem_cons, List.mem_singleton, forall_eq_or_imp,
      forall_eq, List.not_mem_nil, false_implies, implies_true, List.Pairwise.nil, and_true]
    omega
  · obtain ⟨d, hd, h1, h2, h3⟩ := selection_valid pf s x y p h0 hp
    exact ⟨d, hd, h1, h2, h3, fun hst => lt_of_le_of_ne (hst _ _) h3⟩

/-- C24 (failing input): in `FIXED<16, 8>`, at the cell `(1, 1)` of `surgeSim`, whose
velocities downwards and to the right are both raw 32767, the cumulative sum wraps around:
the table is `[0, 32767, 32767, -2]`, which decreases, and the total is raw -2, not 0, so
the loop goes on.  For the draw 1/2 the value `sum * random01()` is raw -1 (the product
of -2/256 and 1/2 is exact in `double`); `upper_bound` then returns the index 0, the
direction up, whose velocity is 0 and whose neighbour is a wall, so `propagate_move` stops
on its assertion. -/
theorem selection_assert_fails :
    (move_table lp64 surgeSim 1 1 deltas (FixedPoint.ofInt lp64 0) []).1
      = [⟨0⟩, ⟨32767⟩, ⟨32767⟩, ⟨-2⟩] ∧
    (move_table lp64 surgeSim 1 1 deltas (FixedPoint.ofInt lp64 0) []).2 = ⟨-2⟩ ∧
    ¬ List.Pairwise (fun a b : FixedPoint 16 8 Tag.FixedTag => a.v ≤ b.v)
      (move_table lp64 surgeSim 1 1 deltas (FixedPoint.ofInt lp64 0) []).1 ∧
    FixedPoint.mulDraw lp64 (⟨-2⟩ : FixedPoint 16 8 Tag.FixedTag) ⟨1, 2⟩ = ⟨-1⟩ ∧
    upper_bound ([⟨0⟩, ⟨32767⟩, ⟨32767⟩, ⟨-2⟩] : List (FixedPoint 16 8 Tag.FixedTag))
      ⟨-1⟩ 4 0 4 = 0 ∧
    deltas[0]? = some (-1, 0) ∧
    (surgeSim.velocity.get 1 1 (-1) 0).v = 0 ∧ surgeSim.field (1 + -1) (1 + 0) = '#' ∧
    faultOf (propagate_move lp64 4 surgeSim 1 1 true) = some Fault.assertion := by
  have h : (move_table lp64 surgeSim 1 1 deltas (FixedPoint.ofInt lp64 0) []).1
      = [⟨0⟩, ⟨32767⟩, ⟨32767⟩, ⟨-2⟩] := by decide!
  refine ⟨h, by decide!, ?_, by decide!, by decide!, by decide, by decide!, by decide!,
    by decide!⟩
  rw [h]
  decide

end Simulator

/-! ## Claims on the pressure exchange -/

namespace Simulator

variable {N K : Nat} {tag : Tag}

theorem absorb_bounds (pf : Platform) (contr rho force : FixedPoint N K tag)
    (hsb : storageBits pf tag N ≤ intermediateBits pf N)
    (hc : contr.Valid pf) (hr : rho.Valid pf) (hfv : force.Valid pf)
    (hrho : 0 < rho.v) (hf : 0 < force.v)
    (hprod : InRange (intermediateBits pf N) (contr.v * rho.v))
    (hres : InRange (storageBits pf tag N) (contr.v * rho.v / 2 ^ K))
    (hshift : InRange (intermediateBits pf N) (force.v * 2 ^ K))
    (habsorb : force.v ≤ (FixedPoint.mul pf contr rho).v) :
    0 ≤ (FixedPoint.sub pf contr (FixedPoint.div pf force rho)).v ∧
      (FixedPoint.sub pf contr (FixedPoint.div pf force rho)).v ≤ contr.v := by
  have hsp := storageBits_pos pf tag N
  have hpos : (0 : Int) < 2 ^ K := by positivity
  have hmul : (FixedPoint.mul pf contr rho).v = contr.v * rho.v / 2 ^ K := by
    rw [mul_v_of_fits pf contr rho (hc.mono hsb) (hr.mono hsb) hprod]
    exact wrap_eq_self hsp hres
  rw [hmul] at habsorb
  -- force * 2^K ≤ contr * rho
  have h1 : force.v * 2 ^ K ≤ contr.v * rho.v := by
    have := Int.ediv_mul_le (contr.v * rho.v) (ne_of_gt hpos)
    nlinarith
  have hnum : 0 ≤ force.v * 2 ^ K := by positivity
  have hq : Int.tdiv (force.v * 2 ^ K) rho.v = force.v * 2 ^ K / rho.v :=
    Int.tdiv_eq_ediv hnum (le_of_lt hrho)
  have hq0 : 0 ≤ force.v * 2 ^ K / rho.v := Int.ediv_nonneg hnum (le_of_lt hrho)
  have hq1 : force.v * 2 ^ K / rho.v ≤ contr.v := by
    apply Int.ediv_le_of_le_mul hrho
    exact h1
  have hq2 : force.v * 2 ^ K / rho.v ≤ force.v * 2 ^ K := by
    apply Int.ediv_le_self _ hnum
  have hp2 : (0 : Int) < 2 ^ (storageBits pf tag N - 1) := by positivity
  have hp3 : (0 : Int) < 2 ^ (intermediateBits pf N - 1) := by positivity
  have hdiv : (FixedPoint.div pf force rho).v = force.v * 2 ^ K / rho.v := by
    rw [div_v_of_fits pf force rho (hfv.mono hsb) hshift
      (by rw [hq]; exact ⟨by omega, by have := hshift.2; omega⟩), hq]
    exact wrap_eq_self hsp ⟨by omega, by have := hc.2; omega⟩
  simp only [FixedPoint.sub, hdiv]
  rw [wrap_eq_self hsp ⟨by omega, by have := hc.2; omega⟩]
  omega

/-- Claim C25 (amended): in the pressure exchange from `(x, y)` towards an open neighbour
with lower previous pressure, positive density and storage values free of wrap-around
(the pressure difference is representable, the product of the reverse capacity and the
density fits the intermediate type and, shifted, the storage type, and the shifted force
fits the intermediate type), whenever the absorb branch is taken the reverse capacity
after the step is at least 0 and at most its previous value. -/
theorem exchange_absorb_bounds (pf : Platform) (s : Simulator N K tag) (x y : Int)
    (d : Int × Int)
    (hsb : storageBits pf tag N ≤ intermediateBits pf N)
    (hopen : s.field (x + d.1) (y + d.2) ≠ '#')
    (hlow : (s.old_p (x + d.1) (y + d.2)).v < (s.old_p x y).v)
    (hdiff : InRange (storageBits pf tag N) ((s.old_p x y).v - (s.old_p (x + d.1) (y + d.2)).v))
    (hc : (s.velocity.get (x + d.1) (y + d.2) (-d.1) (-d.2)).Valid pf)
    (hr : (s.rho_ (s.field (x + d.1) (y + d.2))).Valid pf)
    (hrho : 0 < (s.rho_ (s.field (x + d.1) (y + d.2))).v)
    (hprod : InRange (intermediateBits pf N)
      ((s.velocity.get (x + d.1) (y + d.2) (-d.1) (-d.2)).v
        * (s.rho_ (s.field (x + d.1) (y + d.2))).v))
    (hres : InRange (storageBits pf tag N)
      ((s.velocity.get (x + d.1) (y + d.2) (-d.1) (-d.2)).v
        * (s.rho_ (s.field (x + d.1) (y + d.2))).v / 2 ^ K))
    (hshift : InRange (intermediateBits pf N)
      (((s.old_p x y).v - (s.old_p (x + d.1) (y + d.2)).v) * 2 ^ K))
    (habsorb : (FixedPoint.sub pf (s.old_p x y) (s.old_p (x + d.1) (y + d.2))).v
      ≤ (FixedPoint.mul pf (s.velocity.get (x + d.1) (y + d.2) (-d.1) (-d.2))
          (s.rho_ (s.field (x + d.1) (y + d.2)))).v) :
    0 ≤ ((exchange_dir pf x y s d).velocity.get (x + d.1) (y + d.2) (-d.1) (-d.2)).v ∧
      ((exchange_dir pf x y s d).velocity.get (x + d.1) (y + d.2) (-d.1) (-d.2)).v
        ≤ (s.velocity.get (x + d.1) (y + d.2) (-d.1) (-d.2)).v := by
  have hsp := storageBits_pos pf tag N
  have hfv : (FixedPoint.sub pf (s.old_p x y) (s.old_p (x + d.1) (y + d.2))).v
      = (s.old_p x y).v - (s.old_p (x + d.1) (y + d.2)).v := by
    simp only [FixedPoint.sub]
    exact wrap_eq_self hsp hdiff
  have hstep : (exchange_dir pf x y s d).velocity.get (x + d.1) (y + d.2) (-d.1) (-d.2)
      = FixedPoint.sub pf (s.velocity.get (x + d.1) (y + d.2) (-d.1) (-d.2))
          (FixedPoint.div pf (FixedPoint.sub pf (s.old_p x y) (s.old_p (x + d.1) (y + d.2)))
            (s.rho_ (s.field (x + d.1) (y + d.2)))) := by
    simp only [exchange_dir]
    rw [if_pos ⟨hopen, hlow⟩, if_pos habsorb]
    simp [VectorField.get, VectorField.set]
  rw [hstep]
  exact absorb_bounds pf _ _ _ hsb hc hr (by unfold FixedPoint.Valid; rw [hfv]; exact hdiff)
    hrho (by rw [hfv]; omega) hprod hres (by rw [hfv]; exact hshift) habsorb

/-- The claim C25 (amended) on `absorbSim`: the force 1 is absorbed by the reverse
capacity 2, which becomes 1. -/
theorem exchange_absorb_bounds_witness :
    ((exchange_dir lp64 1 1 absorbSim (0, 1)).velocity.get 1 2 0 (-1)).v = 65536 ∧
    0 ≤ ((exchange_dir lp64 1 1 absorbSim (0, 1)).velocity.get (1 + 0) (1 + 1) (-0) (-1)).v ∧
    ((exchange_dir lp64 1 1 absorbSim (0, 1)).velocity.get (1 + 0) (1 + 1) (-0) (-1)).v
      ≤ (absorbSim.velocity.get (1 + 0) (1 + 1) (-0) (-1)).v :=
  ⟨by decide!, exchange_absorb_bounds lp64 absorbSim 1 1 (0, 1) (by decide) (by decide)
    (by decide!) (by decide!) (by decide!) (by decide!) (by decide!) (by decide!) (by decide!)
    (by decide!) (by decide!)⟩

/-- The claim C25 as stated fails on `squeezeSim`: the neighbour `(1, 2)` has the lower
previous pressure and density 1, the pressure difference wraps around to raw -1, the
absorb branch is taken, and the reverse capacity grows from 0 to raw 1. -/
theorem exchange_absorb_bounds_counterexample :
    squeezeSim.field 1 2 ≠ '#' ∧
    (squeezeSim.old_p 1 2).v < (squeezeSim.old_p 1 1).v ∧
    0 < (squeezeSim.rho_ (squeezeSim.field 1 2)).v ∧
    (FixedPoint.sub lp64 (squeezeSim.old_p 1 1) (squeezeSim.old_p 1 2)).v
      ≤ (FixedPoint.mul lp64 (squeezeSim.velocity.get 1 2 0 (-1))
          (squeezeSim.rho_ (squeezeSim.field 1 2))).v ∧
    (squeezeSim.velocity.get 1 2 0 (-1)).v = 0 ∧
    ((exchange_dir lp64 1 1 squeezeSim (0, 1)).velocity.get 1 2 0 (-1)).v = 1 := by
  decide!

end Simulator

/-! ## Claims on the stamps of the flow traversal -/

namespace Simulator

variable {N K : Nat} {tag : Tag}

/-- Claim C23: a `propagate_flow` call that returns success returns an end coordinate
different from its own cell (a cell that was in progress when the call was entered).  On
a wall-bordered grid a call entered at a non-wall cell when no cell is in progress returns
(with enough fuel), reports no success and leaves no cell in progress: the start cell and
every cell whose stamp changed have the stamp `UT`.  The calls of a propagation sweep are
entered so: no cell is in progress after `UT += 2` when no stamp exceeded the counter,
and a step of the sweep keeps it so. -/
theorem propagate_flow_no_success (pf : Platform) (s : Simulator N K tag) (x y : Int)
    (lim : FixedPoint N K tag) (fuel : Nat) :
    (∀ r, propagate_flow pf fuel s x y lim = Except.ok r → r.prop = true →
      r.dest ≠ (x, y) ∧ s.last_use r.dest.1 r.dest.2 = s.UT - 1) ∧
    (BorderWalls s → (x, y) ∈ cells s.rows s.cols → s.field x y ≠ '#' →
      nonWallCount s ≤ fuel → NoInProgress s →
      ∃ r, propagate_flow pf fuel s x y lim = Except.ok r ∧ r.prop = false ∧
        NoInProgress r.sim ∧ r.sim.last_use x y = r.sim.UT ∧
        ∀ a b, r.sim.last_use a b ≠ s.last_use a b → r.sim.last_use a b = r.sim.UT) ∧
    (StampsLe s → NoInProgress { s with UT := s.UT + 2 }) ∧
    (∀ (flag : Bool) (sp : Simulator N K tag × Bool), NoInProgress s →
      sweep_cell pf fuel (s, flag) x y = Except.ok sp → NoInProgress sp.1) := by
  have part2 : ∀ lim r, propagate_flow pf fuel s x y lim = Except.ok r → NoInProgress s →
      r.prop = false ∧ NoInProgress r.sim ∧ r.sim.last_use x y = r.sim.UT ∧
        ∀ a b, r.sim.last_use a b ≠ s.last_use a b → r.sim.last_use a b = r.sim.UT := by
    intro lim r hr hnone
    have hfr := propagate_flow_frame pf fuel s x y lim r hr
    refine ⟨?_, ?_, ?_, ?_⟩
    · by_contra hp
      have hp2 : r.prop = true := by simpa using hp
      exact hnone _ _ (propagate_flow_dest pf fuel s x y lim r hr hp2).2
    · intro a b
      rw [hfr.UT_eq]
      rcases hfr.stamp a b with e | e
      · rw [e]; exact hnone a b
      · omega
    · rw [hfr.UT_eq]; exact hfr.stamp_start
    · intro a b hne
      rw [hfr.UT_eq]
      rcases hfr.stamp a b with e | e
      · exact absurd e hne
      · exact e
  refine ⟨propagate_flow_dest pf fuel s x y lim, ?_, ?_, ?_⟩
  · intro hb hxy hf hfuel hnone
    have hlt := pending_mark_lt_nonWall s x y hxy hf
    obtain ⟨r, hr, -⟩ := propagate_flow_terminates pf fuel s x y lim hb hxy hf
      (lt_of_lt_of_le hlt hfuel)
    exact ⟨r, hr, part2 lim r hr hnone⟩
  · intro hst a b
    have := hst a b
    simp only
    omega
  · intro flag sp hnone h
    simp only [sweep_cell] at h
    split_ifs at h with h1
    · split at h
      · exact absurd h (by simp)
      · rename_i r hr
        simp only [Except.ok.injEq] at h
        subst h
        exact (part2 _ r hr hnone).2.1
    · simp only [Except.ok.injEq] at h
      subst h
      exact hnone

/-- The claim C23 on the ring example, entered at `(1, 1)` with no cell in progress: the
traversal closes the ring, yet reports no success and leaves no cell in progress. -/
theorem propagate_flow_no_success_witness :
    ∃ r, propagate_flow lp64 4 ringSim 1 1 ⟨65536⟩ = Except.ok r ∧ r.prop = false ∧
      NoInProgress r.sim ∧ r.sim.last_use 1 1 = r.sim.UT ∧
      ∀ a b, r.sim.last_use a b ≠ ringSim.last_use a b → r.sim.last_use a b = r.sim.UT :=
  (propagate_flow_no_success lp64 ringSim 1 1 ⟨65536⟩ 4).2.1 (by decide!) (by decide!)
    (by decide!) (by decide!) (by intro a b; simp [ringSim, Simulator.load])

end Simulator

/-! ## Claims on the stop traversal -/

namespace Simulator

variable {N K : Nat} {tag : Tag}

/-- Claim C20 (amended): on a wall-bordered grid the stop traversal started at a non-wall
cell returns (with enough fuel) and changes no velocity, no pressure and no cell kind: it
only stamps cells as resolved.  Every cell it stamps, other than a forced start cell, has
no positive velocity towards an open neighbour whose stamp is below `UT - 1`; a forced
start cell is stamped whatever its velocities. -/
theorem propagate_stop_keeps_velocity (s : Simulator N K tag) (x y : Int) (force : Bool)
    (fuel : Nat) (hb : BorderWalls s) (hxy : (x, y) ∈ cells s.rows s.cols)
    (hf : s.field x y ≠ '#') (hfuel : nonWallCount s < fuel) :
    ∃ s', propagate_stop fuel s x y force = Except.ok s' ∧
      s'.velocity = s.velocity ∧ s'.p = s.p ∧ s'.field = s.field ∧
      (force = true → s'.last_use x y = s.UT) ∧
      ∀ a b, s'.last_use a b ≠ s.last_use a b →
        s'.last_use a b = s.UT ∧ (((a, b) = (x, y) ∧ force = true) ∨ Settled s' a b) := by
  have h1 : unresolved { s with last_use := set2 s.last_use x y s.UT } < fuel :=
    lt_of_le_of_lt (unresolved_le_nonWallCount _) (by rw [nonWallCount_mark]; exact hfuel)
  obtain ⟨s', hs'⟩ := propagate_stop_terminates fuel s x y force hb hxy hf h1
  obtain ⟨f1, f2, f3⟩ := propagate_stop_frame fuel s x y force s' hs'
  refine ⟨s', hs', f1.velocity_eq, f1.p_eq, f1.field_eq, f3, fun a b hne => ⟨?_, f2 a b hne⟩⟩
  rcases f1.stamp a b with e | e
  · exact absurd e hne
  · exact e

/-- The claim C20 (amended) on the ring example, forced at `(1, 1)`. -/
theorem propagate_stop_keeps_velocity_witness :
    ∃ s', propagate_stop 5 ringSim 1 1 true = Except.ok s' ∧
      s'.velocity = ringSim.velocity ∧ s'.p = ringSim.p ∧ s'.field = ringSim.field ∧
      (true = true → s'.last_use 1 1 = ringSim.UT) ∧
      ∀ a b, s'.last_use a b ≠ ringSim.last_use a b →
        s'.last_use a b = ringSim.UT ∧ (((a, b) = (1, 1) ∧ true = true) ∨ Settled s' a b) :=
  propagate_stop_keeps_velocity ringSim 1 1 true 5 (by decide!) (by decide!) (by decide!)
    (by decide!)

/-- The claim C20 as stated fails on the ring example: the stop traversal forced at
`(1, 1)` stamps `(1, 1)` and `(2, 1)` as resolved (their stamps were 0, the counter is 2),
and afterwards the velocity from `(1, 1)` to the right and the velocity from `(2, 1)`
upwards are still 2 (raw 131072). -/
theorem propagate_stop_keeps_velocity_counterexample :
    ringSim.last_use 1 1 = 0 ∧ ringSim.last_use 2 1 = 0 ∧ ringSim.UT = 2 ∧
    (propagate_stop 5 ringSim 1 1 true).toOption.map (fun s' =>
      (s'.last_use 1 1, (s'.velocity.get 1 1 0 1).v, s'.last_use 2 1,
        (s'.velocity.get 2 1 (-1) 0).v)) = some (2, 131072, 2, 131072) := by
  decide!

end Simulator

/-! ## Claims on the content swap and the clamp step -/

namespace Simulator

variable {N K : Nat} {tag : Tag}

/-- Claim C22: for distinct cells `(x, y)` and `(nx, ny)` the three `swap_with` calls on a
value-initialised record exchange the records (kind, pressure, velocity vector) of the two
cells, leave every other cell and every other member unchanged, leave the temporary record
value-initialised again, and applied twice restore the original state. -/
theorem swap_cells_exchange (s : Simulator N K tag) (x y nx ny : Int)
    (h : (x, y) ≠ (nx, ny)) :
    (swap_with (swap_with (swap_with ParticleParams.zero s x y).1
        (swap_with ParticleParams.zero s x y).2 nx ny).1
      (swap_with (swap_with ParticleParams.zero s x y).1
        (swap_with ParticleParams.zero s x y).2 nx ny).2 x y)
      = (ParticleParams.zero, swap_cells s x y nx ny) ∧
    ((swap_cells s x y nx ny).field x y = s.field nx ny ∧
      (swap_cells s x y nx ny).p x y = s.p nx ny ∧
      (swap_cells s x y nx ny).velocity.v x y = s.velocity.v nx ny) ∧
    ((swap_cells s x y nx ny).field nx ny = s.field x y ∧
      (swap_cells s x y nx ny).p nx ny = s.p x y ∧
      (swap_cells s x y nx ny).velocity.v nx ny = s.velocity.v x y) ∧
    (∀ a b, (a, b) ≠ (x, y) → (a, b) ≠ (nx, ny) →
      (swap_cells s x y nx ny).field a b = s.field a b ∧
      (swap_cells s x y nx ny).p a b = s.p a b ∧
      (swap_cells s x y nx ny).velocity.v a b = s.velocity.v a b) ∧
    ((swap_cells s x y nx ny).rho_ = s.rho_ ∧ (swap_cells s x y nx ny).g_ = s.g_ ∧
      (swap_cells s x y nx ny).dirs = s.dirs ∧ (swap_cells s x y nx ny).old_p = s.old_p ∧
      (swap_cells s x y nx ny).rows = s.rows ∧ (swap_cells s x y nx ny).cols = s.cols ∧
      (swap_cells s x y nx ny).velocity_flow = s.velocity_flow ∧
      (swap_cells s x y nx ny).last_use = s.last_use ∧ (swap_cells s x y nx ny).UT = s.UT ∧
      (swap_cells s x y nx ny).random_generator_ = s.random_generator_) ∧
    swap_cells (swap_cells s x y nx ny) x y nx ny = s :=
  swap_cells_spec s x y nx ny h

/-- The claim C22 at the cells `(1, 1)` and `(1, 2)` of the ring example. -/
theorem swap_cells_exchange_witness :
    ((1 : Int), (1 : Int)) ≠ (1, 2) ∧
    (swap_cells ringSim 1 1 1 2).velocity.v 1 2 = ringSim.velocity.v 1 1 ∧
    swap_cells (swap_cells ringSim 1 1 1 2) 1 1 1 2 = ringSim :=
  ⟨by decide, (swap_cells_exchange ringSim 1 1 1 2 (by decide)).2.2.1.2.2,
    (swap_cells_exchange ringSim 1 1 1 2 (by decide)).2.2.2.2.2⟩

/-- Claim C21: the clamp step, when it completes, leaves on every edge of a non-wall grid
cell whose velocity was positive the flow routed on that edge (which the assertion made
sure is not larger than the velocity), and leaves every edge whose velocity was zero or
negative unchanged; it completes whenever the flow is at most the velocity on every
edge. -/
theorem clamp_sets_velocity (pf : Platform) (s : Simulator N K tag) :
    (∀ s', forCellsM (clamp_cell pf) (cells s.rows s.cols) s = Except.ok s' →
      ∀ c ∈ cells s.rows s.cols, s.field c.1 c.2 ≠ '#' → ∀ k < 4,
        (0 < (s.velocity.v c.1 c.2 k).v →
          s'.velocity.v c.1 c.2 k = s.velocity_flow.v c.1 c.2 k ∧
          (s'.velocity.v c.1 c.2 k).v ≤ (s.velocity.v c.1 c.2 k).v) ∧
        ((s.velocity.v c.1 c.2 k).v ≤ 0 →
          s'.velocity.v c.1 c.2 k = s.velocity.v c.1 c.2 k)) ∧
    (FlowLe s → ∃ s', forCellsM (clamp_cell pf) (cells s.rows s.cols) s = Except.ok s') := by
  refine ⟨?_, fun hle => ?_⟩
  · intro s' h c hc hf k hk
    have := forCellsM_mem (Clamping s)
      (fun a b s1 => s.field a b ≠ '#' → ∀ k < 4, Clamped s s1 a b k)
      (clamp_cell pf) (fun s1 x y s2 hP h12 => clamp_cell_step pf s s1 x y s2 hP h12)
      (cells s.rows s.cols) s s' ⟨rfl, rfl, rfl, rfl, fun _ _ _ => Or.inl rfl⟩ h
    obtain ⟨hv, hle⟩ := this.2.1 c hc hf k hk
    refine ⟨fun hpos => ?_, fun hneg => ?_⟩
    · rw [hv, clamped, if_pos hpos]
      exact ⟨rfl, hle hpos⟩
    · rw [hv, clamped, if_neg (by omega)]
  · obtain ⟨s', h, -⟩ := clamp_cells_ok pf (cells s.rows s.cols) s (fun c hc => hc) hle
    exact ⟨s', h⟩

/-- The claim C21 on the ring example: the clamp step completes and the edge from `(1, 1)`
to the right, whose velocity was 2, carries the routed flow 0 afterwards. -/
theorem clamp_sets_velocity_witness :
    ∃ s', forCellsM (clamp_cell lp64) (cells ringSim.rows ringSim.cols) ringSim = Except.ok s' ∧
      s'.velocity.v 1 1 3 = ⟨0⟩ := by
  obtain ⟨s', h⟩ := (clamp_sets_velocity lp64 ringSim).2 (by unfold FlowLe; decide)
  exact ⟨s', h, ((clamp_sets_velocity lp64 ringSim).1 s' h (1, 1) (by decide) (by decide) 3
    (by decide)).1 (by decide) |>.1⟩

end Simulator

/-! ## Claims on the movement traversal -/

namespace Simulator

variable {N K : Nat} {tag : Tag}

/-- Claim C13: whenever a `propagate_move` call (at a non-wall cell) returns false, the cell
kinds, the pressures and the velocities of the whole grid are what they were before the
call, and so is every other member except the stamps and the random generator; a stamp
that changed is `UT`, and the cell of the call is stamped `UT`. -/
theorem move_failure_keeps_grid (pf : Platform) (fuel : Nat) (s : Simulator N K tag)
    (x y : Int) (is_first : Bool) (s' : Simulator N K tag) (hf : s.field x y ≠ '#')
    (h : propagate_move pf fuel s x y is_first = Except.ok (false, s')) :
    s'.field = s.field ∧ s'.p = s.p ∧ s'.velocity = s.velocity ∧
    s'.velocity_flow = s.velocity_flow ∧ s'.old_p = s.old_p ∧ s'.dirs = s.dirs ∧
    s'.rho_ = s.rho_ ∧ s'.g_ = s.g_ ∧ s'.rows = s.rows ∧ s'.cols = s.cols ∧ s'.UT = s.UT ∧
    s'.last_use x y = s.UT ∧
    ∀ a b, s'.last_use a b = s.last_use a b ∨ s'.last_use a b = s.UT := by
  obtain ⟨f1, f2, f3⟩ := propagate_move_frame pf fuel s x y is_first false s' hf h
  obtain ⟨r1, r2, r3⟩ := f2 rfl
  exact ⟨r1, r2, r3, f1.flow_eq, f1.old_p_eq, f1.dirs_eq, f1.rho_eq, f1.g_eq, f1.rows_eq,
    f1.cols_eq, f1.UT_eq, f3, f1.stamp⟩

/-- The claim C13 on `deadEndSim`: the move from `(1, 1)` tries `(1, 2)`, which has no
positive velocity, and fails; the stamps of both cells change from 0 to 2. -/
theorem move_failure_keeps_grid_witness :
    ∃ s', propagate_move lp64 5 deadEndSim 1 1 true = Except.ok (false, s') ∧
      s'.last_use 1 2 = 2 ∧ deadEndSim.last_use 1 2 = 0 ∧
      s'.field = deadEndSim.field ∧ s'.p = deadEndSim.p ∧
      s'.velocity = deadEndSim.velocity := by
  have hb : (propagate_move lp64 5 deadEndSim 1 1 true).toOption.map
      (fun r => (r.1, r.2.last_use 1 2)) = some (false, 2) := by decide!
  cases h : propagate_move lp64 5 deadEndSim 1 1 true with
  | error e => rw [h] at hb; simp [Except.toOption] at hb
  | ok r =>
    obtain ⟨b, s'⟩ := r
    rw [h] at hb
    simp only [Except.toOption, Option.map_some', Option.some.injEq, Prod.mk.injEq] at hb
    obtain ⟨rfl, h2⟩ := hb
    have := move_failure_keeps_grid lp64 5 deadEndSim 1 1 true s' (by decide) h
    exact ⟨s', rfl, h2, by decide, this.1, this.2.1, this.2.2.1⟩

/-- Claim C11: on a wall-bordered grid `propagate_move` at a non-wall cell terminates, for
every state and every sequence of draws: with a recursion budget of the number of non-wall
cells plus 5 the model never runs out of fuel, and it returns a result whenever the state
is free of wrap-around (otherwise an assertion may stop it).  The retry loop needs a
budget of 5 whatever the size of the grid: at most 4 directions are tried, since a nested
call that fails leaves its cell resolved, and one more pass finds the total 0.  Every
nested call is entered at a cell that is not resolved and leaves it resolved, as does the
call itself, whatever it returns. -/
theorem propagate_move_total (pf : Platform) (s : Simulator N K tag) (x y : Int)
    (is_first : Bool) (fuel : Nat) (hb : BorderWalls s) (hxy : (x, y) ∈ cells s.rows s.cols)
    (hf : s.field x y ≠ '#') (hfuel : nonWallCount s + 5 ≤ fuel) :
    NoFuel (propagate_move pf fuel s x y is_first) ∧
    (Healthy pf s → ∃ b s', propagate_move pf fuel s x y is_first = Except.ok (b, s')) ∧
    (∀ b s', propagate_move pf fuel s x y is_first = Except.ok (b, s') →
      s'.last_use x y = s.UT ∧
      ∀ a b, s'.last_use a b ≠ s.last_use a b → s'.last_use a b = s.UT) ∧
    (∀ (n : Nat) (last : Int × Int), 5 ≤ n →
      NoFuel (propagate_move_loop pf
        (fun s1 nx ny => propagate_move pf (fuel - 1) s1 nx ny false) x y n
        { s with last_use := (set2 s.last_use x y (s.UT - if is_first = true then 1 else 0)) }
        last)) ∧
    (∀ (s1 : Simulator N K tag) (nx ny : Int) (k : Nat) (s2 : Simulator N K tag),
      s1.field nx ny ≠ '#' →
      propagate_move pf k s1 nx ny false = Except.ok (false, s2) →
      s2.last_use nx ny = s1.UT) := by
  have hu : unresolved { s with last_use := (set2 s.last_use x y
      (s.UT - if is_first = true then 1 else 0)) } ≤ nonWallCount s :=
    unresolved_le_nonWallCount _
  obtain ⟨t1, t2⟩ := propagate_move_terminates pf fuel s x y is_first _ hb hxy hf
    (by omega) rfl
  refine ⟨t1, fun hh => ?_, fun b s' h => ?_, fun n last hn => ?_, fun s1 nx ny k s2 hw h => ?_⟩
  · obtain ⟨⟨b, s'⟩, hv⟩ := t2 hh
    exact ⟨b, s', hv⟩
  · obtain ⟨f1, -, f3⟩ := propagate_move_frame pf fuel s x y is_first b s' hf h
    refine ⟨f3, fun a b hne => ?_⟩
    rcases f1.stamp a b with e | e
    · exact absurd e hne
    · exact e
  · exact (propagate_move_loop_terminates pf (fuel - 1)
      (fun s1 nx ny => propagate_move pf (fuel - 1) s1 nx ny false)
      (fun s1 nx ny b s2 hw h12 => by
        obtain ⟨a1, -, a3⟩ := propagate_move_frame pf (fuel - 1) s1 nx ny false b s2 hw h12
        exact ⟨a1, a3⟩)
      (fun s1 nx ny h1 h2 h3 h4 =>
        propagate_move_terminates pf (fuel - 1) s1 nx ny false _ h1 h2 h3
          (by simpa using h4) rfl)
      x y n
      { s with last_use := (set2 s.last_use x y (s.UT - if is_first = true then 1 else 0)) }
      last _ (lt_of_le_of_lt (avail_le_four _ x y) (by omega)) hb hxy hf
      (by omega) rfl).1
  · exact (propagate_move_frame pf k s1 nx ny false false s2 hw h).2.2

/-- The claim C11 on the ring example, entered at `(1, 1)` as the first call: the budget
4 + 5 is enough, and the call returns true. -/
theorem propagate_move_total_witness :
    nonWallCount ringSim + 5 ≤ 9 ∧
    NoFuel (propagate_move lp64 9 ringSim 1 1 true) ∧
    (propagate_move lp64 9 ringSim 1 1 true).toOption.map (fun r => r.1) = some true :=
  ⟨by decide!, (propagate_move_total lp64 ringSim 1 1 true 9 (by decide!) (by decide!)
    (by decide!) (by decide!)).1, by decide!⟩

/-- Claim C14: a top-level `propagate_move` call at a non-wall cell leaves the particle
records (material tag, pressure, four velocities) a permutation of the records before the
call that fixes every wall cell (and every cell enclosed by four walls).  When it succeeds from a state in which no cell is in
progress, the traversal followed a chain `L = [c1, …, ck, origin]` of distinct open
cells, each next to the one before (`c1` next to the origin), and the permutation is the
cyclic shift along it: `c1` holds the record of the origin, every later cell of the chain
the record of the cell before it (the origin that of `ck`), and the cells outside the
chain keep their records.  On a wall-bordered grid, in a state free of wrap-around, the
call returns. -/
theorem move_permutes_records (pf : Platform) (s : Simulator N K tag) (x y : Int)
    (fuel : Nat) (hf : s.field x y ≠ '#') :
    (∀ b s', propagate_move pf fuel s x y true = Except.ok (b, s') → Permuted s s') ∧
    (∀ s', propagate_move pf fuel s x y true = Except.ok (true, s') → NoInProgress s →
      ∃ L : List (Int × Int), L ≠ [] ∧ L.getLastD (x, y) = (x, y) ∧ L.Nodup ∧
        List.Chain Adjacent (x, y) L ∧ (∀ q ∈ L, s.field q.1 q.2 ≠ '#') ∧
        record s' (L.headD (x, y)) = record s (x, y) ∧
        (∀ (i : Nat) (h : i + 1 < L.length),
          record s' (L.get ⟨i + 1, h⟩) = record s (L.get ⟨i, Nat.lt_of_succ_lt h⟩)) ∧
        ∀ q, q ∉ L → record s' q = record s q) ∧
    (BorderWalls s → (x, y) ∈ cells s.rows s.cols → nonWallCount s + 5 ≤ fuel →
      Healthy pf s → ∃ b s', propagate_move pf fuel s x y true = Except.ok (b, s')) := by
  refine ⟨fun b s' h => (propagate_move_frame pf fuel s x y true b s' hf h).1.perm,
    fun s' h hnone => ?_, fun hb hxy hfuel hh => ?_⟩
  · obtain ⟨L, hsh⟩ := propagate_move_first_chain pf fuel s x y s' h
    have hrot : ∀ q, record s' q = record s (shiftSource L q) := hsh.rot
    have hlast : L.getLastD (x, y) = (x, y) := by
      by_contra hne
      have := hsh.last
      have hne2 : ¬ ((L.getLastD (x, y)).1 = x ∧ (L.getLastD (x, y)).2 = y) :=
        fun e => hne (Prod.ext e.1 e.2)
      simp only [set2, if_neg hne2] at this
      exact hnone _ _ this
    refine ⟨L, hsh.ne_nil, hlast, hsh.nodup, hsh.chain, hsh.open_cells, ?_, ?_, ?_⟩
    · rw [hrot]
      cases L with
      | nil => exact absurd rfl hsh.ne_nil
      | cons a t =>
        simp only [List.headD_cons, shiftSource, if_true]
        rw [List.getLastD_cons] at hlast
        rw [hlast]
    · intro i h
      rw [hrot, shiftSource_getElem L hsh.nodup i h]
    · intro q hq
      rw [hrot, shiftSource_not_mem L q hq]
  · have hu : unresolved { s with last_use := (set2 s.last_use x y
        (s.UT - if true = true then 1 else 0)) } ≤ nonWallCount s :=
      unresolved_le_nonWallCount _
    obtain ⟨⟨b, s'⟩, hv⟩ := (propagate_move_terminates pf fuel s x y true _ hb hxy hf
      (by omega) rfl).2 hh
    exact ⟨b, s', hv⟩

/-- The claim C14 on the ring example: the move from `(1, 1)` succeeds along the ring, and
afterwards `(1, 2)` holds the velocities of `(1, 1)`, `(2, 2)` those of `(1, 2)`, `(2, 1)`
those of `(2, 2)` and `(1, 1)` those of `(2, 1)`. -/
theorem move_permutes_records_witness :
    (propagate_move lp64 9 ringSim 1 1 true).toOption.map (fun r =>
      (r.1, (r.2.velocity.v 1 2 3).v, (r.2.velocity.v 2 2 1).v, (r.2.velocity.v 2 1 2).v,
        (r.2.velocity.v 1 1 0).v)) = some (true, 131072, 131072, 131072, 131072) ∧
    ∃ s', propagate_move lp64 9 ringSim 1 1 true = Except.ok (true, s') ∧
      Permuted ringSim s' ∧
      ∃ L : List (Int × Int), L ≠ [] ∧ L.getLastD (1, 1) = (1, 1) ∧ L.Nodup ∧
        List.Chain Adjacent (1, 1) L ∧ (∀ q ∈ L, ringSim.field q.1 q.2 ≠ '#') ∧
        record s' (L.headD (1, 1)) = record ringSim (1, 1) ∧
        (∀ (i : Nat) (h : i + 1 < L.length),
          record s' (L.get ⟨i + 1, h⟩) = record ringSim (L.get ⟨i, Nat.lt_of_succ_lt h⟩)) ∧
        ∀ q, q ∉ L → record s' q = record ringSim q := by
  have hb : (propagate_move lp64 9 ringSim 1 1 true).toOption.map (fun r => r.1)
      = some true := by decide!
  refine ⟨by decide!, ?_⟩
  cases h : propagate_move lp64 9 ringSim 1 1 true with
  | error e => rw [h] at hb; simp [Except.toOption] at hb
  | ok r =>
    obtain ⟨b, s'⟩ := r
    rw [h] at hb
    simp only [Except.toOption, Option.map_some', Option.some.injEq] at hb
    subst hb
    have hthm := move_permutes_records lp64 ringSim 1 1 9 (by decide)
    exact ⟨s', rfl, hthm.1 true s' h,
      hthm.2.1 s' h (by intro a b; simp [ringSim, Simulator.load])⟩

end Simulator

/-! ## Claims on the invariants of a run -/

namespace Simulator

variable {N K : Nat} {tag : Tag}

/-- Claim C12: when the configuration guard lets the run start from a state whose stored
counts are 0 (as they are after loading), then after the initialisation and after any
number of ticks the stored open-neighbour count of every non-wall grid cell is the number
of its 4 neighbours that are not walls in the current grid, and it is 0 for every wall
cell: the counts are computed once and no tick changes them or turns a wall into a
non-wall cell or a non-wall cell into a wall. -/
theorem dirs_stay_correct (pf : Platform) (s0 : Simulator N K tag)
    (hz : ∀ c ∈ cells s0.rows s0.cols, s0.dirs c.1 c.2 = 0)
    (hcfg : config_rejected s0 = false) (fuel T : Nat) (s' : Simulator N K tag)
    (h : run_simulation pf fuel T s0 = Except.ok s') :
    DirsOk (forCells init_dirs_cell (cells s0.rows s0.cols) s0) ∧ DirsOk s' ∧
      s'.dirs = (forCells init_dirs_cell (cells s0.rows s0.cols) s0).dirs ∧
      s'.rows = s0.rows ∧ s'.cols = s0.cols ∧
      ∀ a b, s'.field a b = '#' ↔ s0.field a b = '#' := by
  have hinit := init_dirs_ok s0 hz
  obtain ⟨⟨d, h1⟩, -⟩ := init_dirs_spec s0
  simp only [run_simulation, hcfg, Bool.false_eq_true, if_false] at h
  have hrun := ticks_run pf fuel T _ s' h
  refine ⟨hinit, hinit.of_run hrun, hrun.dirs_eq, ?_, ?_, fun a b => ?_⟩
  · rw [hrun.rows_eq, h1]
  · rw [hrun.cols_eq, h1]
  · rw [hrun.wall_iff, h1]

/-- The claim C12 on the column of two air cells, after two ticks: both cells have one open
neighbour. -/
theorem dirs_stay_correct_witness :
    ∃ s', run_simulation lp64 5 2 (columnSim 65536 65536 65536000) = Except.ok s' ∧
      DirsOk s' ∧ s'.dirs 1 1 = 1 ∧ s'.dirs 2 1 = 1 ∧ s'.dirs 0 1 = 0 := by
  have hb : (run_simulation lp64 5 2 (columnSim 65536 65536 65536000)).toOption.map
      (fun s => (s.dirs 1 1, s.dirs 2 1, s.dirs 0 1)) = some (1, 1, 0) := by decide!
  cases h : run_simulation lp64 5 2 (columnSim 65536 65536 65536000) with
  | error e => rw [h] at hb; simp [Except.toOption] at hb
  | ok s' =>
    rw [h] at hb
    simp only [Except.toOption, Option.map_some', Option.some.injEq, Prod.mk.injEq] at hb
    exact ⟨s', rfl, (dirs_stay_correct lp64 (columnSim 65536 65536 65536000)
      (fun _ _ => rfl) (by decide!) 5 2 s' h).2.1, hb.1, hb.2.1, hb.2.2⟩

/-- The invariant of claim C16 while the counter is a value of `int`: from a state in which
no stamp exceeds the tick-stamp counter and counter and stamps are `int` values (as in the
loaded state, where they are 0), every step of a run that leaves the counter below the
greatest `int` value keeps it so and never lowers the counter: the traversals
`propagate_flow`, `propagate_stop` and `propagate_move`, the force phase, a propagation
sweep, the sweep loop, the clamp step, the movement pass, a tick and any number of ticks.
Right after the counter is advanced by 2 no cell is in progress and none is resolved, and
the advanced counter is what the addition in `int` yields. -/
theorem stamps_le_counter (pf : Platform) (s : Simulator N K tag) (hs : StampsLe s)
    (hi : IntState pf s) :
    (s.UT + 2 < 2 ^ (pf.int_bits - 1) →
      NoInProgress { s with UT := s.UT + 2 } ∧ (∀ a b, s.last_use a b ≠ s.UT + 2) ∧
      IntState pf { s with UT := s.UT + 2 } ∧ wrap pf.int_bits (s.UT + 2) = s.UT + 2) ∧
    (∀ fuel x y lim r, propagate_flow pf fuel s x y lim = Except.ok r →
      StampsLe r.sim ∧ r.sim.UT = s.UT ∧ IntState pf r.sim) ∧
    (∀ fuel x y force s', propagate_stop fuel s x y force = Except.ok s' →
      StampsLe s' ∧ s'.UT = s.UT ∧ IntState pf s') ∧
    (∀ fuel x y is_first b s', s.field x y ≠ '#' →
      propagate_move pf fuel s x y is_first = Except.ok (b, s') →
      StampsLe s' ∧ s'.UT = s.UT ∧ IntState pf s') ∧
    (StampsLe (tick_forces pf s) ∧ (tick_forces pf s).UT = s.UT ∧
      IntState pf (tick_forces pf s)) ∧
    (∀ fuel sp, sweep pf fuel s = Except.ok sp → s.UT + 2 < 2 ^ (pf.int_bits - 1) →
      StampsLe sp.1 ∧ sp.1.UT = s.UT + 2 ∧ IntState pf sp.1) ∧
    (∀ fuel n s', sweep_loop pf fuel n s = Except.ok s' → s'.UT < 2 ^ (pf.int_bits - 1) →
      StampsLe s' ∧ s.UT ≤ s'.UT ∧ IntState pf s') ∧
    (∀ s', forCellsM (clamp_cell pf) (cells s.rows s.cols) s = Except.ok s' →
      StampsLe s' ∧ s'.UT = s.UT ∧ IntState pf s') ∧
    (∀ fuel s', forCellsM (move_cell pf fuel) (cells s.rows s.cols)
        { s with UT := s.UT + 2 } = Except.ok s' → s.UT + 2 < 2 ^ (pf.int_bits - 1) →
      StampsLe s' ∧ s'.UT = s.UT + 2 ∧ IntState pf s') ∧
    (∀ fuel s', tick pf fuel s = Except.ok s' → s'.UT < 2 ^ (pf.int_bits - 1) →
      StampsLe s' ∧ s.UT ≤ s'.UT ∧ IntState pf s') ∧
    (∀ fuel T s', ticks pf fuel T s = Except.ok s' → s'.UT < 2 ^ (pf.int_bits - 1) →
      StampsLe s' ∧ s.UT + 4 * T ≤ s'.UT ∧ IntState pf s') ∧
    (∀ fuel T s', run_simulation pf fuel T s = Except.ok s' →
      s'.UT < 2 ^ (pf.int_bits - 1) → StampsLe s' ∧ s.UT ≤ s'.UT ∧ IntState pf s') := by
  have hmax : s.UT < 2 ^ (pf.int_bits - 1) := hi.2.1.2
  refine ⟨fun hb => ⟨fun a b => ?_, fun a b => ?_, ?_, ?_⟩, fun fuel x y lim r h => ?_,
    fun fuel x y force s' h => ?_, fun fuel x y is_first b s' hf h => ?_, ?_,
    fun fuel sp h hb => ?_, fun fuel n s' h hb => ?_, fun s' h => ?_, fun fuel s' h hb => ?_,
    fun fuel s' h hb => ?_, fun fuel T s' h hb => ?_, fun fuel T s' h hb => ?_⟩
  · have := hs a b
    simp only
    omega
  · have := hs a b
    omega
  · exact hi.kept (Raise.counter_step s) (hs.after_run (RunFrame.advance s)) hb
  · have hw : 0 < pf.int_bits := by have := pf.int_ge; omega
    exact wrap_eq_self hw ⟨by have := hi.2.1.1; omega, hb⟩
  · have hf := propagate_flow_frame pf fuel s x y lim r h
    have hst := hs.after_run hf.run_of_flow
    exact ⟨hst, hf.UT_eq, hi.kept (Raise.of_stamps hf.UT_eq hf.stamp) hst
      (by rw [hf.UT_eq]; exact hmax)⟩
  · have hf := (propagate_stop_frame fuel s x y force s' h).1
    have hst := hs.after_run hf.run_of_stop
    exact ⟨hst, hf.UT_eq, hi.kept (Raise.of_stamps hf.UT_eq hf.stamp) hst
      (by rw [hf.UT_eq]; exact hmax)⟩
  · have hfr := (propagate_move_frame pf fuel s x y is_first b s' hf h).1
    have hst := hs.after_run hfr.run_of_move
    exact ⟨hst, hfr.UT_eq, hi.kept (Raise.of_stamps hfr.UT_eq hfr.stamp) hst
      (by rw [hfr.UT_eq]; exact hmax)⟩
  · have q := tick_forces_quiet pf s
    have hst := hs.after_run q.run_of_quiet
    have hu := q.2.2.2.2.2.2.2.1
    exact ⟨hst, hu, hi.kept q.raise_of_quiet hst (by rw [hu]; exact hmax)⟩
  · obtain ⟨f1, f2⟩ := sweep_run pf fuel s sp h
    have hst := hs.after_run f1
    exact ⟨hst, f2, hi.kept (sweep_raise pf fuel s sp h) hst (by rw [f2]; exact hb)⟩
  · obtain ⟨f1, f2⟩ := sweep_loop_run pf fuel n s s' h
    have hst := hs.after_run f1
    exact ⟨hst, by omega, hi.kept (sweep_loop_raise pf fuel n s s' h) hst hb⟩
  · have q := clamp_cells_quiet pf _ s s' h
    have hst := hs.after_run q.run_of_quiet
    have hu := q.2.2.2.2.2.2.2.1
    exact ⟨hst, hu, hi.kept q.raise_of_quiet hst (by rw [hu]; exact hmax)⟩
  · have m := forCellsM_frame
      (fun a b : Simulator N K tag => RunFrame a b ∧ b.UT = a.UT)
      (fun a => ⟨RunFrame.id_run _, rfl⟩)
      (fun a b c h1 h2 => ⟨h1.1.thenRun h2.1, h2.2.trans h1.2⟩)
      (move_cell pf fuel) (fun a x y b h => move_cell_run pf fuel a x y b h) _ _ _ h
    have hst := hs.after_run ((RunFrame.advance s).thenRun m.1)
    have hu : s'.UT = s.UT + 2 := m.2
    exact ⟨hst, hu, hi.kept ((Raise.counter_step s).thenRaise (move_pass_raise pf fuel _ _ s' h))
      hst (by rw [hu]; exact hb)⟩
  · obtain ⟨f1, f2⟩ := tick_run pf fuel s s' h
    have hst := hs.after_run f1
    exact ⟨hst, by omega, hi.kept (tick_raise pf fuel s s' h) hst hb⟩
  · have f1 := ticks_run pf fuel T s s' h
    obtain ⟨r1, u1⟩ := ticks_raise pf fuel T s s' h
    have hst := hs.after_run f1
    exact ⟨hst, u1, hi.kept r1 hst hb⟩
  · obtain ⟨⟨d, h1⟩, -⟩ := init_dirs_spec s
    simp only [run_simulation] at h
    split_ifs at h
    · simp only [Except.ok.injEq] at h
      subst h
      exact ⟨hs, le_refl _, hi⟩
    · rw [h1] at h
      have f1 := ticks_run pf fuel T _ s' h
      obtain ⟨r1, -⟩ := ticks_raise pf fuel T _ s' h
      have hs0 : StampsLe ({ s with dirs := d } : Simulator N K tag) := hs
      have hi0 : IntState pf ({ s with dirs := d } : Simulator N K tag) := hi
      have hst := hs0.after_run f1
      exact ⟨hst, f1.UT_le, hi0.kept r1 hst hb⟩

/-- The invariant on the ring example (stamps 0, counter 2): a tick returns, the counter has
grown to 10, no stamp exceeds it and counter and stamps are `int` values. -/
theorem stamps_le_counter_witness :
    StampsLe ringSim ∧ IntState lp64 ringSim ∧
    ∃ s', tick lp64 9 ringSim = Except.ok s' ∧ s'.UT = 10 ∧ StampsLe s' ∧
      ringSim.UT ≤ s'.UT ∧ IntState lp64 s' := by
  have h0 : StampsLe ringSim := by intro a b; simp [ringSim, Simulator.load]
  have hi0 : IntState lp64 ringSim :=
    ⟨by decide, by decide, fun a b => by simp [ringSim, Simulator.load]; decide⟩
  have hb : (tick lp64 9 ringSim).toOption.map (fun s => s.UT) = some 10 := by decide!
  refine ⟨h0, hi0, ?_⟩
  cases h : tick lp64 9 ringSim with
  | error e => rw [h] at hb; simp [Except.toOption] at hb
  | ok s' =>
    rw [h] at hb
    simp only [Except.toOption, Option.map_some', Option.some.injEq] at hb
    have := (stamps_le_counter lp64 ringSim h0 hi0).2.2.2.2.2.2.2.2.2.1 9 s' h
      (by rw [hb]; decide)
    exact ⟨s', rfl, hb, this.1, this.2.1, this.2.2⟩

/-- C16 (failing input): a run of `2^29` ticks.  Every tick advances the counter by at
least 4 (one propagation sweep and the movement pass), so after `T` ticks the counter has
grown by at least `4 T`.  On the grid at rest `flatSim`, whose stamps and counter are 0,
the `2^29` ticks return, and the counter of the result is at least `2^31`: more than the
greatest value `2^31 - 1` of the 32-bit `int UT`, whose increment past that value is an
overflow; the addition reduced to 32 bits yields `-2^31` from `2^31 - 2`, a counter
below the stamps written before. -/
theorem counter_passes_int_max :
    StampsLe flatSim ∧ IntState lp64 flatSim ∧ flatSim.UT = 0 ∧
    (∀ (s : Simulator 32 16 Tag.FixedTag) (fuel T : Nat) (s' : Simulator 32 16 Tag.FixedTag),
      ticks lp64 fuel T s = Except.ok s' → s.UT + 4 * T ≤ s'.UT) ∧
    (∃ s', ticks lp64 3 536870912 flatSim = Except.ok s' ∧ 2147483648 ≤ s'.UT ∧
      ¬ InRange lp64.int_bits s'.UT) ∧
    wrap lp64.int_bits (2147483646 + 2) = -2147483648 ∧
    wrap lp64.int_bits (2147483646 + 2) < 2147483646 := by
  have h0 : StampsLe flatSim := fun a b => le_refl _
  have hi0 : IntState lp64 flatSim :=
    ⟨by decide, by decide, fun a b => by show InRange lp64.int_bits 0; decide⟩
  refine ⟨h0, hi0, rfl, fun s fuel T s' h => (ticks_raise lp64 fuel T s s' h).2, ?_,
    by decide, by decide⟩
  obtain ⟨s', h, -⟩ := ticks_rest lp64 3 536870912 flatSim ⟨rfl, rfl⟩ (by decide) (by decide)
    (by decide)
  have hu := (ticks_raise lp64 3 536870912 flatSim s' h).2
  have h00 : flatSim.UT = 0 := rfl
  rw [h00] at hu
  refine ⟨s', h, by push_cast at hu; omega, ?_⟩
  intro hr
  have := hr.2
  norm_num [lp64] at this
  push_cast at hu
  omega

end Simulator

/-! ## Claims about grids at rest -/

namespace Simulator

variable {N K : Nat} {tag : Tag}

/-- C19: for a pool of liquid cells that all lie in one row `r` of a wall-bordered grid,
with zero velocities and pressures and positive gravity, the gravity loop injects no
velocity, and for every sequence of random draws one tick (with fuel above the number of
non-wall cells) returns a state with the same grid of cell kinds, the same dimensions,
zero velocities and the same pressures. -/
theorem pool_row_stays (pf : Platform) (s : Simulator N K tag) (r : Int) (hb : BorderWalls s)
    (hpool : ∀ c ∈ cells s.rows s.cols, s.field c.1 c.2 ≠ '#' →
      c.1 = r ∧ s.field c.1 c.2 = '.')
    (hr : AtRest s) (_hg : 0 < s.g_.v) (fuel : Nat) (hfuel : nonWallCount s < fuel)
    (rng : Nat → Draw) :
    forCells (gravity_cell pf) (cells s.rows s.cols) { s with random_generator_ := rng }
      = { s with random_generator_ := rng } ∧
    ∃ s', tick pf fuel { s with random_generator_ := rng } = Except.ok s' ∧
      s'.field = s.field ∧ s'.rows = s.rows ∧ s'.cols = s.cols ∧
      s'.velocity = VectorField.zero ∧ s'.p = s.p := by
  have hd : NoDrop ({ s with random_generator_ := rng } : Simulator N K tag) :=
    NoDrop.of_row _ r hb (fun c hc hf => (hpool c hc hf).1)
  constructor
  · apply forCells_fix
    intro c hc
    simp only [gravity_cell]
    split_ifs with h1 h2
    · rfl
    · exact absurd (hd c hc h1) h2
    · rfl
  · obtain ⟨s', h, lu, ut, g, rfl⟩ :=
      tick_rest pf fuel { s with random_generator_ := rng } hr hd hb hfuel
    exact ⟨_, h, rfl, rfl, rfl, hr.1, rfl⟩

theorem pool_row_stays_witness :
    ∃ s', tick lp64 3 { poolSim 0 0 with random_generator_ := fun n => ⟨n, n + 1⟩ }
        = Except.ok s' ∧
      s'.field = poolGrid ∧ s'.rows = 3 ∧ s'.cols = 4 ∧
      s'.velocity = VectorField.zero ∧ s'.p = (poolSim 0 0).p :=
  (pool_row_stays lp64 (poolSim 0 0) 1 (by decide) (by decide)
    ⟨rfl, by funext x y; simp [poolSim]⟩ (by decide) 3 (by decide) (fun n => ⟨n, n + 1⟩)).2

/-- C17 (amended): on a wall-bordered grid of wall and air cells in which no open cell has
an open cell directly below it, with zero initial pressure and velocity and positive
gravity and densities, any number of ticks (with fuel above the number of non-wall cells)
returns a state with the same grid, zero velocities, every pressure unchanged and, after
at least one tick, zero routed flow on every edge. -/
theorem flat_air_grid_still (pf : Platform) (s : Simulator N K tag) (hb : BorderWalls s)
    (_hair : ∀ c ∈ cells s.rows s.cols, s.field c.1 c.2 = '#' ∨ s.field c.1 c.2 = ' ')
    (hd : NoDrop s) (hr : AtRest s) (_hg : 0 < s.g_.v) (_hrho : 0 < (s.rho_ ' ').v)
    (_hliq : 0 < (s.rho_ '.').v) (fuel : Nat) (hfuel : nonWallCount s < fuel) (T : Nat) :
    ∃ s', ticks pf fuel T s = Except.ok s' ∧ s'.field = s.field ∧ s'.p = s.p ∧
      s'.velocity = VectorField.zero ∧ (1 ≤ T → s'.velocity_flow = VectorField.zero) := by
  obtain ⟨s', h, hr', hf', -, -, hfl⟩ := ticks_rest pf fuel T s hr hd hb hfuel
  exact ⟨s', h, hf', by rw [hr'.2, hr.2], hr'.1, hfl⟩

theorem flat_air_grid_still_witness :
    ∃ s', ticks lp64 3 2 flatSim = Except.ok s' ∧ s'.field = rowGrid ∧
      s'.p = (fun _ _ => ⟨0⟩) ∧
      s'.velocity = VectorField.zero ∧ (1 ≤ 2 → s'.velocity_flow = VectorField.zero) :=
  flat_air_grid_still lp64 flatSim (by decide) (by decide) (by decide) ⟨rfl, rfl⟩ (by decide)
    (by decide) (by decide) 3 (by decide) 2

/-- C17 (counterexample): on the wall-bordered 4 × 3 grid with a column of two air cells,
zero initial pressure and velocity, gravity 1 and densities 1, 1 and 1000, the first tick
of `run_simulation` raises the pressure of the lower air cell from 0 to 1. -/
theorem air_column_pressure_changes :
    BorderWalls (columnSim 65536 65536 65536000) ∧
    (∀ c ∈ cells 4 3, columnGrid c.1 c.2 = '#' ∨ columnGrid c.1 c.2 = ' ') ∧
    AtRest (columnSim 65536 65536 65536000) ∧
    ((run_simulation lp64 5 1 (columnSim 65536 65536 65536000)).toOption.map
      fun s => ((s.p 2 1).v, (columnSim 65536 65536 65536000).p 2 1 |>.v)) = some (65536, 0) := by
  refine ⟨by decide, by decide, ⟨rfl, rfl⟩, by decide!⟩

end Simulator
/-! ## Claims about the two-cell pool -/

namespace Simulator

/-- C18 (amended): for the pool of two horizontally adjacent liquid cells enclosed by
walls, in any well-formed `FixedPoint<N, K, Tag>` on any platform, with one open neighbour
counted for each of the two cells, stamps not above the counter, zero initial velocity, a
positive raw liquid density `rho`, and the raw pressures `pH > pL` (storage values; `left`
tells whether the left or the right cell holds `pH`), provided that no intermediate
result wraps around: the difference `pH - pL` and the velocity
`poolVel K rho (pH - pL)` (the difference divided by the density) are below
`2^(storage width - 1)`, the shifted difference `(pH - pL) * 2^K` is below
`2^(intermediate width - 1)`, and the difference is below `2^53` (where the division by
the neighbour count, which the source performs in `double`, is exact).  Then one full tick
(with fuel at least 3) returns a state in which the cell that held `pH` has the pressure
`pL` and the other cell has `pL + gain`, where
`gain = poolGain K rho (poolVel K rho (pH - pL))` is the velocity turned back into
pressure and multiplied by 0.8, with `0 ≤ gain < pH - pL`; the sum of the two pressures is
the sum before the tick minus `(pH - pL) - gain > 0`, so it is strictly smaller; the
velocities are zero again and the grid is unchanged. -/
theorem pool_tick_pressures (pf : Platform) {N K : Nat} {tag : Tag} (hw : WellFormed N K)
    (s : Simulator N K tag) (left : Bool) (pH pL : Int)
    (hs : Pool s left pH pL) (hrho : 0 < (s.rho_ '.').v)
    (hH : InRange (storageBits pf tag N) pH) (hL : InRange (storageBits pf tag N) pL)
    (hlt : pL < pH) (hd : pH - pL < 2 ^ (storageBits pf tag N - 1))
    (hm : (pH - pL) * 2 ^ K < 2 ^ (intermediateBits pf N - 1))
    (hq : poolVel K (s.rho_ '.').v (pH - pL) < 2 ^ (storageBits pf tag N - 1))
    (hdbl : pH - pL < 2 ^ 53)
    (fuel : Nat) (hfuel : 3 ≤ fuel) :
    ∃ s', tick pf fuel s = Except.ok s' ∧
      s'.p (poolHi left).1 (poolHi left).2 = ⟨pL⟩ ∧
      s'.p (poolLo left).1 (poolLo left).2
        = ⟨pL + poolGain K (s.rho_ '.').v (poolVel K (s.rho_ '.').v (pH - pL))⟩ ∧
      0 ≤ poolGain K (s.rho_ '.').v (poolVel K (s.rho_ '.').v (pH - pL)) ∧
      poolGain K (s.rho_ '.').v (poolVel K (s.rho_ '.').v (pH - pL)) < pH - pL ∧
      (s'.p 1 1).v + (s'.p 1 2).v =
        (s.p 1 1).v + (s.p 1 2).v
          - ((pH - pL) - poolGain K (s.rho_ '.').v (poolVel K (s.rho_ '.').v (pH - pL))) ∧
      (s'.p 1 1).v + (s'.p 1 2).v < (s.p 1 1).v + (s.p 1 2).v ∧
      s'.velocity = VectorField.zero ∧ s'.field = s.field := by
  obtain ⟨-, -, -, -, g0, g1, -⟩ := pool_arith K (s.rho_ '.').v (pH - pL) hrho (by omega)
  cases left
  · obtain ⟨s', h, lu, ut, g, rfl⟩ :=
      tick_pool_right pf hw s pH pL hs hrho hH hL hlt hd hm hq fuel hfuel
    have hhi : s.p 1 2 = ⟨pH⟩ := hs.p_hi
    have hlo : s.p 1 1 = ⟨pL⟩ := hs.p_lo
    have h1 : set2 (set2 s.p 1 2 ⟨pL⟩) 1 1
        ⟨pL + poolGain K (s.rho_ '.').v (poolVel K (s.rho_ '.').v (pH - pL))⟩ 1 2 = ⟨pL⟩ := by
      simp [set2]
    have h2 : set2 (set2 s.p 1 2 ⟨pL⟩) 1 1
        ⟨pL + poolGain K (s.rho_ '.').v (poolVel K (s.rho_ '.').v (pH - pL))⟩ 1 1
        = ⟨pL + poolGain K (s.rho_ '.').v (poolVel K (s.rho_ '.').v (pH - pL))⟩ := by
      simp [set2]
    refine ⟨_, h, h1, h2, g0, g1, ?_, ?_, rfl, rfl⟩
    · show (set2 (set2 s.p 1 2 ⟨pL⟩) 1 1
          ⟨pL + poolGain K (s.rho_ '.').v (poolVel K (s.rho_ '.').v (pH - pL))⟩ 1 1).v +
        (set2 (set2 s.p 1 2 ⟨pL⟩) 1 1
          ⟨pL + poolGain K (s.rho_ '.').v (poolVel K (s.rho_ '.').v (pH - pL))⟩ 1 2).v = _
      rw [h1, h2, hhi, hlo]
      show pL + poolGain K (s.rho_ '.').v (poolVel K (s.rho_ '.').v (pH - pL)) + pL =
        pL + pH - ((pH - pL) - poolGain K (s.rho_ '.').v (poolVel K (s.rho_ '.').v (pH - pL)))
      omega
    · show (set2 (set2 s.p 1 2 ⟨pL⟩) 1 1
          ⟨pL + poolGain K (s.rho_ '.').v (poolVel K (s.rho_ '.').v (pH - pL))⟩ 1 1).v +
        (set2 (set2 s.p 1 2 ⟨pL⟩) 1 1
          ⟨pL + poolGain K (s.rho_ '.').v (poolVel K (s.rho_ '.').v (pH - pL))⟩ 1 2).v < _
      rw [h1, h2, hhi, hlo]
      show pL + poolGain K (s.rho_ '.').v (poolVel K (s.rho_ '.').v (pH - pL)) + pL < pL + pH
      omega
  · obtain ⟨s', h, lu, ut, g, rfl⟩ :=
      tick_pool_left pf hw s pH pL hs hrho hH hL hlt hd hm hq fuel hfuel
    have hhi : s.p 1 1 = ⟨pH⟩ := hs.p_hi
    have hlo : s.p 1 2 = ⟨pL⟩ := hs.p_lo
    have h1 : set2 (set2 s.p 1 1 ⟨pL⟩) 1 2
        ⟨pL + poolGain K (s.rho_ '.').v (poolVel K (s.rho_ '.').v (pH - pL))⟩ 1 1 = ⟨pL⟩ := by
      simp [set2]
    have h2 : set2 (set2 s.p 1 1 ⟨pL⟩) 1 2
        ⟨pL + poolGain K (s.rho_ '.').v (poolVel K (s.rho_ '.').v (pH - pL))⟩ 1 2
        = ⟨pL + poolGain K (s.rho_ '.').v (poolVel K (s.rho_ '.').v (pH - pL))⟩ := by
      simp [set2]
    refine ⟨_, h, h1, h2, g0, g1, ?_, ?_, rfl, rfl⟩
    · show (set2 (set2 s.p 1 1 ⟨pL⟩) 1 2
          ⟨pL + poolGain K (s.rho_ '.').v (poolVel K (s.rho_ '.').v (pH - pL))⟩ 1 1).v +
        (set2 (set2 s.p 1 1 ⟨pL⟩) 1 2
          ⟨pL + poolGain K (s.rho_ '.').v (poolVel K (s.rho_ '.').v (pH - pL))⟩ 1 2).v = _
      rw [h1, h2, hhi, hlo]
      show pL + (pL + poolGain K (s.rho_ '.').v (poolVel K (s.rho_ '.').v (pH - pL))) =
        pH + pL - ((pH - pL) - poolGain K (s.rho_ '.').v (poolVel K (s.rho_ '.').v (pH - pL)))
      omega
    · show (set2 (set2 s.p 1 1 ⟨pL⟩) 1 2
          ⟨pL + poolGain K (s.rho_ '.').v (poolVel K (s.rho_ '.').v (pH - pL))⟩ 1 1).v +
        (set2 (set2 s.p 1 1 ⟨pL⟩) 1 2
          ⟨pL + poolGain K (s.rho_ '.').v (poolVel K (s.rho_ '.').v (pH - pL))⟩ 1 2).v < _
      rw [h1, h2, hhi, hlo]
      show pL + (pL + poolGain K (s.rho_ '.').v (poolVel K (s.rho_ '.').v (pH - pL))) < pH + pL
      omega

theorem pool_tick_pressures_witness :
    ∃ s', tick lp64 3 (poolSim 65536 131072) = Except.ok s' ∧
      s'.p (poolHi false).1 (poolHi false).2 = ⟨65536⟩ ∧
      s'.p (poolLo false).1 (poolLo false).2
        = ⟨65536 + poolGain 16 ((poolSim 65536 131072).rho_ '.').v
            (poolVel 16 ((poolSim 65536 131072).rho_ '.').v (131072 - 65536))⟩ ∧
      0 ≤ poolGain 16 ((poolSim 65536 131072).rho_ '.').v
            (poolVel 16 ((poolSim 65536 131072).rho_ '.').v (131072 - 65536)) ∧
      poolGain 16 ((poolSim 65536 131072).rho_ '.').v
            (poolVel 16 ((poolSim 65536 131072).rho_ '.').v (131072 - 65536)) < 131072 - 65536 ∧
      (s'.p 1 1).v + (s'.p 1 2).v =
        ((poolSim 65536 131072).p 1 1).v + ((poolSim 65536 131072).p 1 2).v
          - ((131072 - 65536) - poolGain 16 ((poolSim 65536 131072).rho_ '.').v
            (poolVel 16 ((poolSim 65536 131072).rho_ '.').v (131072 - 65536))) ∧
      (s'.p 1 1).v + (s'.p 1 2).v <
        ((poolSim 65536 131072).p 1 1).v + ((poolSim 65536 131072).p 1 2).v ∧
      s'.velocity = VectorField.zero ∧ s'.field = (poolSim 65536 131072).field :=
  pool_tick_pressures lp64 (by decide) (poolSim 65536 131072) false 131072 65536
    ⟨rfl, rfl, rfl, rfl, rfl, rfl, fun _ _ => le_refl _, rfl, rfl⟩
    (by decide) (by decide) (by decide) (by decide) (by decide) (by decide) (by decide)
    (by decide) 3 (le_refl 3)

/-- C18 (counterexample): on the pool of two adjacent liquid cells enclosed by walls, with
zero initial velocity, density 1 and the pressures 2 and 1 (in either order), the two
pressures sum to 3 before the tick and to 183500/65536 (about 2.8) after it. -/
theorem pool_pressure_sum_drops :
    BorderWalls (poolSim 131072 65536) ∧
    (poolSim 131072 65536).velocity = VectorField.zero ∧
    ((poolSim 131072 65536).p 1 1).v + ((poolSim 131072 65536).p 1 2).v = 196608 ∧
    ((tick lp64 3 (poolSim 131072 65536)).toOption.map
      fun s => ((s.p 1 1).v, (s.p 1 2).v, (s.p 1 1).v + (s.p 1 2).v))
        = some (65536, 117964, 183500) ∧
    ((tick lp64 3 (poolSim 65536 131072)).toOption.map
      fun s => ((s.p 1 1).v, (s.p 1 2).v, (s.p 1 1).v + (s.p 1 2).v))
        = some (117964, 65536, 183500) := by
  refine ⟨by decide, rfl, by decide, by decide!, by decide!⟩

end Simulator

/-! ## Claims about the divisions by an open-neighbour count -/

namespace Simulator

variable {N K : Nat} {tag : Tag}

/-- C27: starting from all-zero velocities on a wall-bordered grid whose stored counts are 0
before the initialisation of `dirs`, the state after the initialisation is calm (counts
right, cells without open neighbour have zero velocities); the tick with the log of
divisors computes the same result as the tick; every divisor of a division by an
open-neighbour count logged during any number of ticks is at least 1, whether the run
returns or stops on a fault; every state returned is calm again, so a non-wall cell with
no open neighbour keeps all its velocities 0; and in any calm state the divisor of the
pressure-exchange division and of both clamp divisions is at least 1 for every non-wall
grid cell and direction. -/
theorem divisors_at_least_one (pf : Platform) (s0 : Simulator N K tag) (hb : BorderWalls s0)
    (hv : s0.velocity = VectorField.zero)
    (hz : ∀ c ∈ cells s0.rows s0.cols, s0.dirs c.1 c.2 = 0) (fuel T : Nat) :
    Calm (forCells init_dirs_cell (cells s0.rows s0.cols) s0) ∧
    (ticks_log pf fuel T (forCells init_dirs_cell (cells s0.rows s0.cols) s0, [])).1
      = ticks pf fuel T (forCells init_dirs_cell (cells s0.rows s0.cols) s0) ∧
    (∀ n ∈ (ticks_log pf fuel T (forCells init_dirs_cell (cells s0.rows s0.cols) s0, [])).2,
      1 ≤ n) ∧
    (∀ s', ticks pf fuel T (forCells init_dirs_cell (cells s0.rows s0.cols) s0) = Except.ok s' →
      Calm s' ∧
      ∀ c ∈ cells s'.rows s'.cols, s'.field c.1 c.2 ≠ '#' →
        (∀ d ∈ deltas, s'.field (c.1 + d.1) (c.2 + d.2) = '#') →
        ∀ k, (s'.velocity.v c.1 c.2 k).v = 0) ∧
    (∀ s : Simulator N K tag, Calm s → ∀ c ∈ cells s.rows s.cols, s.field c.1 c.2 ≠ '#' →
      ∀ d ∈ deltas, (∀ n ∈ exchange_divisors pf c.1 c.2 s d, 1 ≤ n) ∧
        ∀ n ∈ clamp_divisors c.1 c.2 s d, 1 ≤ n) := by
  obtain ⟨⟨dd, h1⟩, -⟩ := init_dirs_spec s0
  have hinit : Calm (forCells init_dirs_cell (cells s0.rows s0.cols) s0) := by
    refine ⟨?_, init_dirs_ok s0 hz, ?_⟩
    · rw [h1]; exact hb
    · rw [h1]
      intro x y _ k
      show (s0.velocity.v x y k).v = 0
      rw [hv]; rfl
  have hout := ticks_log_calm pf fuel
    (forCells init_dirs_cell (cells s0.rows s0.cols) s0).rows
    (forCells init_dirs_cell (cells s0.rows s0.cols) s0).cols T
    (forCells init_dirs_cell (cells s0.rows s0.cols) s0, [])
    ⟨hinit, rfl, rfl, fun n hn => absurd hn (List.not_mem_nil n)⟩
  have hfst := ticks_log_fst pf fuel T
    (forCells init_dirs_cell (cells s0.rows s0.cols) s0, [])
  refine ⟨hinit, hfst, hout.1, ?_, ?_⟩
  · intro s' h
    have hc := (hout.2 s' (hfst.trans h)).1
    exact ⟨hc, fun c _ _ hiso k => hc.2.2 c.1 c.2 hiso k⟩
  · intro s hc c hcell hf d hd
    exact ⟨exchange_divisors_pos pf c.1 c.2 s d hd hc hcell hf,
      clamp_divisors_pos c.1 c.2 s d hd hc hcell hf⟩

/-- The claim C27 on the pond example: the three first ticks perform 14 divisions by an
open-neighbour count, each with a divisor of at least 1. -/
theorem divisors_at_least_one_witness :
    (∀ n ∈ (ticks_log lp64 9 3 (forCells init_dirs_cell
        (cells (pondSim ⟨1, 2⟩).rows (pondSim ⟨1, 2⟩).cols) (pondSim ⟨1, 2⟩), [])).2, 1 ≤ n) ∧
    (ticks_log lp64 9 3 (forCells init_dirs_cell
        (cells (pondSim ⟨1, 2⟩).rows (pondSim ⟨1, 2⟩).cols) (pondSim ⟨1, 2⟩), [])).2.length
      = 14 :=
  ⟨(divisors_at_least_one lp64 (pondSim ⟨1, 2⟩) (by decide) rfl (fun _ _ => rfl) 9 3).2.2.1,
    by decide!⟩

end Simulator

end Fluid
